import Mathlib

/-!
# Match-3 board: matching, gravity, refill and swaps

A shallow embedding of `src/objects/Board.js` and of the selection, swap, scoring,
cascade and hint methods of `src/states/PlayState.js`.

* Tiles are JavaScript objects that are shared between the grid, the match lists
  and the play state, and whose `boardX`/`boardY` are assigned in place.  A tile
  reference is therefore a natural number and the objects live in a store
  `Board.objects`; `Board.next` is the next unused reference (`new Tile`).
* `this.tiles` is a list of rows; a cell is `some id` (a tile) or `none` (`null`).
* A function returns `none` where JavaScript raises a `TypeError` (indexing a
  missing row, reading a property of `null`/`undefined`).  Assigning past the end
  of a row, which would grow the JavaScript array, is outside the model and is
  `none` as well.
* Canvas coordinates, sprites, tween timing and rendering are not modelled.
-/

namespace Match3

/-! ## Data model -/

/-- The static `Board.SIZE`. -/
def SIZE : Nat := 8

/-- The field `minimumMatchLength`, set to 3 by the constructor and never reassigned. -/
def minimumMatchLength : Nat := 3

/-- Constants of `enums.js` and `Tile.js`, files that are not part of the sources at
hand: the numeric values of the `TilePattern` and `TileColour` members used by the
board and `Tile.SIZE`.  The model takes them as parameters. -/
structure Consts where
  tileSize : Nat
  flat : Nat
  triangle : Nat
  star : Nat
  beige : Nat
  pink : Nat
  purple : Nat
  lightGreen : Nat
  blue : Nat
  orange : Nat

/-- The fields of a tile object that the board logic reads or writes. -/
structure Tile where
  boardX : Nat
  boardY : Nat
  colour : Nat
  pattern : Nat
  deriving DecidableEq, Repr

/-- A grid cell or a match entry: `some id` is a tile reference, `none` is `null`
(in a match entry also `undefined`, which every consumer treats like `null`). -/
abbrev Cell := Option Nat

/-- The board object together with the tile objects it can reach.  The field
`matches` of the source is `matchList` here (`matches` is a reserved word). -/
structure Board where
  width : Nat
  height : Nat
  tiles : List (List Cell)
  matchList : List (List Cell)
  objects : Nat → Tile
  next : Nat

/-- A tween definition `{ tile, parameters, endValues }`. -/
structure Tween where
  tile : Nat
  parameters : List String
  endValues : List Nat
  deriving DecidableEq, Repr

/-- Assignment `tile.boardX = v` in the object store. -/
def setBoardX (objects : Nat → Tile) (id v : Nat) : Nat → Tile :=
  fun i => if i = id then { objects i with boardX := v } else objects i

/-- Assignment `tile.boardY = v` in the object store. -/
def setBoardY (objects : Nat → Tile) (id v : Nat) : Nat → Tile :=
  fun i => if i = id then { objects i with boardY := v } else objects i

/-- The read `tiles[row][col]` for specifications: the tile in the cell, `none` when
the cell is `null` or lies outside the grid. -/
def cellOf (tiles : List (List Cell)) (row col : Nat) : Cell :=
  match tiles[row]? with
  | none => none
  | some r =>
    match r[col]? with
    | some c => c
    | none => none

/-- The value `this.tiles[row][col]` as an expression that is only stored: `none` is
the TypeError of a missing row, a column past the end of the row reads as
`undefined`. -/
def readCell (tiles : List (List Cell)) (row col : Nat) : Option Cell :=
  match tiles[row]? with
  | none => none
  | some r =>
    match r[col]? with
    | some c => some c
    | none => some none

/-- The assignment `this.tiles[row][col] = v`. -/
def setCell (tiles : List (List Cell)) (row col : Nat) (v : Cell) : Option (List (List Cell)) :=
  match tiles[row]? with
  | none => none
  | some r => if col < r.length then some (tiles.set row (r.set col v)) else none

/-- The read `this.tiles[row][col].colour`. -/
def Board.colourAt (b : Board) (row col : Nat) : Option Nat :=
  match b.tiles[row]? with
  | none => none
  | some r =>
    match r[col]? with
    | some (some id) => some (b.objects id).colour
    | _ => none

/-! ## Random draws and tile generation -/

/-- Modelled from the spec: `lib/RandomNumberHelpers.js` is not in the sources.  "A
uniform-integer generator over an inclusive range": the raw draw `raw` selects one
value of `[lo, hi]`, and every value of the range is selected by some draw. -/
def getRandomPositiveInteger (raw lo hi : Nat) : Nat :=
  lo + raw % (hi - lo + 1)

/-- Modelled from the spec: `lib/RandomNumberHelpers.js` is not in the sources.  "A
uniform element picker over a finite set". -/
def pickRandomElement (raw : Nat) (l : List Nat) : Nat :=
  l.getD (raw % l.length) 0

/-- Modelled from the spec: the constructor of `Tile.js` (not in the sources) stores
its first four arguments as `boardX`, `boardY`, `colour` and `pattern`. -/
def newTile (x y colour pattern : Nat) : Tile :=
  { boardX := x, boardY := y, colour := colour, pattern := pattern }

/-- The six colours of `colourList` in `generateTile`. -/
def colourList (K : Consts) : List Nat :=
  [K.beige, K.pink, K.purple, K.lightGreen, K.blue, K.orange]

/-- The method `generateTile(x, y, level)`.  `draws` is the sequence of raw random
outcomes and `k` the number of draws consumed so far; the three draws are taken in
source order (colour, pattern, star).  The new object gets the reference `b.next`.
Returns the board with the object stored, the reference and the new draw count. -/
def generateTile (K : Consts) (draws : Nat → Nat) (k : Nat) (b : Board) (x y level : Nat) :
    Board × Nat × Nat :=
  let maxPattern := min K.triangle (level - 1)
  let colour := pickRandomElement (draws k) (colourList K)
  let pattern := getRandomPositiveInteger (draws (k + 1)) K.flat maxPattern
  let isStar := getRandomPositiveInteger (draws (k + 2)) 0 50 = 19
  let pattern := if isStar then K.star else pattern
  let t := newTile x y colour pattern
  ({ b with objects := fun i => if i = b.next then t else b.objects i, next := b.next + 1 },
    b.next, k + 3)

/-- Inner loop of `initializeBoard`: push `n` tiles onto the last row, columns
`column, column + 1, ...`. -/
def initializeColumns (K : Consts) (draws : Nat → Nat) (level row : Nat) :
    Nat → Nat → Board → Nat → List Cell → Board × Nat × List Cell
  | 0, _, b, k, acc => (b, k, acc)
  | n + 1, column, b, k, acc =>
    match generateTile K draws k b column row level with
    | (b1, id, k1) => initializeColumns K draws level row n (column + 1) b1 k1 (acc ++ [some id])

/-- Outer loop of `initializeBoard`: `n` rows starting at `row`. -/
def initializeRows (K : Consts) (draws : Nat → Nat) (level : Nat) :
    Nat → Nat → Board → Nat → Board × Nat
  | 0, _, b, k => (b, k)
  | n + 1, row, b, k =>
    match initializeColumns K draws level row b.width 0 b k [] with
    | (b1, k1, r) =>
      initializeRows K draws level n (row + 1) { b1 with tiles := b1.tiles ++ [r] } k1

/-- The method `initializeBoard(level)`. -/
def initializeBoard (K : Consts) (draws : Nat → Nat) (k : Nat) (b : Board) (level : Nat) :
    Board × Nat :=
  initializeRows K draws level b.height 0 { b with tiles := [] } k

/-! ## Swapping -/

/-- The method `swapTiles(selectedTile, highlightedTile)`; `temporaryTile` only
carries the two coordinates of `selectedTile`. -/
def swapTiles (b : Board) (selectedTile highlightedTile : Nat) : Option Board :=
  let tempX := (b.objects selectedTile).boardX
  let tempY := (b.objects selectedTile).boardY
  let o1 := setBoardX b.objects selectedTile (b.objects highlightedTile).boardX
  let o2 := setBoardY o1 selectedTile (o1 highlightedTile).boardY
  let o3 := setBoardX o2 highlightedTile tempX
  let o4 := setBoardY o3 highlightedTile tempY
  match setCell b.tiles (o4 selectedTile).boardY (o4 selectedTile).boardX (some selectedTile) with
  | none => none
  | some t1 =>
    match setCell t1 (o4 highlightedTile).boardY (o4 highlightedTile).boardX
        (some highlightedTile) with
    | none => none
    | some t2 => some { b with tiles := t2, objects := o4 }

/-- The method `swapTilesAsync(selectedTile, highlightedTile)`: the two tweens act on
canvas coordinates only, the board update is the one of `swapTiles`. -/
def swapTilesAsync (b : Board) (selectedTile highlightedTile : Nat) : Option Board :=
  let tempX := (b.objects selectedTile).boardX
  let tempY := (b.objects selectedTile).boardY
  let o1 := setBoardX b.objects selectedTile (b.objects highlightedTile).boardX
  let o2 := setBoardY o1 selectedTile (o1 highlightedTile).boardY
  let o3 := setBoardX o2 highlightedTile tempX
  let o4 := setBoardY o3 highlightedTile tempY
  match setCell b.tiles (o4 selectedTile).boardY (o4 selectedTile).boardX (some selectedTile) with
  | none => none
  | some t1 =>
    match setCell t1 (o4 highlightedTile).boardY (o4 highlightedTile).boardX
        (some highlightedTile) with
    | none => none
    | some t2 => some { b with tiles := t2, objects := o4 }

/-! ## Match detection -/

/-- The loop `for (x2 = hi - 1; x2 >= hi - n; x2--) match.push(this.tiles[y][x2])`.
The scan keeps `matchCounter <= x`, so `x2` never goes below 0. -/
def backwardsRow (b : Board) (y : Nat) : Nat → Nat → Option (List Cell)
  | _, 0 => some []
  | hi, n + 1 =>
    match readCell b.tiles y (hi - 1) with
    | none => none
    | some c =>
      match backwardsRow b y (hi - 1) n with
      | none => none
      | some rest => some (c :: rest)

/-- The loop `for (y2 = hi - 1; y2 >= hi - n; y2--) match.push(this.tiles[y2][x])`. -/
def backwardsColumn (b : Board) (x : Nat) : Nat → Nat → Option (List Cell)
  | _, 0 => some []
  | hi, n + 1 =>
    match readCell b.tiles (hi - 1) x with
    | none => none
    | some c =>
      match backwardsColumn b x (hi - 1) n with
      | none => none
      | some rest => some (c :: rest)

/-- The inner loop `for (x = 1; x < Board.SIZE; x++)` of `resolveHorizontalMatches`
for row `y`, with `n` iterations left from index `x`; the result is `matchCounter`
and `rowMatches` at loop exit (by exhaustion or by `break`). -/
def horizontalLoop (b : Board) (y : Nat) :
    Nat → Nat → Nat → Nat → List (List Cell) → Option (Nat × List (List Cell))
  | 0, _, matchCounter, _, rowMatches => some (matchCounter, rowMatches)
  | n + 1, x, matchCounter, colourToMatch, rowMatches =>
    match b.colourAt y x with
    | none => none
    | some c =>
      if c = colourToMatch then
        horizontalLoop b y n (x + 1) (matchCounter + 1) colourToMatch rowMatches
      else
        match (if minimumMatchLength ≤ matchCounter then
            (backwardsRow b y x matchCounter).map (fun m => rowMatches ++ [m])
          else some rowMatches) with
        | none => none
        | some rowMatches1 =>
          if SIZE - 2 ≤ x then some (1, rowMatches1)
          else horizontalLoop b y n (x + 1) 1 c rowMatches1

/-- One iteration of the outer loop of `resolveHorizontalMatches`: the matches of
row `y`, including the one at the end of the row. -/
def horizontalRow (b : Board) (y : Nat) : Option (List (List Cell)) :=
  match b.colourAt y 0 with
  | none => none
  | some c0 =>
    match horizontalLoop b y (SIZE - 1) 1 1 c0 [] with
    | none => none
    | some (matchCounter, rowMatches) =>
      if minimumMatchLength ≤ matchCounter then
        (backwardsRow b y SIZE matchCounter).map (fun m => rowMatches ++ [m])
      else some rowMatches

/-- The outer loop `for (y = 0; y < Board.SIZE; y++)`, `n` rows left from `y`,
threading `this.matches`. -/
def horizontalRows (b : Board) : Nat → Nat → List (List Cell) → Option (List (List Cell))
  | 0, _, ms => some ms
  | n + 1, y, ms =>
    match horizontalRow b y with
    | none => none
    | some rowMatches => horizontalRows b n (y + 1) (ms ++ rowMatches)

/-- The method `resolveHorizontalMatches()`. -/
def resolveHorizontalMatches (b : Board) : Option Board :=
  match horizontalRows b SIZE 0 b.matchList with
  | none => none
  | some ms => some { b with matchList := ms }

/-- The inner loop `for (y = 1; y < Board.SIZE; y++)` of `resolveVerticalMatches` for
column `x`. -/
def verticalLoop (b : Board) (x : Nat) :
    Nat → Nat → Nat → Nat → List (List Cell) → Option (Nat × List (List Cell))
  | 0, _, matchCounter, _, columnMatches => some (matchCounter, columnMatches)
  | n + 1, y, matchCounter, colourToMatch, columnMatches =>
    match b.colourAt y x with
    | none => none
    | some c =>
      if c = colourToMatch then
        verticalLoop b x n (y + 1) (matchCounter + 1) colourToMatch columnMatches
      else
        match (if minimumMatchLength ≤ matchCounter then
            (backwardsColumn b x y matchCounter).map (fun m => columnMatches ++ [m])
          else some columnMatches) with
        | none => none
        | some columnMatches1 =>
          if SIZE - 2 ≤ y then some (1, columnMatches1)
          else verticalLoop b x n (y + 1) 1 c columnMatches1

/-- One iteration of the outer loop of `resolveVerticalMatches`: the matches of
column `x`. -/
def verticalColumn (b : Board) (x : Nat) : Option (List (List Cell)) :=
  match b.colourAt 0 x with
  | none => none
  | some c0 =>
    match verticalLoop b x (SIZE - 1) 1 1 c0 [] with
    | none => none
    | some (matchCounter, columnMatches) =>
      if minimumMatchLength ≤ matchCounter then
        (backwardsColumn b x SIZE matchCounter).map (fun m => columnMatches ++ [m])
      else some columnMatches

/-- The outer loop `for (x = 0; x < Board.SIZE; x++)` of `resolveVerticalMatches`. -/
def verticalColumns (b : Board) : Nat → Nat → List (List Cell) → Option (List (List Cell))
  | 0, _, ms => some ms
  | n + 1, x, ms =>
    match verticalColumn b x with
    | none => none
    | some columnMatches => verticalColumns b n (x + 1) (ms ++ columnMatches)

/-- The method `resolveVerticalMatches()`. -/
def resolveVerticalMatches (b : Board) : Option Board :=
  match verticalColumns b SIZE 0 b.matchList with
  | none => none
  | some ms => some { b with matchList := ms }

/-- The loop that sets `containsStar`: it reads `.pattern` of every entry, without
leaving early. -/
def containsStar (K : Consts) (b : Board) : List Cell → Option Bool
  | [] => some false
  | none :: _ => none
  | some id :: rest =>
    match containsStar K b rest with
    | none => none
    | some r => some (decide ((b.objects id).pattern = K.star) || r)

/-- The call `this.matches[i].every(tile => tile.boardX === firstTileBoardX)`, which
stops at the first entry that fails the test. -/
def everyBoardX (b : Board) (firstTileBoardX : Nat) : List Cell → Option Bool
  | [] => some true
  | none :: _ => none
  | some id :: rest =>
    if (b.objects id).boardX = firstTileBoardX then everyBoardX b firstTileBoardX rest
    else some false

/-- The loop `for (column = 0; column < this.width; column++)
this.matches[i].push(this.tiles[column][boardX])`, `n` iterations left. -/
def pushVertical (b : Board) (boardX : Nat) : Nat → Nat → List Cell → Option (List Cell)
  | 0, _, acc => some acc
  | n + 1, column, acc =>
    match readCell b.tiles column boardX with
    | none => none
    | some c => pushVertical b boardX n (column + 1) (acc ++ [c])

/-- The loop `for (row = 0; row < this.height; row++)
this.matches[i].push(this.tiles[boardY][row])`, `n` iterations left. -/
def pushHorizontal (b : Board) (boardY : Nat) : Nat → Nat → List Cell → Option (List Cell)
  | 0, _, acc => some acc
  | n + 1, row, acc =>
    match readCell b.tiles boardY row with
    | none => none
    | some c => pushHorizontal b boardY n (row + 1) (acc ++ [c])

/-- The body of the loop over `i` in `calculateMatches`, as the new value of
`this.matches[i]`. -/
def expandMatch (K : Consts) (b : Board) (m : List Cell) : Option (List Cell) :=
  match containsStar K b m with
  | none => none
  | some false => some m
  | some true =>
    match m with
    | [] => none
    | none :: _ => none
    | some first :: _ =>
      match everyBoardX b (b.objects first).boardX m with
      | none => none
      | some true => pushVertical b (b.objects first).boardX b.width 0 []
      | some false => pushHorizontal b (b.objects first).boardY b.height 0 []

/-- The loop `for (i = 0; i < this.matches.length; i++)` of `calculateMatches`; the
grid is not written, so each match is expanded against the same board. -/
def expandMatches (K : Consts) (b : Board) : List (List Cell) → Option (List (List Cell))
  | [] => some []
  | m :: rest =>
    match expandMatch K b m with
    | none => none
    | some m1 =>
      match expandMatches K b rest with
      | none => none
      | some rest1 => some (m1 :: rest1)

/-- The board after the two scans of `calculateMatches`, before star expansion. -/
def scanMatches (b : Board) : Option Board :=
  match resolveHorizontalMatches { b with matchList := [] } with
  | none => none
  | some b1 => resolveVerticalMatches b1

/-- The method `calculateMatches()` of the board: the board with `matches` assigned
and the returned count. -/
def calculateMatches (K : Consts) (b : Board) : Option (Board × Nat) :=
  match scanMatches b with
  | none => none
  | some b2 =>
    match expandMatches K b2 b2.matchList with
    | none => none
    | some ms => some ({ b2 with matchList := ms }, ms.length)

/-! ## Removing matches, gravity and refill -/

/-- The inner `match.forEach` of `removeMatches`:
`this.tiles[tile.boardY][tile.boardX] = null` for every tile of one match. -/
def removeMatch (objects : Nat → Tile) : List (List Cell) → List Cell → Option (List (List Cell))
  | tiles, [] => some tiles
  | _, none :: _ => none
  | tiles, some id :: rest =>
    match setCell tiles (objects id).boardY (objects id).boardX none with
    | none => none
    | some tiles1 => removeMatch objects tiles1 rest

/-- The outer `this.matches.forEach` of `removeMatches`. -/
def removeMatchList (objects : Nat → Tile) :
    List (List Cell) → List (List Cell) → Option (List (List Cell))
  | tiles, [] => some tiles
  | tiles, m :: rest =>
    match removeMatch objects tiles m with
    | none => none
    | some tiles1 => removeMatchList objects tiles1 rest

/-- The method `removeMatches()`.  The sound played once per match is recorded by the
caller in the play state. -/
def removeMatches (b : Board) : Option Board :=
  if b.matchList.length = 0 then some b
  else
    match removeMatchList b.objects b.tiles b.matchList with
    | none => none
    | some tiles1 => some { b with tiles := tiles1, matchList := [] }

/-- The `while (row >= 0)` loop of `getFallingTiles` for one column.  The loop
variable is kept as `row + 1`, so that the exit value `row = -1` is `0`; after a
tile has been moved the source sets `row = spaceRow` and then decrements, which is
`row + 1 = spaceRow`.  The loop is not a counting loop (`row` is reset upwards), so
the recursion is on a step budget; `none` is also the answer when the budget is
used up. -/
def fallLoop (K : Consts) (column : Nat) :
    Nat → Board → Nat → Bool → Nat → List Tween → Option (Board × List Tween)
  | _, b, 0, _, _, tweens => some (b, tweens)
  | 0, _, _ + 1, _, _, _ => none
  | fuel + 1, b, row + 1, space, spaceRow, tweens =>
    match b.tiles[row]? with
    | none => none
    | some r =>
      match r[column]? with
      | some (some tile) =>
        if space then
          match setCell b.tiles spaceRow column (some tile) with
          | none => none
          | some tiles1 =>
            match setCell tiles1 row column none with
            | none => none
            | some tiles2 =>
              fallLoop K column fuel
                { b with tiles := tiles2, objects := setBoardY b.objects tile spaceRow }
                spaceRow false 0
                (tweens ++ [{ tile := tile, parameters := ["y"],
                              endValues := [spaceRow * K.tileSize] }])
        else fallLoop K column fuel b row space spaceRow tweens
      | some none =>
        fallLoop K column fuel b row true (if spaceRow = 0 then row else spaceRow) tweens
      | none => fallLoop K column fuel b row space spaceRow tweens

/-- Step budget of `fallLoop` for one column; `columnLoop_compact` and `fallLoop_sim`
show that it is never used up on a grid of `SIZE` rows. -/
def fallFuel : Nat := SIZE * SIZE + SIZE

/-- The loop `for (column = 0; column < Board.SIZE; column++)` of `getFallingTiles`,
`n` columns left. -/
def fallColumns (K : Consts) : Nat → Nat → Board → List Tween → Option (Board × List Tween)
  | 0, _, b, tweens => some (b, tweens)
  | n + 1, column, b, tweens =>
    match fallLoop K column fallFuel b SIZE false 0 tweens with
    | none => none
    | some (b1, tweens1) => fallColumns K n (column + 1) b1 tweens1

/-- The method `getFallingTiles()`: the board after the tiles fell and the returned
tween definitions. -/
def getFallingTiles (K : Consts) (b : Board) : Option (Board × List Tween) :=
  fallColumns K SIZE 0 b []

/-- The inner loop `for (y = Board.SIZE - 1; y >= 0; y--)` of `getNewTiles` for
column `x`; the loop variable is kept as `y + 1`.  The state is the board, the
number of random draws consumed and the tween list. -/
def newTilesColumn (K : Consts) (draws : Nat → Nat) (level x : Nat) :
    Nat → Board → Nat → List Tween → Option (Board × Nat × List Tween)
  | 0, b, k, tweens => some (b, k, tweens)
  | y + 1, b, k, tweens =>
    match b.tiles[y]? with
    | none => none
    | some r =>
      match r[x]? with
      | some (some _) => newTilesColumn K draws level x y b k tweens
      | _ =>
        match generateTile K draws k b x y level with
        | (b1, tile, k1) =>
          match setCell b1.tiles y x (some tile) with
          | none => none
          | some tiles1 =>
            newTilesColumn K draws level x y { b1 with tiles := tiles1 } k1
              (tweens ++ [{ tile := tile, parameters := ["y"],
                            endValues := [(b1.objects tile).boardY * K.tileSize] }])

/-- The outer loop `for (x = 0; x < Board.SIZE; x++)` of `getNewTiles`, `n` columns
left. -/
def newTilesColumns (K : Consts) (draws : Nat → Nat) (level : Nat) :
    Nat → Nat → Board → Nat → List Tween → Option (Board × Nat × List Tween)
  | 0, _, b, k, tweens => some (b, k, tweens)
  | n + 1, x, b, k, tweens =>
    match newTilesColumn K draws level x SIZE b k tweens with
    | none => none
    | some (b1, k1, tweens1) => newTilesColumns K draws level n (x + 1) b1 k1 tweens1

/-- The method `getNewTiles(level)`: the refilled board, the number of random draws
consumed and the returned tween definitions. -/
def getNewTiles (K : Consts) (draws : Nat → Nat) (k : Nat) (b : Board) (level : Nat) :
    Option (Board × Nat × List Tween) :=
  newTilesColumns K draws level SIZE 0 b k []

/-- The method `initializePlayBoard(level)`: the `do ... while` loop regenerates the
board until `calculateMatches` finds nothing.  The loop has no bound in the source;
`fuel` bounds the number of attempts and `none` is returned when it is used up (or
when `calculateMatches` raises). -/
def initializePlayBoard (K : Consts) (draws : Nat → Nat) (level : Nat) :
    Nat → Nat → Board → Option (Board × Nat)
  | 0, _, _ => none
  | fuel + 1, k, b =>
    match initializeBoard K draws k b level with
    | (b1, k1) =>
      match calculateMatches K b1 with
      | none => none
      | some (b2, _) =>
        if b2.matchList.length > 0 then initializePlayBoard K draws level fuel k1 b2
        else some (b2, k1)

/-! ## Play state -/

/-- The members of `SoundName` that the play state plays. -/
inductive SoundName where
  | Select
  | Match
  | Error
  | Clock
  | NextLevel
  | GameOver
  | Music3
  deriving DecidableEq, Repr

/-- The fields of `PlayState` used by tile selection and by the cascade.  `sounds` is
the log of the calls of `sounds.play`. -/
structure PlayState where
  board : Board
  cursorX : Nat
  cursorY : Nat
  selectedTile : Option Nat
  level : Nat
  score : Nat
  baseScore : Nat
  timer : Int
  sounds : List SoundName

/-- The constant `PlayState.BASE_TIMER_ADD_AMOUNT`. -/
def BASE_TIMER_ADD_AMOUNT : Int := 5

/-- The inner loop of `calculateScore` over the tiles of one match. -/
def scoreMatch (objects : Nat → Tile) (baseScore : Nat) : Nat → List Cell → Option Nat
  | score, [] => some score
  | _, none :: _ => none
  | score, some id :: rest =>
    scoreMatch objects baseScore (score + ((objects id).pattern + 1) * baseScore) rest

/-- The method `calculateScore()` as the new value of `this.score`. -/
def calculateScore (objects : Nat → Tile) (baseScore : Nat) : Nat → List (List Cell) → Option Nat
  | score, [] => some score
  | score, m :: rest =>
    match scoreMatch objects baseScore score m with
    | none => none
    | some score1 => calculateScore objects baseScore score1 rest

/-- The method `placeNewTiles()`: the falling tiles, then the new tiles; the tweens
are only animated. -/
def placeNewTiles (K : Consts) (draws : Nat → Nat) (k : Nat) (st : PlayState) :
    Option (PlayState × Nat) :=
  match getFallingTiles K st.board with
  | none => none
  | some (b1, _) =>
    match getNewTiles K draws k b1 st.level with
    | none => none
    | some (b2, k1, _) => some ({ st with board := b2 }, k1)

/-- The recursive method `calculateMatches()` of the play state (the cascade).  The
recursion has no bound in the source; `fuel` bounds its depth and `none` is returned
when it is used up. -/
def PlayState.calculateMatches (K : Consts) (draws : Nat → Nat) :
    Nat → Nat → PlayState → Option (PlayState × Nat)
  | 0, _, _ => none
  | fuel + 1, k, st =>
    match Match3.calculateMatches K st.board with
    | none => none
    | some (b1, numMatches) =>
      let timeToAdd : Int := max 0 (BASE_TIMER_ADD_AMOUNT - ((st.level : Int) - 1))
      let st1 : PlayState :=
        { st with board := b1,
                  timer := if numMatches > 0 then st.timer + timeToAdd * numMatches
                           else st.timer }
      if b1.matchList.length = 0 then some (st1, k)
      else
        match calculateScore b1.objects st1.baseScore st1.score b1.matchList with
        | none => none
        | some score1 =>
          match removeMatches b1 with
          | none => none
          | some b2 =>
            let st2 : PlayState :=
              { st1 with board := b2, score := score1,
                         sounds := st1.sounds ++ List.replicate b1.matchList.length
                           SoundName.Match }
            match placeNewTiles K draws k st2 with
            | none => none
            | some (st3, k1) => PlayState.calculateMatches K draws fuel k1 st3

/-- The method `swapTiles(highlightedTile)` of the play state, run to completion.
With nothing selected `swapTilesAsync` reads a property of `null`. -/
def PlayState.swapTiles (K : Consts) (draws : Nat → Nat) (fuel k : Nat) (st : PlayState)
    (highlightedTile : Nat) : Option (PlayState × Nat) :=
  match st.selectedTile with
  | none => none
  | some selected =>
    match swapTilesAsync st.board selected highlightedTile with
    | none => none
    | some b1 =>
      match Match3.calculateMatches K b1 with
      | none => none
      | some (b2, numMatches) =>
        if numMatches > 0 then
          match PlayState.calculateMatches K draws fuel k { st with board := b2 } with
          | none => none
          | some (st1, k1) => some ({ st1 with selectedTile := none }, k1)
        else
          match swapTilesAsync b2 highlightedTile selected with
          | none => none
          | some b3 => some ({ st with board := b3, selectedTile := none }, k)

/-- The value `Math.abs(a.boardX - b.boardX) + Math.abs(a.boardY - b.boardY)`. -/
def tileDistance (a b : Tile) : Nat :=
  Int.natAbs ((a.boardX : Int) - b.boardX) + Int.natAbs ((a.boardY : Int) - b.boardY)

/-- The method `selectTile()`.  `highlightedTile.boardX` is read before the first
test, so an empty cell under the cursor raises. -/
def PlayState.selectTile (K : Consts) (draws : Nat → Nat) (fuel k : Nat) (st : PlayState) :
    Option (PlayState × Nat) :=
  match readCell st.board.tiles st.cursorY st.cursorX with
  | none => none
  | some none => none
  | some (some highlightedTile) =>
    match st.selectedTile with
    | none => some ({ st with selectedTile := some highlightedTile }, k)
    | some selected =>
      if selected = highlightedTile then some ({ st with selectedTile := none }, k)
      else if tileDistance (st.board.objects selected) (st.board.objects highlightedTile) > 1 then
        some ({ st with selectedTile := none, sounds := st.sounds ++ [SoundName.Error] }, k)
      else PlayState.swapTiles K draws fuel k st highlightedTile

/-! ## Specification vocabulary -/

/-- A grid of `SIZE` rows of `SIZE` cells. -/
def IsGrid (tiles : List (List Cell)) : Prop :=
  tiles.length = SIZE ∧ ∀ r ∈ tiles, r.length = SIZE

/-- A grid of `SIZE` rows of `SIZE` cells in which every cell holds a tile. -/
def IsFull (tiles : List (List Cell)) : Prop :=
  IsGrid tiles ∧ ∀ r ∈ tiles, ∀ c ∈ r, c ≠ none

instance (tiles : List (List Cell)) : Decidable (IsGrid tiles) := by
  unfold IsGrid; infer_instance

instance (tiles : List (List Cell)) : Decidable (IsFull tiles) := by
  unfold IsFull; infer_instance

/-- The colour of the tile in a cell (0 for an empty cell). -/
def colourOf (b : Board) (row col : Nat) : Nat :=
  match cellOf b.tiles row col with
  | some id => (b.objects id).colour
  | none => 0

/-- In a line of `SIZE` cells with colours `c 0, ..., c (SIZE - 1)`, the `l` cells from
index `s` on form a maximal run of at least `minimumMatchLength` cells of one
colour: the cell before and the cell after, where they exist, have another colour. -/
def IsMaximalRun (c : Nat → Nat) (s l : Nat) : Prop :=
  minimumMatchLength ≤ l ∧ s + l ≤ SIZE ∧ (∀ i, i < l → c (s + i) = c s) ∧
    (s = 0 ∨ c (s - 1) ≠ c s) ∧ (s + l = SIZE ∨ c (s + l) ≠ c s)

instance (c : Nat → Nat) (s l : Nat) : Decidable (IsMaximalRun c s l) := by
  unfold IsMaximalRun; infer_instance

/-- The cells `s, ..., s + l - 1` of row `y`, left to right. -/
def rowCells (b : Board) (y s l : Nat) : List Cell :=
  (List.range l).map (fun i => cellOf b.tiles y (s + i))

/-- The cells `s, ..., s + l - 1` of column `x`, top to bottom. -/
def columnCells (b : Board) (x s l : Nat) : List Cell :=
  (List.range l).map (fun i => cellOf b.tiles (s + i) x)

/-- The match that the horizontal scan builds for the run `(y, s, l)`: the tiles of
the run, pushed from right to left. -/
def rowMatch (b : Board) (p : Nat × Nat × Nat) : List Cell :=
  (rowCells b p.1 p.2.1 p.2.2).reverse

/-- The match that the vertical scan builds for the run `(x, s, l)`: the tiles of the
run, pushed from bottom to top. -/
def columnMatch (b : Board) (p : Nat × Nat × Nat) : List Cell :=
  (columnCells b p.1 p.2.1 p.2.2).reverse

/-- The coordinate invariant: every tile on the grid records the coordinates of the
cell that holds it. -/
def CoordInv (b : Board) : Prop :=
  ∀ row col id, cellOf b.tiles row col = some id →
    (b.objects id).boardX = col ∧ (b.objects id).boardY = row

/-- A decision procedure for `CoordInv` (`coordInv_iff_check`). -/
def coordCheck (b : Board) : Bool :=
  (List.range b.tiles.length).all (fun row =>
    (List.range (b.tiles.getD row []).length).all (fun col =>
      match cellOf b.tiles row col with
      | some id => decide ((b.objects id).boardX = col ∧ (b.objects id).boardY = row)
      | none => true))

/-- Some entry of the match is a tile with the Star pattern. -/
def hasStar (K : Consts) (b : Board) (m : List Cell) : Bool :=
  m.any (fun c =>
    match c with
    | some id => decide ((b.objects id).pattern = K.star)
    | none => false)

/-- The match for the horizontal run `p = (y, s, l)` after star expansion: the whole
row `y`, left to right, when the run contains a star. -/
def expandedRowMatch (K : Consts) (b : Board) (p : Nat × Nat × Nat) : List Cell :=
  if hasStar K b (rowMatch b p) then rowCells b p.1 0 SIZE else rowMatch b p

/-- The match for the vertical run `p = (x, s, l)` after star expansion: the whole
column `x`, top to bottom, when the run contains a star. -/
def expandedColumnMatch (K : Consts) (b : Board) (p : Nat × Nat × Nat) : List Cell :=
  if hasStar K b (columnMatch b p) then columnCells b p.1 0 SIZE else columnMatch b p

/-- The lengths of the rows of a grid. -/
def shape (tiles : List (List Cell)) : List Nat :=
  tiles.map List.length

/-- The cell `(row, col)` exists in the grid. -/
def InRange (tiles : List (List Cell)) (row col : Nat) : Prop :=
  col < (shape tiles).getD row 0

/-- The object store after `swapTiles(a, c)` for two distinct tiles `a` at `(xa, ya)`
and `c` at `(xc, yc)`: the two tiles have exchanged their coordinates. -/
def swappedObjects (objects : Nat → Tile) (a c xa ya xc yc : Nat) : Nat → Tile :=
  fun i =>
    if i = c then { objects c with boardX := xa, boardY := ya }
    else if i = a then { objects a with boardX := xc, boardY := yc }
    else objects i

/-- Some tile of some match of `ms` records the coordinates `(col, row)`: the cell
that `removeMatches` sets to `null` for it. -/
def Targeted (objects : Nat → Tile) (ms : List (List Cell)) (row col : Nat) : Prop :=
  ∃ m ∈ ms, ∃ id, some id ∈ m ∧ (objects id).boardY = row ∧ (objects id).boardX = col

/-- Every entry of every match is a tile whose recorded coordinates lie in the grid. -/
def MatchesInGrid (objects : Nat → Tile) (tiles : List (List Cell)) (ms : List (List Cell)) :
    Prop :=
  ∀ m ∈ ms, ∀ e ∈ m, ∃ id, e = some id ∧ InRange tiles (objects id).boardY (objects id).boardX

/-- Column `c` of a grid of `SIZE` rows, top to bottom. -/
def columnOf (tiles : List (List Cell)) (c : Nat) : List Cell :=
  (List.range SIZE).map (fun r => cellOf tiles r c)

/-- "Remove nulls, left-pad with nulls at top": the empty cells of a column first,
then its tiles in their order. -/
def compactColumn (col : List Cell) : List Cell :=
  List.replicate (col.filter (fun c => c.isNone)).length none ++ col.filter (fun c => c.isSome)

/-- The cells `(y, x)` of column `x` in the order in which `getNewTiles` visits them:
from row `n - 1` up to row 0. -/
def visitColumn (x n : Nat) : List (Nat × Nat) :=
  (List.range n).reverse.map (fun y => (y, x))

/-- The cells in the order in which `getNewTiles` visits them: `n` columns from `x`
on, each from the bottom row to the top row. -/
def visitOrder : Nat → Nat → List (Nat × Nat)
  | 0, _ => []
  | n + 1, x => visitColumn x SIZE ++ visitOrder n (x + 1)

/-- The tween definitions that `getNewTiles` records for the empty cells `cells`
(in visiting order) when the first new tile gets the reference `n`. -/
def newTweens (K : Consts) : Nat → List (Nat × Nat) → List Tween
  | _, [] => []
  | n, p :: rest =>
    { tile := n, parameters := ["y"], endValues := [p.1 * K.tileSize] } ::
      newTweens K (n + 1) rest

/-- The empty cells among `cells`, in the same order. -/
def emptyCells (tiles : List (List Cell)) (cells : List (Nat × Nat)) : List (Nat × Nat) :=
  cells.filter (fun p => (cellOf tiles p.1 p.2).isNone)

/-- Every reference on the grid has been handed out by `new Tile`: it is below
`Board.next`.  In JavaScript a new object is never an existing one; in the model this
is what makes a new reference different from the tiles on the grid. -/
def Allocated (b : Board) : Prop :=
  ∀ row col id, cellOf b.tiles row col = some id → id < b.next

/-- The invariant of the grid as the specification words it: every non-empty cell
`tiles[row][column]` holds a tile with `boardX = column` and `boardY = row`, and no
tile occupies two cells. -/
def CoordinateInvariant (b : Board) : Prop :=
  CoordInv b ∧
    ∀ r1 c1 r2 c2 id, cellOf b.tiles r1 c1 = some id → cellOf b.tiles r2 c2 = some id →
      r1 = r2 ∧ c1 = c2

/-! ## The loops restated for the proofs -/

/-- The run positions `(start, length)` that the scan of one line reports, computed
on the colours alone: the control flow of `horizontalLoop`/`verticalLoop` with the
tile lists replaced by positions. -/
def runLoop (c : Nat → Nat) : Nat → Nat → Nat → Nat → List (Nat × Nat) → Nat × List (Nat × Nat)
  | 0, _, matchCounter, _, acc => (matchCounter, acc)
  | n + 1, x, matchCounter, colourToMatch, acc =>
    if c x = colourToMatch then runLoop c n (x + 1) (matchCounter + 1) colourToMatch acc
    else if SIZE - 2 ≤ x then
      (1, if minimumMatchLength ≤ matchCounter then acc ++ [(x - matchCounter, matchCounter)]
          else acc)
    else
      runLoop c n (x + 1) 1 (c x)
        (if minimumMatchLength ≤ matchCounter then acc ++ [(x - matchCounter, matchCounter)]
         else acc)

/-- The run at the end of the line, appended to the runs of the loop. -/
def flushRun (r : Nat × List (Nat × Nat)) : List (Nat × Nat) :=
  if minimumMatchLength ≤ r.1 then r.2 ++ [(SIZE - r.1, r.1)] else r.2

/-- The run positions reported for a line with colours `c`. -/
def lineRuns (c : Nat → Nat) : List (Nat × Nat) :=
  flushRun (runLoop c (SIZE - 1) 1 1 (c 0) [])

/-- The positions `(y, start, length)` of the matches of the horizontal scan, rows
`y, ..., y + n - 1`. -/
def horizontalRunsFrom (b : Board) : Nat → Nat → List (Nat × Nat × Nat)
  | 0, _ => []
  | n + 1, y =>
    (lineRuns (fun x => colourOf b y x)).map (fun p => (y, p.1, p.2)) ++
      horizontalRunsFrom b n (y + 1)

/-- The positions `(x, start, length)` of the matches of the vertical scan, columns
`x, ..., x + n - 1`. -/
def verticalRunsFrom (b : Board) : Nat → Nat → List (Nat × Nat × Nat)
  | 0, _ => []
  | n + 1, x =>
    (lineRuns (fun y => colourOf b y x)).map (fun p => (x, p.1, p.2)) ++
      verticalRunsFrom b n (x + 1)

/-- The scan of one line with the two reads abstracted: `colour x` is the colour read
at index `x` and `back hi n` the backwards collection of `n` cells below `hi`.  Both
`horizontalLoop` and `verticalLoop` are instances (`horizontalLoop_eq`,
`verticalLoop_eq`). -/
def lineLoop (colour : Nat → Option Nat) (back : Nat → Nat → Option (List Cell)) :
    Nat → Nat → Nat → Nat → List (List Cell) → Option (Nat × List (List Cell))
  | 0, _, matchCounter, _, lineMatches => some (matchCounter, lineMatches)
  | n + 1, x, matchCounter, colourToMatch, lineMatches =>
    match colour x with
    | none => none
    | some c =>
      if c = colourToMatch then
        lineLoop colour back n (x + 1) (matchCounter + 1) colourToMatch lineMatches
      else
        match (if minimumMatchLength ≤ matchCounter then
            (back x matchCounter).map (fun m => lineMatches ++ [m])
          else some lineMatches) with
        | none => none
        | some lineMatches1 =>
          if SIZE - 2 ≤ x then some (1, lineMatches1)
          else lineLoop colour back n (x + 1) 1 c lineMatches1

/-- The scan of one line including the run at its end, with the reads abstracted. -/
def lineScan (colour : Nat → Option Nat) (back : Nat → Nat → Option (List Cell)) :
    Option (List (List Cell)) :=
  match colour 0 with
  | none => none
  | some c0 =>
    match lineLoop colour back (SIZE - 1) 1 1 c0 [] with
    | none => none
    | some (matchCounter, lineMatches) =>
      if minimumMatchLength ≤ matchCounter then
        (back SIZE matchCounter).map (fun m => lineMatches ++ [m])
      else some lineMatches

/-- The cell updates of `fallLoop` on the column alone (`fallLoop_sim`): the same
control flow with the column as a list of cells. -/
def columnLoop : Nat → List Cell → Nat → Bool → Nat → Option (List Cell)
  | _, col, 0, _, _ => some col
  | 0, _, _ + 1, _, _ => none
  | fuel + 1, col, row + 1, space, spaceRow =>
    match col[row]? with
    | none => none
    | some (some tile) =>
      if space then
        if spaceRow < col.length then
          columnLoop fuel ((col.set spaceRow (some tile)).set row none) spaceRow false 0
        else none
      else columnLoop fuel col row space spaceRow
    | some none => columnLoop fuel col row true (if spaceRow = 0 then row else spaceRow)

/-- The body of the inner loop of `getNewTiles` for the cell `(y, x)`. -/
def refillCell (K : Consts) (draws : Nat → Nat) (level y x : Nat) (b : Board) (k : Nat)
    (tweens : List Tween) : Option (Board × Nat × List Tween) :=
  match b.tiles[y]? with
  | none => none
  | some r =>
    match r[x]? with
    | some (some _) => some (b, k, tweens)
    | _ =>
      match generateTile K draws k b x y level with
      | (b1, tile, k1) =>
        match setCell b1.tiles y x (some tile) with
        | none => none
        | some tiles1 =>
          some ({ b1 with tiles := tiles1 }, k1,
            tweens ++ [{ tile := tile, parameters := ["y"],
                         endValues := [(b1.objects tile).boardY * K.tileSize] }])

/-- The loop body of `getNewTiles` run over a list of cells `(y, x)`, in order. -/
def refillList (K : Consts) (draws : Nat → Nat) (level : Nat) :
    List (Nat × Nat) → Board → Nat → List Tween → Option (Board × Nat × List Tween)
  | [], b, k, tweens => some (b, k, tweens)
  | p :: rest, b, k, tweens =>
    match refillCell K draws level p.1 p.2 b k tweens with
    | none => none
    | some (b1, k1, tweens1) => refillList K draws level rest b1 k1 tweens1

/-! ## Loop invariants -/

/-- The loop invariant of the scan of a line at index `x`: the current run is the
block `x - mc, ..., x - 1`, it cannot be extended to the left, and `acc` lists
exactly the maximal runs that end before it. -/
structure ScanInv (c : Nat → Nat) (x mc col : Nat) (acc : List (Nat × Nat)) : Prop where
  mc_pos : 1 ≤ mc
  mc_le : mc ≤ x
  x_le : x ≤ SIZE
  col_eq : col = c (x - mc)
  block : ∀ i, x - mc ≤ i → i < x → c i = col
  left : x = mc ∨ c (x - mc - 1) ≠ col
  nodup : acc.Nodup
  mem : ∀ s l, (s, l) ∈ acc ↔ (IsMaximalRun c s l ∧ s + l ≤ x - mc)

/-- The list `runs` is a duplicate-free enumeration of the maximal runs of the line
that end at or before index `x`. -/
def RunsUpTo (c : Nat → Nat) (x : Nat) (runs : List (Nat × Nat)) : Prop :=
  runs.Nodup ∧ ∀ s l, (s, l) ∈ runs ↔ (IsMaximalRun c s l ∧ s + l ≤ x)

/-- What the rows built so far satisfy in `initializeBoard`. -/
structure RowsInv (b : Board) (row : Nat) : Prop where
  len : b.tiles.length = row
  rows : ∀ r ∈ b.tiles, r.length = b.width ∧ ∀ c ∈ r, c ≠ none
  coord : CoordInv b
  alloc : Allocated b

/-! ## Sample boards -/

/-- Sample values for the constants: patterns `Flat = 0, ..., Triangle = 5, Star = 6`
and the six colours `0, ..., 5`. -/
def sampleConsts : Consts :=
  { tileSize := 32, flat := 0, triangle := 5, star := 6,
    beige := 0, pink := 1, purple := 2, lightGreen := 3, blue := 4, orange := 5 }

/-- The 8 x 8 board whose cell `(row, col)` holds the tile `8 * row + col`, with the
given colour and pattern for each cell; every tile records its own coordinates. -/
def boardOf (colour pattern : Nat → Nat → Nat) : Board :=
  { width := 8, height := 8,
    tiles := (List.range 8).map (fun row => (List.range 8).map (fun col => some (8 * row + col))),
    matchList := [],
    objects := fun id =>
      { boardX := id % 8, boardY := id / 8, colour := colour (id / 8) (id % 8),
        pattern := pattern (id / 8) (id % 8) },
    next := 64 }

/-- Colours without any run of three, except that row 3 begins Beige, Beige, Beige,
Pink, Blue. -/
def sampleColour (row col : Nat) : Nat :=
  if row = 3 then (if col < 3 then 0 else if col = 3 then 1 else col)
  else (col + 2 * row) % 6

/-- A board with exactly one match, the three Beige tiles at the start of row 3, and
no star. -/
def sampleBoard : Board := boardOf sampleColour (fun _ _ => 0)

/-- The colours of `sampleBoard` with rows 4 to 6 of column 6 made Purple. -/
def starColour (row col : Nat) : Nat :=
  if col = 6 ∧ 4 ≤ row ∧ row ≤ 6 then 2 else sampleColour row col

/-- A board with a horizontal run (row 3) and a vertical run (column 6) that both
contain a star. -/
def starBoard : Board :=
  boardOf starColour
    (fun row col => if (row = 3 ∧ col = 1) ∨ (row = 5 ∧ col = 6) then 6 else 0)

/-- A play state on `sampleBoard` with the cursor on cell `(1, 0)` and the tile of
cell `(0, 0)` selected. -/
def samplePlayState : PlayState :=
  { board := sampleBoard, cursorX := 1, cursorY := 0, selectedTile := some 0, level := 1,
    score := 0, baseScore := 5, timer := 60, sounds := [] }

/-- The tiles of `sampleBoard` with half of the cells emptied. -/
def holedBoard : Board :=
  { sampleBoard with
    tiles := (List.range 8).map (fun row => (List.range 8).map (fun col =>
      if (3 * row + 5 * col) % 4 < 2 then some (8 * row + col) else none)) }

/-- The board object as the constructor leaves it: 8 wide, 8 high, no tiles yet. -/
def emptyBoard : Board :=
  { width := 8, height := 8, tiles := [], matchList := [],
    objects := fun _ => { boardX := 0, boardY := 0, colour := 0, pattern := 0 }, next := 0 }

/-- Random draws that make `initializeBoard` produce the colours `(col + 2 * row) % 6`
(no run of three), pattern Flat and no star. -/
def sampleDraws (i : Nat) : Nat :=
  if i % 3 = 0 then (i / 3) % 8 + 2 * ((i / 3) / 8) else 0

/-! ## The scans without the early exit -/

/-- The inner loop of `resolveHorizontalMatches` with the statement
`if (x >= Board.SIZE - 2) { break; }` removed: after a colour change the loop always
goes on to the next index. -/
def horizontalLoopNoBreak (b : Board) (y : Nat) :
    Nat → Nat → Nat → Nat → List (List Cell) → Option (Nat × List (List Cell))
  | 0, _, matchCounter, _, rowMatches => some (matchCounter, rowMatches)
  | n + 1, x, matchCounter, colourToMatch, rowMatches =>
    match b.colourAt y x with
    | none => none
    | some c =>
      if c = colourToMatch then
        horizontalLoopNoBreak b y n (x + 1) (matchCounter + 1) colourToMatch rowMatches
      else
        match (if minimumMatchLength ≤ matchCounter then
            (backwardsRow b y x matchCounter).map (fun m => rowMatches ++ [m])
          else some rowMatches) with
        | none => none
        | some rowMatches1 => horizontalLoopNoBreak b y n (x + 1) 1 c rowMatches1

/-- The scan of row `y` without the early exit. -/
def horizontalRowNoBreak (b : Board) (y : Nat) : Option (List (List Cell)) :=
  match b.colourAt y 0 with
  | none => none
  | some c0 =>
    match horizontalLoopNoBreak b y (SIZE - 1) 1 1 c0 [] with
    | none => none
    | some (matchCounter, rowMatches) =>
      if minimumMatchLength ≤ matchCounter then
        (backwardsRow b y SIZE matchCounter).map (fun m => rowMatches ++ [m])
      else some rowMatches

/-- The loop over the rows, each scanned without the early exit. -/
def horizontalRowsNoBreak (b : Board) : Nat → Nat → List (List Cell) → Option (List (List Cell))
  | 0, _, ms => some ms
  | n + 1, y, ms =>
    match horizontalRowNoBreak b y with
    | none => none
    | some rowMatches => horizontalRowsNoBreak b n (y + 1) (ms ++ rowMatches)

/-- The method `resolveHorizontalMatches()` with the `break` statement removed. -/
def resolveHorizontalMatchesNoBreak (b : Board) : Option Board :=
  match horizontalRowsNoBreak b SIZE 0 b.matchList with
  | none => none
  | some ms => some { b with matchList := ms }

/-- The inner loop of `resolveVerticalMatches` with the statement
`if (y >= Board.SIZE - 2) { break; }` removed. -/
def verticalLoopNoBreak (b : Board) (x : Nat) :
    Nat → Nat → Nat → Nat → List (List Cell) → Option (Nat × List (List Cell))
  | 0, _, matchCounter, _, columnMatches => some (matchCounter, columnMatches)
  | n + 1, y, matchCounter, colourToMatch, columnMatches =>
    match b.colourAt y x with
    | none => none
    | some c =>
      if c = colourToMatch then
        verticalLoopNoBreak b x n (y + 1) (matchCounter + 1) colourToMatch columnMatches
      else
        match (if minimumMatchLength ≤ matchCounter then
            (backwardsColumn b x y matchCounter).map (fun m => columnMatches ++ [m])
          else some columnMatches) with
        | none => none
        | some columnMatches1 => verticalLoopNoBreak b x n (y + 1) 1 c columnMatches1

/-- The scan of column `x` without the early exit. -/
def verticalColumnNoBreak (b : Board) (x : Nat) : Option (List (List Cell)) :=
  match b.colourAt 0 x with
  | none => none
  | some c0 =>
    match verticalLoopNoBreak b x (SIZE - 1) 1 1 c0 [] with
    | none => none
    | some (matchCounter, columnMatches) =>
      if minimumMatchLength ≤ matchCounter then
        (backwardsColumn b x SIZE matchCounter).map (fun m => columnMatches ++ [m])
      else some columnMatches

/-- The loop over the columns, each scanned without the early exit. -/
def verticalColumnsNoBreak (b : Board) : Nat → Nat → List (List Cell) → Option (List (List Cell))
  | 0, _, ms => some ms
  | n + 1, x, ms =>
    match verticalColumnNoBreak b x with
    | none => none
    | some columnMatches => verticalColumnsNoBreak b n (x + 1) (ms ++ columnMatches)

/-- The method `resolveVerticalMatches()` with the `break` statement removed. -/
def resolveVerticalMatchesNoBreak (b : Board) : Option Board :=
  match verticalColumnsNoBreak b SIZE 0 b.matchList with
  | none => none
  | some ms => some { b with matchList := ms }

/-- The loop `lineLoop` without the early exit; `horizontalLoopNoBreak` and
`verticalLoopNoBreak` are instances. -/
def lineLoopNoBreak (colour : Nat → Option Nat) (back : Nat → Nat → Option (List Cell)) :
    Nat → Nat → Nat → Nat → List (List Cell) → Option (Nat × List (List Cell))
  | 0, _, matchCounter, _, lineMatches => some (matchCounter, lineMatches)
  | n + 1, x, matchCounter, colourToMatch, lineMatches =>
    match colour x with
    | none => none
    | some c =>
      if c = colourToMatch then
        lineLoopNoBreak colour back n (x + 1) (matchCounter + 1) colourToMatch lineMatches
      else
        match (if minimumMatchLength ≤ matchCounter then
            (back x matchCounter).map (fun m => lineMatches ++ [m])
          else some lineMatches) with
        | none => none
        | some lineMatches1 => lineLoopNoBreak colour back n (x + 1) 1 c lineMatches1

/-- The code after the inner loop of a scan ("account for matches at the end"),
applied to the loop's result. -/
def lineFlush (back : Nat → Nat → Option (List Cell)) :
    Option (Nat × List (List Cell)) → Option (List (List Cell))
  | none => none
  | some (matchCounter, lineMatches) =>
    if minimumMatchLength ≤ matchCounter then
      (back SIZE matchCounter).map (fun m => lineMatches ++ [m])
    else some lineMatches

/-! ## Sample boards for the swap, the cascade and the hint search -/

/-- Colours without any run of three: `(col + 2 * row) % 6`. -/
def plainColour (row col : Nat) : Nat := (col + 2 * row) % 6

/-- A board without any match and without a star. -/
def plainBoard : Board := boardOf plainColour (fun _ _ => 0)

/-- A play state on `plainBoard` with the cursor on cell `(1, 0)` and the tile of
cell `(0, 0)` selected. -/
def plainPlayState : PlayState :=
  { board := plainBoard, cursorX := 1, cursorY := 0, selectedTile := some 0, level := 1,
    score := 0, baseScore := 5, timer := 60, sounds := [] }

/-! ## The cascade, one iteration at a time -/

/-- One iteration of the cascade: the body of the play state's `calculateMatches()`
from the scan to `placeNewTiles()`, without the test that ends the recursion.  The
pair is the play state and the number of random draws consumed. -/
def cascadeStep (K : Consts) (draws : Nat → Nat) (p : PlayState × Nat) :
    Option (PlayState × Nat) :=
  match Match3.calculateMatches K p.1.board with
  | none => none
  | some (b1, numMatches) =>
    let timeToAdd : Int := max 0 (BASE_TIMER_ADD_AMOUNT - ((p.1.level : Int) - 1))
    let st1 : PlayState :=
      { p.1 with board := b1,
                 timer := if numMatches > 0 then p.1.timer + timeToAdd * numMatches
                          else p.1.timer }
    match calculateScore b1.objects st1.baseScore st1.score b1.matchList with
    | none => none
    | some score1 =>
      match removeMatches b1 with
      | none => none
      | some b2 =>
        let st2 : PlayState :=
          { st1 with board := b2, score := score1,
                     sounds := st1.sounds ++ List.replicate b1.matchList.length
                       SoundName.Match }
        placeNewTiles K draws p.2 st2

/-- The state after `n` iterations of the cascade. -/
def cascadeIter (K : Consts) (draws : Nat → Nat) :
    Nat → PlayState × Nat → Option (PlayState × Nat)
  | 0, p => some p
  | n + 1, p =>
    match cascadeStep K draws p with
    | none => none
    | some q => cascadeIter K draws n q

/-- The number of matches that `calculateMatches` finds on a full board: the number
of maximal runs of its rows and columns. -/
def matchCount (b : Board) : Nat :=
  (horizontalRunsFrom b SIZE 0).length + (verticalRunsFrom b SIZE 0).length

/-- The boards on which the cascade works: a full grid of 8 x 8 tiles that record
their own coordinates and were all handed out by `new Tile`, in a board object that
is 8 wide and 8 high. -/
structure WellFormed (b : Board) : Prop where
  full : IsFull b.tiles
  coord : CoordInv b
  alloc : Allocated b
  width : b.width = SIZE
  height : b.height = SIZE
/-! ## A board on which the cascade does not end -/

/-- Random draws that are all 0: every generated tile is Beige, Flat and no star. -/
def beigeDraws : Nat → Nat := fun _ => 0

/-- Colours whose only run of three is Beige, Beige, Beige at the start of row 0. -/
def loopColour (row col : Nat) : Nat :=
  if row = 0 ∧ col < 3 then 0 else plainColour row col

/-- A board whose only match is the three Beige tiles at the start of row 0. -/
def loopBoard : Board := boardOf loopColour (fun _ _ => 0)

/-- A play state on `loopBoard`. -/
def loopState : PlayState :=
  { board := loopBoard, cursorX := 0, cursorY := 0, selectedTile := none, level := 1,
    score := 0, baseScore := 5, timer := 60, sounds := [] }

/-- What every board of the cascade started on `loopBoard` with `beigeDraws`
satisfies: it is well formed, has the colours of `loopBoard` and only Flat tiles. -/
structure LoopInv (b : Board) : Prop where
  wf : WellFormed b
  colour : ∀ r c, r < SIZE → c < SIZE → colourOf b r c = loopColour r c
  flat : ∀ r c id, cellOf b.tiles r c = some id → (b.objects id).pattern = 0

/-! ## The hint search -/

/-- The objects `tile1Position` and `tile2Position` of one pass of the loop of
`lookForHints()`, each as `(x, y)`: the first from two draws, the second next to it in
the direction given by a third draw (`default` covers the outcomes 3 and 4). -/
def hintPositions (draws : Nat → Nat) (k : Nat) (b : Board) : (Nat × Nat) × (Nat × Nat) :=
  let x1 := getRandomPositiveInteger (draws k) 1 (b.height - 2)
  let y1 := getRandomPositiveInteger (draws (k + 1)) 1 (b.width - 2)
  let direction := getRandomPositiveInteger (draws (k + 2)) 0 4
  if direction = 0 then ((x1, y1), (x1 + 1, y1))
  else if direction = 1 then ((x1, y1), (x1 - 1, y1))
  else if direction = 2 then ((x1, y1), (x1, y1 + 1))
  else ((x1, y1), (x1, y1 - 1))

/-- One pass of the `do ... while` loop of `lookForHints()`: the positions are drawn
(`tile1Position.x` indexes the rows of `tiles`), the two tiles are read and exchanged
with `swapTiles`, the matches are counted and the tiles are exchanged back.  Returns
the board, the number of draws consumed, `tile1`, `tile2` and `numMatches`;
`swapTiles` reads `boardX` of its arguments, so an empty or missing cell raises. -/
def hintTrial (K : Consts) (draws : Nat → Nat) (k : Nat) (b : Board) :
    Option (Board × Nat × Nat × Nat × Nat) :=
  match readCell b.tiles (hintPositions draws k b).1.1 (hintPositions draws k b).1.2 with
  | none => none
  | some none => none
  | some (some tile1) =>
    match readCell b.tiles (hintPositions draws k b).2.1 (hintPositions draws k b).2.2 with
    | none => none
    | some none => none
    | some (some tile2) =>
      match swapTiles b tile1 tile2 with
      | none => none
      | some b1 =>
        match calculateMatches K b1 with
        | none => none
        | some (b2, numMatches) =>
          match swapTiles b2 tile2 tile1 with
          | none => none
          | some b3 => some (b3, k + 3, tile1, tile2, numMatches)

/-- The `do ... while (!hintFinished)` loop of `lookForHints()`.  The loop has no
bound in the source; `fuel` bounds the number of passes and `none` is returned when
it is used up.  Returns the board, the number of draws consumed, `tile1` and `tile2`. -/
def hintLoop (K : Consts) (draws : Nat → Nat) : Nat → Nat → Board → Option (Board × Nat × Nat × Nat)
  | 0, _, _ => none
  | fuel + 1, k, b =>
    match hintTrial K draws k b with
    | none => none
    | some (b3, k1, tile1, tile2, numMatches) =>
      if numMatches > 0 then some (b3, k1, tile1, tile2)
      else hintLoop K draws fuel k1 b3

/-- The part of `swapTilesAsync` that runs at the call, before the `await`:
`temporaryTile` copies the coordinates of `selectedTile`. -/
def swapTilesAsyncBegin (b : Board) (selectedTile : Nat) : Nat × Nat :=
  ((b.objects selectedTile).boardX, (b.objects selectedTile).boardY)

/-- The part of `swapTilesAsync` that runs after the `await`, when the tween has
ended, with the `temporaryTile` copied at the call. -/
def swapTilesAsyncEnd (b : Board) (selectedTile highlightedTile : Nat) (temporaryTile : Nat × Nat) :
    Option Board :=
  let o1 := setBoardX b.objects selectedTile (b.objects highlightedTile).boardX
  let o2 := setBoardY o1 selectedTile (o1 highlightedTile).boardY
  let o3 := setBoardX o2 highlightedTile temporaryTile.1
  let o4 := setBoardY o3 highlightedTile temporaryTile.2
  match setCell b.tiles (o4 selectedTile).boardY (o4 selectedTile).boardX (some selectedTile) with
  | none => none
  | some t1 =>
    match setCell t1 (o4 highlightedTile).boardY (o4 highlightedTile).boardX
        (some highlightedTile) with
    | none => none
    | some t2 => some { b with tiles := t2, objects := o4 }

/-- The statements `this.board.swapTilesAsync(a, c); await this.board.swapTilesAsync(c, a);`:
both calls copy their `temporaryTile` before either continues, and both have
continued when the caller resumes.  `firstCallFirst` is the completion order: whether
the first call continues before the second. -/
def overlappingSwaps (b : Board) (a c : Nat) (firstCallFirst : Bool) : Option Board :=
  let temporaryTile1 := swapTilesAsyncBegin b a
  let temporaryTile2 := swapTilesAsyncBegin b c
  if firstCallFirst then
    match swapTilesAsyncEnd b a c temporaryTile1 with
    | none => none
    | some b1 => swapTilesAsyncEnd b1 c a temporaryTile2
  else
    match swapTilesAsyncEnd b c a temporaryTile2 with
    | none => none
    | some b1 => swapTilesAsyncEnd b1 a c temporaryTile1

/-- The four assignments `tile1.boardX = backupTile2.x; tile1.boardY = backupTile2.y;
tile2.boardX = backupTile1.x; tile2.boardY = backupTile1.y`. -/
def assignBackups (objects : Nat → Tile) (tile1 tile2 : Nat) (backupTile1 backupTile2 : Nat × Nat) :
    Nat → Tile :=
  let o1 := setBoardX objects tile1 backupTile2.1
  let o2 := setBoardY o1 tile1 backupTile2.2
  let o3 := setBoardX o2 tile2 backupTile1.1
  setBoardY o3 tile2 backupTile1.2

/-- The statements of `lookForHints()` after the trial loop: the two backups, the
first pair of overlapping swaps and the assignments from the backups, then (after the
delay) the second pair and the same assignments.  `order1` and `order2` are the
completion orders of the two pairs. -/
def showHint (b : Board) (tile1 tile2 : Nat) (order1 order2 : Bool) : Option Board :=
  let backupTile1 := ((b.objects tile1).boardX, (b.objects tile1).boardY)
  let backupTile2 := ((b.objects tile2).boardX, (b.objects tile2).boardY)
  match overlappingSwaps b tile1 tile2 order1 with
  | none => none
  | some b1 =>
    let b2 : Board :=
      { b1 with objects := assignBackups b1.objects tile1 tile2 backupTile1 backupTile2 }
    match overlappingSwaps b2 tile2 tile1 order2 with
    | none => none
    | some b3 =>
      some { b3 with objects := assignBackups b3.objects tile1 tile2 backupTile1 backupTile2 }

/-- The method `lookForHints()`, run to completion. -/
def lookForHints (K : Consts) (draws : Nat → Nat) (fuel k : Nat) (st : PlayState)
    (order1 order2 : Bool) : Option (PlayState × Nat) :=
  match hintLoop K draws fuel k st.board with
  | none => none
  | some (b1, k1, tile1, tile2) =>
    match showHint b1 tile1 tile2 order1 order2 with
    | none => none
    | some b2 => some ({ st with board := b2 }, k1)
/-! ## A board with a hint -/

/-- The colours of `plainBoard` with the cells `(row 0, column 1)` and
`(row 1, column 2)` made Beige: no run of three, and exchanging the tiles of the cells
`(row 1, column 2)` and `(row 0, column 2)` makes one at the start of row 0. -/
def hintColour (row col : Nat) : Nat :=
  if (row = 0 ∧ col = 1) ∨ (row = 1 ∧ col = 2) then 0 else plainColour row col

/-- A board without a match on which a move makes one. -/
def hintBoard : Board := boardOf hintColour (fun _ _ => 0)

/-- Random draws for two passes of the hint loop on `hintBoard`: the first pass tries
the cells `(row 1, column 1)` and `(row 2, column 1)`, the second pass the cells
`(row 1, column 2)` and `(row 0, column 2)`. -/
def hintDraws (i : Nat) : Nat := if i = 4 ∨ i = 5 then 1 else 0

/-- A play state on `hintBoard`. -/
def hintPlayState : PlayState :=
  { board := hintBoard, cursorX := 0, cursorY := 0, selectedTile := none, level := 1,
    score := 0, baseScore := 5, timer := 60, sounds := [] }

/-! ## The relocations of gravity -/

/-- The relocations of `fallLoop` on the column alone: the control flow of
`columnLoop`, returning the pairs `(tile, spaceRow)` of the tiles moved, in the order
of the moves. -/
def moveLoop : Nat → List Cell → Nat → Bool → Nat → Option (List (Nat × Nat))
  | _, _, 0, _, _ => some []
  | 0, _, _ + 1, _, _ => none
  | fuel + 1, col, row + 1, space, spaceRow =>
    match col[row]? with
    | none => none
    | some (some tile) =>
      if space then
        if spaceRow < col.length then
          (moveLoop fuel ((col.set spaceRow (some tile)).set row none) spaceRow false 0).map
            (fun rest => (tile, spaceRow) :: rest)
        else none
      else moveLoop fuel col row space spaceRow
    | some none => moveLoop fuel col row true (if spaceRow = 0 then row else spaceRow)

/-- The relocations that the specification expects for a column read from the bottom
up: a tile is relocated when an empty cell has been seen below it (`seen`), and it is
sent to `dest`, the lowest row that is free at that moment; every tile met, relocated
or not, takes one row. -/
def movesUp : List Cell → Nat → Bool → List (Nat × Nat)
  | [], _, _ => []
  | none :: rest, dest, _ => movesUp rest dest true
  | some _ :: rest, dest, false => movesUp rest (dest - 1) false
  | some t :: rest, dest, true => (t, dest) :: movesUp rest (dest - 1) true

/-- The expected relocations of `n` columns from column `c` on, in the order of
`getFallingTiles`. -/
def fallMoves (tiles : List (List Cell)) : Nat → Nat → List (Nat × Nat)
  | 0, _ => []
  | n + 1, c => movesUp (columnOf tiles c).reverse (SIZE - 1) false ++ fallMoves tiles n (c + 1)

/-- The object store after the assignments `tile.boardY = row` of a list of
relocations `(tile, row)`. -/
def applyMoves (objects : Nat → Tile) : List (Nat × Nat) → Nat → Tile
  | [] => objects
  | m :: rest => applyMoves (setBoardY objects m.1 m.2) rest

/-- The tween definition that `getFallingTiles` records for the relocation of a tile
to a row. -/
def fallTween (K : Consts) (m : Nat × Nat) : Tween :=
  { tile := m.1, parameters := ["y"], endValues := [m.2 * K.tileSize] }

/-! ## Scoring -/

/-- The method `calculateScore()` on the play state: `this.score` is the only field
that is assigned. The score is a natural number, as it is for every score below
`2 ^ 53`. -/
def PlayState.calculateScore (st : PlayState) : Option PlayState :=
  match Match3.calculateScore st.board.objects st.baseScore st.score st.board.matchList with
  | none => none
  | some score1 => some { st with score := score1 }

/-- The points of one tile of a match: `(pattern + 1) * baseScore`. -/
def tilePoints (objects : Nat → Tile) (baseScore : Nat) (e : Cell) : Nat :=
  match e with
  | some id => ((objects id).pattern + 1) * baseScore
  | none => 0

/-- The points of one match: the sum of the points of its entries. -/
def matchPoints (objects : Nat → Tile) (baseScore : Nat) (m : List Cell) : Nat :=
  (m.map (tilePoints objects baseScore)).sum

/-- The points of a list of matches: the sum over the matches of their points, so
that a tile counts once for every match it is an entry of. -/
def totalPoints (objects : Nat → Tile) (baseScore : Nat) (ms : List (List Cell)) : Nat :=
  (ms.map (matchPoints objects baseScore)).sum

/-- The state `samplePlayState` on `starBoard` after `board.calculateMatches()`. -/
def starPlayState : PlayState :=
  { samplePlayState with
    board := match calculateMatches sampleConsts starBoard with
      | some (b1, _) => b1
      | none => starBoard }

/-! ## The automatic swap -/

/-- The objects `tile1Position` and `tile2Position` of `autoSwap()`, each as `(x, y)`:
the first from two draws, the second next to it in the direction given by a third
draw (`default` covers the outcomes 3 and 4). -/
def autoSwapPositions (draws : Nat → Nat) (k : Nat) (b : Board) : (Nat × Nat) × (Nat × Nat) :=
  let x1 := getRandomPositiveInteger (draws k) 1 (b.height - 2)
  let y1 := getRandomPositiveInteger (draws (k + 1)) 1 (b.width - 2)
  let direction := getRandomPositiveInteger (draws (k + 2)) 0 4
  if direction = 0 then ((x1, y1), (x1 + 1, y1))
  else if direction = 1 then ((x1, y1), (x1 - 1, y1))
  else if direction = 2 then ((x1, y1), (x1, y1 + 1))
  else ((x1, y1), (x1, y1 - 1))

/-- One run of the task that `autoSwap()` hands to the timer: the positions are drawn
(`tile1Position.x` indexes the rows of `tiles`), the two tiles are read and exchanged
with `swapTilesAsync`, which reads `boardX` of its arguments, so an empty or missing
cell raises.  Returns the board and the number of draws consumed. -/
def autoSwap (draws : Nat → Nat) (k : Nat) (b : Board) : Option (Board × Nat) :=
  match readCell b.tiles (autoSwapPositions draws k b).1.1 (autoSwapPositions draws k b).1.2 with
  | none => none
  | some none => none
  | some (some tile1) =>
    match readCell b.tiles (autoSwapPositions draws k b).2.1
        (autoSwapPositions draws k b).2.2 with
    | none => none
    | some none => none
    | some (some tile2) =>
      match swapTilesAsync b tile1 tile2 with
      | none => none
      | some b1 => some (b1, k + 3)

/-- A board of 3 rows of 5 tiles: cell `(row, col)` holds the tile `5 * row + col`. -/
def smallBoard : Board :=
  { width := 5, height := 3,
    tiles := (List.range 3).map (fun row => (List.range 5).map (fun col => some (5 * row + col))),
    matchList := [],
    objects := fun id => { boardX := id % 5, boardY := id / 5, colour := id % 6, pattern := 0 },
    next := 15 }

/-! ## A board with a gap at the top of two columns -/

/-- The tiles of `sampleBoard` with rows 0 and 1 of column 0 and row 0 of column 3
emptied: the empty cells are at the top of their columns, as gravity leaves them. -/
def gapBoard : Board :=
  { sampleBoard with
    tiles := (List.range 8).map (fun row => (List.range 8).map (fun col =>
      if (col = 0 ∧ row < 2) ∨ (col = 3 ∧ row = 0) then none else some (8 * row + col))) }

/-! ## The board after a hint -/

/-- The board that `lookForHints()` leaves on `hintPlayState` with the draws
`hintDraws`, each pair of overlapping swaps completing in call order. -/
def hintedBoard : Board :=
  match lookForHints sampleConsts hintDraws 2 0 hintPlayState true true with
  | some (st, _) => st.board
  | none => hintBoard

/-- Random draws for one pass of the hint loop that tries the cells `(row 1, column 2)`
and `(row 2, column 2)`. -/
def secondHintDraws (i : Nat) : Nat := if i = 1 then 1 else 0

/-! ## The scan on colours reports exactly the maximal runs -/

theorem maximalRun_block (c : Nat → Nat) (p q s l : Nat) (hpq : p < q) (hq : q ≤ SIZE)
    (hblock : ∀ i, p ≤ i → i < q → c i = c p)
    (hleft : p = 0 ∨ c (p - 1) ≠ c p) (hright : q = SIZE ∨ c q ≠ c p)
    (h : IsMaximalRun c s l) : s + l ≤ p ∨ (s = p ∧ l = q - p) ∨ q ≤ s := by
  obtain ⟨h3, h8, hrun, hl, hr⟩ := h
  simp only [minimumMatchLength, SIZE] at *
  by_cases h1 : s + l ≤ p
  · exact Or.inl h1
  by_cases h2 : q ≤ s
  · exact Or.inr (Or.inr h2)
  right; left
  have hsp : s = p := by
    rcases Nat.lt_trichotomy s p with hlt | heq | hgt
    · exfalso
      have e1 := hrun (p - 1 - s) (by omega)
      have e2 := hrun (p - s) (by omega)
      rw [show s + (p - 1 - s) = p - 1 by omega] at e1
      rw [show s + (p - s) = p by omega] at e2
      rcases hleft with h0 | hne
      · omega
      · exact hne (e1.trans e2.symm)
    · exact heq
    · exfalso
      have e1 := hblock (s - 1) (by omega) (by omega)
      have e2 := hblock s (by omega) (by omega)
      rcases hl with h0 | hne
      · omega
      · exact hne (e1.trans e2.symm)
  subst hsp
  refine ⟨rfl, ?_⟩
  rcases Nat.lt_trichotomy (s + l) q with hlt | heq | hgt
  · exfalso
    have e1 := hblock (s + l) (by omega) hlt
    rcases hr with h0 | hne
    · omega
    · exact hne e1
  · omega
  · exfalso
    have e1 := hrun (q - s) (by omega)
    rw [show s + (q - s) = q by omega] at e1
    rcases hright with h0 | hne
    · omega
    · exact hne e1

theorem scanInv_close (c : Nat → Nat) (x mc col : Nat) (acc : List (Nat × Nat))
    (h : ScanInv c x mc col acc) (hright : x = SIZE ∨ c x ≠ col) :
    RunsUpTo c x
      (if minimumMatchLength ≤ mc then acc ++ [(x - mc, mc)] else acc) := by
  obtain ⟨h1, h2, h3, h4, h5, h6, h7, h8⟩ := h
  have hblock : ∀ i, x - mc ≤ i → i < x → c i = c (x - mc) := fun i a b => by
    rw [← h4]; exact h5 i a b
  have hleft : x - mc = 0 ∨ c (x - mc - 1) ≠ c (x - mc) := by
    rcases h6 with e | e
    · left; omega
    · right; rw [← h4]; exact e
  have hright1 : x = SIZE ∨ c x ≠ c (x - mc) := by rw [← h4]; exact hright
  have key := fun s l hrun =>
    maximalRun_block c (x - mc) x s l (by omega) h3 hblock hleft hright1 hrun
  have hself : minimumMatchLength ≤ mc → IsMaximalRun c (x - mc) mc := by
    intro hm
    refine ⟨hm, by omega, ?_, hleft, ?_⟩
    · intro i hi; exact hblock _ (by omega) (by omega)
    · rw [show x - mc + mc = x by omega]; exact hright1
  by_cases hm : minimumMatchLength ≤ mc
  · simp only [hm, if_true]
    refine ⟨?_, ?_⟩
    · rw [List.nodup_append]
      refine ⟨h7, List.nodup_singleton _, ?_⟩
      intro a ha hb
      rw [List.mem_singleton] at hb
      subst hb
      have := ((h8 _ _).1 ha).2
      omega
    · intro s l
      rw [List.mem_append, List.mem_singleton, h8]
      constructor
      · rintro (⟨hr, hle⟩ | heq)
        · exact ⟨hr, by omega⟩
        · rw [Prod.mk.injEq] at heq
          obtain ⟨rfl, rfl⟩ := heq
          exact ⟨hself hm, by omega⟩
      · rintro ⟨hr, hle⟩
        have hl3 := hr.1
        simp only [minimumMatchLength] at hl3
        rcases key s l hr with k | ⟨k1, k2⟩ | k
        · exact Or.inl ⟨hr, k⟩
        · right; rw [k1, k2]; congr 1; omega
        · omega
  · simp only [hm, if_false]
    refine ⟨h7, ?_⟩
    intro s l
    rw [h8]
    constructor
    · rintro ⟨hr, hle⟩; exact ⟨hr, by omega⟩
    · rintro ⟨hr, hle⟩
      have hl3 := hr.1
      rcases key s l hr with k | ⟨k1, k2⟩ | k
      · exact ⟨hr, k⟩
      · omega
      · simp only [minimumMatchLength] at hl3; omega

theorem runLoop_complete (c : Nat → Nat) :
    ∀ (n x mc col : Nat) (acc : List (Nat × Nat)), x + n = SIZE → ScanInv c x mc col acc →
      RunsUpTo c SIZE (flushRun (runLoop c n x mc col acc)) := by
  intro n
  induction n with
  | zero =>
    intro x mc col acc hx h
    have hx8 : x = SIZE := by omega
    have := scanInv_close c x mc col acc h (Or.inl hx8)
    simpa [runLoop, flushRun, hx8] using this
  | succ n ih =>
    intro x mc col acc hx h
    rw [runLoop]
    by_cases hc : c x = col
    · simp only [hc, if_true]
      apply ih (x + 1) (mc + 1) col acc (by omega)
      obtain ⟨h1, h2, h3, h4, h5, h6, h7, h8⟩ := h
      refine ⟨by omega, by omega, by omega, ?_, ?_, ?_, h7, ?_⟩
      · rw [h4]; congr 1; omega
      · intro i hi1 hi2
        by_cases hix : i = x
        · rw [hix]; exact hc
        · exact h5 i (by omega) (by omega)
      · rcases h6 with e | e
        · left; omega
        · right; rw [show x + 1 - (mc + 1) - 1 = x - mc - 1 by omega]; exact e
      · intro s l; rw [h8, show x + 1 - (mc + 1) = x - mc by omega]
    · simp only [hc, if_false]
      have hclose := scanInv_close c x mc col acc h (Or.inr hc)
      obtain ⟨h1, h2, h3, h4, h5, h6, h7, h8⟩ := h
      have hprev : c (x - 1) = col := h5 (x - 1) (by omega) (by omega)
      by_cases hb : SIZE - 2 ≤ x
      · simp only [hb, if_true]
        have h31 : ¬ minimumMatchLength ≤ 1 := by simp [minimumMatchLength]
        simp only [flushRun, h31, if_false]
        refine ⟨hclose.1, ?_⟩
        intro s l
        rw [hclose.2]
        constructor
        · rintro ⟨hr, -⟩; exact ⟨hr, hr.2.1⟩
        · rintro ⟨hr, -⟩
          refine ⟨hr, ?_⟩
          obtain ⟨r3, r8, rrun, -, -⟩ := hr
          simp only [minimumMatchLength, SIZE] at *
          by_contra hcon
          by_cases hsx : s < x
          · have e1 := rrun (x - 1 - s) (by omega)
            have e2 := rrun (x - s) (by omega)
            rw [show s + (x - 1 - s) = x - 1 by omega] at e1
            rw [show s + (x - s) = x by omega] at e2
            exact hc (e2.trans (e1.symm.trans hprev))
          · omega
      · simp only [hb, if_false]
        apply ih (x + 1) 1 (c x) _ (by omega)
        have hS : SIZE = 8 := rfl
        refine ⟨le_refl _, by omega, by omega, ?_, ?_, ?_, hclose.1, ?_⟩
        · simp
        · intro i hi1 hi2
          have : i = x := by omega
          rw [this]
        · right
          rw [show x + 1 - 1 - 1 = x - 1 by omega, hprev]
          exact fun e => hc e.symm
        · intro s l
          rw [hclose.2, show x + 1 - 1 = x by omega]

theorem lineRuns_complete (c : Nat → Nat) : RunsUpTo c SIZE (lineRuns c) := by
  apply runLoop_complete c (SIZE - 1) 1 1 (c 0) [] (by simp [SIZE])
  refine ⟨le_refl _, le_refl _, by simp [SIZE], by simp, ?_, Or.inl rfl, List.nodup_nil, ?_⟩
  · intro i h1 h2
    have : i = 0 := by omega
    rw [this]
  · intro s l
    simp only [List.not_mem_nil, false_iff, not_and, not_le]
    intro hr
    have := hr.1
    simp only [minimumMatchLength] at this
    omega

theorem mem_lineRuns (c : Nat → Nat) (s l : Nat) :
    (s, l) ∈ lineRuns c ↔ IsMaximalRun c s l := by
  rw [(lineRuns_complete c).2]
  exact ⟨fun h => h.1, fun h => ⟨h, h.2.1⟩⟩

/-! ## The scans of the board are the scan on colours -/

theorem horizontalLoop_eq (b : Board) (y : Nat) :
    ∀ (n x mc col : Nat) (rm : List (List Cell)),
      horizontalLoop b y n x mc col rm =
        lineLoop (fun x => b.colourAt y x) (backwardsRow b y) n x mc col rm := by
  intro n
  induction n with
  | zero => intro x mc col rm; rfl
  | succ n ih =>
    intro x mc col rm
    simp only [horizontalLoop, lineLoop, ih]

theorem verticalLoop_eq (b : Board) (x : Nat) :
    ∀ (n y mc col : Nat) (cm : List (List Cell)),
      verticalLoop b x n y mc col cm =
        lineLoop (fun y => b.colourAt y x) (backwardsColumn b x) n y mc col cm := by
  intro n
  induction n with
  | zero => intro y mc col cm; rfl
  | succ n ih =>
    intro y mc col cm
    simp only [verticalLoop, lineLoop, ih]

theorem horizontalRow_eq (b : Board) (y : Nat) :
    horizontalRow b y = lineScan (fun x => b.colourAt y x) (backwardsRow b y) := by
  simp only [horizontalRow, lineScan, horizontalLoop_eq]

theorem verticalColumn_eq (b : Board) (x : Nat) :
    verticalColumn b x = lineScan (fun y => b.colourAt y x) (backwardsColumn b x) := by
  simp only [verticalColumn, lineScan, verticalLoop_eq]

theorem runLoop_counter_le (c : Nat → Nat) :
    ∀ (n x mc col : Nat) (acc : List (Nat × Nat)), mc ≤ x →
      (runLoop c n x mc col acc).1 ≤ x + n := by
  intro n
  induction n with
  | zero => intro x mc col acc h; simpa [runLoop] using h
  | succ n ih =>
    intro x mc col acc h
    rw [runLoop]
    by_cases hc : c x = col
    · simp only [hc, if_true]
      have := ih (x + 1) (mc + 1) col acc (by omega); omega
    · simp only [hc, if_false]
      by_cases hb : SIZE - 2 ≤ x
      · simp only [hb, if_true]; omega
      · simp only [hb, if_false]
        have := ih (x + 1) 1 (c x)
          (if minimumMatchLength ≤ mc then acc ++ [(x - mc, mc)] else acc) (by omega)
        omega

theorem lineLoop_eq_runLoop (colour : Nat → Option Nat) (back : Nat → Nat → Option (List Cell))
    (c : Nat → Nat) (run : Nat → Nat → List Cell)
    (hcol : ∀ x, x < SIZE → colour x = some (c x))
    (hback : ∀ hi n, n ≤ hi → hi ≤ SIZE → back hi n = some (run (hi - n) n)) :
    ∀ (n x mc col : Nat) (acc : List (Nat × Nat)), x + n = SIZE → mc ≤ x →
      lineLoop colour back n x mc col (acc.map (fun p => run p.1 p.2)) =
        some ((runLoop c n x mc col acc).1,
          (runLoop c n x mc col acc).2.map (fun p => run p.1 p.2)) := by
  intro n
  induction n with
  | zero => intro x mc col acc _ _; rfl
  | succ n ih =>
    intro x mc col acc hx hmc
    rw [lineLoop, runLoop, hcol x (by omega)]
    by_cases hc : c x = col
    · simp only [hc, if_true]
      exact ih (x + 1) (mc + 1) col acc (by omega) (by omega)
    · simp only [hc, if_false]
      have hacc : (if minimumMatchLength ≤ mc then
            (back x mc).map (fun m => acc.map (fun p => run p.1 p.2) ++ [m])
          else some (acc.map (fun p => run p.1 p.2))) =
          some ((if minimumMatchLength ≤ mc then acc ++ [(x - mc, mc)] else acc).map
            (fun p => run p.1 p.2)) := by
        split_ifs
        · rw [hback x mc hmc (by omega)]; simp
        · rfl
      rw [hacc]
      by_cases hb : SIZE - 2 ≤ x
      · simp only [hb, if_true]
      · simp only [hb, if_false]
        exact ih (x + 1) 1 (c x) _ (by omega) (by omega)

theorem lineScan_eq_lineRuns (colour : Nat → Option Nat)
    (back : Nat → Nat → Option (List Cell)) (c : Nat → Nat) (run : Nat → Nat → List Cell)
    (hcol : ∀ x, x < SIZE → colour x = some (c x))
    (hback : ∀ hi n, n ≤ hi → hi ≤ SIZE → back hi n = some (run (hi - n) n)) :
    lineScan colour back = some ((lineRuns c).map (fun p => run p.1 p.2)) := by
  have hS : SIZE = 8 := rfl
  have h := lineLoop_eq_runLoop colour back c run hcol hback (SIZE - 1) 1 1 (c 0) []
    (by omega) (le_refl _)
  have hle := runLoop_counter_le c (SIZE - 1) 1 1 (c 0) [] (le_refl _)
  simp only [List.map_nil] at h
  rw [lineScan, hcol 0 (by omega)]
  simp only [h, lineRuns, flushRun]
  split_ifs
  · rw [hback SIZE _ (by omega) (le_refl _)]; simp
  · rfl

/-! ## Reading the grid -/

theorem isGrid_row {tiles : List (List Cell)} (h : IsGrid tiles) {row : Nat} (hr : row < SIZE) :
    ∃ r, tiles[row]? = some r ∧ r.length = SIZE := by
  have hlt : row < tiles.length := by rw [h.1]; exact hr
  refine ⟨tiles[row], List.getElem?_eq_getElem hlt, h.2 _ (List.getElem_mem _)⟩

theorem readCell_eq (tiles : List (List Cell)) (row col : Nat) (hr : row < tiles.length) :
    readCell tiles row col = some (cellOf tiles row col) := by
  simp only [readCell, cellOf, List.getElem?_eq_getElem hr]
  cases tiles[row][col]? <;> rfl

theorem isFull_cell {tiles : List (List Cell)} (h : IsFull tiles) {row col : Nat}
    (hr : row < SIZE) (hc : col < SIZE) : ∃ id, cellOf tiles row col = some id := by
  obtain ⟨r, hrow, hlen⟩ := isGrid_row h.1 hr
  have hlt : col < r.length := by rw [hlen]; exact hc
  have hmem : r ∈ tiles := List.getElem?_mem hrow
  have hne := h.2 r hmem r[col] (List.getElem_mem _)
  simp only [cellOf, hrow, List.getElem?_eq_getElem hlt]
  cases hcell : r[col] with
  | none => exact absurd hcell hne
  | some id => exact ⟨id, rfl⟩

theorem colourAt_eq (b : Board) (row col id : Nat) (h : cellOf b.tiles row col = some id) :
    b.colourAt row col = some (colourOf b row col) := by
  simp only [colourOf, h]
  simp only [cellOf] at h
  cases hrow : b.tiles[row]? with
  | none => simp [hrow] at h
  | some r =>
    simp only [hrow] at h
    cases hcell : r[col]? with
    | none => simp [hcell] at h
    | some c =>
      simp only [hcell] at h
      subst h
      simp only [Board.colourAt, hrow, hcell]

theorem colourAt_full (b : Board) (h : IsFull b.tiles) {row col : Nat}
    (hr : row < SIZE) (hc : col < SIZE) : b.colourAt row col = some (colourOf b row col) := by
  obtain ⟨id, hid⟩ := isFull_cell h hr hc
  exact colourAt_eq b row col id hid

theorem backwardsRow_eq (b : Board) (y : Nat) (hy : y < b.tiles.length) :
    ∀ (n hi : Nat), n ≤ hi → backwardsRow b y hi n = some (rowCells b y (hi - n) n).reverse := by
  intro n
  induction n with
  | zero => intro hi _; rfl
  | succ n ih =>
    intro hi hle
    rw [backwardsRow, readCell_eq _ _ _ hy, ih (hi - 1) (by omega)]
    simp only [rowCells, List.range_succ, List.map_append, List.map_cons, List.map_nil,
      List.reverse_append, List.reverse_cons, List.reverse_nil, List.nil_append,
      List.singleton_append]
    rw [show hi - (n + 1) + n = hi - 1 by omega, show hi - 1 - n = hi - (n + 1) by omega]

theorem backwardsColumn_eq (b : Board) (x : Nat) :
    ∀ (n hi : Nat), n ≤ hi → hi ≤ b.tiles.length →
      backwardsColumn b x hi n = some (columnCells b x (hi - n) n).reverse := by
  intro n
  induction n with
  | zero => intro hi _ _; rfl
  | succ n ih =>
    intro hi hle hlen
    rw [backwardsColumn, readCell_eq _ _ _ (by omega), ih (hi - 1) (by omega) (by omega)]
    simp only [columnCells, List.range_succ, List.map_append, List.map_cons, List.map_nil,
      List.reverse_append, List.reverse_cons, List.reverse_nil, List.nil_append,
      List.singleton_append]
    rw [show hi - (n + 1) + n = hi - 1 by omega, show hi - 1 - n = hi - (n + 1) by omega]

/-! ## The two scans on a full board -/

theorem horizontalRow_full (b : Board) (h : IsFull b.tiles) (y : Nat) (hy : y < SIZE) :
    horizontalRow b y =
      some ((lineRuns (fun x => colourOf b y x)).map (fun p => rowMatch b (y, p.1, p.2))) := by
  rw [horizontalRow_eq]
  exact lineScan_eq_lineRuns _ _ (fun x => colourOf b y x)
    (fun s l => (rowCells b y s l).reverse)
    (fun x hx => colourAt_full b h hy hx)
    (fun hi n hle _ => backwardsRow_eq b y (by rw [h.1.1]; exact hy) n hi hle)

theorem verticalColumn_full (b : Board) (h : IsFull b.tiles) (x : Nat) (hx : x < SIZE) :
    verticalColumn b x =
      some ((lineRuns (fun y => colourOf b y x)).map (fun p => columnMatch b (x, p.1, p.2))) := by
  rw [verticalColumn_eq]
  exact lineScan_eq_lineRuns _ _ (fun y => colourOf b y x)
    (fun s l => (columnCells b x s l).reverse)
    (fun y hy => colourAt_full b h hy hx)
    (fun hi n hle hhi => backwardsColumn_eq b x n hi hle (by rw [h.1.1]; exact hhi))

theorem horizontalRows_full (b : Board) (h : IsFull b.tiles) :
    ∀ (n y : Nat) (ms : List (List Cell)), y + n ≤ SIZE →
      horizontalRows b n y ms = some (ms ++ (horizontalRunsFrom b n y).map (rowMatch b)) := by
  intro n
  induction n with
  | zero => intro y ms _; simp [horizontalRows, horizontalRunsFrom]
  | succ n ih =>
    intro y ms hy
    rw [horizontalRows, horizontalRow_full b h y (by omega)]
    simp only [ih (y + 1) _ (by omega), horizontalRunsFrom, List.map_append, List.map_map,
      List.append_assoc]
    rfl

theorem verticalColumns_full (b : Board) (h : IsFull b.tiles) :
    ∀ (n x : Nat) (ms : List (List Cell)), x + n ≤ SIZE →
      verticalColumns b n x ms = some (ms ++ (verticalRunsFrom b n x).map (columnMatch b)) := by
  intro n
  induction n with
  | zero => intro x ms _; simp [verticalColumns, verticalRunsFrom]
  | succ n ih =>
    intro x ms hx
    rw [verticalColumns, verticalColumn_full b h x (by omega)]
    simp only [ih (x + 1) _ (by omega), verticalRunsFrom, List.map_append, List.map_map,
      List.append_assoc]
    rfl

theorem horizontalRunsFrom_matchList (b : Board) (ms : List (List Cell)) (n y : Nat) :
    horizontalRunsFrom { b with matchList := ms } n y = horizontalRunsFrom b n y := by
  induction n generalizing y with
  | zero => rfl
  | succ n ih => rw [horizontalRunsFrom, horizontalRunsFrom, ih]; rfl

theorem verticalRunsFrom_matchList (b : Board) (ms : List (List Cell)) (n x : Nat) :
    verticalRunsFrom { b with matchList := ms } n x = verticalRunsFrom b n x := by
  induction n generalizing x with
  | zero => rfl
  | succ n ih => rw [verticalRunsFrom, verticalRunsFrom, ih]; rfl

theorem rowMatch_matchList (b : Board) (ms : List (List Cell)) :
    rowMatch { b with matchList := ms } = rowMatch b := rfl

theorem columnMatch_matchList (b : Board) (ms : List (List Cell)) :
    columnMatch { b with matchList := ms } = columnMatch b := rfl

theorem scanMatches_full (b : Board) (h : IsFull b.tiles) :
    scanMatches b = some { b with matchList :=
      (horizontalRunsFrom b SIZE 0).map (rowMatch b) ++
        (verticalRunsFrom b SIZE 0).map (columnMatch b) } := by
  have h1 := horizontalRows_full { b with matchList := [] } h SIZE 0 [] (by simp)
  rw [horizontalRunsFrom_matchList, rowMatch_matchList, List.nil_append] at h1
  simp only [scanMatches, resolveHorizontalMatches, h1]
  have h2 := fun ms => verticalColumns_full { b with matchList := ms } h SIZE 0 ms (by simp)
  simp only [verticalRunsFrom_matchList, columnMatch_matchList] at h2
  simp only [resolveVerticalMatches, h2]

theorem mem_horizontalRunsFrom (b : Board) :
    ∀ (n y0 y s l : Nat), (y, s, l) ∈ horizontalRunsFrom b n y0 ↔
      (y0 ≤ y ∧ y < y0 + n ∧ IsMaximalRun (fun x => colourOf b y x) s l) := by
  intro n
  induction n with
  | zero => intro y0 y s l; simp [horizontalRunsFrom]; omega
  | succ n ih =>
    intro y0 y s l
    simp only [horizontalRunsFrom, List.mem_append, List.mem_map, Prod.mk.injEq, ih]
    constructor
    · rintro (⟨p, hp, rfl, rfl, rfl⟩ | ⟨h1, h2, h3⟩)
      · exact ⟨le_refl _, by omega, (mem_lineRuns _ _ _).1 hp⟩
      · exact ⟨by omega, by omega, h3⟩
    · rintro ⟨h1, h2, h3⟩
      by_cases hy : y = y0
      · subst hy
        exact Or.inl ⟨(s, l), (mem_lineRuns _ _ _).2 h3, rfl, rfl, rfl⟩
      · exact Or.inr ⟨by omega, by omega, h3⟩

theorem mem_verticalRunsFrom (b : Board) :
    ∀ (n x0 x s l : Nat), (x, s, l) ∈ verticalRunsFrom b n x0 ↔
      (x0 ≤ x ∧ x < x0 + n ∧ IsMaximalRun (fun y => colourOf b y x) s l) := by
  intro n
  induction n with
  | zero => intro x0 x s l; simp [verticalRunsFrom]; omega
  | succ n ih =>
    intro x0 x s l
    simp only [verticalRunsFrom, List.mem_append, List.mem_map, Prod.mk.injEq, ih]
    constructor
    · rintro (⟨p, hp, rfl, rfl, rfl⟩ | ⟨h1, h2, h3⟩)
      · exact ⟨le_refl _, by omega, (mem_lineRuns _ _ _).1 hp⟩
      · exact ⟨by omega, by omega, h3⟩
    · rintro ⟨h1, h2, h3⟩
      by_cases hx : x = x0
      · subst hx
        exact Or.inl ⟨(s, l), (mem_lineRuns _ _ _).2 h3, rfl, rfl, rfl⟩
      · exact Or.inr ⟨by omega, by omega, h3⟩

theorem nodup_horizontalRunsFrom (b : Board) :
    ∀ (n y0 : Nat), (horizontalRunsFrom b n y0).Nodup := by
  intro n
  induction n with
  | zero => intro y0; simp [horizontalRunsFrom]
  | succ n ih =>
    intro y0
    rw [horizontalRunsFrom, List.nodup_append]
    refine ⟨?_, ih _, ?_⟩
    · apply List.Nodup.map _ (lineRuns_complete _).1
      intro p q hpq
      simp only [Prod.mk.injEq, true_and] at hpq
      exact Prod.ext hpq.1 hpq.2
    · intro a ha hb
      obtain ⟨y, s, l⟩ := a
      have h1 := ((mem_horizontalRunsFrom b (n + 1) y0 y s l).1
        (by rw [horizontalRunsFrom]; exact List.mem_append_left _ ha))
      simp only [List.mem_map, Prod.mk.injEq] at ha
      obtain ⟨p, -, hy, -⟩ := ha
      have h2 := (mem_horizontalRunsFrom b n (y0 + 1) y s l).1 hb
      omega

theorem nodup_verticalRunsFrom (b : Board) :
    ∀ (n x0 : Nat), (verticalRunsFrom b n x0).Nodup := by
  intro n
  induction n with
  | zero => intro x0; simp [verticalRunsFrom]
  | succ n ih =>
    intro x0
    rw [verticalRunsFrom, List.nodup_append]
    refine ⟨?_, ih _, ?_⟩
    · apply List.Nodup.map _ (lineRuns_complete _).1
      intro p q hpq
      simp only [Prod.mk.injEq, true_and] at hpq
      exact Prod.ext hpq.1 hpq.2
    · intro a ha hb
      obtain ⟨x, s, l⟩ := a
      simp only [List.mem_map, Prod.mk.injEq] at ha
      obtain ⟨p, -, hx, -⟩ := ha
      have h2 := (mem_verticalRunsFrom b n (x0 + 1) x s l).1 hb
      omega

/-! ## Star expansion -/

theorem cellOf_lt {tiles : List (List Cell)} {row col id : Nat}
    (h : cellOf tiles row col = some id) :
    row < tiles.length ∧ col < (tiles.getD row []).length := by
  simp only [cellOf] at h
  cases hrow : tiles[row]? with
  | none => simp [hrow] at h
  | some r =>
    simp only [hrow] at h
    have hr := List.getElem?_eq_some.1 hrow
    obtain ⟨hlt, hget⟩ := hr
    refine ⟨hlt, ?_⟩
    cases hcell : r[col]? with
    | none => simp [hcell] at h
    | some c =>
      obtain ⟨hlt2, -⟩ := List.getElem?_eq_some.1 hcell
      simpa [List.getD, hrow] using hlt2

theorem coordInv_iff_check (b : Board) : CoordInv b ↔ coordCheck b = true := by
  simp only [coordCheck, List.all_eq_true, List.mem_range]
  constructor
  · intro h row _ col _
    cases hc : cellOf b.tiles row col with
    | none => rfl
    | some id => simpa using h row col id hc
  · intro h row col id hc
    obtain ⟨h1, h2⟩ := cellOf_lt hc
    have := h row h1 col h2
    simpa [hc] using this

theorem containsStar_eq (K : Consts) (b : Board) :
    ∀ m : List Cell, (∀ c ∈ m, c ≠ none) → containsStar K b m = some (hasStar K b m) := by
  intro m
  induction m with
  | nil => intro _; rfl
  | cons c m ih =>
    intro h
    cases c with
    | none => exact absurd rfl (h none (List.mem_cons_self _ _))
    | some id =>
      rw [containsStar, ih (fun c hc => h c (List.mem_cons_of_mem _ hc))]
      simp [hasStar]

theorem everyBoardX_all (b : Board) (v : Nat) :
    ∀ m : List Cell, (∀ c ∈ m, ∃ id, c = some id ∧ (b.objects id).boardX = v) →
      everyBoardX b v m = some true := by
  intro m
  induction m with
  | nil => intro _; rfl
  | cons c m ih =>
    intro h
    obtain ⟨id, rfl, hid⟩ := h c (List.mem_cons_self _ _)
    rw [everyBoardX, if_pos hid]
    exact ih (fun c hc => h c (List.mem_cons_of_mem _ hc))

theorem pushHorizontal_eq (b : Board) (boardY : Nat) (hy : boardY < b.tiles.length) :
    ∀ (n row : Nat) (acc : List Cell),
      pushHorizontal b boardY n row acc = some (acc ++ rowCells b boardY row n) := by
  intro n
  induction n with
  | zero => intro row acc; simp [pushHorizontal, rowCells]
  | succ n ih =>
    intro row acc
    simp only [pushHorizontal, readCell_eq _ _ _ hy, ih]
    simp only [rowCells, List.range_succ_eq_map, List.map_cons, List.map_map,
      List.append_assoc, List.singleton_append, Nat.add_zero]
    congr 3
    apply List.map_congr_left
    intro i _
    simp only [Function.comp]
    congr 1
    omega

theorem pushVertical_eq (b : Board) (boardX : Nat) :
    ∀ (n column : Nat) (acc : List Cell), column + n ≤ b.tiles.length →
      pushVertical b boardX n column acc = some (acc ++ columnCells b boardX column n) := by
  intro n
  induction n with
  | zero => intro column acc _; simp [pushVertical, columnCells]
  | succ n ih =>
    intro column acc hle
    have hc : column < b.tiles.length := by omega
    simp only [pushVertical, readCell_eq _ _ _ hc, ih (column + 1) _ (by omega)]
    simp only [columnCells, List.range_succ_eq_map, List.map_cons, List.map_map,
      List.append_assoc, List.singleton_append, Nat.add_zero]
    congr 3
    apply List.map_congr_left
    intro i _
    simp only [Function.comp]
    congr 1
    omega

theorem mem_rowCells_full (b : Board) (h : IsFull b.tiles) (y s l : Nat) (hy : y < SIZE)
    (hsl : s + l ≤ SIZE) : ∀ c ∈ rowCells b y s l, ∃ id, c = some id ∧
      ∃ i, i < l ∧ cellOf b.tiles y (s + i) = some id := by
  intro c hc
  simp only [rowCells, List.mem_map, List.mem_range] at hc
  obtain ⟨i, hi, rfl⟩ := hc
  obtain ⟨id, hid⟩ := isFull_cell h hy (show s + i < SIZE by omega)
  exact ⟨id, hid, i, hi, hid⟩

theorem mem_columnCells_full (b : Board) (h : IsFull b.tiles) (x s l : Nat) (hx : x < SIZE)
    (hsl : s + l ≤ SIZE) : ∀ c ∈ columnCells b x s l, ∃ id, c = some id ∧
      ∃ i, i < l ∧ cellOf b.tiles (s + i) x = some id := by
  intro c hc
  simp only [columnCells, List.mem_map, List.mem_range] at hc
  obtain ⟨i, hi, rfl⟩ := hc
  obtain ⟨id, hid⟩ := isFull_cell h (show s + i < SIZE by omega) hx
  exact ⟨id, hid, i, hi, hid⟩

theorem expandMatch_row (K : Consts) (b : Board) (h : IsFull b.tiles) (hinv : CoordInv b)
    (hh : b.height = SIZE) (y s l : Nat) (hy : y < SIZE) (hl : 2 ≤ l) (hsl : s + l ≤ SIZE) :
    expandMatch K b (rowMatch b (y, s, l)) = some (expandedRowMatch K b (y, s, l)) := by
  have hne : ∀ c ∈ rowMatch b (y, s, l), c ≠ none := by
    intro c hc
    rw [rowMatch, List.mem_reverse] at hc
    obtain ⟨id, rfl, -⟩ := mem_rowCells_full b h y s l hy hsl c hc
    simp
  have hcs := containsStar_eq K b _ hne
  obtain ⟨k, rfl⟩ : ∃ k, l = k + 2 := ⟨l - 2, by omega⟩
  obtain ⟨a, ha⟩ := isFull_cell h hy (show s + (k + 1) < SIZE by omega)
  obtain ⟨a2, ha2⟩ := isFull_cell h hy (show s + k < SIZE by omega)
  have hm : rowMatch b (y, s, k + 2) = some a :: some a2 :: (rowCells b y s k).reverse := by
    simp only [rowMatch, rowCells, List.range_succ, List.map_append, List.map_cons,
      List.map_nil, List.reverse_append, List.reverse_cons, List.reverse_nil,
      List.nil_append, List.singleton_append, List.cons_append, ha, ha2]
  rw [expandMatch.eq_def, hcs, expandedRowMatch]
  cases hstar : hasStar K b (rowMatch b (y, s, k + 2)) with
  | false => simp
  | true =>
    simp only [if_true]
    rw [hm]
    have e1 := hinv _ _ _ ha
    have e2 := hinv _ _ _ ha2
    have hne2 : ¬ (b.objects a2).boardX = (b.objects a).boardX := by
      rw [e1.1, e2.1]; omega
    simp only [everyBoardX, if_true, hne2, if_false]
    rw [e1.2, hh]
    have := pushHorizontal_eq b y (by rw [h.1.1]; exact hy) SIZE 0 []
    simpa using this

theorem expandMatch_column (K : Consts) (b : Board) (h : IsFull b.tiles) (hinv : CoordInv b)
    (hw : b.width = SIZE) (x s l : Nat) (hx : x < SIZE) (hl : 1 ≤ l) (hsl : s + l ≤ SIZE) :
    expandMatch K b (columnMatch b (x, s, l)) = some (expandedColumnMatch K b (x, s, l)) := by
  have hall : ∀ c ∈ columnMatch b (x, s, l), ∃ id, c = some id ∧ (b.objects id).boardX = x := by
    intro c hc
    rw [columnMatch, List.mem_reverse] at hc
    obtain ⟨id, rfl, i, -, hid⟩ := mem_columnCells_full b h x s l hx hsl c hc
    exact ⟨id, rfl, (hinv _ _ _ hid).1⟩
  have hne : ∀ c ∈ columnMatch b (x, s, l), c ≠ none := by
    intro c hc
    obtain ⟨id, rfl, -⟩ := hall c hc
    simp
  have hcs := containsStar_eq K b _ hne
  obtain ⟨k, rfl⟩ : ∃ k, l = k + 1 := ⟨l - 1, by omega⟩
  obtain ⟨a, ha⟩ := isFull_cell h (show s + k < SIZE by omega) hx
  have hm : columnMatch b (x, s, k + 1) = some a :: (columnCells b x s k).reverse := by
    simp only [columnMatch, columnCells, List.range_succ, List.map_append, List.map_cons,
      List.map_nil, List.reverse_append, List.reverse_cons, List.reverse_nil,
      List.nil_append, List.singleton_append, ha]
  rw [expandMatch.eq_def, hcs, expandedColumnMatch]
  cases hstar : hasStar K b (columnMatch b (x, s, k + 1)) with
  | false => simp
  | true =>
    simp only [if_true]
    have e1 := hinv _ _ _ ha
    have hev := everyBoardX_all b x _ hall
    rw [hm] at hev ⊢
    simp only [e1.1, hev, hw]
    have := pushVertical_eq b x SIZE 0 [] (by rw [h.1.1]; simp)
    simpa using this

theorem expandMatches_append (K : Consts) (b : Board) :
    ∀ (l1 l2 r1 r2 : List (List Cell)), expandMatches K b l1 = some r1 →
      expandMatches K b l2 = some r2 → expandMatches K b (l1 ++ l2) = some (r1 ++ r2) := by
  intro l1
  induction l1 with
  | nil =>
    intro l2 r1 r2 h1 h2
    simp only [expandMatches, Option.some.injEq] at h1
    subst h1
    simpa using h2
  | cons m l1 ih =>
    intro l2 r1 r2 h1 h2
    rw [expandMatches] at h1
    cases hm : expandMatch K b m with
    | none => simp [hm] at h1
    | some m1 =>
      cases hr : expandMatches K b l1 with
      | none => simp [hm, hr] at h1
      | some rest =>
        simp only [hm, hr, Option.some.injEq] at h1
        subst h1
        rw [List.cons_append, expandMatches, hm, ih l2 rest r2 hr h2]
        rfl

theorem expandMatches_map (K : Consts) (b : Board) {α : Type} (f g : α → List Cell) :
    ∀ l : List α, (∀ p ∈ l, expandMatch K b (f p) = some (g p)) →
      expandMatches K b (l.map f) = some (l.map g) := by
  intro l
  induction l with
  | nil => intro _; rfl
  | cons p l ih =>
    intro h
    rw [List.map_cons, expandMatches, h p (List.mem_cons_self _ _),
      ih (fun q hq => h q (List.mem_cons_of_mem _ hq))]
    rfl

theorem containsStar_matchList (K : Consts) (b : Board) (ms : List (List Cell)) :
    ∀ m, containsStar K { b with matchList := ms } m = containsStar K b m := by
  intro m
  induction m with
  | nil => rfl
  | cons c m ih => cases c <;> simp only [containsStar, ih]

theorem everyBoardX_matchList (b : Board) (ms : List (List Cell)) (v : Nat) :
    ∀ m, everyBoardX { b with matchList := ms } v m = everyBoardX b v m := by
  intro m
  induction m with
  | nil => rfl
  | cons c m ih => cases c <;> simp only [everyBoardX, ih]

theorem pushVertical_matchList (b : Board) (ms : List (List Cell)) (v : Nat) :
    ∀ n column acc,
      pushVertical { b with matchList := ms } v n column acc = pushVertical b v n column acc := by
  intro n
  induction n with
  | zero => intro column acc; rfl
  | succ n ih => intro column acc; simp only [pushVertical, ih]

theorem pushHorizontal_matchList (b : Board) (ms : List (List Cell)) (v : Nat) :
    ∀ n row acc,
      pushHorizontal { b with matchList := ms } v n row acc = pushHorizontal b v n row acc := by
  intro n
  induction n with
  | zero => intro row acc; rfl
  | succ n ih => intro row acc; simp only [pushHorizontal, ih]

theorem expandMatch_matchList (K : Consts) (b : Board) (ms : List (List Cell)) (m : List Cell) :
    expandMatch K { b with matchList := ms } m = expandMatch K b m := by
  simp only [expandMatch, containsStar_matchList, everyBoardX_matchList,
    pushVertical_matchList, pushHorizontal_matchList]

theorem expandMatches_matchList (K : Consts) (b : Board) (ms : List (List Cell)) :
    ∀ l, expandMatches K { b with matchList := ms } l = expandMatches K b l := by
  intro l
  induction l with
  | nil => rfl
  | cons m l ih => simp only [expandMatches, expandMatch_matchList, ih]

theorem calculateMatches_full (K : Consts) (b : Board) (h : IsFull b.tiles)
    (hinv : CoordInv b) (hw : b.width = SIZE) (hh : b.height = SIZE) :
    calculateMatches K b =
      some ({ b with matchList :=
          (horizontalRunsFrom b SIZE 0).map (expandedRowMatch K b) ++
            (verticalRunsFrom b SIZE 0).map (expandedColumnMatch K b) },
        (horizontalRunsFrom b SIZE 0).length + (verticalRunsFrom b SIZE 0).length) := by
  have hS : SIZE = 8 := rfl
  have hM : minimumMatchLength = 3 := rfl
  rw [calculateMatches, scanMatches_full b h]
  simp only [expandMatches_matchList]
  have hrow := expandMatches_map K b (rowMatch b) (expandedRowMatch K b)
    (horizontalRunsFrom b SIZE 0) (by
      rintro ⟨y, s, l⟩ hp
      obtain ⟨-, hy, hr⟩ := (mem_horizontalRunsFrom b SIZE 0 y s l).1 hp
      have hl := hr.1
      exact expandMatch_row K b h hinv hh y s l (by omega) (by omega) hr.2.1)
  have hcol := expandMatches_map K b (columnMatch b) (expandedColumnMatch K b)
    (verticalRunsFrom b SIZE 0) (by
      rintro ⟨x, s, l⟩ hp
      obtain ⟨-, hx, hr⟩ := (mem_verticalRunsFrom b SIZE 0 x s l).1 hp
      have hl := hr.1
      exact expandMatch_column K b h hinv hw x s l (by omega) (by omega) hr.2.1)
  rw [expandMatches_append K _ _ _ _ _ hrow hcol]
  simp

theorem resolveHorizontalMatches_full (b : Board) (h : IsFull b.tiles) :
    resolveHorizontalMatches b = some { b with matchList :=
      b.matchList ++ (horizontalRunsFrom b SIZE 0).map (rowMatch b) } := by
  simp only [resolveHorizontalMatches, horizontalRows_full b h SIZE 0 _ (by simp)]

theorem resolveVerticalMatches_full (b : Board) (h : IsFull b.tiles) :
    resolveVerticalMatches b = some { b with matchList :=
      b.matchList ++ (verticalRunsFrom b SIZE 0).map (columnMatch b) } := by
  simp only [resolveVerticalMatches, verticalColumns_full b h SIZE 0 _ (by simp)]

theorem expandMatches_length (K : Consts) (b : Board) :
    ∀ (l r : List (List Cell)), expandMatches K b l = some r → r.length = l.length := by
  intro l
  induction l with
  | nil => intro r h; simp only [expandMatches, Option.some.injEq] at h; subst h; rfl
  | cons m l ih =>
    intro r h
    rw [expandMatches] at h
    cases hm : expandMatch K b m with
    | none => simp [hm] at h
    | some m1 =>
      cases hr : expandMatches K b l with
      | none => simp [hm, hr] at h
      | some rest =>
        simp only [hm, hr, Option.some.injEq] at h
        subst h
        simp [ih rest hr]

theorem calculateMatches_count (K : Consts) (b : Board) (h : IsFull b.tiles) (b3 : Board)
    (n : Nat) (hc : calculateMatches K b = some (b3, n)) :
    n = (horizontalRunsFrom b SIZE 0).length + (verticalRunsFrom b SIZE 0).length := by
  rw [calculateMatches, scanMatches_full b h] at hc
  simp only at hc
  cases he : expandMatches K
      { b with matchList := (horizontalRunsFrom b SIZE 0).map (rowMatch b) ++
        (verticalRunsFrom b SIZE 0).map (columnMatch b) }
      ((horizontalRunsFrom b SIZE 0).map (rowMatch b) ++
        (verticalRunsFrom b SIZE 0).map (columnMatch b)) with
  | none => simp [he] at hc
  | some ms =>
    simp only [he, Option.some.injEq, Prod.mk.injEq] at hc
    have := expandMatches_length K _ _ _ he
    rw [← hc.2, this]
    simp

theorem everyBoardX_isSome (b : Board) (v : Nat) :
    ∀ m : List Cell, (∀ c ∈ m, c ≠ none) → ∃ r, everyBoardX b v m = some r := by
  intro m
  induction m with
  | nil => intro _; exact ⟨true, rfl⟩
  | cons c m ih =>
    intro h
    cases c with
    | none => exact absurd rfl (h none (List.mem_cons_self _ _))
    | some id =>
      rw [everyBoardX]
      split_ifs
      · exact ih (fun c hc => h c (List.mem_cons_of_mem _ hc))
      · exact ⟨false, rfl⟩

theorem expandMatch_isSome (K : Consts) (b : Board) (hrows : b.tiles.length = SIZE)
    (hw : b.width = SIZE) (m : List Cell)
    (hm : ∀ c ∈ m, ∃ id, c = some id ∧ (b.objects id).boardY < SIZE) :
    ∃ m1, expandMatch K b m = some m1 := by
  have hne : ∀ c ∈ m, c ≠ none := by
    intro c hc
    obtain ⟨id, rfl, -⟩ := hm c hc
    simp
  rw [expandMatch.eq_def, containsStar_eq K b m hne]
  cases hstar : hasStar K b m with
  | false => exact ⟨m, rfl⟩
  | true =>
    cases m with
    | nil => simp [hasStar] at hstar
    | cons c rest =>
      obtain ⟨first, rfl, hy⟩ := hm c (List.mem_cons_self _ _)
      obtain ⟨r, hr⟩ := everyBoardX_isSome b (b.objects first).boardX (some first :: rest) hne
      simp only [hr]
      cases r with
      | true =>
        exact ⟨_, pushVertical_eq b _ b.width 0 [] (by rw [hw, hrows]; simp)⟩
      | false =>
        exact ⟨_, pushHorizontal_eq b _ (by rw [hrows]; exact hy) b.height 0 []⟩

theorem expandMatches_isSome (K : Consts) (b : Board) (hrows : b.tiles.length = SIZE)
    (hw : b.width = SIZE) :
    ∀ ms : List (List Cell),
      (∀ m ∈ ms, ∀ c ∈ m, ∃ id, c = some id ∧ (b.objects id).boardY < SIZE) →
      ∃ r, expandMatches K b ms = some r := by
  intro ms
  induction ms with
  | nil => intro _; exact ⟨[], rfl⟩
  | cons m ms ih =>
    intro h
    obtain ⟨m1, hm1⟩ := expandMatch_isSome K b hrows hw m (h m (List.mem_cons_self _ _))
    obtain ⟨r, hr⟩ := ih (fun m2 hm2 => h m2 (List.mem_cons_of_mem _ hm2))
    exact ⟨m1 :: r, by rw [expandMatches, hm1, hr]⟩

theorem calculateMatches_returns (K : Consts) (b : Board) (h : IsFull b.tiles)
    (hw : b.width = SIZE)
    (hy : ∀ r c id, cellOf b.tiles r c = some id → (b.objects id).boardY < SIZE) :
    ∃ b3, calculateMatches K b = some (b3,
      (horizontalRunsFrom b SIZE 0).length + (verticalRunsFrom b SIZE 0).length) := by
  have hS : SIZE = 8 := rfl
  have hscan : ∀ m ∈ (horizontalRunsFrom b SIZE 0).map (rowMatch b) ++
      (verticalRunsFrom b SIZE 0).map (columnMatch b),
      ∀ c ∈ m, ∃ id, c = some id ∧ (b.objects id).boardY < SIZE := by
    intro m hm c hc
    rw [List.mem_append, List.mem_map, List.mem_map] at hm
    rcases hm with ⟨⟨y, s, l⟩, hp, rfl⟩ | ⟨⟨x, s, l⟩, hp, rfl⟩
    · obtain ⟨-, hy1, hr⟩ := (mem_horizontalRunsFrom b SIZE 0 y s l).1 hp
      rw [rowMatch, List.mem_reverse] at hc
      obtain ⟨id, rfl, i, -, hid⟩ := mem_rowCells_full b h y s l (by omega) hr.2.1 c hc
      exact ⟨id, rfl, hy _ _ _ hid⟩
    · obtain ⟨-, hx1, hr⟩ := (mem_verticalRunsFrom b SIZE 0 x s l).1 hp
      rw [columnMatch, List.mem_reverse] at hc
      obtain ⟨id, rfl, i, -, hid⟩ := mem_columnCells_full b h x s l (by omega) hr.2.1 c hc
      exact ⟨id, rfl, hy _ _ _ hid⟩
  obtain ⟨r, hr⟩ := expandMatches_isSome K b h.1.1 hw _ hscan
  have hlen := expandMatches_length K b _ _ hr
  refine ⟨{ b with matchList := r }, ?_⟩
  rw [calculateMatches, scanMatches_full b h]
  simp only [expandMatches_matchList, hr, hlen, List.length_append, List.length_map]

/-! ## Claims about match detection -/

/-- C1 (no false positive).  On a board of 8 x 8 tiles, whatever `this.matches` holds
beforehand, `resolveHorizontalMatches` appends a list `hs` of matches and
`resolveVerticalMatches` a list `vs` such that every match of `hs` consists of the
tiles of `l >= 3` consecutive cells `s, ..., s + l - 1` of one row `y` (pushed from
right to left), all tiles of one colour, and every match of `vs` of the tiles of
`l >= 3` consecutive cells of one column `x`, all of one colour. -/
theorem scan_no_false_positive (b : Board) (h : IsFull b.tiles) :
    ∃ hs vs : List (List Cell),
      resolveHorizontalMatches b = some { b with matchList := b.matchList ++ hs } ∧
      resolveVerticalMatches b = some { b with matchList := b.matchList ++ vs } ∧
      (∀ m ∈ hs, ∃ y s l, y < SIZE ∧ 3 ≤ l ∧ s + l ≤ SIZE ∧
        m = (rowCells b y s l).reverse ∧ m.length = l ∧
        ∀ i, i < l → ∃ id, cellOf b.tiles y (s + i) = some id ∧
          (b.objects id).colour = colourOf b y s) ∧
      (∀ m ∈ vs, ∃ x s l, x < SIZE ∧ 3 ≤ l ∧ s + l ≤ SIZE ∧
        m = (columnCells b x s l).reverse ∧ m.length = l ∧
        ∀ i, i < l → ∃ id, cellOf b.tiles (s + i) x = some id ∧
          (b.objects id).colour = colourOf b s x) := by
  have hS : SIZE = 8 := rfl
  refine ⟨_, _, resolveHorizontalMatches_full b h, resolveVerticalMatches_full b h, ?_, ?_⟩
  · intro m hm
    simp only [List.mem_map] at hm
    obtain ⟨⟨y, s, l⟩, hp, rfl⟩ := hm
    obtain ⟨-, hy, h3, h8, hrun, -, -⟩ := (mem_horizontalRunsFrom b SIZE 0 y s l).1 hp
    refine ⟨y, s, l, by omega, h3, h8, rfl, by simp [rowMatch, rowCells], ?_⟩
    intro i hi
    obtain ⟨id, hid⟩ := isFull_cell h (show y < SIZE by omega) (show s + i < SIZE by omega)
    refine ⟨id, hid, ?_⟩
    have := hrun i hi
    simp only [colourOf, hid] at this
    exact this
  · intro m hm
    simp only [List.mem_map] at hm
    obtain ⟨⟨x, s, l⟩, hp, rfl⟩ := hm
    obtain ⟨-, hx, h3, h8, hrun, -, -⟩ := (mem_verticalRunsFrom b SIZE 0 x s l).1 hp
    refine ⟨x, s, l, by omega, h3, h8, rfl, by simp [columnMatch, columnCells], ?_⟩
    intro i hi
    obtain ⟨id, hid⟩ := isFull_cell h (show s + i < SIZE by omega) (show x < SIZE by omega)
    refine ⟨id, hid, ?_⟩
    have := hrun i hi
    simp only [colourOf, hid] at this
    exact this

/-- Witness for C1: `sampleBoard` is a board of 8 x 8 tiles. -/
theorem scan_no_false_positive_witness :
    IsFull sampleBoard.tiles ∧
    ∃ hs vs : List (List Cell),
      resolveHorizontalMatches sampleBoard =
        some { sampleBoard with matchList := sampleBoard.matchList ++ hs } ∧
      resolveVerticalMatches sampleBoard =
        some { sampleBoard with matchList := sampleBoard.matchList ++ vs } ∧
      (∀ m ∈ hs, ∃ y s l, y < SIZE ∧ 3 ≤ l ∧ s + l ≤ SIZE ∧
        m = (rowCells sampleBoard y s l).reverse ∧ m.length = l ∧
        ∀ i, i < l → ∃ id, cellOf sampleBoard.tiles y (s + i) = some id ∧
          (sampleBoard.objects id).colour = colourOf sampleBoard y s) ∧
      (∀ m ∈ vs, ∃ x s l, x < SIZE ∧ 3 ≤ l ∧ s + l ≤ SIZE ∧
        m = (columnCells sampleBoard x s l).reverse ∧ m.length = l ∧
        ∀ i, i < l → ∃ id, cellOf sampleBoard.tiles (s + i) x = some id ∧
          (sampleBoard.objects id).colour = colourOf sampleBoard s x) :=
  ⟨by decide, scan_no_false_positive sampleBoard (by decide)⟩

/-- C2 (no false negative).  On a board of 8 x 8 tiles there are duplicate-free lists
`hr` of triples `(y, s, l)` and `vr` of triples `(x, s, l)` that enumerate exactly
the maximal runs of length at least 3 of the rows, respectively of the columns, such
that the horizontal scan appends exactly one match per element of `hr`, holding the
tiles of the cells of that run, and the vertical scan exactly one match per element
of `vr`.  The number that `calculateMatches` returns is the number of these runs: it
is so whenever the call returns, and the call returns when the board is 8 wide and
the tiles of the grid record a row `boardY` below 8 (as tiles placed on a grid do). -/
theorem scan_no_false_negative (K : Consts) (b : Board) (h : IsFull b.tiles) :
    ∃ hr vr : List (Nat × Nat × Nat),
      hr.Nodup ∧ vr.Nodup ∧
      (∀ y s l, (y, s, l) ∈ hr ↔ (y < SIZE ∧ IsMaximalRun (fun x => colourOf b y x) s l)) ∧
      (∀ x s l, (x, s, l) ∈ vr ↔ (x < SIZE ∧ IsMaximalRun (fun y => colourOf b y x) s l)) ∧
      resolveHorizontalMatches b =
        some { b with
          matchList := b.matchList ++ hr.map (fun p => (rowCells b p.1 p.2.1 p.2.2).reverse) } ∧
      resolveVerticalMatches b =
        some { b with
          matchList := b.matchList ++ vr.map (fun p => (columnCells b p.1 p.2.1 p.2.2).reverse) } ∧
      (∀ b3 n, calculateMatches K b = some (b3, n) → n = hr.length + vr.length) ∧
      (b.width = SIZE →
        (∀ r c id, cellOf b.tiles r c = some id → (b.objects id).boardY < SIZE) →
        ∃ b3, calculateMatches K b = some (b3, hr.length + vr.length)) := by
  refine ⟨horizontalRunsFrom b SIZE 0, verticalRunsFrom b SIZE 0,
    nodup_horizontalRunsFrom b SIZE 0, nodup_verticalRunsFrom b SIZE 0, ?_, ?_,
    resolveHorizontalMatches_full b h, resolveVerticalMatches_full b h,
    fun b3 n hc => calculateMatches_count K b h b3 n hc,
    fun hw hy => calculateMatches_returns K b h hw hy⟩
  · intro y s l
    rw [mem_horizontalRunsFrom]
    constructor
    · rintro ⟨-, h2, h3⟩; exact ⟨by omega, h3⟩
    · rintro ⟨h2, h3⟩; exact ⟨Nat.zero_le _, by omega, h3⟩
  · intro x s l
    rw [mem_verticalRunsFrom]
    constructor
    · rintro ⟨-, h2, h3⟩; exact ⟨by omega, h3⟩
    · rintro ⟨h2, h3⟩; exact ⟨Nat.zero_le _, by omega, h3⟩

/-! ## Writing the grid -/

theorem inRange_iff (tiles : List (List Cell)) (row col : Nat) :
    InRange tiles row col ↔ ∃ r, tiles[row]? = some r ∧ col < r.length := by
  simp only [InRange, shape, List.getD_eq_getElem?_getD, List.getElem?_map]
  cases tiles[row]? with
  | none => simp
  | some r => simp

theorem inRange_of_cellOf {tiles : List (List Cell)} {row col id : Nat}
    (h : cellOf tiles row col = some id) : InRange tiles row col := by
  rw [inRange_iff]
  simp only [cellOf] at h
  cases hrow : tiles[row]? with
  | none => simp [hrow] at h
  | some r =>
    refine ⟨r, rfl, ?_⟩
    simp only [hrow] at h
    cases hcell : r[col]? with
    | none => simp [hcell] at h
    | some c => exact (List.getElem?_eq_some.1 hcell).1

theorem isGrid_iff_shape (tiles : List (List Cell)) :
    IsGrid tiles ↔ shape tiles = List.replicate SIZE SIZE := by
  simp only [IsGrid, shape, List.eq_replicate_iff, List.length_map, List.mem_map,
    forall_exists_index, and_imp, forall_apply_eq_imp_iff₂]

theorem inRange_of_isGrid {tiles : List (List Cell)} (h : IsGrid tiles) {row col : Nat}
    (hr : row < SIZE) (hc : col < SIZE) : InRange tiles row col := by
  rw [inRange_iff]
  obtain ⟨r, h1, h2⟩ := isGrid_row h hr
  exact ⟨r, h1, by rw [h2]; exact hc⟩

theorem inRange_of_shape {t1 t2 : List (List Cell)} (h : shape t1 = shape t2) {row col : Nat}
    (hin : InRange t2 row col) : InRange t1 row col := by
  simp only [InRange, h] at *
  exact hin

theorem isGrid_of_shape {t1 t2 : List (List Cell)} (h : shape t1 = shape t2)
    (hg : IsGrid t2) : IsGrid t1 := by
  rw [isGrid_iff_shape] at *
  rw [h, hg]

theorem setCell_of_inRange {tiles : List (List Cell)} {row col : Nat} (v : Cell)
    (h : InRange tiles row col) : ∃ t, setCell tiles row col v = some t := by
  obtain ⟨r, h1, h2⟩ := (inRange_iff _ _ _).1 h
  exact ⟨tiles.set row (r.set col v), by simp only [setCell, h1, h2, if_true]⟩

theorem setCell_spec {tiles t : List (List Cell)} {row col : Nat} {v : Cell}
    (h : setCell tiles row col v = some t) :
    shape t = shape tiles ∧
      ∀ r c, cellOf t r c = if r = row ∧ c = col then v else cellOf tiles r c := by
  simp only [setCell] at h
  cases hrow : tiles[row]? with
  | none => simp [hrow] at h
  | some rw0 =>
    simp only [hrow] at h
    by_cases hc : col < rw0.length
    · simp only [hc, if_true, Option.some.injEq] at h
      subst h
      obtain ⟨hlt, hget⟩ := List.getElem?_eq_some.1 hrow
      constructor
      · simp only [shape, List.map_set, List.length_set]
        apply List.ext_getElem?
        intro n
        rw [List.getElem?_set]
        by_cases hn : row = n
        · subst hn; simp [hlt, hget]
        · simp [hn]
      · intro r c
        simp only [cellOf, List.getElem?_set]
        by_cases hr : row = r
        · subst hr
          simp only [if_true, hlt, true_and]
          by_cases hcc : col = c
          · subst hcc; simp [hc]
          · have hcc2 : ¬ c = col := fun e => hcc e.symm
            simp [hcc, hcc2, hrow]
        · have hr2 : ¬ r = row := fun e => hr e.symm
          simp [hr, hr2]
    · simp [hc] at h

theorem cellOf_eq_none_of_not_inRange {tiles : List (List Cell)} {row col : Nat}
    (h : ¬ InRange tiles row col) : cellOf tiles row col = none := by
  cases hc : cellOf tiles row col with
  | none => rfl
  | some id => exact absurd (inRange_of_cellOf hc) h

theorem grid_ext {t1 t2 : List (List Cell)} (hs : shape t1 = shape t2)
    (hc : ∀ r c, cellOf t1 r c = cellOf t2 r c) : t1 = t2 := by
  apply List.ext_getElem?
  intro r
  have hsr : (shape t1)[r]? = (shape t2)[r]? := by rw [hs]
  simp only [shape, List.getElem?_map] at hsr
  cases h1 : t1[r]? with
  | none =>
    cases h2 : t2[r]? with
    | none => rfl
    | some r2 => simp [h1, h2] at hsr
  | some r1 =>
    cases h2 : t2[r]? with
    | none => simp [h1, h2] at hsr
    | some r2 =>
      simp only [h1, h2, Option.map_some', Option.some.injEq] at hsr
      congr 1
      apply List.ext_getElem?
      intro c
      have := hc r c
      simp only [cellOf, h1, h2] at this
      cases hc1 : r1[c]? with
      | none =>
        have : r1.length ≤ c := List.getElem?_eq_none_iff.1 hc1
        rw [List.getElem?_eq_none (by omega)]
      | some v1 =>
        have hl : c < r2.length := by
          have := (List.getElem?_eq_some.1 hc1).1; omega
        rw [List.getElem?_eq_getElem hl] at this ⊢
        simp only [hc1] at this
        rw [this]

/-! ## Swapping two tiles -/

theorem swapTilesAsync_eq (b : Board) (a c : Nat) : swapTilesAsync b a c = swapTiles b a c := rfl

theorem swapTiles_objects_ne (objects : Nat → Tile) (a c : Nat) (hne : a ≠ c) :
    setBoardY (setBoardX (setBoardY (setBoardX objects a (objects c).boardX) a
        ((setBoardX objects a (objects c).boardX) c).boardY) c (objects a).boardX) c
        (objects a).boardY =
      swappedObjects objects a c (objects a).boardX (objects a).boardY (objects c).boardX
        (objects c).boardY := by
  funext i
  have hne2 : ¬ c = a := fun e => hne e.symm
  by_cases hc : i = c
  · subst hc
    simp [setBoardX, setBoardY, swappedObjects, hne2]
  · by_cases ha : i = a
    · subst ha
      simp [setBoardX, setBoardY, swappedObjects, hne, hne2]
    · simp [setBoardX, setBoardY, swappedObjects, hc, ha]

theorem swapTiles_objects_self (objects : Nat → Tile) (a : Nat) :
    setBoardY (setBoardX (setBoardY (setBoardX objects a (objects a).boardX) a
        ((setBoardX objects a (objects a).boardX) a).boardY) a (objects a).boardX) a
        (objects a).boardY = objects := by
  funext i
  by_cases ha : i = a
  · subst ha
    simp [setBoardX, setBoardY]
  · simp [setBoardX, setBoardY, ha]

theorem swapTiles_spec (b : Board) (a c xa ya xc yc : Nat)
    (hina : InRange b.tiles ya xa) (hinc : InRange b.tiles yc xc)
    (hax : (b.objects a).boardX = xa) (hay : (b.objects a).boardY = ya)
    (hcx : (b.objects c).boardX = xc) (hcy : (b.objects c).boardY = yc) (hne : a ≠ c) :
    ∃ t, swapTiles b a c =
        some { b with tiles := t, objects := swappedObjects b.objects a c xa ya xc yc } ∧
      shape t = shape b.tiles ∧
      ∀ r col, cellOf t r col =
        if r = ya ∧ col = xa then some c
        else if r = yc ∧ col = xc then some a else cellOf b.tiles r col := by
  have hne2 : ¬ c = a := fun e => hne e.symm
  obtain ⟨t1, ht1⟩ := setCell_of_inRange (some a) hinc
  obtain ⟨hs1, hc1⟩ := setCell_spec ht1
  obtain ⟨t2, ht2⟩ := setCell_of_inRange (some c) (inRange_of_shape hs1 hina)
  obtain ⟨hs2, hc2⟩ := setCell_spec ht2
  refine ⟨t2, ?_, hs2.trans hs1, ?_⟩
  · have hobj := swapTiles_objects_ne b.objects a c hne
    rw [hax, hay, hcx, hcy] at hobj
    simp only [swapTiles, hax, hay, hcx, hcy]
    rw [hobj]
    simp only [swappedObjects, hne, hne2, if_true, if_false, ht1, ht2]
  · intro r col
    rw [hc2, hc1]

theorem swapTiles_self (b : Board) (a xa ya : Nat) (ha : cellOf b.tiles ya xa = some a)
    (hax : (b.objects a).boardX = xa) (hay : (b.objects a).boardY = ya) :
    swapTiles b a a = some b := by
  obtain ⟨t1, ht1⟩ := setCell_of_inRange (some a) (inRange_of_cellOf ha)
  obtain ⟨hs1, hc1⟩ := setCell_spec ht1
  have e1 : t1 = b.tiles := by
    apply grid_ext hs1
    intro r col
    rw [hc1]
    split_ifs with h
    · rw [h.1, h.2, ha]
    · rfl
  subst e1
  have hobj := swapTiles_objects_self b.objects a
  simp only [swapTiles]
  rw [hobj]
  simp only [hax, hay, ht1]

/-- C7 (swap mechanics).  On a board whose tiles record their own coordinates, for two
distinct tiles `a` in cell `(xa, ya)` and `c` in cell `(xc, yc)`, `swapTiles(a, c)`
and `swapTilesAsync(a, c)` return the same board, in which cell `(xa, ya)` holds `c`,
cell `(xc, yc)` holds `a`, `a` records `(xc, yc)`, `c` records `(xa, ya)`, every other
cell and every other tile object is unchanged, the rows keep their lengths, and the
colour and pattern of `a` and `c` are unchanged. -/
theorem swap_mechanics (b : Board) (hinv : CoordInv b) (a c xa ya xc yc : Nat)
    (ha : cellOf b.tiles ya xa = some a) (hc : cellOf b.tiles yc xc = some c) (hne : a ≠ c) :
    ∃ b2, swapTiles b a c = some b2 ∧ swapTilesAsync b a c = some b2 ∧
      cellOf b2.tiles ya xa = some c ∧ cellOf b2.tiles yc xc = some a ∧
      (b2.objects a).boardX = xc ∧ (b2.objects a).boardY = yc ∧
      (b2.objects c).boardX = xa ∧ (b2.objects c).boardY = ya ∧
      (∀ r col, ¬ (r = ya ∧ col = xa) → ¬ (r = yc ∧ col = xc) →
        cellOf b2.tiles r col = cellOf b.tiles r col) ∧
      (∀ id, id ≠ a → id ≠ c → b2.objects id = b.objects id) ∧
      shape b2.tiles = shape b.tiles ∧
      (b2.objects a).colour = (b.objects a).colour ∧
      (b2.objects a).pattern = (b.objects a).pattern ∧
      (b2.objects c).colour = (b.objects c).colour ∧
      (b2.objects c).pattern = (b.objects c).pattern := by
  obtain ⟨hax, hay⟩ := hinv _ _ _ ha
  obtain ⟨hcx, hcy⟩ := hinv _ _ _ hc
  obtain ⟨t, hsw, hst, hct⟩ := swapTiles_spec b a c xa ya xc yc (inRange_of_cellOf ha)
    (inRange_of_cellOf hc) hax hay hcx hcy hne
  have hne2 : ¬ c = a := fun e => hne e.symm
  have hcell : ¬ (yc = ya ∧ xc = xa) := by
    rintro ⟨e1, e2⟩
    rw [e1, e2, ha] at hc
    exact hne (Option.some.inj hc)
  refine ⟨_, hsw, by rw [swapTilesAsync_eq]; exact hsw, ?_, ?_, ?_, ?_, ?_, ?_, ?_, ?_, hst,
    ?_, ?_, ?_, ?_⟩
  · simp [hct]
  · simp [hct, hcell]
  · simp [swappedObjects, hne]
  · simp [swappedObjects, hne]
  · simp [swappedObjects]
  · simp [swappedObjects]
  · intro r col h1 h2
    simp [hct, h1, h2]
  · intro id h1 h2
    simp [swappedObjects, h1, h2]
  · simp [swappedObjects, hne]
  · simp [swappedObjects, hne]
  · simp [swappedObjects]
  · simp [swappedObjects]

/-- C6 (swap symmetry).  On a board whose tiles record their own coordinates, for any
two tiles `a` and `c` of the board (equal or not), `swapTiles(a, c)` followed by
`swapTiles(c, a)` returns the board it started from: the same grid and the same tile
objects, hence the same boardX, boardY, colour and pattern for every tile. -/
theorem swap_symmetry (b : Board) (hinv : CoordInv b) (a c xa ya xc yc : Nat)
    (ha : cellOf b.tiles ya xa = some a) (hc : cellOf b.tiles yc xc = some c) :
    ∃ b1, swapTiles b a c = some b1 ∧ swapTiles b1 c a = some b := by
  obtain ⟨hax, hay⟩ := hinv _ _ _ ha
  obtain ⟨hcx, hcy⟩ := hinv _ _ _ hc
  by_cases hne : a = c
  · subst hne
    exact ⟨b, swapTiles_self b a xa ya ha hax hay, swapTiles_self b a xa ya ha hax hay⟩
  · have hne2 : ¬ c = a := fun e => hne e.symm
    have hcell : ¬ (yc = ya ∧ xc = xa) := by
      rintro ⟨e1, e2⟩
      rw [e1, e2, ha] at hc
      exact hne (Option.some.inj hc)
    obtain ⟨t, hsw, hst, hct⟩ := swapTiles_spec b a c xa ya xc yc (inRange_of_cellOf ha)
      (inRange_of_cellOf hc) hax hay hcx hcy hne
    refine ⟨_, hsw, ?_⟩
    obtain ⟨t2, hsw2, hst2, hct2⟩ := swapTiles_spec
      { b with tiles := t, objects := swappedObjects b.objects a c xa ya xc yc } c a xa ya xc yc
      (inRange_of_shape hst (inRange_of_cellOf ha)) (inRange_of_shape hst (inRange_of_cellOf hc))
      (by simp [swappedObjects]) (by simp [swappedObjects])
      (by simp [swappedObjects, hne]) (by simp [swappedObjects, hne]) hne2
    rw [hsw2]
    have et : t2 = b.tiles := by
      apply grid_ext (hst2.trans hst)
      intro r col
      simp only at hct2
      rw [hct2, hct]
      by_cases h1 : r = ya ∧ col = xa
      · simp only [h1, and_self, if_true]; rw [ha]
      · by_cases h2 : r = yc ∧ col = xc
        · simp only [h1, h2, and_self, if_true, if_false]
          rw [hc]
          simp [hcell]
        · simp only [h1, h2, if_false]
    have eo : swappedObjects (swappedObjects b.objects a c xa ya xc yc) c a xa ya xc yc
        = b.objects := by
      funext i
      by_cases hia : i = a
      · subst hia
        simp only [swappedObjects, if_true, hne, if_false]
        cases hobj : b.objects i
        simp only [hobj] at hax hay
        simp [hax, hay]
      · by_cases hic : i = c
        · subst hic
          simp only [swappedObjects, if_true, hia, if_false]
          cases hobj : b.objects i
          simp only [hobj] at hcx hcy
          simp [hcx, hcy]
        · simp [swappedObjects, hia, hic]
    simp only [et, eo]

/-- Witness for C6: tiles 0 and 1 of `sampleBoard` sit in cells `(0, 0)` and `(1, 0)`. -/
theorem swap_symmetry_witness :
    ∃ b1, swapTiles sampleBoard 0 1 = some b1 ∧ swapTiles b1 1 0 = some sampleBoard :=
  swap_symmetry sampleBoard ((coordInv_iff_check sampleBoard).2 (by decide)) 0 1 0 0 1 0
    (by decide) (by decide)

/-- Witness for C7: tiles 0 and 9 of `sampleBoard` sit in cells `(0, 0)` and `(1, 1)`. -/
theorem swap_mechanics_witness :
    ∃ b2, swapTiles sampleBoard 0 9 = some b2 ∧ swapTilesAsync sampleBoard 0 9 = some b2 ∧
      cellOf b2.tiles 0 0 = some 9 ∧ cellOf b2.tiles 1 1 = some 0 ∧
      (b2.objects 0).boardX = 1 ∧ (b2.objects 0).boardY = 1 ∧
      (b2.objects 9).boardX = 0 ∧ (b2.objects 9).boardY = 0 ∧
      (∀ r col, ¬ (r = 0 ∧ col = 0) → ¬ (r = 1 ∧ col = 1) →
        cellOf b2.tiles r col = cellOf sampleBoard.tiles r col) ∧
      (∀ id, id ≠ 0 → id ≠ 9 → b2.objects id = sampleBoard.objects id) ∧
      shape b2.tiles = shape sampleBoard.tiles ∧
      (b2.objects 0).colour = (sampleBoard.objects 0).colour ∧
      (b2.objects 0).pattern = (sampleBoard.objects 0).pattern ∧
      (b2.objects 9).colour = (sampleBoard.objects 9).colour ∧
      (b2.objects 9).pattern = (sampleBoard.objects 9).pattern :=
  swap_mechanics sampleBoard ((coordInv_iff_check sampleBoard).2 (by decide)) 0 9 0 0 1 1
    (by decide) (by decide) (by decide)

/-! ## Tile selection -/

theorem readCell_of_cellOf {tiles : List (List Cell)} {row col id : Nat}
    (h : cellOf tiles row col = some id) : readCell tiles row col = some (some id) := by
  rw [readCell_eq _ _ _ (cellOf_lt h).1, h]

/-- C8 (swap legality).  On a board whose tiles record their own coordinates, with the
tile `sel` of cell `(xs, ys)` selected and a tile `hl` under the cursor, let `d` be
the Manhattan distance between the two cells.  It is also the `tileDistance` that
`selectTile` computes.  If `d = 1`, `selectTile` is exactly the play state's
`swapTiles(hl)`, whose first step `swapTilesAsync(sel, hl)` succeeds and exchanges
the two tiles; if `d = 0` it only clears the selection; if `d > 1` it clears the
selection and plays the error sound; in the last two cases the board and everything
else in the state is unchanged. -/
theorem select_legality (K : Consts) (draws : Nat → Nat) (fuel k : Nat) (st : PlayState)
    (hinv : CoordInv st.board) (sel hl xs ys : Nat)
    (hsel : st.selectedTile = some sel)
    (hs : cellOf st.board.tiles ys xs = some sel)
    (hh : cellOf st.board.tiles st.cursorY st.cursorX = some hl) :
    tileDistance (st.board.objects sel) (st.board.objects hl) =
        Int.natAbs ((xs : Int) - st.cursorX) + Int.natAbs ((ys : Int) - st.cursorY) ∧
      (Int.natAbs ((xs : Int) - st.cursorX) + Int.natAbs ((ys : Int) - st.cursorY) = 1 →
        PlayState.selectTile K draws fuel k st = PlayState.swapTiles K draws fuel k st hl ∧
        ∃ b1, swapTilesAsync st.board sel hl = some b1 ∧
          cellOf b1.tiles ys xs = some hl ∧ cellOf b1.tiles st.cursorY st.cursorX = some sel) ∧
      (Int.natAbs ((xs : Int) - st.cursorX) + Int.natAbs ((ys : Int) - st.cursorY) = 0 →
        PlayState.selectTile K draws fuel k st = some ({ st with selectedTile := none }, k)) ∧
      (Int.natAbs ((xs : Int) - st.cursorX) + Int.natAbs ((ys : Int) - st.cursorY) > 1 →
        PlayState.selectTile K draws fuel k st =
          some ({ st with selectedTile := none,
                          sounds := st.sounds ++ [SoundName.Error] }, k)) := by
  obtain ⟨hsx, hsy⟩ := hinv _ _ _ hs
  obtain ⟨hhx, hhy⟩ := hinv _ _ _ hh
  have hd : tileDistance (st.board.objects sel) (st.board.objects hl) =
      Int.natAbs ((xs : Int) - st.cursorX) + Int.natAbs ((ys : Int) - st.cursorY) := by
    simp only [tileDistance, hsx, hsy, hhx, hhy]
  have hread := readCell_of_cellOf hh
  have hsame : sel = hl ↔
      Int.natAbs ((xs : Int) - st.cursorX) + Int.natAbs ((ys : Int) - st.cursorY) = 0 := by
    constructor
    · intro e
      subst e
      have e1 : xs = st.cursorX := by rw [← hsx, hhx]
      have e2 : ys = st.cursorY := by rw [← hsy, hhy]
      rw [e1, e2]; simp
    · intro e
      have e1 : xs = st.cursorX := by omega
      have e2 : ys = st.cursorY := by omega
      rw [e1, e2, hh] at hs
      exact (Option.some.inj hs).symm
  refine ⟨hd, ?_, ?_, ?_⟩
  · intro h1
    have hne : ¬ sel = hl := fun e => by have := hsame.1 e; omega
    constructor
    · simp only [PlayState.selectTile, hread, hsel, hne, if_false, hd, h1]
      simp
    · obtain ⟨t, hsw, -, hct⟩ := swapTiles_spec st.board sel hl xs ys st.cursorX st.cursorY
        (inRange_of_cellOf hs) (inRange_of_cellOf hh) hsx hsy hhx hhy hne
      have hcell : ¬ (st.cursorY = ys ∧ st.cursorX = xs) := by
        rintro ⟨e1, e2⟩
        rw [e1, e2, hs] at hh
        exact hne (Option.some.inj hh)
      refine ⟨_, by rw [swapTilesAsync_eq]; exact hsw, ?_, ?_⟩
      · simp [hct]
      · simp [hct, hcell]
  · intro h0
    have he : sel = hl := hsame.2 h0
    simp only [PlayState.selectTile, hread, hsel, he, if_true]
  · intro h2
    have hne : ¬ sel = hl := fun e => by have := hsame.1 e; omega
    simp only [PlayState.selectTile, hread, hsel, hne, if_false, hd, h2, if_true]

/-- Witness for C8: on `samplePlayState` the selected tile 0 sits in cell `(0, 0)` and
the cursor is on cell `(1, 0)`, which holds tile 1. -/
theorem select_legality_witness :
    PlayState.selectTile sampleConsts (fun _ => 0) 1 0 samplePlayState =
        PlayState.swapTiles sampleConsts (fun _ => 0) 1 0 samplePlayState 1 ∧
      ∃ b1, swapTilesAsync samplePlayState.board 0 1 = some b1 ∧
        cellOf b1.tiles 0 0 = some 1 ∧
        cellOf b1.tiles samplePlayState.cursorY samplePlayState.cursorX = some 0 :=
  (select_legality sampleConsts (fun _ => 0) 1 0 samplePlayState
    ((coordInv_iff_check sampleBoard).2 (by decide)) 0 1 0 0 rfl (by decide) (by decide)).2.1
    (by decide)

/-! ## Removing matches -/

theorem removeMatch_spec (objects : Nat → Tile) :
    ∀ (m : List Cell) (tiles : List (List Cell)),
      (∀ e ∈ m, ∃ id, e = some id ∧ InRange tiles (objects id).boardY (objects id).boardX) →
      ∃ t, removeMatch objects tiles m = some t ∧ shape t = shape tiles ∧
        ∀ r c, ((∃ id, some id ∈ m ∧ (objects id).boardY = r ∧ (objects id).boardX = c) →
            cellOf t r c = none) ∧
          ((¬ ∃ id, some id ∈ m ∧ (objects id).boardY = r ∧ (objects id).boardX = c) →
            cellOf t r c = cellOf tiles r c) := by
  intro m
  induction m with
  | nil =>
    intro tiles _
    exact ⟨tiles, rfl, rfl, fun r c => ⟨fun ⟨id, h, _⟩ => by simp at h, fun _ => rfl⟩⟩
  | cons e m ih =>
    intro tiles h
    obtain ⟨id, rfl, hin⟩ := h e (List.mem_cons_self _ _)
    obtain ⟨t1, ht1⟩ := setCell_of_inRange none hin
    obtain ⟨hs1, hc1⟩ := setCell_spec ht1
    obtain ⟨t, ht, hs, hc⟩ := ih t1 (fun e he => by
      obtain ⟨id2, e2, hin2⟩ := h e (List.mem_cons_of_mem _ he)
      exact ⟨id2, e2, inRange_of_shape hs1 hin2⟩)
    refine ⟨t, by simp only [removeMatch, ht1, ht], hs.trans hs1, ?_⟩
    intro r c
    constructor
    · rintro ⟨id2, hmem, hy, hx⟩
      by_cases hex : ∃ id, some id ∈ m ∧ (objects id).boardY = r ∧ (objects id).boardX = c
      · exact (hc r c).1 hex
      · rw [(hc r c).2 hex, hc1]
        rcases List.mem_cons.1 hmem with heq | hm2
        · have : id2 = id := Option.some.inj heq
          subst this
          simp [hy, hx]
        · exact absurd ⟨id2, hm2, hy, hx⟩ hex
    · intro hno
      have hno2 : ¬ ∃ id, some id ∈ m ∧ (objects id).boardY = r ∧ (objects id).boardX = c := by
        rintro ⟨id2, hm2, hy, hx⟩
        exact hno ⟨id2, List.mem_cons_of_mem _ hm2, hy, hx⟩
      rw [(hc r c).2 hno2, hc1]
      have : ¬ (r = (objects id).boardY ∧ c = (objects id).boardX) := by
        rintro ⟨e1, e2⟩
        exact hno ⟨id, List.mem_cons_self _ _, e1.symm, e2.symm⟩
      simp [this]

theorem removeMatchList_spec (objects : Nat → Tile) :
    ∀ (ms : List (List Cell)) (tiles : List (List Cell)), MatchesInGrid objects tiles ms →
      ∃ t, removeMatchList objects tiles ms = some t ∧ shape t = shape tiles ∧
        ∀ r c, (Targeted objects ms r c → cellOf t r c = none) ∧
          (¬ Targeted objects ms r c → cellOf t r c = cellOf tiles r c) := by
  intro ms
  induction ms with
  | nil =>
    intro tiles _
    exact ⟨tiles, rfl, rfl, fun r c => ⟨fun ⟨m, h, _⟩ => by simp at h, fun _ => rfl⟩⟩
  | cons m ms ih =>
    intro tiles h
    obtain ⟨t1, ht1, hs1, hc1⟩ := removeMatch_spec objects m tiles (h m (List.mem_cons_self _ _))
    obtain ⟨t, ht, hs, hc⟩ := ih t1 (fun m2 hm2 e he => by
      obtain ⟨id2, e2, hin2⟩ := h m2 (List.mem_cons_of_mem _ hm2) e he
      exact ⟨id2, e2, inRange_of_shape hs1 hin2⟩)
    refine ⟨t, by simp only [removeMatchList, ht1, ht], hs.trans hs1, ?_⟩
    intro r c
    constructor
    · rintro ⟨m2, hm2, id, hid, hy, hx⟩
      by_cases hex : Targeted objects ms r c
      · exact (hc r c).1 hex
      · rw [(hc r c).2 hex]
        rcases List.mem_cons.1 hm2 with heq | hm3
        · subst heq
          exact (hc1 r c).1 ⟨id, hid, hy, hx⟩
        · exact absurd ⟨m2, hm3, id, hid, hy, hx⟩ hex
    · intro hno
      have hno2 : ¬ Targeted objects ms r c := by
        rintro ⟨m2, hm2, rest⟩
        exact hno ⟨m2, List.mem_cons_of_mem _ hm2, rest⟩
      rw [(hc r c).2 hno2]
      apply (hc1 r c).2
      rintro ⟨id, hid, hy, hx⟩
      exact hno ⟨m, List.mem_cons_self _ _, id, hid, hy, hx⟩

theorem removeMatches_spec (b : Board) (h : MatchesInGrid b.objects b.tiles b.matchList) :
    ∃ t, removeMatches b = some { b with tiles := t, matchList := [] } ∧
      shape t = shape b.tiles ∧
      ∀ r c, (Targeted b.objects b.matchList r c → cellOf t r c = none) ∧
        (¬ Targeted b.objects b.matchList r c → cellOf t r c = cellOf b.tiles r c) := by
  by_cases h0 : b.matchList.length = 0
  · have hnil : b.matchList = [] := List.length_eq_zero.1 h0
    refine ⟨b.tiles, ?_, rfl, fun r c => ⟨?_, fun _ => rfl⟩⟩
    · simp only [removeMatches, h0, if_true]
      cases b
      simp only at hnil
      simp [hnil]
    · rintro ⟨m, hm, _⟩
      rw [hnil] at hm
      simp at hm
  · obtain ⟨t, ht, hs, hc⟩ := removeMatchList_spec b.objects b.matchList b.tiles h
    exact ⟨t, by simp only [removeMatches, h0, if_false, ht], hs, hc⟩

/-! ## Claim about star expansion -/

theorem mem_expandedRowMatch (K : Consts) (b : Board) (h : IsFull b.tiles) (y s l : Nat)
    (hy : y < SIZE) (hsl : s + l ≤ SIZE) :
    ∀ e ∈ expandedRowMatch K b (y, s, l), ∃ id c, e = some id ∧ cellOf b.tiles y c = some id := by
  intro e he
  simp only [expandedRowMatch] at he
  split_ifs at he
  · obtain ⟨id, rfl, i, -, hid⟩ := mem_rowCells_full b h y 0 SIZE hy (by simp) e he
    exact ⟨id, _, rfl, hid⟩
  · rw [rowMatch, List.mem_reverse] at he
    obtain ⟨id, rfl, i, -, hid⟩ := mem_rowCells_full b h y s l hy hsl e he
    exact ⟨id, _, rfl, hid⟩

theorem mem_expandedColumnMatch (K : Consts) (b : Board) (h : IsFull b.tiles) (x s l : Nat)
    (hx : x < SIZE) (hsl : s + l ≤ SIZE) :
    ∀ e ∈ expandedColumnMatch K b (x, s, l), ∃ id r, e = some id ∧
      cellOf b.tiles r x = some id := by
  intro e he
  simp only [expandedColumnMatch] at he
  split_ifs at he
  · obtain ⟨id, rfl, i, -, hid⟩ := mem_columnCells_full b h x 0 SIZE hx (by simp) e he
    exact ⟨id, _, rfl, hid⟩
  · rw [columnMatch, List.mem_reverse] at he
    obtain ⟨id, rfl, i, -, hid⟩ := mem_columnCells_full b h x s l hx hsl e he
    exact ⟨id, _, rfl, hid⟩

theorem matches_onBoard (K : Consts) (b : Board) (h : IsFull b.tiles) :
    ∀ m ∈ (horizontalRunsFrom b SIZE 0).map (expandedRowMatch K b) ++
        (verticalRunsFrom b SIZE 0).map (expandedColumnMatch K b),
      ∀ e ∈ m, ∃ id r c, e = some id ∧ cellOf b.tiles r c = some id := by
  have hS : SIZE = 8 := rfl
  intro m hm e he
  rw [List.mem_append, List.mem_map, List.mem_map] at hm
  rcases hm with ⟨⟨y, s, l⟩, hp, rfl⟩ | ⟨⟨x, s, l⟩, hp, rfl⟩
  · obtain ⟨-, hy, hr⟩ := (mem_horizontalRunsFrom b SIZE 0 y s l).1 hp
    obtain ⟨id, c, h1, h2⟩ := mem_expandedRowMatch K b h y s l (by omega) hr.2.1 e he
    exact ⟨id, y, c, h1, h2⟩
  · obtain ⟨-, hx, hr⟩ := (mem_verticalRunsFrom b SIZE 0 x s l).1 hp
    obtain ⟨id, r, h1, h2⟩ := mem_expandedColumnMatch K b h x s l (by omega) hr.2.1 e he
    exact ⟨id, r, x, h1, h2⟩

theorem matchesInGrid_of_onBoard (b : Board) (hinv : CoordInv b) (ms : List (List Cell))
    (h : ∀ m ∈ ms, ∀ e ∈ m, ∃ id r c, e = some id ∧ cellOf b.tiles r c = some id) :
    MatchesInGrid b.objects b.tiles ms := by
  intro m hm e he
  obtain ⟨id, r, c, h1, h2⟩ := h m hm e he
  obtain ⟨hx, hy⟩ := hinv _ _ _ h2
  exact ⟨id, h1, by rw [hx, hy]; exact inRange_of_cellOf h2⟩

/-- C3 (star expansion).  On a board of 8 x 8 tiles that record their own coordinates,
with `hr` and `vr` the duplicate-free enumerations of the maximal runs of the rows
and of the columns, the scan yields one match per run and `calculateMatches`
replaces the match of every run that contains a Star tile by the 8 tiles of that
run's own row (horizontal run `(y, s, l)`: row `y`, left to right) or of its own
column (vertical run `(x, s, l)`: column `x`, top to bottom), leaving the matches of
the other runs as scanned; `removeMatches` then returns and leaves every cell of
such a row or column empty. -/
theorem star_expansion (K : Consts) (b : Board) (h : IsFull b.tiles) (hinv : CoordInv b)
    (hw : b.width = SIZE) (hh : b.height = SIZE) :
    ∃ (hr vr : List (Nat × Nat × Nat)) (b3 b4 : Board),
      hr.Nodup ∧ vr.Nodup ∧
      (∀ y s l, (y, s, l) ∈ hr ↔ (y < SIZE ∧ IsMaximalRun (fun x => colourOf b y x) s l)) ∧
      (∀ x s l, (x, s, l) ∈ vr ↔ (x < SIZE ∧ IsMaximalRun (fun y => colourOf b y x) s l)) ∧
      scanMatches b =
        some { b with
          matchList := hr.map (fun p => (rowCells b p.1 p.2.1 p.2.2).reverse) ++
            vr.map (fun p => (columnCells b p.1 p.2.1 p.2.2).reverse) } ∧
      calculateMatches K b = some (b3, hr.length + vr.length) ∧
      b3.tiles = b.tiles ∧ b3.objects = b.objects ∧
      b3.matchList =
        hr.map (fun p =>
          if hasStar K b (rowCells b p.1 p.2.1 p.2.2).reverse then rowCells b p.1 0 SIZE
          else (rowCells b p.1 p.2.1 p.2.2).reverse) ++
        vr.map (fun p =>
          if hasStar K b (columnCells b p.1 p.2.1 p.2.2).reverse then columnCells b p.1 0 SIZE
          else (columnCells b p.1 p.2.1 p.2.2).reverse) ∧
      removeMatches b3 = some b4 ∧
      (∀ p ∈ hr, hasStar K b (rowCells b p.1 p.2.1 p.2.2).reverse = true →
        ∀ x, x < SIZE → cellOf b4.tiles p.1 x = none) ∧
      (∀ p ∈ vr, hasStar K b (columnCells b p.1 p.2.1 p.2.2).reverse = true →
        ∀ y, y < SIZE → cellOf b4.tiles y p.1 = none) := by
  have hS : SIZE = 8 := rfl
  have hon := matches_onBoard K b h
  have hgrid := matchesInGrid_of_onBoard b hinv _ hon
  obtain ⟨t, hrem, -, hcells⟩ := removeMatches_spec
    { b with matchList := (horizontalRunsFrom b SIZE 0).map (expandedRowMatch K b) ++
        (verticalRunsFrom b SIZE 0).map (expandedColumnMatch K b) } hgrid
  refine ⟨horizontalRunsFrom b SIZE 0, verticalRunsFrom b SIZE 0, _, _,
    nodup_horizontalRunsFrom b SIZE 0, nodup_verticalRunsFrom b SIZE 0, ?_, ?_,
    scanMatches_full b h, calculateMatches_full K b h hinv hw hh, rfl, rfl, rfl, hrem, ?_, ?_⟩
  · intro y s l
    rw [mem_horizontalRunsFrom]
    constructor
    · rintro ⟨-, h2, h3⟩; exact ⟨by omega, h3⟩
    · rintro ⟨h2, h3⟩; exact ⟨Nat.zero_le _, by omega, h3⟩
  · intro x s l
    rw [mem_verticalRunsFrom]
    constructor
    · rintro ⟨-, h2, h3⟩; exact ⟨by omega, h3⟩
    · rintro ⟨h2, h3⟩; exact ⟨Nat.zero_le _, by omega, h3⟩
  · rintro ⟨y, s, l⟩ hp hstar x hx
    obtain ⟨-, hy, hr⟩ := (mem_horizontalRunsFrom b SIZE 0 y s l).1 hp
    obtain ⟨id, hid⟩ := isFull_cell h (show y < SIZE by omega) hx
    obtain ⟨e1, e2⟩ := hinv _ _ _ hid
    apply (hcells y x).1
    refine ⟨expandedRowMatch K b (y, s, l), ?_, id, ?_, e2, e1⟩
    · exact List.mem_append_left _ (List.mem_map_of_mem _ hp)
    · have hst : hasStar K b (rowMatch b (y, s, l)) = true := hstar
      simp only [expandedRowMatch, hst, if_true, rowCells, List.mem_map, List.mem_range]
      exact ⟨x, hx, by simpa using hid⟩
  · rintro ⟨x, s, l⟩ hp hstar y hy
    obtain ⟨-, hx, hr⟩ := (mem_verticalRunsFrom b SIZE 0 x s l).1 hp
    obtain ⟨id, hid⟩ := isFull_cell h hy (show x < SIZE by omega)
    obtain ⟨e1, e2⟩ := hinv _ _ _ hid
    apply (hcells y x).1
    refine ⟨expandedColumnMatch K b (x, s, l), ?_, id, ?_, e2, e1⟩
    · exact List.mem_append_right _ (List.mem_map_of_mem _ hp)
    · have hst : hasStar K b (columnMatch b (x, s, l)) = true := hstar
      simp only [expandedColumnMatch, hst, if_true, columnCells, List.mem_map, List.mem_range]
      exact ⟨y, hy, by simpa using hid⟩

/-- Witness for C3: `starBoard` is a board of 8 x 8 tiles that record their own
coordinates; its row 3 and its column 6 hold a run with a star. -/
theorem star_expansion_witness :
    ∃ (hr vr : List (Nat × Nat × Nat)) (b3 b4 : Board),
      hr.Nodup ∧ vr.Nodup ∧
      (∀ y s l, (y, s, l) ∈ hr ↔
        (y < SIZE ∧ IsMaximalRun (fun x => colourOf starBoard y x) s l)) ∧
      (∀ x s l, (x, s, l) ∈ vr ↔
        (x < SIZE ∧ IsMaximalRun (fun y => colourOf starBoard y x) s l)) ∧
      scanMatches starBoard =
        some { starBoard with
          matchList := hr.map (fun p => (rowCells starBoard p.1 p.2.1 p.2.2).reverse) ++
            vr.map (fun p => (columnCells starBoard p.1 p.2.1 p.2.2).reverse) } ∧
      calculateMatches sampleConsts starBoard = some (b3, hr.length + vr.length) ∧
      b3.tiles = starBoard.tiles ∧ b3.objects = starBoard.objects ∧
      b3.matchList =
        hr.map (fun p =>
          if hasStar sampleConsts starBoard (rowCells starBoard p.1 p.2.1 p.2.2).reverse then
            rowCells starBoard p.1 0 SIZE
          else (rowCells starBoard p.1 p.2.1 p.2.2).reverse) ++
        vr.map (fun p =>
          if hasStar sampleConsts starBoard (columnCells starBoard p.1 p.2.1 p.2.2).reverse then
            columnCells starBoard p.1 0 SIZE
          else (columnCells starBoard p.1 p.2.1 p.2.2).reverse) ∧
      removeMatches b3 = some b4 ∧
      (∀ p ∈ hr, hasStar sampleConsts starBoard (rowCells starBoard p.1 p.2.1 p.2.2).reverse
          = true → ∀ x, x < SIZE → cellOf b4.tiles p.1 x = none) ∧
      (∀ p ∈ vr, hasStar sampleConsts starBoard (columnCells starBoard p.1 p.2.1 p.2.2).reverse
          = true → ∀ y, y < SIZE → cellOf b4.tiles y p.1 = none) :=
  star_expansion sampleConsts starBoard (by decide)
    ((coordInv_iff_check starBoard).2 (by decide)) rfl rfl

/-- Witness for C2: `sampleBoard` is a board of 8 x 8 tiles. -/
theorem scan_no_false_negative_witness :
    ∃ hr vr : List (Nat × Nat × Nat),
      hr.Nodup ∧ vr.Nodup ∧
      (∀ y s l, (y, s, l) ∈ hr ↔
        (y < SIZE ∧ IsMaximalRun (fun x => colourOf sampleBoard y x) s l)) ∧
      (∀ x s l, (x, s, l) ∈ vr ↔
        (x < SIZE ∧ IsMaximalRun (fun y => colourOf sampleBoard y x) s l)) ∧
      resolveHorizontalMatches sampleBoard =
        some { sampleBoard with
          matchList := sampleBoard.matchList ++
            hr.map (fun p => (rowCells sampleBoard p.1 p.2.1 p.2.2).reverse) } ∧
      resolveVerticalMatches sampleBoard =
        some { sampleBoard with
          matchList := sampleBoard.matchList ++
            vr.map (fun p => (columnCells sampleBoard p.1 p.2.1 p.2.2).reverse) } ∧
      (∀ b3 n, calculateMatches sampleConsts sampleBoard = some (b3, n) →
        n = hr.length + vr.length) ∧
      (sampleBoard.width = SIZE →
        (∀ r c id, cellOf sampleBoard.tiles r c = some id →
          (sampleBoard.objects id).boardY < SIZE) →
        ∃ b3, calculateMatches sampleConsts sampleBoard = some (b3, hr.length + vr.length)) :=
  scan_no_false_negative sampleConsts sampleBoard (by decide)

/-! ## Gravity on one column -/

theorem columnLoop_zero (fuel : Nat) (col : List Cell) (space : Bool) (spaceRow : Nat) :
    columnLoop fuel col 0 space spaceRow = some col := by
  cases fuel <;> rfl

theorem column_move (A S : List Cell) (j t : Nat) :
    (((A ++ [some t]) ++ (List.replicate (j + 1) none ++ S)).set (A.length + (j + 1))
        (some t)).set A.length none =
      (A ++ List.replicate (j + 1) none) ++ (List.replicate 0 none ++ some t :: S) := by
  have e1 : (A ++ [some t]) ++ (List.replicate (j + 1) none ++ S) =
      A ++ (some t :: (List.replicate j none ++ none :: S)) := by
    simp [List.replicate_succ']
  have e2 : (A ++ (some t :: (List.replicate j none ++ none :: S))).set (A.length + (j + 1))
      (some t) = A ++ (some t :: (List.replicate j none ++ some t :: S)) := by
    rw [List.set_append_right _ _ (by omega), Nat.add_sub_cancel_left, List.set_cons_succ,
      List.set_append_right _ _ (by simp)]
    simp
  have e3 : (A ++ (some t :: (List.replicate j none ++ some t :: S))).set A.length none =
      A ++ (none :: (List.replicate j none ++ some t :: S)) := by
    rw [List.set_append_right _ _ (le_refl _), Nat.sub_self, List.set_cons_zero]
  rw [e1, e2, e3]
  simp [List.replicate_succ]

theorem filter_isSome_concat_none (A : List Cell) :
    ((A ++ [none]).filter (fun c : Cell => c.isSome)) = A.filter (fun c : Cell => c.isSome) ∧
      ((A ++ [none]).filter (fun c : Cell => c.isNone)).length
        = (A.filter (fun c : Cell => c.isNone)).length + 1 := by
  simp [List.filter_append]

theorem filter_isSome_concat_some (A : List Cell) (t : Nat) :
    ((A ++ [some t]).filter (fun c : Cell => c.isSome)) = A.filter (fun c : Cell => c.isSome) ++ [some t] ∧
      ((A ++ [some t]).filter (fun c : Cell => c.isNone)) = A.filter (fun c : Cell => c.isNone) := by
  simp [List.filter_append]

theorem filter_isSome_append_replicate (A : List Cell) (k : Nat) :
    ((A ++ List.replicate k none).filter (fun c : Cell => c.isSome)) = A.filter (fun c : Cell => c.isSome) ∧
      ((A ++ List.replicate k none).filter (fun c : Cell => c.isNone)).length
        = (A.filter (fun c : Cell => c.isNone)).length + k := by
  simp [List.filter_append]

theorem columnLoop_blocks :
    ∀ (fuel : Nat) (A : List Cell) (k : Nat) (S : List Cell),
      (∀ c ∈ S, c.isSome = true) → A.length + k + S.length = 8 →
      9 * (A.filter (fun c => c.isSome)).length +
        (A.filter (fun c => c.isNone)).length ≤ fuel →
      columnLoop fuel (A ++ (List.replicate k none ++ S)) A.length (decide (0 < k))
          (if k = 0 then 0 else A.length + k - 1) =
        some (List.replicate ((A.filter (fun c => c.isNone)).length + k) none ++
          (A.filter (fun c => c.isSome) ++ S)) := by
  intro fuel
  induction fuel with
  | zero =>
    intro A k S _ _ hm
    rcases List.eq_nil_or_concat A with rfl | ⟨A1, x, rfl⟩
    · simp [columnLoop_zero]
    · rw [List.concat_eq_append] at hm
      cases x with
      | none => rw [(filter_isSome_concat_none A1).2] at hm; omega
      | some t =>
        rw [(filter_isSome_concat_some A1 t).1, List.length_append] at hm
        simp at hm
  | succ fuel ih =>
    intro A k S hS hlen hm
    rcases List.eq_nil_or_concat A with rfl | ⟨A1, x, rfl⟩
    · simp [columnLoop_zero]
    · rw [List.concat_eq_append] at hm hlen ⊢
      have hget : ((A1 ++ [x]) ++ (List.replicate k none ++ S))[A1.length]? = some x := by
        rw [List.append_assoc, List.getElem?_append_right (le_refl _)]
        simp
      rw [List.length_append, List.length_singleton, columnLoop, hget]
      simp only [List.length_append, List.length_singleton] at hlen
      cases x with
      | none =>
        rw [(filter_isSome_concat_none A1).1, (filter_isSome_concat_none A1).2] at hm ⊢
        have hcol : (A1 ++ [none]) ++ (List.replicate k none ++ S) =
            A1 ++ (List.replicate (k + 1) none ++ S) := by
          simp [List.replicate_succ]
        have hnew := ih A1 (k + 1) S hS (by omega) (by omega)
        simp only [Nat.add_one_ne_zero, if_false, Nat.zero_lt_succ, decide_True] at hnew
        have hsr : (if (if k = 0 then 0 else A1.length + 1 + k - 1) = 0 then A1.length
            else (if k = 0 then 0 else A1.length + 1 + k - 1)) = A1.length + (k + 1) - 1 := by
          split_ifs <;> omega
        show columnLoop fuel _ A1.length true _ = _
        rw [hsr, hcol, hnew]
        rw [show (A1.filter (fun c => c.isNone)).length + (k + 1)
          = (A1.filter (fun c => c.isNone)).length + 1 + k by omega]
      | some t =>
        rw [(filter_isSome_concat_some A1 t).1, (filter_isSome_concat_some A1 t).2] at hm ⊢
        rw [List.length_append, List.length_singleton] at hm
        have hS2 : ∀ c ∈ some t :: S, c.isSome = true := by
          intro c hc
          rcases List.mem_cons.1 hc with rfl | h
          · rfl
          · exact hS c h
        by_cases hk : k = 0
        · subst hk
          have hnew := ih A1 0 (some t :: S) hS2 (by simp; omega) (by omega)
          simp only [if_true, Nat.lt_irrefl, decide_False] at hnew
          have hcol : (A1 ++ [some t]) ++ (List.replicate 0 none ++ S) =
              A1 ++ (List.replicate 0 none ++ some t :: S) := by simp
          show (if (decide (0 < 0)) = true then _ else columnLoop fuel _ A1.length
            (decide (0 < 0)) _) = _
          simp only [Nat.lt_irrefl, decide_False, Bool.false_eq_true, if_false, if_true]
          rw [hcol, hnew]
          simp
        · obtain ⟨j, rfl⟩ : ∃ j, k = j + 1 := ⟨k - 1, by omega⟩
          have hsr : (if j + 1 = 0 then 0 else A1.length + 1 + (j + 1) - 1) =
              A1.length + (j + 1) := by
            rw [if_neg hk]; omega
          have hlt : A1.length + (j + 1) <
              ((A1 ++ [some t]) ++ (List.replicate (j + 1) none ++ S)).length := by
            simp only [List.length_append, List.length_singleton, List.length_replicate]
            omega
          have hnew := ih (A1 ++ List.replicate (j + 1) none) 0 (some t :: S) hS2
            (by simp; omega) (by
              rw [(filter_isSome_append_replicate A1 (j + 1)).1,
                (filter_isSome_append_replicate A1 (j + 1)).2]
              omega)
          simp only [if_true, Nat.lt_irrefl, decide_False, List.length_append,
            List.length_replicate] at hnew
          show (if (decide (0 < j + 1)) = true then _ else _) = _
          simp only [Nat.zero_lt_succ, decide_True, if_true, hsr, hlt]
          rw [column_move, hnew, (filter_isSome_append_replicate A1 (j + 1)).1,
            (filter_isSome_append_replicate A1 (j + 1)).2]
          simp

theorem filter_lengths (col : List Cell) :
    (col.filter (fun c => c.isSome)).length + (col.filter (fun c => c.isNone)).length
      = col.length := by
  induction col with
  | nil => rfl
  | cons c col ih => cases c <;> simp [List.filter_cons] <;> omega

theorem columnLoop_compact (col : List Cell) (h : col.length = SIZE) :
    columnLoop fallFuel col SIZE false 0 = some (compactColumn col) := by
  have h1 := filter_lengths col
  have hS : SIZE = 8 := rfl
  have hF : fallFuel = 72 := rfl
  have := columnLoop_blocks fallFuel col 0 [] (by simp) (by simp; omega) (by omega)
  simpa [h, compactColumn] using this

/-! ## Gravity on the board -/

theorem isGrid_cell {tiles : List (List Cell)} (h : IsGrid tiles) {row col : Nat}
    (hr : row < SIZE) (hc : col < SIZE) :
    ∃ r, tiles[row]? = some r ∧ r[col]? = some (cellOf tiles row col) := by
  obtain ⟨r, h1, h2⟩ := isGrid_row h hr
  refine ⟨r, h1, ?_⟩
  have hlt : col < r.length := by rw [h2]; exact hc
  simp only [cellOf, h1, List.getElem?_eq_getElem hlt]

theorem length_columnOf (tiles : List (List Cell)) (c : Nat) : (columnOf tiles c).length = SIZE := by
  simp [columnOf]

theorem getElem?_columnOf (tiles : List (List Cell)) (c r : Nat) (hr : r < SIZE) :
    (columnOf tiles c)[r]? = some (cellOf tiles r c) := by
  simp [columnOf, List.getElem?_range hr]

theorem columnOf_congr {t1 t2 : List (List Cell)} {c : Nat}
    (h : ∀ r, cellOf t1 r c = cellOf t2 r c) : columnOf t1 c = columnOf t2 c := by
  simp only [columnOf, h]

theorem columnOf_setCell {tiles t : List (List Cell)} {row c : Nat} {v : Cell}
    (h : setCell tiles row c v = some t) : columnOf t c = (columnOf tiles c).set row v := by
  obtain ⟨-, hc⟩ := setCell_spec h
  apply List.ext_getElem?
  intro r
  rw [List.getElem?_set]
  by_cases hr : r < SIZE
  · rw [getElem?_columnOf _ _ _ hr, getElem?_columnOf _ _ _ hr, hc, length_columnOf]
    by_cases he : row = r
    · subst he; simp [hr]
    · have he2 : ¬ r = row := fun e => he e.symm
      simp [he, he2]
  · have h1 : (columnOf t c)[r]? = none :=
      List.getElem?_eq_none (by rw [length_columnOf]; omega)
    have h2 : (columnOf tiles c)[r]? = none :=
      List.getElem?_eq_none (by rw [length_columnOf]; omega)
    rw [h1, h2, length_columnOf]
    split_ifs <;> first | rfl | omega

theorem fallLoop_zero (K : Consts) (column fuel : Nat) (b : Board) (space : Bool)
    (spaceRow : Nat) (tweens : List Tween) :
    fallLoop K column fuel b 0 space spaceRow tweens = some (b, tweens) := by
  cases fuel <;> rfl

theorem fallLoop_sim (K : Consts) (c : Nat) (hc : c < SIZE) :
    ∀ (fuel : Nat) (b : Board) (rowP : Nat) (space : Bool) (spaceRow : Nat)
      (tw : List Tween) (col : List Cell), IsGrid b.tiles → rowP ≤ SIZE →
      columnLoop fuel (columnOf b.tiles c) rowP space spaceRow = some col →
      ∃ b1 tw1, fallLoop K c fuel b rowP space spaceRow tw = some (b1, tw1) ∧
        columnOf b1.tiles c = col ∧ shape b1.tiles = shape b.tiles ∧
        (∀ r c1, c1 ≠ c → cellOf b1.tiles r c1 = cellOf b.tiles r c1) ∧
        b1.width = b.width ∧ b1.height = b.height ∧ b1.matchList = b.matchList ∧
        b1.next = b.next := by
  intro fuel
  induction fuel with
  | zero =>
    intro b rowP space spaceRow tw col hg hle hcol
    cases rowP with
    | zero =>
      rw [columnLoop_zero] at hcol
      exact ⟨b, tw, fallLoop_zero _ _ _ _ _ _ _, Option.some.inj hcol, rfl, fun _ _ _ => rfl,
        rfl, rfl, rfl, rfl⟩
    | succ row => simp [columnLoop] at hcol
  | succ fuel ih =>
    intro b rowP space spaceRow tw col hg hle hcol
    cases rowP with
    | zero =>
      rw [columnLoop_zero] at hcol
      exact ⟨b, tw, fallLoop_zero _ _ _ _ _ _ _, Option.some.inj hcol, rfl, fun _ _ _ => rfl,
        rfl, rfl, rfl, rfl⟩
    | succ row =>
      have hrow : row < SIZE := by omega
      obtain ⟨r, hr1, hr2⟩ := isGrid_cell hg hrow hc
      rw [columnLoop, getElem?_columnOf _ _ _ hrow] at hcol
      rw [fallLoop, hr1]
      simp only [hr2]
      cases hcell : cellOf b.tiles row c with
      | none =>
        simp only [hcell] at hcol ⊢
        exact ih b row true _ tw col hg (by omega) hcol
      | some tile =>
        simp only [hcell] at hcol ⊢
        cases space with
        | false =>
          simp only [Bool.false_eq_true, if_false] at hcol ⊢
          exact ih b row false spaceRow tw col hg (by omega) hcol
        | true =>
          simp only [if_true] at hcol ⊢
          rw [length_columnOf] at hcol
          by_cases hsr : spaceRow < SIZE
          · simp only [hsr, if_true] at hcol
            obtain ⟨t1, ht1⟩ := setCell_of_inRange (some tile) (inRange_of_isGrid hg hsr hc)
            obtain ⟨hs1, hc1⟩ := setCell_spec ht1
            have hg1 := isGrid_of_shape hs1 hg
            obtain ⟨t2, ht2⟩ := setCell_of_inRange none (inRange_of_isGrid hg1 hrow hc)
            obtain ⟨hs2, hc2⟩ := setCell_spec ht2
            have hg2 := isGrid_of_shape hs2 hg1
            rw [← columnOf_setCell ht1, ← columnOf_setCell ht2] at hcol
            obtain ⟨b1, tw1, hf, h1, h2, h3, h4, h5, h6, h7⟩ := ih
              { b with tiles := t2, objects := setBoardY b.objects tile spaceRow }
              spaceRow false 0
              (tw ++ [{ tile := tile, parameters := ["y"],
                        endValues := [spaceRow * K.tileSize] }])
              col hg2 (by omega) hcol
            refine ⟨b1, tw1, ?_, h1, h2.trans (hs2.trans hs1), ?_, h4, h5, h6, h7⟩
            · simp only [ht1, ht2]
              exact hf
            · intro r0 c1 hne
              rw [h3 r0 c1 hne]
              show cellOf t2 r0 c1 = cellOf b.tiles r0 c1
              rw [hc2, hc1]
              simp [hne]
          · simp [hsr] at hcol

theorem fallColumns_spec (K : Consts) :
    ∀ (n c : Nat) (b : Board) (tw : List Tween), IsGrid b.tiles → c + n = SIZE →
      ∃ b1 tw1, fallColumns K n c b tw = some (b1, tw1) ∧ shape b1.tiles = shape b.tiles ∧
        (∀ c1, c1 < c → columnOf b1.tiles c1 = columnOf b.tiles c1) ∧
        (∀ c1, c ≤ c1 → c1 < SIZE →
          columnOf b1.tiles c1 = compactColumn (columnOf b.tiles c1)) ∧
        b1.width = b.width ∧ b1.height = b.height ∧ b1.matchList = b.matchList ∧
        b1.next = b.next := by
  intro n
  induction n with
  | zero =>
    intro c b tw _ hc
    exact ⟨b, tw, rfl, rfl, fun _ _ => rfl, fun c1 h1 h2 => by omega, rfl, rfl, rfl, rfl⟩
  | succ n ih =>
    intro c b tw hg hc
    have hc8 : c < SIZE := by omega
    obtain ⟨b1, tw1, hf, h1, h2, h3, h4, h5, h6, h7⟩ := fallLoop_sim K c hc8 fallFuel b SIZE
      false 0 tw _ hg (le_refl _) (columnLoop_compact _ (length_columnOf _ _))
    obtain ⟨b2, tw2, hf2, g1, g2, g3, g4, g5, g6, g7⟩ := ih (c + 1) b1 tw1
      (isGrid_of_shape h2 hg) (by omega)
    refine ⟨b2, tw2, by simp only [fallColumns, hf, hf2], g1.trans h2, ?_, ?_, g4.trans h4,
      g5.trans h5, g6.trans h6, g7.trans h7⟩
    · intro c1 hlt
      rw [g2 c1 (by omega)]
      exact columnOf_congr (fun r => h3 r c1 (by omega))
    · intro c1 hle hlt
      by_cases he : c1 = c
      · subst he
        rw [g2 c1 (by omega), h1]
      · rw [g3 c1 (by omega) hlt]
        congr 1
        exact columnOf_congr (fun r => h3 r c1 he)

/-- C4 (gravity is a stable compaction).  On a grid of 8 x 8 cells, each a tile or
`null`, `getFallingTiles` returns, the grid keeps its shape, and every column of the
new grid consists of as many `null` cells as the column had, at the top, followed by
exactly the tiles that the same column held before, in the same top-to-bottom order;
in particular the tiles of a column are the same list before and after. -/
theorem gravity_compacts (K : Consts) (b : Board) (h : IsGrid b.tiles) :
    ∃ b1 tw, getFallingTiles K b = some (b1, tw) ∧ IsGrid b1.tiles ∧
      ∀ c, c < SIZE →
        columnOf b1.tiles c =
          List.replicate ((columnOf b.tiles c).filter (fun x => x.isNone)).length none ++
            (columnOf b.tiles c).filter (fun x => x.isSome) ∧
        (columnOf b1.tiles c).filter (fun x => x.isSome) =
          (columnOf b.tiles c).filter (fun x => x.isSome) := by
  obtain ⟨b1, tw1, hf, h1, -, h3, -⟩ := fallColumns_spec K SIZE 0 b [] h (by simp)
  refine ⟨b1, tw1, hf, isGrid_of_shape h1 h, ?_⟩
  intro c hc
  have := h3 c (Nat.zero_le _) hc
  refine ⟨this, ?_⟩
  rw [this]
  simp [compactColumn, List.filter_append, List.filter_filter]

/-- Witness for C4: `holedBoard` is a grid of 8 x 8 cells, half of them empty. -/
theorem gravity_compacts_witness :
    ∃ b1 tw, getFallingTiles sampleConsts holedBoard = some (b1, tw) ∧ IsGrid b1.tiles ∧
      ∀ c, c < SIZE →
        columnOf b1.tiles c =
          List.replicate ((columnOf holedBoard.tiles c).filter (fun x => x.isNone)).length
            none ++ (columnOf holedBoard.tiles c).filter (fun x => x.isSome) ∧
        (columnOf b1.tiles c).filter (fun x => x.isSome) =
          (columnOf holedBoard.tiles c).filter (fun x => x.isSome) :=
  gravity_compacts sampleConsts holedBoard (by decide)

/-! ## Refill -/

theorem newTilesColumn_eq (K : Consts) (draws : Nat → Nat) (level x : Nat) :
    ∀ (n : Nat) (b : Board) (k : Nat) (tw : List Tween),
      newTilesColumn K draws level x n b k tw =
        refillList K draws level (visitColumn x n) b k tw := by
  intro n
  induction n with
  | zero => intro b k tw; rfl
  | succ n ih =>
    intro b k tw
    have hv : visitColumn x (n + 1) = (n, x) :: visitColumn x n := by
      simp [visitColumn, List.range_succ]
    rw [hv, refillList, newTilesColumn]
    simp only [refillCell]
    cases hrow : b.tiles[n]? with
    | none => rfl
    | some r =>
      simp only
      cases hcell : r[x]? with
      | none =>
        simp only
        cases hset : setCell (generateTile K draws k b x n level).1.tiles n x
            (some (generateTile K draws k b x n level).2.1) with
        | none => rfl
        | some t => simp only [ih]
      | some c =>
        cases c with
        | none =>
          simp only
          cases hset : setCell (generateTile K draws k b x n level).1.tiles n x
              (some (generateTile K draws k b x n level).2.1) with
          | none => rfl
          | some t => simp only [ih]
        | some id => simp only [ih]

theorem refillList_append (K : Consts) (draws : Nat → Nat) (level : Nat) :
    ∀ (l1 l2 : List (Nat × Nat)) (b : Board) (k : Nat) (tw : List Tween),
      refillList K draws level (l1 ++ l2) b k tw =
        match refillList K draws level l1 b k tw with
        | none => none
        | some (b1, k1, tw1) => refillList K draws level l2 b1 k1 tw1 := by
  intro l1
  induction l1 with
  | nil => intro l2 b k tw; rfl
  | cons p l1 ih =>
    intro l2 b k tw
    rw [List.cons_append, refillList, refillList]
    cases refillCell K draws level p.1 p.2 b k tw with
    | none => rfl
    | some s => exact ih l2 s.1 s.2.1 s.2.2

theorem newTilesColumns_eq (K : Consts) (draws : Nat → Nat) (level : Nat) :
    ∀ (n x : Nat) (b : Board) (k : Nat) (tw : List Tween),
      newTilesColumns K draws level n x b k tw =
        refillList K draws level (visitOrder n x) b k tw := by
  intro n
  induction n with
  | zero => intro x b k tw; rfl
  | succ n ih =>
    intro x b k tw
    rw [newTilesColumns, visitOrder, refillList_append, newTilesColumn_eq]
    cases refillList K draws level (visitColumn x SIZE) b k tw with
    | none => rfl
    | some s => exact ih (x + 1) s.1 s.2.1 s.2.2

theorem refillCell_full (K : Consts) (draws : Nat → Nat) (level y x : Nat) (b : Board)
    (k : Nat) (tw : List Tween) (id : Nat) (h : cellOf b.tiles y x = some id) :
    refillCell K draws level y x b k tw = some (b, k, tw) := by
  simp only [cellOf] at h
  simp only [refillCell]
  cases hrow : b.tiles[y]? with
  | none => simp [hrow] at h
  | some r =>
    simp only [hrow] at h
    cases hcell : r[x]? with
    | none => simp [hcell] at h
    | some c =>
      simp only [hcell] at h
      subst h
      simp only [hcell]

theorem refillCell_empty (K : Consts) (draws : Nat → Nat) (level y x : Nat) (b : Board)
    (k : Nat) (tw : List Tween) (hg : IsGrid b.tiles) (hy : y < SIZE) (hx : x < SIZE)
    (h : cellOf b.tiles y x = none) :
    ∃ b1, refillCell K draws level y x b k tw =
        some (b1, k + 3, tw ++ [{ tile := b.next, parameters := ["y"],
                                  endValues := [y * K.tileSize] }]) ∧
      shape b1.tiles = shape b.tiles ∧
      (∀ r c, cellOf b1.tiles r c = if r = y ∧ c = x then some b.next else cellOf b.tiles r c) ∧
      b1.next = b.next + 1 ∧
      (∀ id, id ≠ b.next → b1.objects id = b.objects id) ∧
      (b1.objects b.next).boardX = x ∧ (b1.objects b.next).boardY = y ∧
      b1.width = b.width ∧ b1.height = b.height ∧ b1.matchList = b.matchList := by
  obtain ⟨r, hr1, hr2⟩ := isGrid_cell hg hy hx
  obtain ⟨t1, ht1⟩ := setCell_of_inRange (some b.next) (inRange_of_isGrid hg hy hx)
  obtain ⟨hs1, hc1⟩ := setCell_spec ht1
  rw [h] at hr2
  refine ⟨{ (generateTile K draws k b x y level).1 with tiles := t1 }, ?_, hs1, hc1,
    ?_, ?_, ?_, ?_, ?_, ?_, ?_⟩
  · simp only [refillCell, hr1, hr2, generateTile, ht1, newTile, if_true]
  · rfl
  · intro id hne
    simp [generateTile, hne]
  · simp [generateTile, newTile]
  · simp [generateTile, newTile]
  · rfl
  · rfl
  · rfl

theorem newTweens_tiles (K : Consts) :
    ∀ (cells : List (Nat × Nat)) (n : Nat),
      (newTweens K n cells).map (fun t => t.tile) = (List.range cells.length).map (fun i => n + i) := by
  intro cells
  induction cells with
  | nil => intro n; rfl
  | cons p rest ih =>
    intro n
    simp only [newTweens, List.map_cons, ih, List.length_cons, List.range_succ_eq_map,
      List.map_map, Nat.add_zero]
    congr 1
    apply List.map_congr_left
    intro i _
    simp only [Function.comp]
    omega

theorem refillList_spec (K : Consts) (draws : Nat → Nat) (level : Nat) :
    ∀ (P : List (Nat × Nat)) (b : Board) (k : Nat) (tw : List Tween), IsGrid b.tiles →
      (∀ p ∈ P, p.1 < SIZE ∧ p.2 < SIZE) → P.Nodup →
      ∃ b1, refillList K draws level P b k tw =
          some (b1, k + 3 * (emptyCells b.tiles P).length,
            tw ++ newTweens K b.next (emptyCells b.tiles P)) ∧
        shape b1.tiles = shape b.tiles ∧
        b1.next = b.next + (emptyCells b.tiles P).length ∧
        (∀ id, id < b.next → b1.objects id = b.objects id) ∧
        (∀ r c, (r, c) ∉ P → cellOf b1.tiles r c = cellOf b.tiles r c) ∧
        (∀ r c id, cellOf b.tiles r c = some id → cellOf b1.tiles r c = some id) ∧
        (∀ r c, (r, c) ∈ P → cellOf b.tiles r c = none →
          ∃ id, cellOf b1.tiles r c = some id ∧ b.next ≤ id ∧ id < b1.next ∧
            (b1.objects id).boardX = c ∧ (b1.objects id).boardY = r) ∧
        (emptyCells b.tiles P).map (fun p => cellOf b1.tiles p.1 p.2) =
          (List.range (emptyCells b.tiles P).length).map (fun i => some (b.next + i)) ∧
        b1.width = b.width ∧ b1.height = b.height ∧ b1.matchList = b.matchList := by
  intro P
  induction P with
  | nil =>
    intro b k tw _ _ _
    exact ⟨b, by simp [refillList, emptyCells, newTweens], rfl, by simp [emptyCells],
      fun _ _ => rfl, fun _ _ _ => rfl, fun _ _ _ h => h, fun r c h => by simp at h,
      by simp [emptyCells], rfl, rfl, rfl⟩
  | cons p rest ih =>
    intro b k tw hg hin hnd
    obtain ⟨y, x⟩ := p
    obtain ⟨hy, hx⟩ := hin (y, x) (List.mem_cons_self _ _)
    have hin2 : ∀ q ∈ rest, q.1 < SIZE ∧ q.2 < SIZE :=
      fun q hq => hin q (List.mem_cons_of_mem _ hq)
    have hnotin : (y, x) ∉ rest := (List.nodup_cons.1 hnd).1
    have hnd2 : rest.Nodup := (List.nodup_cons.1 hnd).2
    cases hcell : cellOf b.tiles y x with
    | some id0 =>
      obtain ⟨b1, h1, h2, h3, h4, h5, h6, h7, h8, h9, h10, h11⟩ := ih b k tw hg hin2 hnd2
      have hE : emptyCells b.tiles ((y, x) :: rest) = emptyCells b.tiles rest := by
        simp [emptyCells, List.filter_cons, hcell]
      refine ⟨b1, ?_, h2, ?_, h4, ?_, h6, ?_, ?_, h9, h10, h11⟩
      · rw [refillList, refillCell_full K draws level y x b k tw id0 hcell, hE]
        exact h1
      · rw [hE]; exact h3
      · intro r c hnot
        exact h5 r c (fun hm => hnot (List.mem_cons_of_mem _ hm))
      · intro r c hmem hnone
        rcases List.mem_cons.1 hmem with heq | hm
        · rw [Prod.mk.injEq] at heq
          rw [heq.1, heq.2, hcell] at hnone
          exact absurd hnone (by simp)
        · exact h7 r c hm hnone
      · rw [hE]; exact h8
    | none =>
      obtain ⟨b0, g1, g2, g3, g4, g5, g6, g7, g8, g9, g10⟩ :=
        refillCell_empty K draws level y x b k tw hg hy hx hcell
      have hg0 := isGrid_of_shape g2 hg
      obtain ⟨b1, h1, h2, h3, h4, h5, h6, h7, h8, h9, h10, h11⟩ :=
        ih b0 (k + 3) (tw ++ [{ tile := b.next, parameters := ["y"],
                                endValues := [y * K.tileSize] }]) hg0 hin2 hnd2
      have hrest : emptyCells b0.tiles rest = emptyCells b.tiles rest := by
        simp only [emptyCells]
        apply List.filter_congr
        intro q hq
        rw [g3]
        have : ¬ (q.1 = y ∧ q.2 = x) := by
          rintro ⟨e1, e2⟩
          exact hnotin (by rw [← e1, ← e2]; exact hq)
        simp [this]
      have hE : emptyCells b.tiles ((y, x) :: rest) = (y, x) :: emptyCells b.tiles rest := by
        simp [emptyCells, List.filter_cons, hcell]
      rw [hrest] at h1 h3 h8
      have hself : cellOf b1.tiles y x = some b.next := by
        rw [h5 y x hnotin, g3]; simp
      refine ⟨b1, ?_, h2.trans g2, ?_, ?_, ?_, ?_, ?_, ?_, h9.trans g8, h10.trans g9,
        h11.trans g10⟩
      · rw [refillList, g1, hE]
        simp only [h1, g4, newTweens, List.length_cons, List.append_assoc,
          List.singleton_append]
        congr 3
        omega
      · rw [h3, g4, hE, List.length_cons]; omega
      · intro id hid
        rw [h4 id (by omega), g5 id (by omega)]
      · intro r c hnot
        rw [h5 r c (fun hm => hnot (List.mem_cons_of_mem _ hm)), g3]
        have : ¬ (r = y ∧ c = x) := by
          rintro ⟨e1, e2⟩
          exact hnot (by rw [e1, e2]; exact List.mem_cons_self _ _)
        simp [this]
      · intro r c id hid
        apply h6
        rw [g3]
        have : ¬ (r = y ∧ c = x) := by
          rintro ⟨e1, e2⟩
          rw [e1, e2, hcell] at hid
          exact absurd hid (by simp)
        simp [this, hid]
      · intro r c hmem hnone
        rcases List.mem_cons.1 hmem with heq | hm
        · rw [Prod.mk.injEq] at heq
          obtain ⟨rfl, rfl⟩ := heq
          refine ⟨b.next, hself, le_refl _, by omega, ?_, ?_⟩
          · rw [h4 b.next (by omega)]; exact g6
          · rw [h4 b.next (by omega)]; exact g7
        · have hne : ¬ (r = y ∧ c = x) := by
            rintro ⟨e1, e2⟩
            exact hnotin (by rw [← e1, ← e2]; exact hm)
          obtain ⟨id, i1, i2, i3, i4, i5⟩ := h7 r c hm (by rw [g3]; simp [hne, hnone])
          exact ⟨id, i1, by omega, i3, i4, i5⟩
      · rw [hE, List.map_cons, h8, hself, List.length_cons, List.range_succ_eq_map,
          List.map_cons, List.map_map, g4]
        simp only [Nat.add_zero, List.cons.injEq, true_and]
        apply List.map_congr_left
        intro i _
        simp only [Function.comp]
        congr 1
        omega

theorem visitOrder_nodup : (visitOrder SIZE 0).Nodup := by decide

theorem visitOrder_inRange : ∀ p ∈ visitOrder SIZE 0, p.1 < SIZE ∧ p.2 < SIZE := by decide

theorem visitOrder_complete : ∀ r, r < SIZE → ∀ c, c < SIZE → (r, c) ∈ visitOrder SIZE 0 := by
  decide

theorem isFull_of_cells {tiles : List (List Cell)} (hg : IsGrid tiles)
    (h : ∀ r c, r < SIZE → c < SIZE → ∃ id, cellOf tiles r c = some id) : IsFull tiles := by
  refine ⟨hg, ?_⟩
  intro row hrow cell hcell
  obtain ⟨i, hi⟩ := List.mem_iff_getElem?.1 hrow
  obtain ⟨j, hj⟩ := List.mem_iff_getElem?.1 hcell
  have hi8 : i < SIZE := by
    have := (List.getElem?_eq_some.1 hi).1
    rw [hg.1] at this
    exact this
  have hj8 : j < SIZE := by
    have := (List.getElem?_eq_some.1 hj).1
    rw [hg.2 row hrow] at this
    exact this
  obtain ⟨id, hid⟩ := h i j hi8 hj8
  simp only [cellOf, hi, hj] at hid
  rw [hid]
  simp

/-- C5 (refill).  On a grid of 8 x 8 cells, each a tile or `null`, and for every
sequence of random draws, `getNewTiles(level)` returns a board in which every cell
holds a tile; every cell that held a tile holds the same reference and the tile
objects that existed before are unchanged; every previously empty cell `(r, c)`
holds a reference created during the call whose object has `boardX = c` and
`boardY = r`; and the returned tweens correspond one to one, in order, to a
duplicate-free enumeration `E` of the previously empty cells, the tile of a tween
being the tile placed in its cell (so no two tweens share a tile). -/
theorem refill_populates (K : Consts) (draws : Nat → Nat) (k : Nat) (b : Board) (level : Nat)
    (hg : IsGrid b.tiles) :
    ∃ b1 k1 tw, getNewTiles K draws k b level = some (b1, k1, tw) ∧ IsFull b1.tiles ∧
      (∀ r c id, cellOf b.tiles r c = some id → cellOf b1.tiles r c = some id) ∧
      (∀ id, id < b.next → b1.objects id = b.objects id) ∧
      (∀ r c, r < SIZE → c < SIZE → cellOf b.tiles r c = none →
        ∃ id, cellOf b1.tiles r c = some id ∧ b.next ≤ id ∧ id < b1.next ∧
          (b1.objects id).boardX = c ∧ (b1.objects id).boardY = r) ∧
      ∃ E : List (Nat × Nat), E.Nodup ∧
        (∀ r c, (r, c) ∈ E ↔ (r < SIZE ∧ c < SIZE ∧ cellOf b.tiles r c = none)) ∧
        tw.map (fun t => some t.tile) = E.map (fun p => cellOf b1.tiles p.1 p.2) ∧
        (tw.map (fun t => t.tile)).Nodup ∧ tw.length = E.length := by
  obtain ⟨b1, h1, h2, h3, h4, h5, h6, h7, h8, -⟩ := refillList_spec K draws level
    (visitOrder SIZE 0) b k [] hg visitOrder_inRange visitOrder_nodup
  have hfilled : ∀ r c, r < SIZE → c < SIZE → cellOf b.tiles r c = none →
      ∃ id, cellOf b1.tiles r c = some id ∧ b.next ≤ id ∧ id < b1.next ∧
        (b1.objects id).boardX = c ∧ (b1.objects id).boardY = r :=
    fun r c hr hc hn => h7 r c (visitOrder_complete r hr c hc) hn
  have htiles : (newTweens K b.next (emptyCells b.tiles (visitOrder SIZE 0))).map
      (fun t => t.tile) =
      (List.range (emptyCells b.tiles (visitOrder SIZE 0)).length).map (fun i => b.next + i) :=
    newTweens_tiles K _ _
  refine ⟨b1, _, _, by rw [getNewTiles, newTilesColumns_eq]; exact h1, ?_, h6, h4, hfilled,
    emptyCells b.tiles (visitOrder SIZE 0), ?_, ?_, ?_, ?_, ?_⟩
  · apply isFull_of_cells (isGrid_of_shape h2 hg)
    intro r c hr hc
    cases hcell : cellOf b.tiles r c with
    | none =>
      obtain ⟨id, hid, -⟩ := hfilled r c hr hc hcell
      exact ⟨id, hid⟩
    | some id => exact ⟨id, h6 r c id hcell⟩
  · exact List.Nodup.filter _ visitOrder_nodup
  · intro r c
    simp only [emptyCells, List.mem_filter, Option.isNone_iff_eq_none]
    constructor
    · rintro ⟨hm, hn⟩
      obtain ⟨e1, e2⟩ := visitOrder_inRange _ hm
      exact ⟨e1, e2, hn⟩
    · rintro ⟨e1, e2, hn⟩
      exact ⟨visitOrder_complete r e1 c e2, hn⟩
  · rw [h8, List.nil_append]
    have : (newTweens K b.next (emptyCells b.tiles (visitOrder SIZE 0))).map
        (fun t => some t.tile) =
        ((newTweens K b.next (emptyCells b.tiles (visitOrder SIZE 0))).map
          (fun t => t.tile)).map some := by
      rw [List.map_map]; rfl
    rw [this, htiles, List.map_map]
    rfl
  · rw [List.nil_append, htiles]
    apply List.Nodup.map _ (List.nodup_range _)
    intro i j hij
    simp only at hij
    omega
  · rw [List.nil_append]
    have := congrArg List.length htiles
    simpa using this

/-- Witness for C5: `holedBoard` is a grid of 8 x 8 cells, half of them empty. -/
theorem refill_populates_witness :
    ∃ b1 k1 tw, getNewTiles sampleConsts (fun i => i) 0 holedBoard 1 = some (b1, k1, tw) ∧
      IsFull b1.tiles ∧
      (∀ r c id, cellOf holedBoard.tiles r c = some id → cellOf b1.tiles r c = some id) ∧
      (∀ id, id < holedBoard.next → b1.objects id = holedBoard.objects id) ∧
      (∀ r c, r < SIZE → c < SIZE → cellOf holedBoard.tiles r c = none →
        ∃ id, cellOf b1.tiles r c = some id ∧ holedBoard.next ≤ id ∧ id < b1.next ∧
          (b1.objects id).boardX = c ∧ (b1.objects id).boardY = r) ∧
      ∃ E : List (Nat × Nat), E.Nodup ∧
        (∀ r c, (r, c) ∈ E ↔ (r < SIZE ∧ c < SIZE ∧ cellOf holedBoard.tiles r c = none)) ∧
        tw.map (fun t => some t.tile) = E.map (fun p => cellOf b1.tiles p.1 p.2) ∧
        (tw.map (fun t => t.tile)).Nodup ∧ tw.length = E.length :=
  refill_populates sampleConsts (fun i => i) 0 holedBoard 1 (by decide)

/-! ## Board initialisation -/

theorem coordinateInvariant_of_coordInv {b : Board} (h : CoordInv b) : CoordinateInvariant b := by
  refine ⟨h, ?_⟩
  intro r1 c1 r2 c2 id h1 h2
  obtain ⟨e1, e2⟩ := h _ _ _ h1
  obtain ⟨e3, e4⟩ := h _ _ _ h2
  exact ⟨e2.symm.trans e4, e1.symm.trans e3⟩

theorem initializeColumns_spec (K : Consts) (draws : Nat → Nat) (level row : Nat) :
    ∀ (n column : Nat) (b : Board) (k : Nat) (acc : List Cell),
      ∃ objs, initializeColumns K draws level row n column b k acc =
          ({ b with objects := objs, next := b.next + n }, k + 3 * n,
            acc ++ (List.range n).map (fun i => some (b.next + i))) ∧
        (∀ id, id < b.next → objs id = b.objects id) ∧
        (∀ i, i < n → (objs (b.next + i)).boardX = column + i ∧
          (objs (b.next + i)).boardY = row) := by
  intro n
  induction n with
  | zero =>
    intro column b k acc
    exact ⟨b.objects, by simp [initializeColumns], fun _ _ => rfl, fun i hi => by omega⟩
  | succ n ih =>
    intro column b k acc
    obtain ⟨objs, h1, h2, h3⟩ := ih (column + 1)
      (generateTile K draws k b column row level).1 (k + 3) (acc ++ [some b.next])
    refine ⟨objs, ?_, ?_, ?_⟩
    · rw [initializeColumns]
      have hg : generateTile K draws k b column row level =
          ((generateTile K draws k b column row level).1, b.next, k + 3) := rfl
      rw [hg]
      simp only
      rw [h1]
      simp only [generateTile, List.append_assoc, List.singleton_append, List.range_succ_eq_map,
        List.map_cons, List.map_map, Nat.add_zero, Prod.mk.injEq]
      refine ⟨?_, by omega, ?_⟩
      · congr 1; omega
      · congr 2
        apply List.map_congr_left
        intro i _
        simp only [Function.comp]
        congr 1
        omega
    · intro id hid
      rw [h2 id (by simp only [generateTile]; omega)]
      simp only [generateTile]
      rw [if_neg (by omega)]
    · intro i hi
      cases i with
      | zero =>
        have := h2 b.next (by simp only [generateTile]; omega)
        simp only [Nat.add_zero]
        rw [this]
        simp [generateTile, newTile]
      | succ i =>
        have := h3 i (by omega)
        simp only [generateTile] at this
        rw [show b.next + (i + 1) = b.next + 1 + i by omega]
        exact ⟨by rw [this.1]; omega, this.2⟩

theorem cellOf_append_row (tiles : List (List Cell)) (r : List Cell) (row col : Nat) :
    cellOf (tiles ++ [r]) row col =
      if row < tiles.length then cellOf tiles row col
      else if row = tiles.length then (match r[col]? with | some c => c | none => none)
      else none := by
  simp only [cellOf]
  by_cases h1 : row < tiles.length
  · simp only [h1, if_true, List.getElem?_append_left h1]
  · by_cases h2 : row = tiles.length
    · subst h2
      simp
    · simp only [h1, h2, if_false]
      rw [List.getElem?_eq_none (by simp; omega)]

theorem initializeRows_spec (K : Consts) (draws : Nat → Nat) (level : Nat) :
    ∀ (n row : Nat) (b : Board) (k : Nat), RowsInv b row →
      RowsInv (initializeRows K draws level n row b k).1 (row + n) ∧
        (initializeRows K draws level n row b k).1.width = b.width ∧
        (initializeRows K draws level n row b k).1.height = b.height := by
  intro n
  induction n with
  | zero => intro row b k h; exact ⟨h, rfl, rfl⟩
  | succ n ih =>
    intro row b k h
    obtain ⟨objs, h1, h2, h3⟩ := initializeColumns_spec K draws level row b.width 0 b k []
    rw [initializeRows, h1]
    simp only [List.nil_append]
    have hinv : RowsInv
        { b with objects := objs, next := b.next + b.width,
                 tiles := b.tiles ++ [(List.range b.width).map (fun i => some (b.next + i))] }
        (row + 1) := by
      refine ⟨by simp [h.len], ?_, ?_, ?_⟩
      · intro r hr
        simp only [List.mem_append, List.mem_singleton] at hr
        rcases hr with hr | rfl
        · exact h.rows r hr
        · refine ⟨by simp, ?_⟩
          intro c hc
          simp only [List.mem_map] at hc
          obtain ⟨i, -, rfl⟩ := hc
          simp
      · intro r c id hid
        simp only [cellOf_append_row] at hid
        by_cases hlt : r < b.tiles.length
        · simp only [hlt, if_true] at hid
          have := h.alloc _ _ _ hid
          show (objs id).boardX = c ∧ (objs id).boardY = r
          rw [h2 id this]
          exact h.coord _ _ _ hid
        · simp only [hlt, if_false] at hid
          by_cases heq : r = b.tiles.length
          · simp only [heq, if_true] at hid
            by_cases hc : c < b.width
            · simp [List.getElem?_range hc] at hid
              subst hid
              have := h3 c hc
              show (objs (b.next + c)).boardX = c ∧ (objs (b.next + c)).boardY = r
              rw [heq, h.len]
              simpa using this
            · rw [List.getElem?_eq_none (by simp; omega)] at hid
              simp at hid
          · simp [heq] at hid
      · intro r c id hid
        simp only [cellOf_append_row] at hid
        show id < b.next + b.width
        by_cases hlt : r < b.tiles.length
        · simp only [hlt, if_true] at hid
          have := h.alloc _ _ _ hid
          omega
        · simp only [hlt, if_false] at hid
          by_cases heq : r = b.tiles.length
          · simp only [heq, if_true] at hid
            by_cases hc : c < b.width
            · simp [List.getElem?_range hc] at hid
              omega
            · rw [List.getElem?_eq_none (by simp; omega)] at hid
              simp at hid
          · simp [heq] at hid
    obtain ⟨g1, g2, g3⟩ := ih (row + 1) _ (k + 3 * b.width) hinv
    refine ⟨?_, g2, g3⟩
    rw [show row + (n + 1) = row + 1 + n by omega]
    exact g1

theorem initializeBoard_spec (K : Consts) (draws : Nat → Nat) (k : Nat) (b : Board)
    (level : Nat) :
    RowsInv (initializeBoard K draws k b level).1 b.height ∧
      (initializeBoard K draws k b level).1.width = b.width ∧
      (initializeBoard K draws k b level).1.height = b.height := by
  have h0 : RowsInv { b with tiles := [] } 0 :=
    ⟨rfl, fun r hr => by simp at hr, fun r c id h => by simp [cellOf] at h,
      fun r c id h => by simp [cellOf] at h⟩
  have := initializeRows_spec K draws level b.height 0 { b with tiles := [] } k h0
  simpa [initializeBoard] using this

theorem initializeBoard_full (K : Consts) (draws : Nat → Nat) (k : Nat) (b : Board)
    (level : Nat) (hw : b.width = SIZE) (hh : b.height = SIZE) :
    IsFull (initializeBoard K draws k b level).1.tiles := by
  obtain ⟨h, h1, -⟩ := initializeBoard_spec K draws k b level
  refine ⟨⟨by rw [h.len, hh], fun r hr => by rw [(h.rows r hr).1, h1, hw]⟩, ?_⟩
  intro r hr c hc
  exact (h.rows r hr).2 c hc

/-! ## Matchless start -/

theorem calculateMatches_matchList (K : Consts) (b : Board) (ms : List (List Cell)) :
    calculateMatches K { b with matchList := ms } = calculateMatches K b := rfl

theorem calculateMatches_shape (K : Consts) (b : Board) (h : IsFull b.tiles) (b2 : Board)
    (n : Nat) (hc : calculateMatches K b = some (b2, n)) :
    ∃ ms, b2 = { b with matchList := ms } ∧ n = ms.length := by
  rw [calculateMatches, scanMatches_full b h] at hc
  simp only at hc
  cases he : expandMatches K
      { b with matchList := (horizontalRunsFrom b SIZE 0).map (rowMatch b) ++
        (verticalRunsFrom b SIZE 0).map (columnMatch b) }
      ((horizontalRunsFrom b SIZE 0).map (rowMatch b) ++
        (verticalRunsFrom b SIZE 0).map (columnMatch b)) with
  | none => simp [he] at hc
  | some ms =>
    simp only [he, Option.some.injEq, Prod.mk.injEq] at hc
    exact ⟨ms, hc.1.symm, hc.2.symm⟩

theorem maximalRun_of_triple (c : Nat → Nat) (s : Nat) (hs : s + 3 ≤ SIZE)
    (h1 : c s = c (s + 1)) (h2 : c (s + 1) = c (s + 2)) : ∃ s0 l0, IsMaximalRun c s0 l0 := by
  have hS : SIZE = 8 := rfl
  have hM : minimumMatchLength = 3 := rfl
  -- the leftmost start of the run through `s`
  have hex1 : ∃ a, ∀ i, a ≤ i → i ≤ s → c i = c s := ⟨s, fun i h1 h2 => by
    have : i = s := by omega
    rw [this]⟩
  classical
  let a := Nat.find hex1
  have ha : ∀ i, a ≤ i → i ≤ s → c i = c s := Nat.find_spec hex1
  have hamin : ∀ m, m < a → ¬ ∀ i, m ≤ i → i ≤ s → c i = c s := fun m hm => Nat.find_min hex1 hm
  have has : a ≤ s := Nat.find_min' hex1 (fun i h1 h2 => by
    have : i = s := by omega
    rw [this])
  -- the first index after `s + 2` at which the run stops
  have hex2 : ∃ e, s + 3 ≤ e ∧ (e = SIZE ∨ c e ≠ c s) := ⟨SIZE, hs, Or.inl rfl⟩
  let e := Nat.find hex2
  have he : s + 3 ≤ e ∧ (e = SIZE ∨ c e ≠ c s) := Nat.find_spec hex2
  have hemin : ∀ m, m < e → ¬ (s + 3 ≤ m ∧ (m = SIZE ∨ c m ≠ c s)) :=
    fun m hm => Nat.find_min hex2 hm
  have he8 : e ≤ SIZE := Nat.find_min' hex2 ⟨hs, Or.inl rfl⟩
  have hrun : ∀ i, a ≤ i → i < e → c i = c s := by
    intro i hi1 hi2
    by_cases hle : i ≤ s
    · exact ha i hi1 hle
    · by_cases h3 : s + 3 ≤ i
      · have := hemin i hi2
        by_contra hne
        exact this ⟨h3, Or.inr hne⟩
      · have : i = s + 1 ∨ i = s + 2 := by omega
        rcases this with rfl | rfl
        · exact h1.symm
        · exact (h1.trans h2).symm
  have hca : c a = c s := ha a (le_refl _) has
  refine ⟨a, e - a, by omega, by omega, ?_, ?_, ?_⟩
  · intro i hi
    rw [hrun (a + i) (by omega) (by omega), hca]
  · by_cases h0 : a = 0
    · exact Or.inl h0
    · right
      intro heq
      apply hamin (a - 1) (by omega)
      intro i hi1 hi2
      by_cases hia : a ≤ i
      · exact ha i hia hi2
      · have : i = a - 1 := by omega
        rw [this, heq, hca]
  · rw [show a + (e - a) = e by omega, hca]
    exact he.2

theorem initializePlayBoard_spec (K : Consts) (draws : Nat → Nat) (level : Nat) :
    ∀ (fuel k : Nat) (b b1 : Board) (k1 : Nat), b.width = SIZE → b.height = SIZE →
      initializePlayBoard K draws level fuel k b = some (b1, k1) →
      IsFull b1.tiles ∧ CoordInv b1 ∧ Allocated b1 ∧ b1.width = SIZE ∧ b1.height = SIZE ∧
        b1.matchList = [] ∧ calculateMatches K b1 = some (b1, 0) := by
  intro fuel
  induction fuel with
  | zero => intro k b b1 k1 _ _ h; simp [initializePlayBoard] at h
  | succ fuel ih =>
    intro k b b1 k1 hw hh h
    rw [initializePlayBoard] at h
    obtain ⟨hinv, w1, h1⟩ := initializeBoard_spec K draws k b level
    have hfull := initializeBoard_full K draws k b level hw hh
    have hgen : initializeBoard K draws k b level =
        ((initializeBoard K draws k b level).1, (initializeBoard K draws k b level).2) := rfl
    rw [hgen] at h
    simp only at h
    cases hc : calculateMatches K (initializeBoard K draws k b level).1 with
    | none => simp [hc] at h
    | some res =>
      obtain ⟨b2, n⟩ := res
      simp only [hc] at h
      obtain ⟨ms, rfl, rfl⟩ := calculateMatches_shape K _ hfull b2 n hc
      by_cases hpos : ms.length > 0
      · simp only [hpos, if_true] at h
        exact ih _ _ b1 k1 (by rw [← hw, ← w1]) (by rw [← hh, ← h1]) h
      · simp only [hpos, if_false, Option.some.injEq, Prod.mk.injEq] at h
        obtain ⟨rfl, -⟩ := h
        have hnil : ms = [] := List.length_eq_zero.1 (by omega)
        subst hnil
        refine ⟨hfull, hinv.coord, hinv.alloc, by rw [← hw, ← w1], by rw [← hh, ← h1], rfl,
          ?_⟩
        rw [calculateMatches_matchList]
        exact hc

/-- C9 (matchless start).  For every level of at least 1 and every sequence of random
draws, if `initializePlayBoard(level)` on a board 8 wide and 8 high returns (after any
number of attempts), the resulting board has a tile in each of its 8 x 8 cells,
`calculateMatches` on it returns 0 and leaves it as it is, and no three consecutive
cells of a row or of a column hold tiles of one colour. -/
theorem matchless_start (K : Consts) (draws : Nat → Nat) (level fuel k : Nat) (b : Board)
    (r : Board × Nat) (_hlevel : 1 ≤ level) (hw : b.width = SIZE) (hh : b.height = SIZE)
    (h : initializePlayBoard K draws level fuel k b = some r) :
    IsFull r.1.tiles ∧ calculateMatches K r.1 = some (r.1, 0) ∧
      (∀ y s, y < SIZE → s + 3 ≤ SIZE →
        ¬ (colourOf r.1 y s = colourOf r.1 y (s + 1) ∧
          colourOf r.1 y (s + 1) = colourOf r.1 y (s + 2))) ∧
      (∀ x s, x < SIZE → s + 3 ≤ SIZE →
        ¬ (colourOf r.1 s x = colourOf r.1 (s + 1) x ∧
          colourOf r.1 (s + 1) x = colourOf r.1 (s + 2) x)) := by
  obtain ⟨b1, k1⟩ := r
  obtain ⟨hfull, hinv, -, hw1, hh1, -, hcalc⟩ :=
    initializePlayBoard_spec K draws level fuel k b b1 k1 hw hh h
  have hcount := calculateMatches_count K b1 hfull b1 0 hcalc
  have hh0 : horizontalRunsFrom b1 SIZE 0 = [] := List.length_eq_zero.1 (by omega)
  have hv0 : verticalRunsFrom b1 SIZE 0 = [] := List.length_eq_zero.1 (by omega)
  refine ⟨hfull, hcalc, ?_, ?_⟩
  · rintro y s hy hs ⟨e1, e2⟩
    obtain ⟨s0, l0, hrun⟩ := maximalRun_of_triple (fun x => colourOf b1 y x) s hs e1 e2
    have := (mem_horizontalRunsFrom b1 SIZE 0 y s0 l0).2 ⟨Nat.zero_le _, by omega, hrun⟩
    rw [hh0] at this
    simp at this
  · rintro x s hx hs ⟨e1, e2⟩
    obtain ⟨s0, l0, hrun⟩ := maximalRun_of_triple (fun y => colourOf b1 y x) s hs e1 e2
    have := (mem_verticalRunsFrom b1 SIZE 0 x s0 l0).2 ⟨Nat.zero_le _, by omega, hrun⟩
    rw [hv0] at this
    simp at this

/-- Witness for C9: with the draws `sampleDraws` the first attempt of
`initializePlayBoard(1)` on `emptyBoard` succeeds. -/
theorem matchless_start_witness :
    ∃ r, initializePlayBoard sampleConsts sampleDraws 1 1 0 emptyBoard = some r ∧
      IsFull r.1.tiles ∧ calculateMatches sampleConsts r.1 = some (r.1, 0) ∧
      (∀ y s, y < SIZE → s + 3 ≤ SIZE →
        ¬ (colourOf r.1 y s = colourOf r.1 y (s + 1) ∧
          colourOf r.1 y (s + 1) = colourOf r.1 y (s + 2))) ∧
      (∀ x s, x < SIZE → s + 3 ≤ SIZE →
        ¬ (colourOf r.1 s x = colourOf r.1 (s + 1) x ∧
          colourOf r.1 (s + 1) x = colourOf r.1 (s + 2) x)) := by
  obtain ⟨r, hr⟩ := Option.isSome_iff_exists.1
    (by decide : (initializePlayBoard sampleConsts sampleDraws 1 1 0 emptyBoard).isSome = true)
  exact ⟨r, hr, matchless_start sampleConsts sampleDraws 1 1 0 emptyBoard r (by decide) rfl rfl hr⟩

/-! ## The coordinate invariant -/

theorem swapTiles_coordInv (b : Board) (hinv : CoordInv b) (a c xa ya xc yc : Nat)
    (ha : cellOf b.tiles ya xa = some a) (hc : cellOf b.tiles yc xc = some c) :
    ∃ b2, swapTiles b a c = some b2 ∧ CoordInv b2 ∧ (Allocated b → Allocated b2) ∧
      shape b2.tiles = shape b.tiles := by
  obtain ⟨hax, hay⟩ := hinv _ _ _ ha
  obtain ⟨hcx, hcy⟩ := hinv _ _ _ hc
  by_cases hne : a = c
  · subst hne
    exact ⟨b, swapTiles_self b a xa ya ha hax hay, hinv, fun h => h, rfl⟩
  · obtain ⟨t, hsw, hst, hct⟩ := swapTiles_spec b a c xa ya xc yc (inRange_of_cellOf ha)
      (inRange_of_cellOf hc) hax hay hcx hcy hne
    refine ⟨_, hsw, ?_, ?_, hst⟩
    · intro r col id hid
      simp only [hct] at hid
      show (swappedObjects b.objects a c xa ya xc yc id).boardX = col ∧
        (swappedObjects b.objects a c xa ya xc yc id).boardY = r
      by_cases h1 : r = ya ∧ col = xa
      · obtain ⟨rfl, rfl⟩ := h1
        simp only [and_self, if_true, Option.some.injEq] at hid
        subst hid
        simp [swappedObjects]
      · by_cases h2 : r = yc ∧ col = xc
        · obtain ⟨rfl, rfl⟩ := h2
          simp only [h1, and_self, if_true, if_false, Option.some.injEq] at hid
          subst hid
          simp [swappedObjects, hne]
        · simp only [h1, h2, if_false] at hid
          obtain ⟨e1, e2⟩ := hinv _ _ _ hid
          have hida : id ≠ a := by
            rintro rfl
            exact h1 ⟨e2.symm.trans hay, e1.symm.trans hax⟩
          have hidc : id ≠ c := by
            rintro rfl
            exact h2 ⟨e2.symm.trans hcy, e1.symm.trans hcx⟩
          simp only [swappedObjects, hida, hidc, if_false]
          exact ⟨e1, e2⟩
    · intro hal r col id hid
      simp only [hct] at hid
      show id < b.next
      by_cases h1 : r = ya ∧ col = xa
      · obtain ⟨rfl, rfl⟩ := h1
        simp only [and_self, if_true, Option.some.injEq] at hid
        subst hid
        exact hal _ _ _ hc
      · by_cases h2 : r = yc ∧ col = xc
        · obtain ⟨rfl, rfl⟩ := h2
          simp only [h1, and_self, if_true, if_false, Option.some.injEq] at hid
          subst hid
          exact hal _ _ _ ha
        · simp only [h1, h2, if_false] at hid
          exact hal _ _ _ hid

theorem removeMatch_sub (objects : Nat → Tile) :
    ∀ (m : List Cell) (tiles t : List (List Cell)), removeMatch objects tiles m = some t →
      shape t = shape tiles ∧ ∀ r c id, cellOf t r c = some id → cellOf tiles r c = some id := by
  intro m
  induction m with
  | nil =>
    intro tiles t h
    simp only [removeMatch, Option.some.injEq] at h
    subst h
    exact ⟨rfl, fun _ _ _ h => h⟩
  | cons e m ih =>
    intro tiles t h
    cases e with
    | none => simp [removeMatch] at h
    | some id0 =>
      rw [removeMatch] at h
      cases hset : setCell tiles (objects id0).boardY (objects id0).boardX none with
      | none => simp [hset] at h
      | some t1 =>
        simp only [hset] at h
        obtain ⟨hs1, hc1⟩ := setCell_spec hset
        obtain ⟨hs, hc⟩ := ih t1 t h
        refine ⟨hs.trans hs1, ?_⟩
        intro r c id hid
        have := hc r c id hid
        rw [hc1] at this
        by_cases hcond : r = (objects id0).boardY ∧ c = (objects id0).boardX
        · simp [hcond] at this
        · simpa [hcond] using this

theorem removeMatchList_sub (objects : Nat → Tile) :
    ∀ (ms : List (List Cell)) (tiles t : List (List Cell)),
      removeMatchList objects tiles ms = some t →
      shape t = shape tiles ∧ ∀ r c id, cellOf t r c = some id → cellOf tiles r c = some id := by
  intro ms
  induction ms with
  | nil =>
    intro tiles t h
    simp only [removeMatchList, Option.some.injEq] at h
    subst h
    exact ⟨rfl, fun _ _ _ h => h⟩
  | cons m ms ih =>
    intro tiles t h
    rw [removeMatchList] at h
    cases hm : removeMatch objects tiles m with
    | none => simp [hm] at h
    | some t1 =>
      simp only [hm] at h
      obtain ⟨hs1, hc1⟩ := removeMatch_sub objects m tiles t1 hm
      obtain ⟨hs, hc⟩ := ih t1 t h
      exact ⟨hs.trans hs1, fun r c id hid => hc1 r c id (hc r c id hid)⟩

theorem removeMatches_coordInv (b b2 : Board) (h : removeMatches b = some b2) :
    b2.objects = b.objects ∧ b2.next = b.next ∧ shape b2.tiles = shape b.tiles ∧
      ∀ r c id, cellOf b2.tiles r c = some id → cellOf b.tiles r c = some id := by
  rw [removeMatches] at h
  by_cases h0 : b.matchList.length = 0
  · simp only [h0, if_true, Option.some.injEq] at h
    subst h
    exact ⟨rfl, rfl, rfl, fun _ _ _ h => h⟩
  · simp only [h0, if_false] at h
    cases hm : removeMatchList b.objects b.tiles b.matchList with
    | none => simp [hm] at h
    | some t =>
      simp only [hm, Option.some.injEq] at h
      subst h
      obtain ⟨hs, hc⟩ := removeMatchList_sub b.objects b.matchList b.tiles t hm
      exact ⟨rfl, rfl, hs, hc⟩

theorem fallLoop_coordInv (K : Consts) (c : Nat) :
    ∀ (fuel : Nat) (b : Board) (rowP : Nat) (space : Bool) (spaceRow : Nat) (tw : List Tween)
      (b1 : Board) (tw1 : List Tween), CoordInv b →
      fallLoop K c fuel b rowP space spaceRow tw = some (b1, tw1) →
      CoordInv b1 ∧ (Allocated b → Allocated b1) := by
  intro fuel
  induction fuel with
  | zero =>
    intro b rowP space spaceRow tw b1 tw1 hinv h
    cases rowP with
    | zero =>
      rw [fallLoop_zero] at h
      simp only [Option.some.injEq, Prod.mk.injEq] at h
      obtain ⟨rfl, -⟩ := h
      exact ⟨hinv, fun h => h⟩
    | succ row => simp [fallLoop] at h
  | succ fuel ih =>
    intro b rowP space spaceRow tw b1 tw1 hinv h
    cases rowP with
    | zero =>
      rw [fallLoop_zero] at h
      simp only [Option.some.injEq, Prod.mk.injEq] at h
      obtain ⟨rfl, -⟩ := h
      exact ⟨hinv, fun h => h⟩
    | succ row =>
      rw [fallLoop] at h
      cases hrow : b.tiles[row]? with
      | none => simp [hrow] at h
      | some r =>
        simp only [hrow] at h
        cases hcell : r[c]? with
        | none =>
          simp only [hcell] at h
          exact ih _ _ _ _ _ _ _ hinv h
        | some cell =>
          cases cell with
          | none =>
            simp only [hcell] at h
            exact ih _ _ _ _ _ _ _ hinv h
          | some tile =>
            simp only [hcell] at h
            cases space with
            | false =>
              simp only [Bool.false_eq_true, if_false] at h
              exact ih _ _ _ _ _ _ _ hinv h
            | true =>
              simp only [if_true] at h
              have htile : cellOf b.tiles row c = some tile := by
                simp only [cellOf, hrow, hcell]
              cases hs1 : setCell b.tiles spaceRow c (some tile) with
              | none => simp [hs1] at h
              | some t1 =>
                simp only [hs1] at h
                cases hs2 : setCell t1 row c none with
                | none => simp [hs2] at h
                | some t2 =>
                  simp only [hs2] at h
                  obtain ⟨-, hc1⟩ := setCell_spec hs1
                  obtain ⟨-, hc2⟩ := setCell_spec hs2
                  obtain ⟨ex, ey⟩ := hinv _ _ _ htile
                  have hcells : ∀ r0 c0 id, cellOf t2 r0 c0 = some id →
                      ¬ (r0 = row ∧ c0 = c) ∧
                      ((r0 = spaceRow ∧ c0 = c ∧ id = tile) ∨
                        (cellOf b.tiles r0 c0 = some id ∧ id ≠ tile)) := by
                    intro r0 c0 id hid
                    rw [hc2] at hid
                    by_cases h1 : r0 = row ∧ c0 = c
                    · simp [h1] at hid
                    · refine ⟨h1, ?_⟩
                      simp only [h1, if_false] at hid
                      rw [hc1] at hid
                      by_cases h2 : r0 = spaceRow ∧ c0 = c
                      · simp only [h2, and_self, if_true, Option.some.injEq] at hid
                        exact Or.inl ⟨h2.1, h2.2, hid.symm⟩
                      · simp only [h2, if_false] at hid
                        refine Or.inr ⟨hid, ?_⟩
                        rintro rfl
                        obtain ⟨e1, e2⟩ := hinv _ _ _ hid
                        exact h1 ⟨e2.symm.trans ey, e1.symm.trans ex⟩
                  have hinv2 : CoordInv
                      { b with tiles := t2, objects := setBoardY b.objects tile spaceRow } := by
                    intro r0 c0 id hid
                    obtain ⟨-, hcase⟩ := hcells r0 c0 id hid
                    show (setBoardY b.objects tile spaceRow id).boardX = c0 ∧
                      (setBoardY b.objects tile spaceRow id).boardY = r0
                    rcases hcase with ⟨e1, e2, e3⟩ | ⟨hold, hne⟩
                    · subst e3
                      simp [setBoardY, ex, e1, e2]
                    · simp only [setBoardY, hne, if_false]
                      exact hinv _ _ _ hold
                  obtain ⟨g1, g2⟩ := ih _ _ _ _ _ _ _ hinv2 h
                  refine ⟨g1, fun hal => g2 ?_⟩
                  intro r0 c0 id hid
                  obtain ⟨-, hcase⟩ := hcells r0 c0 id hid
                  show id < b.next
                  rcases hcase with ⟨-, -, e3⟩ | ⟨hold, -⟩
                  · rw [e3]; exact hal _ _ _ htile
                  · exact hal _ _ _ hold

theorem fallColumns_coordInv (K : Consts) :
    ∀ (n c : Nat) (b : Board) (tw : List Tween) (b1 : Board) (tw1 : List Tween), CoordInv b →
      fallColumns K n c b tw = some (b1, tw1) → CoordInv b1 ∧ (Allocated b → Allocated b1) := by
  intro n
  induction n with
  | zero =>
    intro c b tw b1 tw1 hinv h
    simp only [fallColumns, Option.some.injEq, Prod.mk.injEq] at h
    obtain ⟨rfl, -⟩ := h
    exact ⟨hinv, fun h => h⟩
  | succ n ih =>
    intro c b tw b1 tw1 hinv h
    rw [fallColumns] at h
    cases hf : fallLoop K c fallFuel b SIZE false 0 tw with
    | none => simp [hf] at h
    | some res =>
      obtain ⟨b0, tw0⟩ := res
      simp only [hf] at h
      obtain ⟨g1, g2⟩ := fallLoop_coordInv K c _ _ _ _ _ _ _ _ hinv hf
      obtain ⟨k1, k2⟩ := ih _ _ _ _ _ g1 h
      exact ⟨k1, fun hal => k2 (g2 hal)⟩

theorem lt_of_inRange {tiles : List (List Cell)} (hg : IsGrid tiles) {row col : Nat}
    (h : InRange tiles row col) : row < SIZE ∧ col < SIZE := by
  obtain ⟨r, h1, h2⟩ := (inRange_iff _ _ _).1 h
  have hlt := (List.getElem?_eq_some.1 h1).1
  have hmem : r ∈ tiles := List.getElem?_mem h1
  rw [hg.1] at hlt
  rw [hg.2 r hmem] at h2
  exact ⟨hlt, h2⟩

theorem getNewTiles_coordInv (K : Consts) (draws : Nat → Nat) (k : Nat) (b : Board)
    (level : Nat) (hg : IsGrid b.tiles) (hinv : CoordInv b) (hal : Allocated b) :
    ∃ b1 k1 tw, getNewTiles K draws k b level = some (b1, k1, tw) ∧ CoordInv b1 ∧
      Allocated b1 := by
  obtain ⟨b1, h1, h2, h3, h4, h5, h6, h7, -⟩ := refillList_spec K draws level
    (visitOrder SIZE 0) b k [] hg visitOrder_inRange visitOrder_nodup
  have hkey : ∀ r c id, cellOf b1.tiles r c = some id →
      (cellOf b.tiles r c = some id ∧ id < b.next) ∨
      (b.next ≤ id ∧ id < b1.next ∧ (b1.objects id).boardX = c ∧
        (b1.objects id).boardY = r) := by
    intro r c id hid
    obtain ⟨hr, hc⟩ := lt_of_inRange hg (inRange_of_shape h2.symm (inRange_of_cellOf hid))
    cases hold : cellOf b.tiles r c with
    | some id0 =>
      have := h6 r c id0 hold
      rw [hid] at this
      have hid0 : id = id0 := Option.some.inj this
      subst hid0
      exact Or.inl ⟨rfl, hal _ _ _ hold⟩
    | none =>
      obtain ⟨id1, g1, g2, g3, g4, g5⟩ := h7 r c (visitOrder_complete r hr c hc) hold
      rw [hid] at g1
      have : id = id1 := Option.some.inj g1
      subst this
      exact Or.inr ⟨g2, g3, g4, g5⟩
  refine ⟨b1, _, _, by rw [getNewTiles, newTilesColumns_eq]; exact h1, ?_, ?_⟩
  · intro r c id hid
    rcases hkey r c id hid with ⟨hold, hlt⟩ | ⟨-, -, e1, e2⟩
    · rw [h4 id hlt]
      exact hinv _ _ _ hold
    · exact ⟨e1, e2⟩
  · intro r c id hid
    rcases hkey r c id hid with ⟨-, hlt⟩ | ⟨-, hlt, -, -⟩
    · rw [h3]; omega
    · exact hlt

/-- C10 (coordinate invariant).  The predicate "every non-empty cell
`tiles[row][column]` holds a tile with `boardX = column` and `boardY = row`, and no
tile occupies two cells" holds after `initializeBoard` (from any board, for any
draws), and is preserved by `swapTiles` on two tiles of the board, by
`removeMatches` (whenever it returns; it returns when every match entry is a tile
whose recorded coordinates lie in the grid), by `getFallingTiles` on a grid of 8 x 8
cells, and by `getNewTiles` on a grid of 8 x 8 cells whose references are all
allocated (below `next`, which every operation also maintains). -/
theorem coordinate_invariant (K : Consts) (draws : Nat → Nat) :
    (∀ k b level, CoordinateInvariant (initializeBoard K draws k b level).1 ∧
      Allocated (initializeBoard K draws k b level).1) ∧
    (∀ b a c xa ya xc yc, CoordinateInvariant b → cellOf b.tiles ya xa = some a →
      cellOf b.tiles yc xc = some c →
      ∃ b2, swapTiles b a c = some b2 ∧ CoordinateInvariant b2 ∧
        (Allocated b → Allocated b2)) ∧
    (∀ b, CoordinateInvariant b →
      (∀ b2, removeMatches b = some b2 →
        CoordinateInvariant b2 ∧ (Allocated b → Allocated b2)) ∧
      (MatchesInGrid b.objects b.tiles b.matchList → ∃ b2, removeMatches b = some b2)) ∧
    (∀ b, IsGrid b.tiles → CoordinateInvariant b →
      ∃ b2 tw, getFallingTiles K b = some (b2, tw) ∧ CoordinateInvariant b2 ∧
        (Allocated b → Allocated b2)) ∧
    (∀ k b level, IsGrid b.tiles → CoordinateInvariant b → Allocated b →
      ∃ b2 k2 tw, getNewTiles K draws k b level = some (b2, k2, tw) ∧
        CoordinateInvariant b2 ∧ Allocated b2) := by
  refine ⟨?_, ?_, ?_, ?_, ?_⟩
  · intro k b level
    obtain ⟨h, -, -⟩ := initializeBoard_spec K draws k b level
    exact ⟨coordinateInvariant_of_coordInv h.coord, h.alloc⟩
  · intro b a c xa ya xc yc hinv ha hc
    obtain ⟨b2, h1, h2, h3, -⟩ := swapTiles_coordInv b hinv.1 a c xa ya xc yc ha hc
    exact ⟨b2, h1, coordinateInvariant_of_coordInv h2, h3⟩
  · intro b hinv
    constructor
    · intro b2 h
      obtain ⟨h1, h2, -, h4⟩ := removeMatches_coordInv b b2 h
      constructor
      · apply coordinateInvariant_of_coordInv
        intro r c id hid
        rw [h1]
        exact hinv.1 _ _ _ (h4 r c id hid)
      · intro hal r c id hid
        rw [h2]
        exact hal _ _ _ (h4 r c id hid)
    · intro hm
      obtain ⟨t, ht, -⟩ := removeMatches_spec b hm
      exact ⟨_, ht⟩
  · intro b hg hinv
    obtain ⟨b1, tw1, hf, -⟩ := fallColumns_spec K SIZE 0 b [] hg (by simp)
    obtain ⟨g1, g2⟩ := fallColumns_coordInv K SIZE 0 b [] b1 tw1 hinv.1 hf
    exact ⟨b1, tw1, hf, coordinateInvariant_of_coordInv g1, g2⟩
  · intro k b level hg hinv hal
    obtain ⟨b1, k1, tw, h1, h2, h3⟩ := getNewTiles_coordInv K draws k b level hg hinv.1 hal
    exact ⟨b1, k1, tw, h1, coordinateInvariant_of_coordInv h2, h3⟩

/-- Witness for C10: `holedBoard` is a grid of 8 x 8 cells that satisfies the
invariant, so `getFallingTiles` returns a board that satisfies it. -/
theorem coordinate_invariant_witness :
    ∃ b2 tw, getFallingTiles sampleConsts holedBoard = some (b2, tw) ∧
      CoordinateInvariant b2 ∧ (Allocated holedBoard → Allocated b2) :=
  (coordinate_invariant sampleConsts sampleDraws).2.2.2.1 holedBoard (by decide)
    (coordinateInvariant_of_coordInv ((coordInv_iff_check holedBoard).2 (by decide)))

/-! ## The frame of match detection -/

theorem calculateMatches_only_matches (K : Consts) (b b2 : Board) (n : Nat)
    (hc : calculateMatches K b = some (b2, n)) :
    ∃ ms, b2 = { b with matchList := ms } ∧ n = ms.length := by
  simp only [calculateMatches, scanMatches, resolveHorizontalMatches,
    resolveVerticalMatches] at hc
  cases h1 : horizontalRows { b with matchList := [] } SIZE 0 [] with
  | none => simp [h1] at hc
  | some ms1 =>
    simp only [h1] at hc
    cases h2 : verticalColumns { b with matchList := ms1 } SIZE 0 ms1 with
    | none => simp [h2] at hc
    | some ms2 =>
      simp only [h2] at hc
      cases h3 : expandMatches K { b with matchList := ms2 } ms2 with
      | none => simp [h3] at hc
      | some ms =>
        simp only [h3, Option.some.injEq, Prod.mk.injEq] at hc
        exact ⟨ms, hc.1.symm, hc.2.symm⟩

/-- C17 (match computation does not touch the grid).  On a full 8 x 8 board, the board
that `calculateMatches` leaves differs from the board it was called on in `matches`
only: every cell of `tiles` holds the same tile, and every tile object (colour,
pattern, `boardX`, `boardY`) is the same, star expansion included; the value
returned is the length of the new `matches`.  The call returns on every such board
that is 8 wide and whose tiles record a row below 8 (star expansion reads
`tiles[boardY]`). -/
theorem calculateMatches_frame (K : Consts) (b : Board) (h : IsFull b.tiles) :
    (∀ b2 n, calculateMatches K b = some (b2, n) →
      b2.tiles = b.tiles ∧ (∀ r c, cellOf b2.tiles r c = cellOf b.tiles r c) ∧
      (∀ id, b2.objects id = b.objects id) ∧ b2.width = b.width ∧ b2.height = b.height ∧
      b2.next = b.next ∧ n = b2.matchList.length) ∧
    (b.width = SIZE →
      (∀ r c id, cellOf b.tiles r c = some id → (b.objects id).boardY < SIZE) →
      ∃ b2 n, calculateMatches K b = some (b2, n)) := by
  constructor
  · intro b2 n hc
    obtain ⟨ms, rfl, rfl⟩ := calculateMatches_only_matches K b b2 n hc
    exact ⟨rfl, fun _ _ => rfl, fun _ => rfl, rfl, rfl, rfl, rfl⟩
  · intro hw hy
    obtain ⟨b3, h3⟩ := calculateMatches_returns K b h hw hy
    exact ⟨b3, _, h3⟩

theorem calculateMatches_frame_witness :
    IsFull starBoard.tiles ∧
    ((∀ b2 n, calculateMatches sampleConsts starBoard = some (b2, n) →
      b2.tiles = starBoard.tiles ∧
      (∀ r c, cellOf b2.tiles r c = cellOf starBoard.tiles r c) ∧
      (∀ id, b2.objects id = starBoard.objects id) ∧ b2.width = starBoard.width ∧
      b2.height = starBoard.height ∧
      b2.next = starBoard.next ∧ n = b2.matchList.length) ∧
    (starBoard.width = SIZE →
      (∀ r c id, cellOf starBoard.tiles r c = some id →
        (starBoard.objects id).boardY < SIZE) →
      ∃ b2 n, calculateMatches sampleConsts starBoard = some (b2, n))) :=
  ⟨by decide, calculateMatches_frame sampleConsts starBoard (by decide)⟩

/-! ## Tile generation -/

theorem pickRandomElement_mem (K : Consts) (raw : Nat) :
    pickRandomElement raw (colourList K) ∈ colourList K := by
  have h6 : raw % 6 < 6 := Nat.mod_lt _ (by decide)
  simp only [pickRandomElement, colourList, List.length_cons, List.length_nil]
  generalize raw % (0 + 1 + 1 + 1 + 1 + 1 + 1) = i at *
  have hi : i < 6 := h6
  interval_cases i <;> simp

theorem getRandomPositiveInteger_range (raw lo hi : Nat) (h : lo ≤ hi) :
    lo ≤ getRandomPositiveInteger raw lo hi ∧ getRandomPositiveInteger raw lo hi ≤ hi := by
  have := Nat.mod_lt raw (by omega : 0 < hi - lo + 1)
  simp only [getRandomPositiveInteger]
  omega

theorem getRandomPositiveInteger_onto (lo hi v : Nat) (h1 : lo ≤ v) (h2 : v ≤ hi) :
    getRandomPositiveInteger (v - lo) lo hi = v := by
  simp only [getRandomPositiveInteger]
  rw [Nat.mod_eq_of_lt (by omega)]
  omega

/-- C15 (generation policy).  With `Flat = 0` and `Star` above `Triangle` (the pattern
tiers of the specification), for every level from 1 on, every `(x, y)` and every
outcome of the three random draws, `generateTile(x, y, level)` returns a new tile
with `boardX = x`, `boardY = y` and a colour of the 6-colour list; its pattern is
Star exactly when the star draw, a value of `[0, 50]` each of whose 51 values can be
drawn, equals 19, and is otherwise the pattern draw, which lies in
`[0, min(Triangle, level - 1)]` and is not Star. -/
theorem generation_policy (K : Consts) (draws : Nat → Nat) (k : Nat) (b : Board)
    (x y level : Nat) (hlevel : 1 ≤ level) (hflat : K.flat = 0) (hstar : K.triangle < K.star) :
    (generateTile K draws k b x y level).2.1 = b.next ∧
    ((generateTile K draws k b x y level).1.objects b.next).boardX = x ∧
    ((generateTile K draws k b x y level).1.objects b.next).boardY = y ∧
    ((generateTile K draws k b x y level).1.objects b.next).colour ∈ colourList K ∧
    (((generateTile K draws k b x y level).1.objects b.next).pattern = K.star ↔
      getRandomPositiveInteger (draws (k + 2)) 0 50 = 19) ∧
    (getRandomPositiveInteger (draws (k + 2)) 0 50 ≠ 19 →
      ((generateTile K draws k b x y level).1.objects b.next).pattern =
        getRandomPositiveInteger (draws (k + 1)) K.flat (min K.triangle (level - 1))) ∧
    getRandomPositiveInteger (draws (k + 1)) K.flat (min K.triangle (level - 1)) ≤
      min K.triangle (level - 1) ∧
    getRandomPositiveInteger (draws (k + 1)) K.flat (min K.triangle (level - 1)) ≠ K.star ∧
    getRandomPositiveInteger (draws (k + 2)) 0 50 ≤ 50 ∧
    (∀ v, v ≤ 50 → ∃ raw, getRandomPositiveInteger raw 0 50 = v) ∧
    (∀ v, v ≤ min K.triangle (level - 1) →
      ∃ raw, getRandomPositiveInteger raw K.flat (min K.triangle (level - 1)) = v) := by
  have hp := getRandomPositiveInteger_range (draws (k + 1)) K.flat (min K.triangle (level - 1))
    (by omega)
  have hs := getRandomPositiveInteger_range (draws (k + 2)) 0 50 (by omega)
  have hmin : min K.triangle (level - 1) ≤ K.triangle := Nat.min_le_left _ _
  have hne : getRandomPositiveInteger (draws (k + 1)) K.flat (min K.triangle (level - 1)) ≠
      K.star := by omega
  refine ⟨rfl, ?_, ?_, ?_, ?_, ?_, hp.2, hne, hs.2, ?_, ?_⟩
  · simp [generateTile, newTile]
  · simp [generateTile, newTile]
  · simp only [generateTile, newTile, if_true]
    exact pickRandomElement_mem K (draws k)
  · by_cases h19 : getRandomPositiveInteger (draws (k + 2)) 0 50 = 19
    · simp [generateTile, newTile, h19]
    · simp only [generateTile, newTile, if_true, h19, if_false, iff_false]
      exact hne
  · intro h19
    simp [generateTile, newTile, h19]
  · intro v hv
    exact ⟨v - 0, getRandomPositiveInteger_onto 0 50 v (by omega) hv⟩
  · intro v hv
    exact ⟨v - K.flat, getRandomPositiveInteger_onto K.flat _ v (by omega) hv⟩

/-- Witness for C15: level 1 with the sample constants (`Flat = 0`, `Triangle = 5`,
`Star = 6`). -/
theorem generation_policy_witness :
    (generateTile sampleConsts sampleDraws 0 emptyBoard 2 3 1).2.1 = emptyBoard.next ∧
    ((generateTile sampleConsts sampleDraws 0 emptyBoard 2 3 1).1.objects
      emptyBoard.next).boardX = 2 ∧
    ((generateTile sampleConsts sampleDraws 0 emptyBoard 2 3 1).1.objects
      emptyBoard.next).boardY = 3 :=
  ⟨(generation_policy sampleConsts sampleDraws 0 emptyBoard 2 3 1 (by decide) rfl
      (by decide)).1,
    (generation_policy sampleConsts sampleDraws 0 emptyBoard 2 3 1 (by decide) rfl
      (by decide)).2.1,
    (generation_policy sampleConsts sampleDraws 0 emptyBoard 2 3 1 (by decide) rfl
      (by decide)).2.2.1⟩

/-! ## The early exit of the scans -/

theorem horizontalLoopNoBreak_eq (b : Board) (y : Nat) :
    ∀ (n x mc col : Nat) (rm : List (List Cell)),
      horizontalLoopNoBreak b y n x mc col rm =
        lineLoopNoBreak (fun x => b.colourAt y x) (backwardsRow b y) n x mc col rm := by
  intro n
  induction n with
  | zero => intro x mc col rm; rfl
  | succ n ih =>
    intro x mc col rm
    simp only [horizontalLoopNoBreak, lineLoopNoBreak, ih]

theorem verticalLoopNoBreak_eq (b : Board) (x : Nat) :
    ∀ (n y mc col : Nat) (cm : List (List Cell)),
      verticalLoopNoBreak b x n y mc col cm =
        lineLoopNoBreak (fun y => b.colourAt y x) (backwardsColumn b x) n y mc col cm := by
  intro n
  induction n with
  | zero => intro y mc col cm; rfl
  | succ n ih =>
    intro y mc col cm
    simp only [verticalLoopNoBreak, lineLoopNoBreak, ih]

theorem lineLoopNoBreak_tail (colour : Nat → Option Nat)
    (back : Nat → Nat → Option (List Cell))
    (hcol : ∀ i, i < SIZE → ∃ v, colour i = some v) :
    ∀ (n x col : Nat) (lm : List (List Cell)), SIZE - 2 ≤ x → x + 1 + n = SIZE →
      ∃ mc, lineLoopNoBreak colour back n (x + 1) 1 col lm = some (mc, lm) ∧
        mc < minimumMatchLength := by
  have hS : SIZE = 8 := rfl
  have hM : minimumMatchLength = 3 := rfl
  intro n x col lm hx hn
  cases n with
  | zero => exact ⟨1, rfl, by decide⟩
  | succ m =>
    have hm : m = 0 := by omega
    subst hm
    obtain ⟨v, hv⟩ := hcol (x + 1) (by omega)
    by_cases hvc : v = col
    · exact ⟨2, by simp [lineLoopNoBreak, hv, hvc], by decide⟩
    · exact ⟨1, by simp [lineLoopNoBreak, hv, hvc, hM], by decide⟩

theorem lineLoopNoBreak_flush (colour : Nat → Option Nat)
    (back : Nat → Nat → Option (List Cell))
    (hcol : ∀ i, i < SIZE → ∃ v, colour i = some v) :
    ∀ (n x mc col : Nat) (lm : List (List Cell)), x + n = SIZE →
      lineFlush back (lineLoopNoBreak colour back n x mc col lm) =
        lineFlush back (lineLoop colour back n x mc col lm) := by
  have hS : SIZE = 8 := rfl
  intro n
  induction n with
  | zero => intro x mc col lm _; rfl
  | succ n ih =>
    intro x mc col lm hx
    obtain ⟨v, hv⟩ := hcol x (by omega)
    simp only [lineLoopNoBreak, lineLoop, hv]
    by_cases hvc : v = col
    · simp only [hvc, if_true]
      exact ih (x + 1) (mc + 1) col lm (by omega)
    · simp only [hvc, if_false]
      cases hb : (if minimumMatchLength ≤ mc then
          (back x mc).map (fun m => lm ++ [m]) else some lm) with
      | none => rfl
      | some lm1 =>
        simp only
        by_cases hbr : SIZE - 2 ≤ x
        · simp only [hbr, if_true]
          obtain ⟨mc1, h1, h2⟩ := lineLoopNoBreak_tail colour back hcol n x v lm1 hbr (by omega)
          rw [h1]
          have h3 : ¬ minimumMatchLength ≤ mc1 := by omega
          have h4 : ¬ minimumMatchLength ≤ 1 := by decide
          simp only [lineFlush, h3, h4, if_false]
        · simp only [hbr, if_false]
          exact ih (x + 1) 1 v lm1 (by omega)

theorem horizontalRowNoBreak_eq (b : Board) (h : IsFull b.tiles) (y : Nat) (hy : y < SIZE) :
    horizontalRowNoBreak b y = horizontalRow b y := by
  have hcol : ∀ i, i < SIZE → ∃ v, (fun x => b.colourAt y x) i = some v :=
    fun i hi => ⟨_, colourAt_full b h hy hi⟩
  have hf := lineLoopNoBreak_flush _ (backwardsRow b y) hcol (SIZE - 1) 1 1
    (colourOf b y 0) [] (by decide)
  simp only [horizontalRowNoBreak, horizontalRow, horizontalLoopNoBreak_eq, horizontalLoop_eq,
    colourAt_full b h hy (by decide : 0 < SIZE)]
  exact hf

theorem verticalColumnNoBreak_eq (b : Board) (h : IsFull b.tiles) (x : Nat) (hx : x < SIZE) :
    verticalColumnNoBreak b x = verticalColumn b x := by
  have hcol : ∀ i, i < SIZE → ∃ v, (fun y => b.colourAt y x) i = some v :=
    fun i hi => ⟨_, colourAt_full b h hi hx⟩
  have hf := lineLoopNoBreak_flush _ (backwardsColumn b x) hcol (SIZE - 1) 1 1
    (colourOf b 0 x) [] (by decide)
  simp only [verticalColumnNoBreak, verticalColumn, verticalLoopNoBreak_eq, verticalLoop_eq,
    colourAt_full b h (by decide : 0 < SIZE) hx]
  exact hf

theorem horizontalRowsNoBreak_eq (b : Board) (h : IsFull b.tiles) :
    ∀ (n y : Nat) (ms : List (List Cell)), y + n ≤ SIZE →
      horizontalRowsNoBreak b n y ms = horizontalRows b n y ms := by
  intro n
  induction n with
  | zero => intro y ms _; rfl
  | succ n ih =>
    intro y ms hy
    simp only [horizontalRowsNoBreak, horizontalRows, horizontalRowNoBreak_eq b h y (by omega)]
    cases horizontalRow b y with
    | none => rfl
    | some rm => exact ih (y + 1) _ (by omega)

theorem verticalColumnsNoBreak_eq (b : Board) (h : IsFull b.tiles) :
    ∀ (n x : Nat) (ms : List (List Cell)), x + n ≤ SIZE →
      verticalColumnsNoBreak b n x ms = verticalColumns b n x ms := by
  intro n
  induction n with
  | zero => intro x ms _; rfl
  | succ n ih =>
    intro x ms hx
    simp only [verticalColumnsNoBreak, verticalColumns,
      verticalColumnNoBreak_eq b h x (by omega)]
    cases verticalColumn b x with
    | none => rfl
    | some cm => exact ih (x + 1) _ (by omega)

/-- C16 (the early exit does not change the result).  On a full 8 x 8 board,
`resolveHorizontalMatches` and `resolveVerticalMatches`, which leave the scan of a line
at a colour change at index `SIZE - 2` or later, return, and the board they leave,
with its list of matches in its order, is the one left by the same scans with the
`break` statement removed. -/
theorem early_exit_refines (b : Board) (h : IsFull b.tiles) :
    (∃ b1, resolveHorizontalMatches b = some b1 ∧ resolveHorizontalMatchesNoBreak b = some b1 ∧
      b1.matchList = b.matchList ++ (horizontalRunsFrom b SIZE 0).map (rowMatch b)) ∧
    (∃ b2, resolveVerticalMatches b = some b2 ∧ resolveVerticalMatchesNoBreak b = some b2 ∧
      b2.matchList = b.matchList ++ (verticalRunsFrom b SIZE 0).map (columnMatch b)) := by
  refine ⟨⟨_, resolveHorizontalMatches_full b h, ?_, rfl⟩,
    ⟨_, resolveVerticalMatches_full b h, ?_, rfl⟩⟩
  · simp only [resolveHorizontalMatchesNoBreak,
      horizontalRowsNoBreak_eq b h SIZE 0 _ (by decide),
      horizontalRows_full b h SIZE 0 _ (by simp)]
  · simp only [resolveVerticalMatchesNoBreak,
      verticalColumnsNoBreak_eq b h SIZE 0 _ (by decide),
      verticalColumns_full b h SIZE 0 _ (by simp)]

theorem early_exit_refines_witness :
    IsFull starBoard.tiles ∧
    ((∃ b1, resolveHorizontalMatches starBoard = some b1 ∧
      resolveHorizontalMatchesNoBreak starBoard = some b1 ∧
      b1.matchList =
        starBoard.matchList ++ (horizontalRunsFrom starBoard SIZE 0).map (rowMatch starBoard)) ∧
    (∃ b2, resolveVerticalMatches starBoard = some b2 ∧
      resolveVerticalMatchesNoBreak starBoard = some b2 ∧
      b2.matchList =
        starBoard.matchList ++
          (verticalRunsFrom starBoard SIZE 0).map (columnMatch starBoard))) :=
  ⟨by decide, early_exit_refines starBoard (by decide)⟩

/-! ## A swap without a match -/

theorem swapTiles_matchList (b : Board) (ms : List (List Cell)) (a c : Nat) :
    swapTiles { b with matchList := ms } a c =
      (swapTiles b a c).map (fun b1 => { b1 with matchList := ms }) := by
  simp only [swapTiles]
  cases setCell b.tiles
    ((setBoardY (setBoardX (setBoardY (setBoardX b.objects a (b.objects c).boardX) a
      ((setBoardX b.objects a (b.objects c).boardX) c).boardY) c (b.objects a).boardX) c
      (b.objects a).boardY) a).boardY
    ((setBoardY (setBoardX (setBoardY (setBoardX b.objects a (b.objects c).boardX) a
      ((setBoardX b.objects a (b.objects c).boardX) c).boardY) c (b.objects a).boardX) c
      (b.objects a).boardY) a).boardX (some a) with
  | none => rfl
  | some t1 =>
    simp only
    cases setCell t1
      ((setBoardY (setBoardX (setBoardY (setBoardX b.objects a (b.objects c).boardX) a
        ((setBoardX b.objects a (b.objects c).boardX) c).boardY) c (b.objects a).boardX) c
        (b.objects a).boardY) c).boardY
      ((setBoardY (setBoardX (setBoardY (setBoardX b.objects a (b.objects c).boardX) a
        ((setBoardX b.objects a (b.objects c).boardX) c).boardY) c (b.objects a).boardX) c
        (b.objects a).boardY) c).boardX (some c) with
    | none => rfl
    | some t2 => rfl

theorem swapTiles_roundtrip (b : Board) (hinv : CoordInv b) (a c xa ya xc yc : Nat)
    (ha : cellOf b.tiles ya xa = some a) (hc : cellOf b.tiles yc xc = some c) :
    ∃ b1, swapTiles b a c = some b1 ∧ swapTiles b1 c a = some b := by
  obtain ⟨hax, hay⟩ := hinv _ _ _ ha
  obtain ⟨hcx, hcy⟩ := hinv _ _ _ hc
  by_cases hne : a = c
  · subst hne
    exact ⟨b, swapTiles_self b a xa ya ha hax hay, swapTiles_self b a xa ya ha hax hay⟩
  · have hne2 : ¬ c = a := fun e => hne e.symm
    have hcell : ¬ (yc = ya ∧ xc = xa) := by
      rintro ⟨e1, e2⟩
      rw [e1, e2, ha] at hc
      exact hne (Option.some.inj hc)
    obtain ⟨t, hsw, hst, hct⟩ := swapTiles_spec b a c xa ya xc yc (inRange_of_cellOf ha)
      (inRange_of_cellOf hc) hax hay hcx hcy hne
    refine ⟨_, hsw, ?_⟩
    obtain ⟨t2, hsw2, hst2, hct2⟩ := swapTiles_spec
      { b with tiles := t, objects := swappedObjects b.objects a c xa ya xc yc } c a xa ya xc yc
      (inRange_of_shape hst (inRange_of_cellOf ha)) (inRange_of_shape hst (inRange_of_cellOf hc))
      (by simp [swappedObjects]) (by simp [swappedObjects])
      (by simp [swappedObjects, hne]) (by simp [swappedObjects, hne]) hne2
    rw [hsw2]
    have et : t2 = b.tiles := by
      apply grid_ext (hst2.trans hst)
      intro r col
      simp only at hct2
      rw [hct2, hct]
      by_cases h1 : r = ya ∧ col = xa
      · simp only [h1, and_self, if_true]; rw [ha]
      · by_cases h2 : r = yc ∧ col = xc
        · simp only [h1, h2, and_self, if_true, if_false]
          rw [hc]
          simp [hcell]
        · simp only [h1, h2, if_false]
    have eo : swappedObjects (swappedObjects b.objects a c xa ya xc yc) c a xa ya xc yc
        = b.objects := by
      funext i
      by_cases hia : i = a
      · subst hia
        simp only [swappedObjects, if_true, hne, if_false]
        cases hobj : b.objects i
        simp only [hobj] at hax hay
        simp [hax, hay]
      · by_cases hic : i = c
        · subst hic
          simp only [swappedObjects, if_true, hia, if_false]
          cases hobj : b.objects i
          simp only [hobj] at hcx hcy
          simp [hcx, hcy]
        · simp [swappedObjects, hia, hic]
    simp only [et, eo]

/-- C11 (a swap that produces no match is reverted).  On a board whose tiles record
their own coordinates, with a tile selected and a highlighted tile, both on the grid,
such that `calculateMatches` returns 0 on the board with the two exchanged,
`PlayState.swapTiles` returns without consuming a random draw; it leaves every cell
holding the same tile and every tile object (hence `boardX`/`boardY`) as before the
call, `selectedTile` is `null`, score, timer, level and sounds are untouched, and
`board.matches` is empty. -/
theorem swap_reverted (K : Consts) (draws : Nat → Nat) (fuel k : Nat) (st : PlayState)
    (hinv : CoordInv st.board) (selected highlighted xa ya xc yc : Nat)
    (hsel : st.selectedTile = some selected)
    (ha : cellOf st.board.tiles ya xa = some selected)
    (hc : cellOf st.board.tiles yc xc = some highlighted)
    (hzero : ((swapTilesAsync st.board selected highlighted).bind (calculateMatches K)).map
      Prod.snd = some 0) :
    PlayState.swapTiles K draws fuel k st highlighted =
        some ({ st with board := { st.board with matchList := [] }, selectedTile := none }, k) ∧
      (∀ st1 k1, PlayState.swapTiles K draws fuel k st highlighted = some (st1, k1) →
        st1.board.tiles = st.board.tiles ∧
        (∀ r c, cellOf st1.board.tiles r c = cellOf st.board.tiles r c) ∧
        (∀ id, st1.board.objects id = st.board.objects id) ∧ st1.selectedTile = none) := by
  obtain ⟨b1, h1, h2⟩ := swapTiles_roundtrip st.board hinv selected highlighted xa ya xc yc ha hc
  have hmain : PlayState.swapTiles K draws fuel k st highlighted =
      some ({ st with board := { st.board with matchList := [] }, selectedTile := none }, k) := by
    rw [swapTilesAsync_eq, h1] at hzero
    simp only [Option.some_bind] at hzero
    cases hcm : calculateMatches K b1 with
    | none => simp [hcm] at hzero
    | some r =>
      obtain ⟨b2, n⟩ := r
      simp only [hcm, Option.map_some', Option.some.injEq] at hzero
      subst hzero
      obtain ⟨ms, rfl, hlen⟩ := calculateMatches_only_matches K b1 _ _ hcm
      have hnil : ms = [] := List.length_eq_zero.1 hlen.symm
      subst hnil
      simp only [PlayState.swapTiles, hsel, swapTilesAsync_eq, h1, hcm, swapTiles_matchList, h2,
        Nat.lt_irrefl, gt_iff_lt, if_false, Option.map_some']
  refine ⟨hmain, ?_⟩
  intro st1 k1 h
  rw [hmain] at h
  simp only [Option.some.injEq, Prod.mk.injEq] at h
  obtain ⟨rfl, -⟩ := h
  exact ⟨rfl, fun _ _ => rfl, fun _ => rfl, rfl⟩

/-- Witness for C11: on `plainBoard` the tiles 0 and 1 of cells `(0, 0)` and `(1, 0)`
are adjacent and exchanging them makes no match. -/
theorem swap_reverted_witness :
    PlayState.swapTiles sampleConsts sampleDraws 5 0 plainPlayState 1 =
        some ({ plainPlayState with board := { plainPlayState.board with matchList := [] },
                                    selectedTile := none }, 0) ∧
      (∀ st1 k1, PlayState.swapTiles sampleConsts sampleDraws 5 0 plainPlayState 1 =
          some (st1, k1) →
        st1.board.tiles = plainPlayState.board.tiles ∧
        (∀ r c, cellOf st1.board.tiles r c = cellOf plainPlayState.board.tiles r c) ∧
        (∀ id, st1.board.objects id = plainPlayState.board.objects id) ∧
        st1.selectedTile = none) :=
  swap_reverted sampleConsts sampleDraws 5 0 plainPlayState
    ((coordInv_iff_check _).2 (by decide)) 0 1 0 0 1 0 rfl (by decide) (by decide) (by decide)

/-! ## What one removal clears -/

theorem cell_mem_expandedRowMatch (K : Consts) (b : Board) (y s l i : Nat) (hi : i < l)
    (hsl : s + l ≤ SIZE) : cellOf b.tiles y (s + i) ∈ expandedRowMatch K b (y, s, l) := by
  simp only [expandedRowMatch]
  split_ifs
  · simp only [rowCells, List.mem_map, List.mem_range]
    exact ⟨s + i, by omega, by simp⟩
  · simp only [rowMatch, rowCells, List.mem_reverse, List.mem_map, List.mem_range]
    exact ⟨i, hi, rfl⟩

theorem cell_mem_expandedColumnMatch (K : Consts) (b : Board) (x s l i : Nat) (hi : i < l)
    (hsl : s + l ≤ SIZE) : cellOf b.tiles (s + i) x ∈ expandedColumnMatch K b (x, s, l) := by
  simp only [expandedColumnMatch]
  split_ifs
  · simp only [columnCells, List.mem_map, List.mem_range]
    exact ⟨s + i, by omega, by simp⟩
  · simp only [columnMatch, columnCells, List.mem_reverse, List.mem_map, List.mem_range]
    exact ⟨i, hi, rfl⟩

theorem targeted_iff_onBoard (b : Board) (hinv : CoordInv b) (ms : List (List Cell))
    (h : ∀ m ∈ ms, ∀ e ∈ m, ∃ id r c, e = some id ∧ cellOf b.tiles r c = some id)
    (r c : Nat) :
    Targeted b.objects ms r c ↔
      ∃ m ∈ ms, ∃ id, cellOf b.tiles r c = some id ∧ some id ∈ m := by
  constructor
  · rintro ⟨m, hm, id, hid, hy, hx⟩
    obtain ⟨id1, r1, c1, e1, h1⟩ := h m hm _ hid
    obtain rfl := Option.some.inj e1
    obtain ⟨hx1, hy1⟩ := hinv _ _ _ h1
    rw [hx] at hx1
    rw [hy] at hy1
    subst hx1
    subst hy1
    exact ⟨m, hm, id, h1, hid⟩
  · rintro ⟨m, hm, id, hcell, hid⟩
    obtain ⟨hx, hy⟩ := hinv _ _ _ hcell
    exact ⟨m, hm, id, hid, hy, hx⟩

/-- C19 (each cascade iteration clears at least 3 tiles).  On a full 8 x 8 board whose
tiles record their own coordinates and on which `calculateMatches` returned a count
above 0, `removeMatches` returns and leaves `board.matches` empty; a cell of the grid
is `null` afterwards exactly when the tile it held belongs to some match, every other
cell holds the tile it held, and three consecutive cells of one row, or of one
column, are `null`. -/
theorem removal_clears_three (K : Consts) (b : Board) (h : IsFull b.tiles)
    (hinv : CoordInv b) (hw : b.width = SIZE) (hh : b.height = SIZE) (b1 : Board) (n : Nat)
    (hc : calculateMatches K b = some (b1, n)) (hn : 0 < n) :
    ∃ b2, removeMatches b1 = some b2 ∧ b2.matchList = [] ∧ b2.objects = b.objects ∧
      shape b2.tiles = shape b.tiles ∧
      (∀ r c, r < SIZE → c < SIZE →
        (cellOf b2.tiles r c = none ↔
          ∃ m ∈ b1.matchList, ∃ id, cellOf b.tiles r c = some id ∧ some id ∈ m)) ∧
      (∀ r c, cellOf b2.tiles r c ≠ none → cellOf b2.tiles r c = cellOf b.tiles r c) ∧
      ∃ r c, (c + 2 < SIZE ∧ r < SIZE ∧ cellOf b2.tiles r c = none ∧
          cellOf b2.tiles r (c + 1) = none ∧ cellOf b2.tiles r (c + 2) = none) ∨
        (r + 2 < SIZE ∧ c < SIZE ∧ cellOf b2.tiles r c = none ∧
          cellOf b2.tiles (r + 1) c = none ∧ cellOf b2.tiles (r + 2) c = none) := by
  have hS : SIZE = 8 := rfl
  have hM : minimumMatchLength = 3 := rfl
  have hfull := calculateMatches_full K b h hinv hw hh
  rw [hfull] at hc
  simp only [Option.some.injEq, Prod.mk.injEq] at hc
  obtain ⟨rfl, rfl⟩ := hc
  have hon := matches_onBoard K b h
  have hgrid := matchesInGrid_of_onBoard b hinv _ hon
  obtain ⟨t, hrm, hst, hct⟩ := removeMatches_spec
    { b with matchList := (horizontalRunsFrom b SIZE 0).map (expandedRowMatch K b) ++
        (verticalRunsFrom b SIZE 0).map (expandedColumnMatch K b) } hgrid
  have htar := targeted_iff_onBoard b hinv _ hon
  simp only at hct hrm hst
  have hnull : ∀ r c, r < SIZE → c < SIZE → ∀ m ∈
      (horizontalRunsFrom b SIZE 0).map (expandedRowMatch K b) ++
        (verticalRunsFrom b SIZE 0).map (expandedColumnMatch K b),
      cellOf b.tiles r c ∈ m → cellOf t r c = none := by
    intro r c hr hcc m hm hmem
    obtain ⟨id, hid⟩ := isFull_cell h hr hcc
    apply (hct r c).1
    rw [htar]
    exact ⟨m, hm, id, hid, by rw [← hid]; exact hmem⟩
  refine ⟨_, hrm, rfl, rfl, hst, ?_, ?_, ?_⟩
  · intro r c hr hcc
    rw [← htar]
    constructor
    · intro hnone
      by_contra hnt
      obtain ⟨id, hid⟩ := isFull_cell h hr hcc
      rw [(hct r c).2 hnt, hid] at hnone
      exact Option.noConfusion hnone
    · exact (hct r c).1
  · intro r c hne
    by_cases ht : Targeted b.objects ((horizontalRunsFrom b SIZE 0).map (expandedRowMatch K b) ++
        (verticalRunsFrom b SIZE 0).map (expandedColumnMatch K b)) r c
    · exact absurd ((hct r c).1 ht) hne
    · exact (hct r c).2 ht
  · cases hh1 : horizontalRunsFrom b SIZE 0 with
    | cons p rest =>
      obtain ⟨y, s, l⟩ := p
      have hp : (y, s, l) ∈ horizontalRunsFrom b SIZE 0 := by rw [hh1]; simp
      obtain ⟨-, hy, hrun⟩ := (mem_horizontalRunsFrom b SIZE 0 y s l).1 hp
      have hmem : expandedRowMatch K b (y, s, l) ∈
          (horizontalRunsFrom b SIZE 0).map (expandedRowMatch K b) ++
            (verticalRunsFrom b SIZE 0).map (expandedColumnMatch K b) :=
        List.mem_append_left _ (List.mem_map_of_mem _ hp)
      have h3 := hrun.1
      have h8 := hrun.2.1
      refine ⟨y, s, Or.inl ⟨by omega, by omega, ?_, ?_, ?_⟩⟩
      · exact hnull y s (by omega) (by omega) _ hmem
          (cell_mem_expandedRowMatch K b y s l 0 (by omega) h8)
      · exact hnull y (s + 1) (by omega) (by omega) _ hmem
          (cell_mem_expandedRowMatch K b y s l 1 (by omega) h8)
      · exact hnull y (s + 2) (by omega) (by omega) _ hmem
          (cell_mem_expandedRowMatch K b y s l 2 (by omega) h8)
    | nil =>
      cases hv1 : verticalRunsFrom b SIZE 0 with
      | nil => rw [hh1, hv1] at hn; simp at hn
      | cons p rest =>
        obtain ⟨x, s, l⟩ := p
        have hp : (x, s, l) ∈ verticalRunsFrom b SIZE 0 := by rw [hv1]; simp
        obtain ⟨-, hx, hrun⟩ := (mem_verticalRunsFrom b SIZE 0 x s l).1 hp
        have hmem : expandedColumnMatch K b (x, s, l) ∈
            (horizontalRunsFrom b SIZE 0).map (expandedRowMatch K b) ++
              (verticalRunsFrom b SIZE 0).map (expandedColumnMatch K b) :=
          List.mem_append_right _ (List.mem_map_of_mem _ hp)
        have h3 := hrun.1
        have h8 := hrun.2.1
        refine ⟨s, x, Or.inr ⟨by omega, by omega, ?_, ?_, ?_⟩⟩
        · exact hnull s x (by omega) (by omega) _ hmem
            (cell_mem_expandedColumnMatch K b x s l 0 (by omega) h8)
        · exact hnull (s + 1) x (by omega) (by omega) _ hmem
            (cell_mem_expandedColumnMatch K b x s l 1 (by omega) h8)
        · exact hnull (s + 2) x (by omega) (by omega) _ hmem
            (cell_mem_expandedColumnMatch K b x s l 2 (by omega) h8)

/-- Witness for C19: `sampleBoard` has one match, the three Beige tiles of row 3. -/
theorem removal_clears_three_witness :
    ∃ b1 n b2, calculateMatches sampleConsts sampleBoard = some (b1, n) ∧ 0 < n ∧
      removeMatches b1 = some b2 ∧ b2.matchList = [] := by
  have hc := calculateMatches_full sampleConsts sampleBoard (by decide)
    ((coordInv_iff_check _).2 (by decide)) rfl rfl
  obtain ⟨b2, h1, h2, -⟩ := removal_clears_three sampleConsts sampleBoard (by decide)
    ((coordInv_iff_check _).2 (by decide)) rfl rfl _ _ hc (by decide)
  exact ⟨_, _, b2, hc, by decide, h1, h2⟩

/-! ## A board with a single horizontal run -/

theorem eq_singleton_of_nodup {α : Type} {l : List α} {a : α} (hn : l.Nodup) (ha : a ∈ l)
    (h : ∀ x ∈ l, x = a) : l = [a] := by
  cases l with
  | nil => simp at ha
  | cons x rest =>
    have hx : x = a := h x (by simp)
    subst hx
    cases rest with
    | nil => rfl
    | cons z rest2 =>
      have hz : z = x := h z (by simp)
      subst hz
      simp at hn

theorem calculateMatches_single (K : Consts) (b : Board) (h : IsFull b.tiles)
    (hinv : CoordInv b) (hw : b.width = SIZE) (hh : b.height = SIZE) (y s l : Nat)
    (hy : y < SIZE) (hrun : IsMaximalRun (fun x => colourOf b y x) s l)
    (hrows : ∀ y1 s1 l1, y1 < SIZE → IsMaximalRun (fun x => colourOf b y1 x) s1 l1 →
      y1 = y ∧ s1 = s ∧ l1 = l)
    (hcols : ∀ x s1 l1, x < SIZE → ¬ IsMaximalRun (fun y => colourOf b y x) s1 l1)
    (hstar : hasStar K b (rowMatch b (y, s, l)) = false) :
    calculateMatches K b = some ({ b with matchList := [rowMatch b (y, s, l)] }, 1) := by
  have hS : SIZE = 8 := rfl
  have hH : horizontalRunsFrom b SIZE 0 = [(y, s, l)] := by
    apply eq_singleton_of_nodup (nodup_horizontalRunsFrom b SIZE 0)
    · exact (mem_horizontalRunsFrom b SIZE 0 y s l).2 ⟨Nat.zero_le _, by omega, hrun⟩
    · rintro ⟨y1, s1, l1⟩ hp
      obtain ⟨-, h1, h2⟩ := (mem_horizontalRunsFrom b SIZE 0 y1 s1 l1).1 hp
      obtain ⟨rfl, rfl, rfl⟩ := hrows y1 s1 l1 (by omega) h2
      rfl
  have hV : verticalRunsFrom b SIZE 0 = [] := by
    apply List.eq_nil_iff_forall_not_mem.2
    rintro ⟨x1, s1, l1⟩ hp
    obtain ⟨-, h1, h2⟩ := (mem_verticalRunsFrom b SIZE 0 x1 s1 l1).1 hp
    exact hcols x1 s1 l1 (by omega) h2
  rw [calculateMatches_full K b h hinv hw hh, hH, hV]
  simp [expandedRowMatch, hstar]

theorem removeMatches_single (b : Board) (h : IsFull b.tiles) (hinv : CoordInv b)
    (y s l : Nat) (hy : y < SIZE) (hsl : s + l ≤ SIZE) :
    ∃ t, removeMatches { b with matchList := [rowMatch b (y, s, l)] } =
        some { b with tiles := t, matchList := [] } ∧
      shape t = shape b.tiles ∧
      ∀ r c, cellOf t r c =
        if r = y ∧ s ≤ c ∧ c < s + l then none else cellOf b.tiles r c := by
  have hon : ∀ m ∈ [rowMatch b (y, s, l)], ∀ e ∈ m,
      ∃ id r c, e = some id ∧ cellOf b.tiles r c = some id := by
    intro m hm e he
    rw [List.mem_singleton] at hm
    subst hm
    rw [rowMatch, List.mem_reverse] at he
    obtain ⟨id, rfl, i, -, hid⟩ := mem_rowCells_full b h y s l hy hsl e he
    exact ⟨id, y, _, rfl, hid⟩
  obtain ⟨t, hrm, hst, hct⟩ := removeMatches_spec
    { b with matchList := [rowMatch b (y, s, l)] } (matchesInGrid_of_onBoard b hinv _ hon)
  have htar := targeted_iff_onBoard b hinv _ hon
  simp only at hrm hst hct
  refine ⟨t, hrm, hst, ?_⟩
  intro r c
  by_cases hrc : r = y ∧ s ≤ c ∧ c < s + l
  · simp only [hrc, and_self, if_true]
    obtain ⟨rfl, h1, h2⟩ := hrc
    apply (hct r c).1
    rw [htar]
    obtain ⟨id, hid⟩ := isFull_cell h hy (show c < SIZE by omega)
    refine ⟨_, List.mem_singleton.2 rfl, id, hid, ?_⟩
    rw [rowMatch, List.mem_reverse, rowCells, List.mem_map]
    refine ⟨c - s, List.mem_range.2 (by simp only; omega), ?_⟩
    simp only
    rw [← hid]
    congr 1
    omega
  · simp only [hrc, if_false]
    apply (hct r c).2
    rw [htar]
    rintro ⟨m, hm, id, hid, hmem⟩
    rw [List.mem_singleton] at hm
    subst hm
    rw [rowMatch, List.mem_reverse] at hmem
    obtain ⟨id1, e1, i, hi, hid1⟩ := mem_rowCells_full b h y s l hy hsl _ hmem
    obtain rfl := Option.some.inj e1
    obtain ⟨hx, hy1⟩ := hinv _ _ _ hid
    obtain ⟨hx2, hy2⟩ := hinv _ _ _ hid1
    apply hrc
    rw [hx] at hx2
    rw [hy1] at hy2
    exact ⟨hy2, by omega, by omega⟩

theorem getNewTiles_fill (K : Consts) (draws : Nat → Nat) (k : Nat) (b : Board) (level : Nat)
    (hg : IsGrid b.tiles) :
    ∃ b1 k1 tw, getNewTiles K draws k b level = some (b1, k1, tw) ∧ IsFull b1.tiles ∧
      (∀ r c id, cellOf b.tiles r c = some id → cellOf b1.tiles r c = some id) ∧
      (∀ id, id < b.next → b1.objects id = b.objects id) ∧
      (∀ r c, r < SIZE → c < SIZE → cellOf b.tiles r c = none →
        ∃ id, cellOf b1.tiles r c = some id ∧ b.next ≤ id ∧ id < b1.next ∧
          (b1.objects id).boardX = c ∧ (b1.objects id).boardY = r) ∧
      b1.width = b.width ∧ b1.height = b.height ∧ b1.matchList = b.matchList := by
  obtain ⟨b1, h1, h2, h3, h4, h5, h6, h7, h8, h9, h10, h11⟩ := refillList_spec K draws level
    (visitOrder SIZE 0) b k [] hg visitOrder_inRange visitOrder_nodup
  have hfilled : ∀ r c, r < SIZE → c < SIZE → cellOf b.tiles r c = none →
      ∃ id, cellOf b1.tiles r c = some id ∧ b.next ≤ id ∧ id < b1.next ∧
        (b1.objects id).boardX = c ∧ (b1.objects id).boardY = r :=
    fun r c hr hc hn => h7 r c (visitOrder_complete r hr c hc) hn
  refine ⟨b1, _, _, by rw [getNewTiles, newTilesColumns_eq]; exact h1, ?_, h6, h4, hfilled,
    h9, h10, h11⟩
  apply isFull_of_cells (isGrid_of_shape h2 hg)
  intro r c hr hc
  cases hcell : cellOf b.tiles r c with
  | none =>
    obtain ⟨id, hid, -⟩ := hfilled r c hr hc hcell
    exact ⟨id, hid⟩
  | some id => exact ⟨id, h6 r c id hcell⟩

theorem compactColumn_full (col : List Cell) (h : ∀ x ∈ col, x.isSome = true) :
    compactColumn col = col := by
  have h1 : col.filter (fun c : Cell => c.isNone) = [] := by
    apply List.filter_eq_nil_iff.2
    intro x hx
    have hsome := h x hx
    cases x with
    | none => simp at hsome
    | some v => simp
  have h2 : col.filter (fun c : Cell => c.isSome) = col :=
    List.filter_eq_self.2 (fun x hx => h x hx)
  simp [compactColumn, h1, h2]

theorem columnOf_eq_list (tiles : List (List Cell)) (c : Nat) :
    columnOf tiles c = [cellOf tiles 0 c, cellOf tiles 1 c, cellOf tiles 2 c, cellOf tiles 3 c,
      cellOf tiles 4 c, cellOf tiles 5 c, cellOf tiles 6 c, cellOf tiles 7 c] := rfl

theorem cellOf_of_columnOf (tiles : List (List Cell)) (c r : Nat) (hr : r < SIZE)
    (col : List Cell) (h : columnOf tiles c = col) : cellOf tiles r c = col.getD r none := by
  have := getElem?_columnOf tiles c r hr
  rw [h] at this
  simp [List.getD, this]
theorem row3_cascade (K : Consts) (draws : Nat → Nat) (k level : Nat) (b : Board)
    (h : IsFull b.tiles) (hinv : CoordInv b) (hw : b.width = SIZE) (hh : b.height = SIZE)
    (hrun : IsMaximalRun (fun x => colourOf b 3 x) 0 3)
    (hrows : ∀ y1 s1 l1, y1 < SIZE → IsMaximalRun (fun x => colourOf b y1 x) s1 l1 →
      y1 = 3 ∧ s1 = 0 ∧ l1 = 3)
    (hcols : ∀ x s1 l1, x < SIZE → ¬ IsMaximalRun (fun y => colourOf b y x) s1 l1)
    (hstar : hasStar K b (rowMatch b (3, 0, 3)) = false) :
    ∃ b2 b3 tw b4 k1 tw2,
      calculateMatches K b = some ({ b with matchList := [rowMatch b (3, 0, 3)] }, 1) ∧
      removeMatches { b with matchList := [rowMatch b (3, 0, 3)] } = some b2 ∧
      getFallingTiles K b2 = some (b3, tw) ∧
      getNewTiles K draws k b3 level = some (b4, k1, tw2) ∧
      (∀ c, c < 3 → ∃ id, cellOf b4.tiles 0 c = some id ∧ b.next ≤ id) ∧
      (∀ c, c < 3 → ∀ r, r < 3 → cellOf b4.tiles (r + 1) c = cellOf b.tiles r c) ∧
      (∀ c, c < 3 → ∀ r, 4 ≤ r → r < SIZE → cellOf b4.tiles r c = cellOf b.tiles r c) ∧
      (∀ c, 3 ≤ c → c < SIZE → ∀ r, r < SIZE → cellOf b4.tiles r c = cellOf b.tiles r c) := by
  have hS : SIZE = 8 := rfl
  have hcm := calculateMatches_single K b h hinv hw hh 3 0 3 (by decide) hrun hrows hcols hstar
  obtain ⟨t2, hrm, hst2, hct2⟩ := removeMatches_single b h hinv 3 0 3 (by decide) (by decide)
  have hg2 : IsGrid t2 := isGrid_of_shape hst2 h.1
  obtain ⟨b3, tw, hfall, hst3, -, hcol3, -, -, -, hnext3⟩ :=
    fallColumns_spec K SIZE 0 { b with tiles := t2, matchList := [] } [] hg2 (by simp)
  simp only at hst3 hcol3 hnext3
  have hg3 : IsGrid b3.tiles := isGrid_of_shape hst3 hg2
  obtain ⟨b4, k1, tw2, hnew, -, hkeep, -, hfill, -⟩ := getNewTiles_fill K draws k b3 level hg3
  -- the three columns of the run
  have hleft : ∀ c, c < 3 → cellOf b3.tiles 0 c = none ∧
      (∀ r, r < 3 → cellOf b3.tiles (r + 1) c = cellOf b.tiles r c) ∧
      (∀ r, 4 ≤ r → r < SIZE → cellOf b3.tiles r c = cellOf b.tiles r c) := by
    intro c hc
    have hc8 : c < SIZE := by omega
    obtain ⟨a0, e0⟩ := isFull_cell h (show 0 < SIZE by decide) hc8
    obtain ⟨a1, e1⟩ := isFull_cell h (show 1 < SIZE by decide) hc8
    obtain ⟨a2, e2⟩ := isFull_cell h (show 2 < SIZE by decide) hc8
    obtain ⟨a4, e4⟩ := isFull_cell h (show 4 < SIZE by decide) hc8
    obtain ⟨a5, e5⟩ := isFull_cell h (show 5 < SIZE by decide) hc8
    obtain ⟨a6, e6⟩ := isFull_cell h (show 6 < SIZE by decide) hc8
    obtain ⟨a7, e7⟩ := isFull_cell h (show 7 < SIZE by decide) hc8
    have hcol : columnOf b3.tiles c =
        [none, some a0, some a1, some a2, some a4, some a5, some a6, some a7] := by
      rw [hcol3 c (Nat.zero_le _) hc8, columnOf_eq_list]
      simp only [hct2]
      simp [hc, e0, e1, e2, e4, e5, e6, e7, compactColumn]
    refine ⟨?_, ?_, ?_⟩
    · rw [cellOf_of_columnOf b3.tiles c 0 (by decide) _ hcol]; rfl
    · intro r hr
      rw [cellOf_of_columnOf b3.tiles c (r + 1) (by omega) _ hcol]
      interval_cases r
      · rw [e0]; rfl
      · rw [e1]; rfl
      · rw [e2]; rfl
    · intro r hr4 hr8
      rw [cellOf_of_columnOf b3.tiles c r hr8 _ hcol]
      have hr8b : r < 8 := hr8
      interval_cases r
      · rw [e4]; rfl
      · rw [e5]; rfl
      · rw [e6]; rfl
      · rw [e7]; rfl
  have hright : ∀ c, 3 ≤ c → c < SIZE → ∀ r, r < SIZE →
      cellOf b3.tiles r c = cellOf b.tiles r c := by
    intro c hc3 hc8 r hr
    have hsame : columnOf t2 c = columnOf b.tiles c := by
      apply columnOf_congr
      intro r1
      rw [hct2]
      have : ¬ (r1 = 3 ∧ 0 ≤ c ∧ c < 0 + 3) := by omega
      simp only [this, if_false]
    have hcol : columnOf b3.tiles c = columnOf b.tiles c := by
      rw [hcol3 c (Nat.zero_le _) hc8, hsame]
      apply compactColumn_full
      intro x hx
      simp only [columnOf, List.mem_map, List.mem_range] at hx
      obtain ⟨r1, hr1, rfl⟩ := hx
      obtain ⟨id, hid⟩ := isFull_cell h hr1 hc8
      rw [hid]; rfl
    have h1 := getElem?_columnOf b3.tiles c r hr
    rw [hcol, getElem?_columnOf b.tiles c r hr] at h1
    exact (Option.some.inj h1).symm
  refine ⟨_, b3, tw, b4, k1, tw2, hcm, hrm, hfall, hnew, ?_, ?_, ?_, ?_⟩
  · intro c hc
    obtain ⟨id, hid, hge, -⟩ := hfill 0 c (by decide) (by omega) (hleft c hc).1
    exact ⟨id, hid, by rw [hnext3] at hge; exact hge⟩
  · intro c hc r hr
    obtain ⟨id, hid⟩ := isFull_cell h (show r < SIZE by omega) (show c < SIZE by omega)
    rw [hid]
    apply hkeep
    rw [(hleft c hc).2.1 r hr, hid]
  · intro c hc r hr4 hr8
    obtain ⟨id, hid⟩ := isFull_cell h hr8 (show c < SIZE by omega)
    rw [hid]
    apply hkeep
    rw [(hleft c hc).2.2 r hr4 hr8, hid]
  · intro c hc3 hc8 r hr
    obtain ⟨id, hid⟩ := isFull_cell h hr hc8
    rw [hid]
    apply hkeep
    rw [hright c hc3 hc8 r hr, hid]
theorem rowMatch_three (b : Board) (y s : Nat) :
    rowMatch b (y, s, 3) =
      [cellOf b.tiles y (s + 2), cellOf b.tiles y (s + 1), cellOf b.tiles y s] := by
  simp [rowMatch, rowCells, List.range_succ]

theorem row3_scenario (K : Consts) (draws : Nat → Nat) (k level : Nat) (b : Board)
    (h : IsFull b.tiles) (hinv : CoordInv b) (hal : Allocated b) (hw : b.width = SIZE)
    (hh : b.height = SIZE) (hbp : K.beige ≠ K.pink)
    (h0 : colourOf b 3 0 = K.beige) (h1 : colourOf b 3 1 = K.beige)
    (h2 : colourOf b 3 2 = K.beige) (h3 : colourOf b 3 3 = K.pink)
    (hstar : ∀ c, c < 3 → ∀ id, cellOf b.tiles 3 c = some id → (b.objects id).pattern ≠ K.star)
    (hrows : ∀ y, y < SIZE → ∀ s, s < SIZE - 2 → colourOf b y s = colourOf b y (s + 1) →
      colourOf b y (s + 1) = colourOf b y (s + 2) → y = 3 ∧ s = 0)
    (hcols : ∀ x, x < SIZE → ∀ s, s < SIZE - 2 →
      ¬ (colourOf b s x = colourOf b (s + 1) x ∧ colourOf b (s + 1) x = colourOf b (s + 2) x)) :
    ∃ b1 b2 b3 tw b4 k1 tw2,
      calculateMatches K b = some (b1, 1) ∧
      b1.matchList = [[cellOf b.tiles 3 2, cellOf b.tiles 3 1, cellOf b.tiles 3 0]] ∧
      removeMatches b1 = some b2 ∧
      getFallingTiles K b2 = some (b3, tw) ∧
      getNewTiles K draws k b3 level = some (b4, k1, tw2) ∧
      (∀ c, c < 3 → ∃ id, cellOf b4.tiles 0 c = some id ∧ b.next ≤ id ∧
        ∀ r1 c1, cellOf b.tiles r1 c1 ≠ some id) ∧
      (∀ c, c < 3 → ∀ r, r < 3 → cellOf b4.tiles (r + 1) c = cellOf b.tiles r c) ∧
      (∀ c, c < 3 → ∀ r, 4 ≤ r → r < SIZE → cellOf b4.tiles r c = cellOf b.tiles r c) ∧
      (∀ c, 3 ≤ c → c < SIZE → ∀ r, r < SIZE → cellOf b4.tiles r c = cellOf b.tiles r c) := by
  have hS : SIZE = 8 := rfl
  have hM : minimumMatchLength = 3 := rfl
  have hrun : IsMaximalRun (fun x => colourOf b 3 x) 0 3 := by
    refine ⟨by decide, by decide, ?_, Or.inl rfl, Or.inr ?_⟩
    · intro i hi
      interval_cases i
      · rfl
      · simp only [h0, h1]
      · simp only [h0, h2]
    · simp only [h0, h3, Nat.zero_add]
      exact fun e => hbp e.symm
  have hrows1 : ∀ y1 s1 l1, y1 < SIZE → IsMaximalRun (fun x => colourOf b y1 x) s1 l1 →
      y1 = 3 ∧ s1 = 0 ∧ l1 = 3 := by
    intro y1 s1 l1 hy1 hr
    obtain ⟨g3, g8, grun, -, -⟩ := hr
    have t1 := grun 1 (by omega)
    have t2 := grun 2 (by omega)
    simp only at t1 t2
    obtain ⟨rfl, rfl⟩ := hrows y1 hy1 s1 (by omega) t1.symm (by rw [t1, t2])
    refine ⟨rfl, rfl, ?_⟩
    by_contra hne
    have t3 := grun 3 (by omega)
    simp only [Nat.zero_add, h0, h3] at t3
    exact hbp t3.symm
  have hcols1 : ∀ x s1 l1, x < SIZE → ¬ IsMaximalRun (fun y => colourOf b y x) s1 l1 := by
    intro x s1 l1 hx hr
    obtain ⟨g3, g8, grun, -, -⟩ := hr
    have t1 := grun 1 (by omega)
    have t2 := grun 2 (by omega)
    simp only at t1 t2
    exact hcols x hx s1 (by omega) ⟨t1.symm, by rw [t1, t2]⟩
  obtain ⟨a0, e0⟩ := isFull_cell h (show 3 < SIZE by decide) (show 0 < SIZE by decide)
  obtain ⟨a1, e1⟩ := isFull_cell h (show 3 < SIZE by decide) (show 1 < SIZE by decide)
  obtain ⟨a2, e2⟩ := isFull_cell h (show 3 < SIZE by decide) (show 2 < SIZE by decide)
  have hst : hasStar K b (rowMatch b (3, 0, 3)) = false := by
    rw [rowMatch_three]
    simp [hasStar, e0, e1, e2, hstar 0 (by decide) a0 e0, hstar 1 (by decide) a1 e1,
      hstar 2 (by decide) a2 e2]
  obtain ⟨b2, b3, tw, b4, k1, tw2, g1, g2, g3, g4, g5, g6, g7, g8⟩ :=
    row3_cascade K draws k level b h hinv hw hh hrun hrows1 hcols1 hst
  refine ⟨_, b2, b3, tw, b4, k1, tw2, g1, ?_, g2, g3, g4, ?_, g6, g7, g8⟩
  · simp only [rowMatch_three]
  · intro c hc
    obtain ⟨id, hid, hge⟩ := g5 c hc
    refine ⟨id, hid, hge, ?_⟩
    intro r1 c1 hcell
    have := hal r1 c1 id hcell
    omega

/-- C14 (concrete scenario), amended.  On a full 8 x 8 board whose tiles record their
own coordinates and are all allocated, whose row 3 begins Beige, Beige, Beige, Pink,
Blue, with none of the three Beige tiles a star and no other three consecutive cells
of one colour in any row or column, `calculateMatches` returns 1 and the single match
consists of the tiles of the cells `(2, 3)`, `(1, 3)`, `(0, 3)` (column, row), in this
order.  After `removeMatches`, `getFallingTiles` and `getNewTiles`, in each of the
columns 0 to 2 the cell of row 0 holds a freshly generated tile (a reference that was
nowhere on the board), the cells of rows 1 to 3 hold the tiles that were in rows 0 to
2 of that column, each one row lower, and the cells of rows 4 to 7 hold the same tiles
as before; every cell of the columns 3 to 7 holds the same tile as before. -/
theorem scenario_row3_amended (K : Consts) (draws : Nat → Nat) (k level : Nat) (b : Board)
    (h : IsFull b.tiles) (hinv : CoordInv b) (hal : Allocated b) (hw : b.width = SIZE)
    (hh : b.height = SIZE) (hbp : K.beige ≠ K.pink)
    (h0 : colourOf b 3 0 = K.beige) (h1 : colourOf b 3 1 = K.beige)
    (h2 : colourOf b 3 2 = K.beige) (h3 : colourOf b 3 3 = K.pink)
    (h4 : colourOf b 3 4 = K.blue)
    (hstar : ∀ c, c < 3 → ∀ id, cellOf b.tiles 3 c = some id → (b.objects id).pattern ≠ K.star)
    (hrows : ∀ y, y < SIZE → ∀ s, s < SIZE - 2 → colourOf b y s = colourOf b y (s + 1) →
      colourOf b y (s + 1) = colourOf b y (s + 2) → y = 3 ∧ s = 0)
    (hcols : ∀ x, x < SIZE → ∀ s, s < SIZE - 2 →
      ¬ (colourOf b s x = colourOf b (s + 1) x ∧ colourOf b (s + 1) x = colourOf b (s + 2) x)) :
    colourOf b 3 4 = K.blue ∧
    ∃ b1 b2 b3 tw b4 k1 tw2,
      calculateMatches K b = some (b1, 1) ∧
      b1.matchList = [[cellOf b.tiles 3 2, cellOf b.tiles 3 1, cellOf b.tiles 3 0]] ∧
      removeMatches b1 = some b2 ∧
      getFallingTiles K b2 = some (b3, tw) ∧
      getNewTiles K draws k b3 level = some (b4, k1, tw2) ∧
      (∀ c, c < 3 → ∃ id, cellOf b4.tiles 0 c = some id ∧ b.next ≤ id ∧
        ∀ r1 c1, cellOf b.tiles r1 c1 ≠ some id) ∧
      (∀ c, c < 3 → ∀ r, r < 3 → cellOf b4.tiles (r + 1) c = cellOf b.tiles r c) ∧
      (∀ c, c < 3 → ∀ r, 4 ≤ r → r < SIZE → cellOf b4.tiles r c = cellOf b.tiles r c) ∧
      (∀ c, 3 ≤ c → c < SIZE → ∀ r, r < SIZE → cellOf b4.tiles r c = cellOf b.tiles r c) :=
  ⟨h4, row3_scenario K draws k level b h hinv hal hw hh hbp h0 h1 h2 h3 hstar hrows hcols⟩

theorem sampleBoard_allocated : Allocated sampleBoard := by
  intro row col id hid
  obtain ⟨hr, hc⟩ := lt_of_inRange (by decide : IsGrid sampleBoard.tiles) (inRange_of_cellOf hid)
  have hr8 : row < 8 := hr
  have hc8 : col < 8 := hc
  have hcell : cellOf sampleBoard.tiles row col = some (8 * row + col) := by
    interval_cases row <;> interval_cases col <;> rfl
  rw [hcell] at hid
  have := Option.some.inj hid
  show id < 64
  omega

/-- Witness for the amended C14: `sampleBoard` is the board of the scenario. -/
theorem scenario_row3_amended_witness :
    ∃ b1 b2 b3 tw b4 k1 tw2,
      calculateMatches sampleConsts sampleBoard = some (b1, 1) ∧
      b1.matchList = [[some 26, some 25, some 24]] ∧
      removeMatches b1 = some b2 ∧
      getFallingTiles sampleConsts b2 = some (b3, tw) ∧
      getNewTiles sampleConsts sampleDraws 0 b3 1 = some (b4, k1, tw2) ∧
      (∀ c, c < 3 → ∃ id, cellOf b4.tiles 0 c = some id ∧ sampleBoard.next ≤ id ∧
        ∀ r1 c1, cellOf sampleBoard.tiles r1 c1 ≠ some id) :=
  let ⟨b1, b2, b3, tw, b4, k1, tw2, g1, g2, g3, g4, g5, g6, _⟩ :=
    (scenario_row3_amended sampleConsts sampleDraws 0 1 sampleBoard (by decide)
      ((coordInv_iff_check _).2 (by decide)) sampleBoard_allocated rfl rfl (by decide)
      (by decide) (by decide) (by decide) (by decide) (by decide) (by decide) (by decide)
      (by decide)).2
  ⟨b1, b2, b3, tw, b4, k1, tw2, g1, g2, g3, g4, g5, g6⟩

/-- Counterexample to C14 as stated: `sampleBoard` is a board of the scenario (full,
row 3 begins Beige, Beige, Beige, Pink, Blue, no star, no other run of three), and
after `removeMatches`, `getFallingTiles` and `getNewTiles` the cell in row 1 of column
0 holds tile 0, the tile that was in row 0 of column 0, and not a freshly generated
tile; only row 0 of the columns 0 to 2 is refilled. -/
theorem scenario_counterexample :
    IsFull sampleBoard.tiles ∧ colourOf sampleBoard 3 0 = sampleConsts.beige ∧
    colourOf sampleBoard 3 1 = sampleConsts.beige ∧
    colourOf sampleBoard 3 2 = sampleConsts.beige ∧
    colourOf sampleBoard 3 3 = sampleConsts.pink ∧
    colourOf sampleBoard 3 4 = sampleConsts.blue ∧
    (∀ id, (sampleBoard.objects id).pattern ≠ sampleConsts.star) ∧
    (∀ y, y < SIZE → ∀ s, s < SIZE - 2 →
      colourOf sampleBoard y s = colourOf sampleBoard y (s + 1) →
      colourOf sampleBoard y (s + 1) = colourOf sampleBoard y (s + 2) → y = 3 ∧ s = 0) ∧
    (∀ x, x < SIZE → ∀ s, s < SIZE - 2 →
      ¬ (colourOf sampleBoard s x = colourOf sampleBoard (s + 1) x ∧
        colourOf sampleBoard (s + 1) x = colourOf sampleBoard (s + 2) x)) ∧
    ∃ b1 b2 b3 tw b4 k1 tw2,
      calculateMatches sampleConsts sampleBoard = some (b1, 1) ∧
      removeMatches b1 = some b2 ∧
      getFallingTiles sampleConsts b2 = some (b3, tw) ∧
      getNewTiles sampleConsts sampleDraws 0 b3 1 = some (b4, k1, tw2) ∧
      cellOf b4.tiles 1 0 = some 0 ∧ cellOf sampleBoard.tiles 0 0 = some 0 ∧
      0 < sampleBoard.next := by
  refine ⟨by decide, by decide, by decide, by decide, by decide, by decide, ?_, by decide,
    by decide, ?_⟩
  · intro id
    show (0 : Nat) ≠ 6
    decide
  · obtain ⟨b1, b2, b3, tw, b4, k1, tw2, g1, -, g3, g4, g5, -, g7, -⟩ :=
      row3_scenario sampleConsts sampleDraws 0 1 sampleBoard (by decide)
        ((coordInv_iff_check _).2 (by decide)) sampleBoard_allocated rfl rfl (by decide)
        (by decide) (by decide) (by decide) (by decide) (by decide) (by decide) (by decide)
    exact ⟨b1, b2, b3, tw, b4, k1, tw2, g1, g3, g4, g5, g7 0 (by decide) 0 (by decide),
      rfl, by decide⟩

/-! ## The cascade -/

theorem scoreMatch_isSome (objects : Nat → Tile) (baseScore : Nat) :
    ∀ (m : List Cell) (score : Nat), (∀ e ∈ m, ∃ id, e = some id) →
      ∃ s, scoreMatch objects baseScore score m = some s := by
  intro m
  induction m with
  | nil => intro score _; exact ⟨score, rfl⟩
  | cons e rest ih =>
    intro score h
    obtain ⟨id, rfl⟩ := h e (List.mem_cons_self _ _)
    exact ih _ (fun e1 h1 => h e1 (List.mem_cons_of_mem _ h1))

theorem calculateScore_isSome (objects : Nat → Tile) (baseScore : Nat) :
    ∀ (ms : List (List Cell)) (score : Nat), (∀ m ∈ ms, ∀ e ∈ m, ∃ id, e = some id) →
      ∃ s, calculateScore objects baseScore score ms = some s := by
  intro ms
  induction ms with
  | nil => intro score _; exact ⟨score, rfl⟩
  | cons m rest ih =>
    intro score h
    obtain ⟨s1, hs1⟩ := scoreMatch_isSome objects baseScore m score
      (h m (List.mem_cons_self _ _))
    obtain ⟨s2, hs2⟩ := ih s1 (fun m1 h1 => h m1 (List.mem_cons_of_mem _ h1))
    exact ⟨s2, by simp only [calculateScore, hs1, hs2]⟩

theorem calculateMatches_wf (K : Consts) (b : Board) (hwf : WellFormed b) :
    ∃ ms, calculateMatches K b = some ({ b with matchList := ms }, matchCount b) ∧
      ms.length = matchCount b ∧
      (∀ m ∈ ms, ∀ e ∈ m, ∃ id r c, e = some id ∧ cellOf b.tiles r c = some id) := by
  refine ⟨_, calculateMatches_full K b hwf.full hwf.coord hwf.width hwf.height, ?_,
    matches_onBoard K b hwf.full⟩
  simp [matchCount]

theorem removeMatches_wf (b : Board) (ms : List (List Cell)) (hwf : WellFormed b)
    (hon : ∀ m ∈ ms, ∀ e ∈ m, ∃ id r c, e = some id ∧ cellOf b.tiles r c = some id) :
    ∃ b2, removeMatches { b with matchList := ms } = some b2 ∧ IsGrid b2.tiles ∧
      CoordInv b2 ∧ Allocated b2 ∧ b2.width = SIZE ∧ b2.height = SIZE ∧
      b2.objects = b.objects ∧ b2.next = b.next := by
  obtain ⟨t, hrm, hst, -⟩ := removeMatches_spec { b with matchList := ms }
    (matchesInGrid_of_onBoard b hwf.coord ms hon)
  obtain ⟨-, -, -, hsub⟩ := removeMatches_coordInv _ _ hrm
  simp only at hsub hst
  refine ⟨_, hrm, isGrid_of_shape hst hwf.full.1, ?_, ?_, hwf.width, hwf.height, rfl, rfl⟩
  · intro r c id hid
    exact hwf.coord r c id (hsub r c id hid)
  · intro r c id hid
    exact hwf.alloc r c id (hsub r c id hid)

theorem placeNewTiles_wf (K : Consts) (draws : Nat → Nat) (k : Nat) (st : PlayState)
    (hg : IsGrid st.board.tiles) (hinv : CoordInv st.board) (hal : Allocated st.board)
    (hw : st.board.width = SIZE) (hh : st.board.height = SIZE) :
    ∃ q, placeNewTiles K draws k st = some q ∧ WellFormed q.1.board := by
  obtain ⟨b3, tw, hfall, hst3, -, -, hw3, hh3, -, -⟩ :=
    fallColumns_spec K SIZE 0 st.board [] hg (by simp)
  obtain ⟨hinv3, hal3⟩ := fallColumns_coordInv K _ _ _ _ _ _ hinv hfall
  have hg3 : IsGrid b3.tiles := isGrid_of_shape hst3 hg
  obtain ⟨b4, k1, tw2, hnew, hfull4, -, -, -, hw4, hh4, -⟩ :=
    getNewTiles_fill K draws k b3 st.level hg3
  obtain ⟨b5, k5, tw5, hnew5, hinv5, hal5⟩ :=
    getNewTiles_coordInv K draws k b3 st.level hg3 hinv3 (hal3 hal)
  rw [hnew] at hnew5
  simp only [Option.some.injEq, Prod.mk.injEq] at hnew5
  obtain ⟨rfl, -, -⟩ := hnew5
  refine ⟨({ st with board := b4 }, k1), ?_, ⟨hfull4, hinv5, hal5, ?_, ?_⟩⟩
  · simp only [placeNewTiles, getFallingTiles, hfall, hnew]
  · exact hw4.trans (hw3.trans hw)
  · exact hh4.trans (hh3.trans hh)

theorem cascadeStep_wf (K : Consts) (draws : Nat → Nat) (p : PlayState × Nat)
    (hwf : WellFormed p.1.board) :
    ∃ q, cascadeStep K draws p = some q ∧ WellFormed q.1.board := by
  obtain ⟨ms, hcm, -, hon⟩ := calculateMatches_wf K p.1.board hwf
  obtain ⟨s1, hs1⟩ := calculateScore_isSome p.1.board.objects p.1.baseScore ms p.1.score
    (fun m hm e he => by
      obtain ⟨id, -, -, h1, -⟩ := hon m hm e he
      exact ⟨id, h1⟩)
  obtain ⟨b2, hrm, hg2, hinv2, hal2, hw2, hh2, -, -⟩ := removeMatches_wf p.1.board ms hwf hon
  obtain ⟨q, hq, hwfq⟩ := placeNewTiles_wf K draws p.2
    { p.1 with
      board := b2, score := s1,
      timer := if matchCount p.1.board > 0 then
          p.1.timer + max 0 (BASE_TIMER_ADD_AMOUNT - ((p.1.level : Int) - 1)) *
            (matchCount p.1.board : Nat)
        else p.1.timer,
      sounds := p.1.sounds ++ List.replicate ms.length SoundName.Match }
    hg2 hinv2 hal2 hw2 hh2
  refine ⟨q, ?_, hwfq⟩
  simp only [cascadeStep, hcm, hs1, hrm]
  exact hq

theorem cascadeIter_wf (K : Consts) (draws : Nat → Nat) :
    ∀ (n : Nat) (p : PlayState × Nat), WellFormed p.1.board →
      ∃ q, cascadeIter K draws n p = some q ∧ WellFormed q.1.board := by
  intro n
  induction n with
  | zero => intro p hwf; exact ⟨p, rfl, hwf⟩
  | succ n ih =>
    intro p hwf
    obtain ⟨q, hq, hwfq⟩ := cascadeStep_wf K draws p hwf
    obtain ⟨r, hr, hwfr⟩ := ih q hwfq
    exact ⟨r, by simp only [cascadeIter, hq, hr], hwfr⟩

theorem cascade_return (K : Consts) (draws : Nat → Nat) (fuel k : Nat) (st : PlayState)
    (hwf : WellFormed st.board) (h0 : matchCount st.board = 0) :
    PlayState.calculateMatches K draws (fuel + 1) k st =
      some ({ st with board := { st.board with matchList := [] } }, k) := by
  obtain ⟨ms, hcm, hlen, -⟩ := calculateMatches_wf K st.board hwf
  rw [h0] at hlen hcm
  have hnil : ms = [] := List.length_eq_zero.1 hlen
  subst hnil
  simp [PlayState.calculateMatches, hcm]

theorem cascade_recurse (K : Consts) (draws : Nat → Nat) (fuel k : Nat) (st : PlayState)
    (hwf : WellFormed st.board) (h0 : matchCount st.board ≠ 0) :
    PlayState.calculateMatches K draws (fuel + 1) k st =
      match cascadeStep K draws (st, k) with
      | none => none
      | some q => PlayState.calculateMatches K draws fuel q.2 q.1 := by
  obtain ⟨ms, hcm, hlen, -⟩ := calculateMatches_wf K st.board hwf
  have hne : ¬ ms.length = 0 := by rw [hlen]; exact h0
  simp only [PlayState.calculateMatches, cascadeStep, hcm, hne, if_false]
  cases calculateScore st.board.objects st.baseScore st.score ms with
  | none => rfl
  | some s1 =>
    simp only
    cases removeMatches { st.board with matchList := ms } with
    | none => rfl
    | some b2 =>
      simp only
      cases placeNewTiles K draws k _ with
      | none => rfl
      | some q => rfl
theorem cascade_spec (K : Consts) (draws : Nat → Nat) :
    ∀ (fuel k : Nat) (st : PlayState), WellFormed st.board →
      ((∃ r, PlayState.calculateMatches K draws fuel k st = some r) ↔
        ∃ n q, n < fuel ∧ cascadeIter K draws n (st, k) = some q ∧ matchCount q.1.board = 0) ∧
      (∀ r, PlayState.calculateMatches K draws fuel k st = some r →
        WellFormed r.1.board ∧ calculateMatches K r.1.board = some (r.1.board, 0)) := by
  intro fuel
  induction fuel with
  | zero =>
    intro k st _
    refine ⟨⟨?_, ?_⟩, ?_⟩
    · rintro ⟨r, hr⟩
      simp [PlayState.calculateMatches] at hr
    · rintro ⟨n, q, hn, -⟩
      omega
    · intro r hr
      simp [PlayState.calculateMatches] at hr
  | succ fuel ih =>
    intro k st hwf
    by_cases h0 : matchCount st.board = 0
    · have hret := cascade_return K draws fuel k st hwf h0
      refine ⟨⟨fun _ => ⟨0, (st, k), Nat.succ_pos _, rfl, h0⟩, fun _ => ⟨_, hret⟩⟩, ?_⟩
      intro r hr
      rw [hret] at hr
      obtain rfl := Option.some.inj hr
      obtain ⟨ms, hcm, hlen, -⟩ := calculateMatches_wf K st.board hwf
      rw [h0] at hlen hcm
      have hnil : ms = [] := List.length_eq_zero.1 hlen
      subst hnil
      exact ⟨⟨hwf.full, hwf.coord, hwf.alloc, hwf.width, hwf.height⟩, hcm⟩
    · have hrec := cascade_recurse K draws fuel k st hwf h0
      obtain ⟨q1, hq1, hwf1⟩ := cascadeStep_wf K draws (st, k) hwf
      rw [hq1] at hrec
      simp only at hrec
      obtain ⟨ih1, ih2⟩ := ih q1.2 q1.1 hwf1
      rw [hrec]
      refine ⟨⟨?_, ?_⟩, ih2⟩
      · intro hr
        obtain ⟨n, q, hn, hq, hm⟩ := ih1.1 hr
        exact ⟨n + 1, q, by omega, by simp only [cascadeIter, hq1]; exact hq, hm⟩
      · rintro ⟨n, q, hn, hq, hm⟩
        cases n with
        | zero =>
          simp only [cascadeIter, Option.some.injEq] at hq
          subst hq
          exact absurd hm h0
        | succ n =>
          simp only [cascadeIter, hq1] at hq
          exact ih1.2 ⟨n, q, by omega, hq, hm⟩

/-- C13 (cascade), amended.  For every full 8 x 8 board whose tiles record their own
coordinates and every sequence of random draws, each iteration of the cascade (scan,
score, remove matches, compact, refill) completes and leaves such a board again, so
the state after any number `n` of iterations exists.  The cascade
`PlayState.calculateMatches` returns within `fuel` nested calls exactly when, for
some `n < fuel`, the board after `n` iterations has no match; the board it returns is
then a full board on which `calculateMatches` counts 0 matches.  That such an `n`
exists is not guaranteed: it depends on the draws used by the refill. -/
theorem cascade_returns_iff (K : Consts) (draws : Nat → Nat) (k : Nat) (st : PlayState)
    (hwf : WellFormed st.board) :
    (∀ n, ∃ q, cascadeIter K draws n (st, k) = some q ∧ WellFormed q.1.board) ∧
    (∀ fuel, (∃ r, PlayState.calculateMatches K draws fuel k st = some r) ↔
      ∃ n q, n < fuel ∧ cascadeIter K draws n (st, k) = some q ∧ matchCount q.1.board = 0) ∧
    (∀ fuel r, PlayState.calculateMatches K draws fuel k st = some r →
      WellFormed r.1.board ∧ calculateMatches K r.1.board = some (r.1.board, 0)) :=
  ⟨fun n => cascadeIter_wf K draws n (st, k) hwf,
    fun fuel => (cascade_spec K draws fuel k st hwf).1,
    fun fuel => (cascade_spec K draws fuel k st hwf).2⟩
/-! ## A cascade that never ends -/

theorem isMaximalRun_congr (c d : Nat → Nat) (h : ∀ i, i < SIZE → c i = d i) (s l : Nat)
    (hr : IsMaximalRun c s l) : IsMaximalRun d s l := by
  have hS : SIZE = 8 := rfl
  have hM : minimumMatchLength = 3 := rfl
  obtain ⟨h3, h8, hrun, hl, hrr⟩ := hr
  refine ⟨h3, h8, ?_, ?_, ?_⟩
  · intro i hi
    rw [← h (s + i) (by omega), ← h s (by omega)]
    exact hrun i hi
  · rcases hl with hl | hl
    · exact Or.inl hl
    · by_cases hs : s = 0
      · exact Or.inl hs
      · right
        rw [← h (s - 1) (by omega), ← h s (by omega)]
        exact hl
  · rcases hrr with hrr | hrr
    · exact Or.inl hrr
    · by_cases hs : s + l = SIZE
      · exact Or.inl hs
      · right
        rw [← h (s + l) (by omega), ← h s (by omega)]
        exact hrr

theorem isMaximalRun_bounds (c : Nat → Nat) (s l : Nat) (hr : IsMaximalRun c s l) :
    s < SIZE ∧ l ≤ SIZE := by
  have hS : SIZE = 8 := rfl
  have hM : minimumMatchLength = 3 := rfl
  obtain ⟨h3, h8, -⟩ := hr
  omega

theorem runs_single (b : Board) (y s l : Nat)
    (hy : y < SIZE) (hrun : IsMaximalRun (fun x => colourOf b y x) s l)
    (hrows : ∀ y1 s1 l1, y1 < SIZE → IsMaximalRun (fun x => colourOf b y1 x) s1 l1 →
      y1 = y ∧ s1 = s ∧ l1 = l)
    (hcols : ∀ x s1 l1, x < SIZE → ¬ IsMaximalRun (fun y => colourOf b y x) s1 l1) :
    horizontalRunsFrom b SIZE 0 = [(y, s, l)] ∧ verticalRunsFrom b SIZE 0 = [] := by
  have hS : SIZE = 8 := rfl
  constructor
  · apply eq_singleton_of_nodup (nodup_horizontalRunsFrom b SIZE 0)
    · exact (mem_horizontalRunsFrom b SIZE 0 y s l).2 ⟨Nat.zero_le _, by omega, hrun⟩
    · rintro ⟨y1, s1, l1⟩ hp
      obtain ⟨-, h1, h2⟩ := (mem_horizontalRunsFrom b SIZE 0 y1 s1 l1).1 hp
      obtain ⟨rfl, rfl, rfl⟩ := hrows y1 s1 l1 (by omega) h2
      rfl
  · apply List.eq_nil_iff_forall_not_mem.2
    rintro ⟨x1, s1, l1⟩ hp
    obtain ⟨-, h1, h2⟩ := (mem_verticalRunsFrom b SIZE 0 x1 s1 l1).1 hp
    exact hcols x1 s1 l1 (by omega) h2

theorem fallLoop_colour (K : Consts) (c : Nat) :
    ∀ (fuel : Nat) (b : Board) (rowP : Nat) (space : Bool) (spaceRow : Nat) (tw : List Tween)
      (b1 : Board) (tw1 : List Tween),
      fallLoop K c fuel b rowP space spaceRow tw = some (b1, tw1) →
      ∀ id, (b1.objects id).colour = (b.objects id).colour ∧
        (b1.objects id).pattern = (b.objects id).pattern ∧
        (b1.objects id).boardX = (b.objects id).boardX := by
  intro fuel
  induction fuel with
  | zero =>
    intro b rowP space spaceRow tw b1 tw1 h
    cases rowP with
    | zero =>
      rw [fallLoop_zero] at h
      simp only [Option.some.injEq, Prod.mk.injEq] at h
      obtain ⟨rfl, -⟩ := h
      exact fun _ => ⟨rfl, rfl, rfl⟩
    | succ row => simp [fallLoop] at h
  | succ fuel ih =>
    intro b rowP space spaceRow tw b1 tw1 h
    cases rowP with
    | zero =>
      rw [fallLoop_zero] at h
      simp only [Option.some.injEq, Prod.mk.injEq] at h
      obtain ⟨rfl, -⟩ := h
      exact fun _ => ⟨rfl, rfl, rfl⟩
    | succ row =>
      rw [fallLoop] at h
      cases hrow : b.tiles[row]? with
      | none => simp [hrow] at h
      | some r =>
        simp only [hrow] at h
        cases hcell : r[c]? with
        | none =>
          simp only [hcell] at h
          exact ih _ _ _ _ _ _ _ h
        | some cell =>
          cases cell with
          | none =>
            simp only [hcell] at h
            exact ih _ _ _ _ _ _ _ h
          | some tile =>
            simp only [hcell] at h
            cases space with
            | false =>
              simp only [Bool.false_eq_true, if_false] at h
              exact ih _ _ _ _ _ _ _ h
            | true =>
              simp only [if_true] at h
              cases hs1 : setCell b.tiles spaceRow c (some tile) with
              | none => simp [hs1] at h
              | some t1 =>
                simp only [hs1] at h
                cases hs2 : setCell t1 row c none with
                | none => simp [hs2] at h
                | some t2 =>
                  simp only [hs2] at h
                  intro id
                  obtain ⟨g1, g2, g3⟩ := ih _ _ _ _ _ _ _ h id
                  simp only at g1 g2 g3
                  rw [g1, g2, g3]
                  by_cases hid : id = tile
                  · simp [setBoardY, hid]
                  · simp [setBoardY, hid]

theorem fallColumns_colour (K : Consts) :
    ∀ (n c : Nat) (b : Board) (tw : List Tween) (b1 : Board) (tw1 : List Tween),
      fallColumns K n c b tw = some (b1, tw1) →
      ∀ id, (b1.objects id).colour = (b.objects id).colour ∧
        (b1.objects id).pattern = (b.objects id).pattern ∧
        (b1.objects id).boardX = (b.objects id).boardX := by
  intro n
  induction n with
  | zero =>
    intro c b tw b1 tw1 h
    simp only [fallColumns, Option.some.injEq, Prod.mk.injEq] at h
    obtain ⟨rfl, -⟩ := h
    exact fun _ => ⟨rfl, rfl, rfl⟩
  | succ n ih =>
    intro c b tw b1 tw1 h
    rw [fallColumns] at h
    cases hf : fallLoop K c fallFuel b SIZE false 0 tw with
    | none => simp [hf] at h
    | some res =>
      obtain ⟨b0, tw0⟩ := res
      simp only [hf] at h
      intro id
      obtain ⟨g1, g2, g3⟩ := fallLoop_colour K c _ _ _ _ _ _ _ _ hf id
      obtain ⟨k1, k2, k3⟩ := ih _ _ _ _ _ h id
      exact ⟨k1.trans g1, k2.trans g2, k3.trans g3⟩

theorem refillCell_objects (K : Consts) (draws : Nat → Nat) (level y x : Nat) (b : Board)
    (k : Nat) (tw : List Tween) (b1 : Board) (k1 : Nat) (tw1 : List Tween)
    (h : refillCell K draws level y x b k tw = some (b1, k1, tw1)) :
    (b1.objects = b.objects ∧ b1.next = b.next) ∨
      (b1.next = b.next + 1 ∧
        b1.objects = (generateTile K draws k b x y level).1.objects) := by
  simp only [refillCell] at h
  cases hrow : b.tiles[y]? with
  | none => simp [hrow] at h
  | some r =>
    simp only [hrow] at h
    have hgen : ∀ t1, setCell (generateTile K draws k b x y level).1.tiles y x
        (some (generateTile K draws k b x y level).2.1) = some t1 →
        some ({ (generateTile K draws k b x y level).1 with tiles := t1 },
          (generateTile K draws k b x y level).2.2,
          tw ++ [{ tile := (generateTile K draws k b x y level).2.1, parameters := ["y"],
                   endValues := [((generateTile K draws k b x y level).1.objects
                     (generateTile K draws k b x y level).2.1).boardY * K.tileSize] }]) =
          some (b1, k1, tw1) →
        (b1.next = b.next + 1 ∧
          b1.objects = (generateTile K draws k b x y level).1.objects) := by
      intro t1 _ he
      simp only [Option.some.injEq, Prod.mk.injEq] at he
      obtain ⟨rfl, -, -⟩ := he
      exact ⟨rfl, rfl⟩
    cases hcell : r[x]? with
    | none =>
      simp only [hcell] at h
      cases hs : setCell (generateTile K draws k b x y level).1.tiles y x
          (some (generateTile K draws k b x y level).2.1) with
      | none => simp [hs] at h
      | some t1 =>
        simp only [hs] at h
        exact Or.inr (hgen t1 hs h)
    | some cell =>
      cases cell with
      | some id =>
        simp only [hcell, Option.some.injEq, Prod.mk.injEq] at h
        obtain ⟨rfl, -, -⟩ := h
        exact Or.inl ⟨rfl, rfl⟩
      | none =>
        simp only [hcell] at h
        cases hs : setCell (generateTile K draws k b x y level).1.tiles y x
            (some (generateTile K draws k b x y level).2.1) with
        | none => simp [hs] at h
        | some t1 =>
          simp only [hs] at h
          exact Or.inr (hgen t1 hs h)

theorem refillList_new (K : Consts) (draws : Nat → Nat) (level : Nat) (Q : Tile → Prop)
    (hQ : ∀ k b x y, Q ((generateTile K draws k b x y level).1.objects b.next)) :
    ∀ (P : List (Nat × Nat)) (b : Board) (k : Nat) (tw : List Tween) (b1 : Board) (k1 : Nat)
      (tw1 : List Tween), refillList K draws level P b k tw = some (b1, k1, tw1) →
      b.next ≤ b1.next ∧ (∀ id, id < b.next → b1.objects id = b.objects id) ∧
        ∀ id, b.next ≤ id → id < b1.next → Q (b1.objects id) := by
  intro P
  induction P with
  | nil =>
    intro b k tw b1 k1 tw1 h
    simp only [refillList, Option.some.injEq, Prod.mk.injEq] at h
    obtain ⟨rfl, -, -⟩ := h
    exact ⟨le_refl _, fun _ _ => rfl, fun id h1 h2 => by omega⟩
  | cons p rest ih =>
    intro b k tw b1 k1 tw1 h
    rw [refillList] at h
    cases hc : refillCell K draws level p.1 p.2 b k tw with
    | none => simp [hc] at h
    | some res =>
      obtain ⟨b0, k0, tw0⟩ := res
      simp only [hc] at h
      obtain ⟨g1, g2, g3⟩ := ih _ _ _ _ _ _ h
      rcases refillCell_objects K draws level p.1 p.2 b k tw b0 k0 tw0 hc with
        ⟨ho, hn⟩ | ⟨hn, ho⟩
      · rw [hn] at g1 g2 g3
        rw [ho] at g2
        exact ⟨g1, g2, g3⟩
      · refine ⟨by omega, ?_, ?_⟩
        · intro id hid
          rw [g2 id (by omega), ho]
          have hne : id ≠ b.next := by omega
          simp [generateTile, hne]
        · intro id h1 h2
          by_cases hid : id = b.next
          · subst hid
            rw [g2 b.next (by omega), ho]
            exact hQ k b p.2 p.1
          · exact g3 id (by omega) h2

theorem getNewTiles_beige (K : Consts) (k : Nat) (b : Board) (level : Nat) (b1 : Board)
    (k1 : Nat) (tw : List Tween) (h : getNewTiles K beigeDraws k b level = some (b1, k1, tw)) :
    ∀ id, b.next ≤ id → id < b1.next →
      (b1.objects id).colour = K.beige ∧ (b1.objects id).pattern = K.flat := by
  rw [getNewTiles, newTilesColumns_eq] at h
  refine (refillList_new K beigeDraws level
    (fun t => t.colour = K.beige ∧ t.pattern = K.flat) ?_ _ _ _ _ _ _ _ h).2.2
  intro k0 b0 x y
  simp [generateTile, newTile, beigeDraws, pickRandomElement, colourList,
    getRandomPositiveInteger]
theorem loopColour_rows : ∀ y, y < SIZE → ∀ s, s < SIZE → ∀ l, l ≤ SIZE →
    IsMaximalRun (fun x => loopColour y x) s l → y = 0 ∧ s = 0 ∧ l = 3 := by
  intro y hy
  have hy8 : y < 8 := hy
  interval_cases y <;> decide

theorem loopColour_columns : ∀ x, x < SIZE → ∀ s, s < SIZE → ∀ l, l ≤ SIZE →
    ¬ IsMaximalRun (fun y => loopColour y x) s l := by
  intro x hx
  have hx8 : x < 8 := hx
  interval_cases x <;> decide

theorem loop_step (p : PlayState × Nat) (hinv : LoopInv p.1.board) :
    matchCount p.1.board ≠ 0 ∧
      ∃ q, cascadeStep sampleConsts beigeDraws p = some q ∧ LoopInv q.1.board := by
  have hS : SIZE = 8 := rfl
  obtain ⟨st, k⟩ := p
  simp only at hinv ⊢
  have hwf := hinv.wf
  have h := hwf.full
  have hrun : IsMaximalRun (fun x => colourOf st.board 0 x) 0 3 :=
    isMaximalRun_congr (fun x => loopColour 0 x) _
      (fun i hi => (hinv.colour 0 i (by decide) hi).symm) 0 3 (by decide)
  have hrows : ∀ y1 s1 l1, y1 < SIZE → IsMaximalRun (fun x => colourOf st.board y1 x) s1 l1 →
      y1 = 0 ∧ s1 = 0 ∧ l1 = 3 := by
    intro y1 s1 l1 hy1 hr
    obtain ⟨g1, g2⟩ := isMaximalRun_bounds _ s1 l1 hr
    exact loopColour_rows y1 hy1 s1 g1 l1 g2
      (isMaximalRun_congr _ (fun x => loopColour y1 x) (fun i hi => hinv.colour y1 i hy1 hi)
        s1 l1 hr)
  have hcols : ∀ x s1 l1, x < SIZE →
      ¬ IsMaximalRun (fun y => colourOf st.board y x) s1 l1 := by
    intro x s1 l1 hx hr
    obtain ⟨g1, g2⟩ := isMaximalRun_bounds _ s1 l1 hr
    exact loopColour_columns x hx s1 g1 l1 g2
      (isMaximalRun_congr _ (fun y => loopColour y x) (fun i hi => hinv.colour i x hi hx)
        s1 l1 hr)
  obtain ⟨hH, hV⟩ := runs_single st.board 0 0 3 (by decide) hrun hrows hcols
  have hcount : matchCount st.board = 1 := by simp [matchCount, hH, hV]
  refine ⟨by rw [hcount]; decide, ?_⟩
  obtain ⟨a0, e0⟩ := isFull_cell h (show 0 < SIZE by decide) (show 0 < SIZE by decide)
  obtain ⟨a1, e1⟩ := isFull_cell h (show 0 < SIZE by decide) (show 1 < SIZE by decide)
  obtain ⟨a2, e2⟩ := isFull_cell h (show 0 < SIZE by decide) (show 2 < SIZE by decide)
  have hst : hasStar sampleConsts st.board (rowMatch st.board (0, 0, 3)) = false := by
    rw [rowMatch_three]
    simp [hasStar, e0, e1, e2, hinv.flat 0 0 a0 e0, hinv.flat 0 1 a1 e1, hinv.flat 0 2 a2 e2,
      sampleConsts]
  have hcm := calculateMatches_single sampleConsts st.board h hwf.coord hwf.width hwf.height
    0 0 3 (by decide) hrun hrows hcols hst
  obtain ⟨s1, hs1⟩ := calculateScore_isSome st.board.objects st.baseScore
    [rowMatch st.board (0, 0, 3)] st.score (by
      intro m hm e he
      rw [List.mem_singleton] at hm
      subst hm
      rw [rowMatch_three, e0, e1, e2] at he
      simp only [Nat.zero_add, List.mem_cons, List.mem_singleton, List.not_mem_nil,
        or_false] at he
      rcases he with rfl | rfl | rfl
      · exact ⟨_, rfl⟩
      · exact ⟨_, rfl⟩
      · exact ⟨_, rfl⟩)
  obtain ⟨t2, hrm, hst2, hct2⟩ := removeMatches_single st.board h hwf.coord 0 0 3 (by decide)
    (by decide)
  have hg2 : IsGrid t2 := isGrid_of_shape hst2 h.1
  have hsub : ∀ r c id, cellOf t2 r c = some id → cellOf st.board.tiles r c = some id := by
    intro r c id hid
    rw [hct2] at hid
    by_cases hc : r = 0 ∧ 0 ≤ c ∧ c < 0 + 3
    · simp [hc] at hid
    · simp only [hc, if_false] at hid
      exact hid
  have hinv2 : CoordInv { st.board with tiles := t2, matchList := [] } :=
    fun r c id hid => hwf.coord r c id (hsub r c id hid)
  have hal2 : Allocated { st.board with tiles := t2, matchList := [] } :=
    fun r c id hid => hwf.alloc r c id (hsub r c id hid)
  obtain ⟨b3, tw, hfall, hst3, -, hcol3, hw3, hh3, -, hnext3⟩ :=
    fallColumns_spec sampleConsts SIZE 0 { st.board with tiles := t2, matchList := [] } []
      hg2 (by simp)
  simp only at hst3 hcol3 hnext3 hw3 hh3
  obtain ⟨hinv3, hal3⟩ := fallColumns_coordInv sampleConsts _ _ _ _ _ _ hinv2 hfall
  have hcolour3 := fallColumns_colour sampleConsts _ _ _ _ _ _ hfall
  simp only at hcolour3
  have hg3 : IsGrid b3.tiles := isGrid_of_shape hst3 hg2
  have hcells3 : ∀ r c, r < SIZE → c < SIZE → cellOf b3.tiles r c = cellOf t2 r c := by
    intro r c hr hc
    have hcol : columnOf b3.tiles c = columnOf t2 c := by
      rw [hcol3 c (Nat.zero_le _) hc]
      by_cases hc3 : c < 3
      · obtain ⟨b1, f1⟩ := isFull_cell h (show 1 < SIZE by decide) hc
        obtain ⟨b2, f2⟩ := isFull_cell h (show 2 < SIZE by decide) hc
        obtain ⟨b3, f3⟩ := isFull_cell h (show 3 < SIZE by decide) hc
        obtain ⟨b4, f4⟩ := isFull_cell h (show 4 < SIZE by decide) hc
        obtain ⟨b5, f5⟩ := isFull_cell h (show 5 < SIZE by decide) hc
        obtain ⟨b6, f6⟩ := isFull_cell h (show 6 < SIZE by decide) hc
        obtain ⟨b7, f7⟩ := isFull_cell h (show 7 < SIZE by decide) hc
        rw [columnOf_eq_list]
        simp only [hct2]
        simp [hc3, f1, f2, f3, f4, f5, f6, f7, compactColumn]
      · apply compactColumn_full
        intro x hx
        simp only [columnOf, List.mem_map, List.mem_range] at hx
        obtain ⟨r1, hr1, rfl⟩ := hx
        obtain ⟨id, hid⟩ := isFull_cell h hr1 hc
        rw [hct2]
        have : ¬ (r1 = 0 ∧ 0 ≤ c ∧ c < 0 + 3) := by omega
        simp only [this, if_false, hid]
        rfl
    have h1 := getElem?_columnOf b3.tiles c r hr
    rw [hcol, getElem?_columnOf t2 c r hr] at h1
    exact (Option.some.inj h1).symm
  obtain ⟨b4, k1, tw2, hnew, hfull4, hkeep, hold, hfill, hw4, hh4, -⟩ :=
    getNewTiles_fill sampleConsts beigeDraws k b3 st.level hg3
  obtain ⟨b5, k5, tw5, hnew5, hinv5, hal5⟩ :=
    getNewTiles_coordInv sampleConsts beigeDraws k b3 st.level hg3 hinv3 (hal3 hal2)
  rw [hnew] at hnew5
  simp only [Option.some.injEq, Prod.mk.injEq] at hnew5
  obtain ⟨rfl, -, -⟩ := hnew5
  have hbeige := getNewTiles_beige sampleConsts k b3 st.level b4 k1 tw2 hnew
  -- every cell of the new board: a new Beige tile in the run, the old tile elsewhere
  have hcell4 : ∀ r c, r < SIZE → c < SIZE →
      ∃ id, cellOf b4.tiles r c = some id ∧ (b4.objects id).colour = loopColour r c ∧
        (b4.objects id).pattern = 0 := by
    intro r c hr hc
    by_cases hrc : r = 0 ∧ 0 ≤ c ∧ c < 0 + 3
    · have hnone : cellOf b3.tiles r c = none := by
        rw [hcells3 r c hr hc, hct2]
        simp only [hrc, and_self, if_true]
      obtain ⟨id, hid, hge, hlt, -⟩ := hfill r c hr hc hnone
      obtain ⟨g1, g2⟩ := hbeige id hge hlt
      refine ⟨id, hid, ?_, g2⟩
      rw [g1]
      obtain ⟨rfl, -, hc3⟩ := hrc
      have hc3b : c < 3 := by omega
      interval_cases c <;> rfl
    · obtain ⟨id, hid⟩ := isFull_cell h hr hc
      have h3 : cellOf b3.tiles r c = some id := by
        rw [hcells3 r c hr hc, hct2]
        simp only [hrc, if_false, hid]
      have hlt : id < b3.next := by
        rw [hnext3]
        exact hwf.alloc r c id hid
      refine ⟨id, hkeep r c id h3, ?_, ?_⟩
      · rw [hold id hlt, (hcolour3 id).1, ← hinv.colour r c hr hc]
        simp only [colourOf, hid]
      · rw [hold id hlt, (hcolour3 id).2.1]
        exact hinv.flat r c id hid
  refine ⟨({ st with
      board := b4, score := s1,
      timer := if 1 > 0 then
          st.timer + max 0 (BASE_TIMER_ADD_AMOUNT - ((st.level : Int) - 1)) * (1 : Nat)
        else st.timer,
      sounds := st.sounds ++ List.replicate [rowMatch st.board (0, 0, 3)].length
        SoundName.Match }, k1), ?_, ?_⟩
  · simp only [cascadeStep, hcm, hs1, hrm, placeNewTiles, getFallingTiles, hfall, hnew]
  · refine ⟨⟨hfull4, hinv5, hal5, ?_, ?_⟩, ?_, ?_⟩
    · exact hw4.trans (hw3.trans hwf.width)
    · exact hh4.trans (hh3.trans hwf.height)
    · intro r c hr hc
      obtain ⟨id, hid, g1, -⟩ := hcell4 r c hr hc
      simp only [colourOf, hid, g1]
    · intro r c id hid
      obtain ⟨hr, hc⟩ := lt_of_inRange hfull4.1 (inRange_of_cellOf hid)
      obtain ⟨id1, hid1, -, g2⟩ := hcell4 r c hr hc
      rw [hid] at hid1
      obtain rfl := Option.some.inj hid1
      exact g2
theorem boardOf_allocated (colour pattern : Nat → Nat → Nat) :
    Allocated (boardOf colour pattern) := by
  intro row col id hid
  have hg : IsGrid (boardOf colour pattern).tiles :=
    (by decide : IsGrid ((List.range 8).map (fun row =>
      (List.range 8).map (fun col => some (8 * row + col)))))
  obtain ⟨hr, hc⟩ := lt_of_inRange hg (inRange_of_cellOf hid)
  have hr8 : row < 8 := hr
  have hc8 : col < 8 := hc
  have hcell : cellOf (boardOf colour pattern).tiles row col = some (8 * row + col) := by
    interval_cases row <;> interval_cases col <;> rfl
  rw [hcell] at hid
  have := Option.some.inj hid
  show id < 64
  omega

theorem loopBoard_inv : LoopInv loopBoard := by
  refine ⟨⟨by decide, (coordInv_iff_check _).2 (by decide), boardOf_allocated _ _, rfl, rfl⟩,
    ?_, fun _ _ _ _ => rfl⟩
  intro r c hr hc
  have hr8 : r < 8 := hr
  have hc8 : c < 8 := hc
  interval_cases r <;> interval_cases c <;> rfl

theorem loop_iter : ∀ (n : Nat) (p : PlayState × Nat), LoopInv p.1.board →
    ∃ q, cascadeIter sampleConsts beigeDraws n p = some q ∧ LoopInv q.1.board := by
  intro n
  induction n with
  | zero => intro p hp; exact ⟨p, rfl, hp⟩
  | succ n ih =>
    intro p hp
    obtain ⟨-, q, hq, hqi⟩ := loop_step p hp
    obtain ⟨r, hr, hri⟩ := ih q hqi
    exact ⟨r, by simp only [cascadeIter, hq, hr], hri⟩

theorem loop_forever : ∀ (fuel k : Nat) (st : PlayState), LoopInv st.board →
    PlayState.calculateMatches sampleConsts beigeDraws fuel k st = none := by
  intro fuel
  induction fuel with
  | zero => intro k st _; rfl
  | succ fuel ih =>
    intro k st hst
    obtain ⟨h0, q, hq, hqi⟩ := loop_step (st, k) hst
    rw [cascade_recurse sampleConsts beigeDraws fuel k st hst.wf h0, hq]
    exact ih q.2 q.1 hqi

/-- Counterexample to C13 as stated: `loopBoard` is a full 8 x 8 board with 6 colours
whose tiles record their own coordinates, and with the draws `beigeDraws` (every
draw 0, so every new tile is Beige) each iteration of the cascade completes and
leaves a board that has a match again, the three new Beige tiles at the start of row
0; the cascade does not return, whatever the number of nested calls allowed. -/
theorem cascade_counterexample :
    IsFull loopBoard.tiles ∧ CoordInv loopBoard ∧
    (∀ r c, r < SIZE → c < SIZE → colourOf loopBoard r c ∈ colourList sampleConsts) ∧
    (∀ n, ∃ q, cascadeIter sampleConsts beigeDraws n (loopState, 0) = some q ∧
      IsFull q.1.board.tiles ∧ matchCount q.1.board ≠ 0) ∧
    ∀ fuel, PlayState.calculateMatches sampleConsts beigeDraws fuel 0 loopState = none := by
  refine ⟨by decide, (coordInv_iff_check _).2 (by decide), ?_, ?_, ?_⟩
  · intro r c hr hc
    have hr8 : r < 8 := hr
    have hc8 : c < 8 := hc
    interval_cases r <;> interval_cases c <;> decide
  · intro n
    obtain ⟨q, hq, hqi⟩ := loop_iter n (loopState, 0) loopBoard_inv
    exact ⟨q, hq, hqi.wf.full, (loop_step q hqi).1⟩
  · intro fuel
    exact loop_forever fuel 0 loopState loopBoard_inv

/-- Witness for the amended C13: `sampleBoard` has one match.  With `sampleDraws` the
first iteration of the cascade removes it, lets the tiles fall, refills and leaves a
board without a match, so the cascade returns from its second call, with the score 15
and after 9 draws. -/
theorem cascade_returns_iff_witness :
    WellFormed samplePlayState.board ∧ matchCount samplePlayState.board = 1 ∧
    (∃ q, cascadeIter sampleConsts sampleDraws 1 (samplePlayState, 0) = some q ∧
      WellFormed q.1.board ∧ matchCount q.1.board = 0) ∧
    ∃ r, PlayState.calculateMatches sampleConsts sampleDraws 2 0 samplePlayState = some r ∧
      r.1.score = 15 ∧ r.2 = 9 ∧ WellFormed r.1.board ∧
      calculateMatches sampleConsts r.1.board = some (r.1.board, 0) := by
  have hwf : WellFormed samplePlayState.board :=
    ⟨by decide, (coordInv_iff_check _).2 (by decide), boardOf_allocated _ _, rfl, rfl⟩
  obtain ⟨q, hq, hqwf⟩ :=
    (cascade_returns_iff sampleConsts sampleDraws 0 samplePlayState hwf).1 1
  have hm : (cascadeIter sampleConsts sampleDraws 1 (samplePlayState, 0)).map
      (fun q => matchCount q.1.board) = some 0 := by decide
  rw [hq] at hm
  have hm0 : matchCount q.1.board = 0 := Option.some.inj hm
  obtain ⟨r, hr⟩ :=
    ((cascade_returns_iff sampleConsts sampleDraws 0 samplePlayState hwf).2.1 2).2
      ⟨1, q, by decide, hq, hm0⟩
  have hs : (PlayState.calculateMatches sampleConsts sampleDraws 2 0 samplePlayState).map
      (fun r => (r.1.score, r.2)) = some (15, 9) := by decide
  rw [hr] at hs
  have hs0 : (r.1.score, r.2) = (15, 9) := Option.some.inj hs
  exact ⟨hwf, by decide, ⟨q, hq, hqwf, hm0⟩, r, hr, (Prod.mk.inj hs0).1, (Prod.mk.inj hs0).2,
    (cascade_returns_iff sampleConsts sampleDraws 0 samplePlayState hwf).2.2 2 r hr⟩

/-! ## The hint search -/

theorem swapTiles_full (b : Board) (h : IsFull b.tiles) (hinv : CoordInv b)
    (a c xa ya xc yc : Nat) (ha : cellOf b.tiles ya xa = some a)
    (hc : cellOf b.tiles yc xc = some c) :
    ∃ b1, swapTiles b a c = some b1 ∧ swapTiles b1 c a = some b ∧ IsFull b1.tiles ∧
      CoordInv b1 ∧ b1.width = b.width ∧ b1.height = b.height := by
  obtain ⟨b1, h1, h2⟩ := swapTiles_roundtrip b hinv a c xa ya xc yc ha hc
  obtain ⟨b2, g1, g2, -, g4⟩ := swapTiles_coordInv b hinv a c xa ya xc yc ha hc
  rw [h1] at g1
  obtain rfl := Option.some.inj g1
  have hg : IsGrid b1.tiles := isGrid_of_shape g4 h.1
  have hwh : b1.width = b.width ∧ b1.height = b.height := by
    simp only [swapTiles] at h1
    split at h1
    · exact absurd h1 (by simp)
    · split at h1
      · exact absurd h1 (by simp)
      · obtain rfl := Option.some.inj h1
        exact ⟨rfl, rfl⟩
  refine ⟨b1, h1, h2, ?_, g2, hwh.1, hwh.2⟩
  apply isFull_of_cells hg
  intro r col hr hcol
  by_cases hne : a = c
  · subst hne
    obtain ⟨hax, hay⟩ := hinv _ _ _ ha
    rw [swapTiles_self b a xa ya ha hax hay] at h1
    obtain rfl := Option.some.inj h1
    exact isFull_cell h hr hcol
  · obtain ⟨hax, hay⟩ := hinv _ _ _ ha
    obtain ⟨hcx, hcy⟩ := hinv _ _ _ hc
    obtain ⟨t, hsw, -, hct⟩ := swapTiles_spec b a c xa ya xc yc (inRange_of_cellOf ha)
      (inRange_of_cellOf hc) hax hay hcx hcy hne
    rw [h1] at hsw
    obtain rfl := Option.some.inj hsw
    simp only
    rw [hct]
    by_cases e1 : r = ya ∧ col = xa
    · exact ⟨c, by rw [if_pos e1]⟩
    · by_cases e2 : r = yc ∧ col = xc
      · exact ⟨a, by rw [if_neg e1, if_pos e2]⟩
      · rw [if_neg e1, if_neg e2]
        exact isFull_cell h hr hcol

theorem hintPositions_spec (draws : Nat → Nat) (k : Nat) (b : Board) (hw : b.width = SIZE)
    (hh : b.height = SIZE) :
    1 ≤ (hintPositions draws k b).1.1 ∧ (hintPositions draws k b).1.1 ≤ SIZE - 2 ∧
    1 ≤ (hintPositions draws k b).1.2 ∧ (hintPositions draws k b).1.2 ≤ SIZE - 2 ∧
    (hintPositions draws k b).2.1 < SIZE ∧ (hintPositions draws k b).2.2 < SIZE ∧
    (((hintPositions draws k b).2.1 = (hintPositions draws k b).1.1 + 1 ∧
        (hintPositions draws k b).2.2 = (hintPositions draws k b).1.2) ∨
      ((hintPositions draws k b).2.1 + 1 = (hintPositions draws k b).1.1 ∧
        (hintPositions draws k b).2.2 = (hintPositions draws k b).1.2) ∨
      ((hintPositions draws k b).2.1 = (hintPositions draws k b).1.1 ∧
        (hintPositions draws k b).2.2 = (hintPositions draws k b).1.2 + 1) ∨
      ((hintPositions draws k b).2.1 = (hintPositions draws k b).1.1 ∧
        (hintPositions draws k b).2.2 + 1 = (hintPositions draws k b).1.2)) := by
  have hS : SIZE = 8 := rfl
  have hx := getRandomPositiveInteger_range (draws k) 1 (b.height - 2) (by rw [hh]; decide)
  have hy := getRandomPositiveInteger_range (draws (k + 1)) 1 (b.width - 2)
    (by rw [hw]; decide)
  have e1 : b.height - 2 = 6 := by rw [hh]; rfl
  have e2 : b.width - 2 = 6 := by rw [hw]; rfl
  simp only [hintPositions]
  generalize getRandomPositiveInteger (draws k) 1 (b.height - 2) = x1 at hx ⊢
  generalize getRandomPositiveInteger (draws (k + 1)) 1 (b.width - 2) = y1 at hy ⊢
  generalize getRandomPositiveInteger (draws (k + 2)) 0 4 = d
  by_cases d0 : d = 0
  · rw [if_pos d0]
    dsimp only
    omega
  · rw [if_neg d0]
    by_cases d1 : d = 1
    · rw [if_pos d1]
      dsimp only
      omega
    · rw [if_neg d1]
      by_cases d2 : d = 2
      · rw [if_pos d2]
        dsimp only
        omega
      · rw [if_neg d2]
        dsimp only
        omega

theorem hintTrial_spec (K : Consts) (draws : Nat → Nat) (k : Nat) (b : Board)
    (h : IsFull b.tiles) (hinv : CoordInv b) (hw : b.width = SIZE) (hh : b.height = SIZE) :
    ∃ tile1 tile2 b1 ms,
      cellOf b.tiles (hintPositions draws k b).1.1 (hintPositions draws k b).1.2 = some tile1 ∧
      cellOf b.tiles (hintPositions draws k b).2.1 (hintPositions draws k b).2.2 = some tile2 ∧
      tile1 ≠ tile2 ∧ swapTiles b tile1 tile2 = some b1 ∧
      calculateMatches K b1 = some ({ b1 with matchList := ms }, ms.length) ∧
      hintTrial K draws k b =
        some ({ b with matchList := ms }, k + 3, tile1, tile2, ms.length) := by
  have hS : SIZE = 8 := rfl
  obtain ⟨p1, p2, p3, p4, p5, p6, hadj⟩ := hintPositions_spec draws k b hw hh
  obtain ⟨t1, ht1⟩ := isFull_cell h (show (hintPositions draws k b).1.1 < SIZE by omega)
    (show (hintPositions draws k b).1.2 < SIZE by omega)
  obtain ⟨t2, ht2⟩ := isFull_cell h p5 p6
  have hne : t1 ≠ t2 := by
    rintro rfl
    obtain ⟨e1, e2⟩ := hinv _ _ _ ht1
    obtain ⟨e3, e4⟩ := hinv _ _ _ ht2
    omega
  obtain ⟨b1, hs1, hs2, hfull1, hinv1, hw1, hh1⟩ :=
    swapTiles_full b h hinv t1 t2 _ _ _ _ ht1 ht2
  have hcm := calculateMatches_full K b1 hfull1 hinv1 (hw1.trans hw) (hh1.trans hh)
  refine ⟨t1, t2, b1, (horizontalRunsFrom b1 SIZE 0).map (expandedRowMatch K b1) ++
    (verticalRunsFrom b1 SIZE 0).map (expandedColumnMatch K b1), ht1, ht2, hne, hs1, ?_, ?_⟩
  · rw [hcm]
    simp
  · simp only [hintTrial, readCell_of_cellOf ht1, readCell_of_cellOf ht2, hs1, hcm,
      swapTiles_matchList, hs2, Option.map_some']
    simp
theorem hintLoop_spec (K : Consts) (draws : Nat → Nat) :
    ∀ (fuel k : Nat) (b : Board), IsFull b.tiles → CoordInv b → b.width = SIZE →
      b.height = SIZE → ∀ (b3 : Board) (k1 tile1 tile2 : Nat),
      hintLoop K draws fuel k b = some (b3, k1, tile1, tile2) →
      b3.tiles = b.tiles ∧ b3.objects = b.objects ∧ b3.width = b.width ∧
      b3.height = b.height ∧ b3.next = b.next ∧ tile1 ≠ tile2 ∧
      (∃ x1 y1 x2 y2, cellOf b.tiles x1 y1 = some tile1 ∧ cellOf b.tiles x2 y2 = some tile2 ∧
        x1 < SIZE ∧ y1 < SIZE ∧ x2 < SIZE ∧ y2 < SIZE ∧
        ((x2 = x1 + 1 ∧ y2 = y1) ∨ (x2 + 1 = x1 ∧ y2 = y1) ∨ (x2 = x1 ∧ y2 = y1 + 1) ∨
          (x2 = x1 ∧ y2 + 1 = y1))) ∧
      ∃ b1 b2 n, swapTiles b3 tile1 tile2 = some b1 ∧ calculateMatches K b1 = some (b2, n) ∧
        1 ≤ n := by
  have hS : SIZE = 8 := rfl
  intro fuel
  induction fuel with
  | zero =>
    intro k b _ _ _ _ b3 k1 tile1 tile2 h
    simp [hintLoop] at h
  | succ fuel ih =>
    intro k b hfull hinv hw hh b3 k1 tile1 tile2 h
    obtain ⟨t1, t2, b1, ms, ht1, ht2, hne, hs1, hcm, htrial⟩ :=
      hintTrial_spec K draws k b hfull hinv hw hh
    obtain ⟨p1, p2, p3, p4, p5, p6, hadj⟩ := hintPositions_spec draws k b hw hh
    rw [hintLoop, htrial] at h
    simp only at h
    by_cases hpos : ms.length > 0
    · simp only [hpos, if_true, Option.some.injEq, Prod.mk.injEq] at h
      obtain ⟨rfl, -, rfl, rfl⟩ := h
      refine ⟨rfl, rfl, rfl, rfl, rfl, hne, ⟨_, _, _, _, ht1, ht2, by omega, by omega, p5, p6,
        hadj⟩, { b1 with matchList := ms }, { b1 with matchList := ms }, ms.length, ?_, ?_, hpos⟩
      · rw [swapTiles_matchList, hs1]
        rfl
      · rw [calculateMatches_matchList]
        exact hcm
    · simp only [hpos, if_false] at h
      exact ih (k + 3) { b with matchList := ms } hfull hinv hw hh b3 k1 tile1 tile2 h

/-- C18 (the hint found is a real move), amended.  On a full 8 x 8 board whose tiles
record their own coordinates, every pass of the trial loop of `lookForHints` completes and
leaves every cell and every tile object as it found them.  Whenever the loop exits,
the board equals the board at entry of the loop in its cells and tile objects,
`tile1` and `tile2` are two different tiles of it in cells next to each other, and
exchanging `tile1` and `tile2` on that board makes `calculateMatches` return at
least 1. -/
theorem hint_is_real_move (K : Consts) (draws : Nat → Nat) (fuel k : Nat) (b : Board)
    (h : IsFull b.tiles) (hinv : CoordInv b) (hw : b.width = SIZE) (hh : b.height = SIZE) :
    (∀ k0, ∃ r, hintTrial K draws k0 b = some r ∧ r.1.tiles = b.tiles ∧
      r.1.objects = b.objects) ∧
    ∀ (b3 : Board) (k1 tile1 tile2 : Nat),
      hintLoop K draws fuel k b = some (b3, k1, tile1, tile2) →
      b3.tiles = b.tiles ∧ b3.objects = b.objects ∧ tile1 ≠ tile2 ∧
      (∃ x1 y1 x2 y2, cellOf b.tiles x1 y1 = some tile1 ∧ cellOf b.tiles x2 y2 = some tile2 ∧
        x1 < SIZE ∧ y1 < SIZE ∧ x2 < SIZE ∧ y2 < SIZE ∧
        ((x2 = x1 + 1 ∧ y2 = y1) ∨ (x2 + 1 = x1 ∧ y2 = y1) ∨ (x2 = x1 ∧ y2 = y1 + 1) ∨
          (x2 = x1 ∧ y2 + 1 = y1))) ∧
      ∃ b1 b2 n, swapTiles b3 tile1 tile2 = some b1 ∧ calculateMatches K b1 = some (b2, n) ∧
        1 ≤ n := by
  constructor
  · intro k0
    obtain ⟨t1, t2, b1, ms, -, -, -, -, -, htrial⟩ := hintTrial_spec K draws k0 b h hinv hw hh
    exact ⟨_, htrial, rfl, rfl⟩
  · intro b3 k1 tile1 tile2 hl
    obtain ⟨g1, g2, -, -, -, g6, g7, g8⟩ :=
      hintLoop_spec K draws fuel k b h hinv hw hh b3 k1 tile1 tile2 hl
    exact ⟨g1, g2, g6, g7, g8⟩
/-! ## The swaps that show the hint -/

theorem swapTilesAsync_split (b : Board) (a c : Nat) :
    swapTilesAsync b a c = swapTilesAsyncEnd b a c (swapTilesAsyncBegin b a) := rfl

theorem swapTilesAsyncEnd_objects (objects : Nat → Tile) (a c tx ty : Nat) (hne : a ≠ c) :
    setBoardY (setBoardX (setBoardY (setBoardX objects a (objects c).boardX) a
        ((setBoardX objects a (objects c).boardX) c).boardY) c tx) c ty =
      swappedObjects objects a c tx ty (objects c).boardX (objects c).boardY := by
  funext i
  have hne2 : ¬ c = a := fun e => hne e.symm
  by_cases hc : i = c
  · subst hc
    simp [setBoardX, setBoardY, swappedObjects, hne2]
  · by_cases ha : i = a
    · subst ha
      simp [setBoardX, setBoardY, swappedObjects, hne, hne2]
    · simp [setBoardX, setBoardY, swappedObjects, hc, ha]

theorem swapTilesAsyncEnd_spec (b : Board) (a c tx ty xc yc : Nat)
    (hint : InRange b.tiles ty tx) (hinc : InRange b.tiles yc xc)
    (hcx : (b.objects c).boardX = xc) (hcy : (b.objects c).boardY = yc) (hne : a ≠ c) :
    ∃ t, swapTilesAsyncEnd b a c (tx, ty) =
        some { b with tiles := t, objects := swappedObjects b.objects a c tx ty xc yc } ∧
      shape t = shape b.tiles ∧
      ∀ r col, cellOf t r col =
        if r = ty ∧ col = tx then some c
        else if r = yc ∧ col = xc then some a else cellOf b.tiles r col := by
  have hne2 : ¬ c = a := fun e => hne e.symm
  obtain ⟨t1, ht1⟩ := setCell_of_inRange (some a) hinc
  obtain ⟨hs1, hc1⟩ := setCell_spec ht1
  obtain ⟨t2, ht2⟩ := setCell_of_inRange (some c) (inRange_of_shape hs1 hint)
  obtain ⟨hs2, hc2⟩ := setCell_spec ht2
  refine ⟨t2, ?_, hs2.trans hs1, ?_⟩
  · have hobj := swapTilesAsyncEnd_objects b.objects a c tx ty hne
    rw [hcx, hcy] at hobj
    simp only [swapTilesAsyncEnd, hcx, hcy]
    rw [hobj]
    simp only [swappedObjects, hne, hne2, if_true, if_false, ht1, ht2]
  · intro r col
    rw [hc2, hc1]

theorem overlappingSwaps_spec (b : Board) (hinv : CoordInv b) (a c xa ya xc yc : Nat)
    (ha : cellOf b.tiles ya xa = some a) (hc : cellOf b.tiles yc xc = some c) (hne : a ≠ c)
    (order : Bool) :
    ∃ t o, overlappingSwaps b a c order = some { b with tiles := t, objects := o } ∧
      shape t = shape b.tiles ∧
      (∀ r col, cellOf t r col =
        if r = ya ∧ col = xa then some c
        else if r = yc ∧ col = xc then some a else cellOf b.tiles r col) ∧
      (∀ i, i ≠ a → i ≠ c → o i = b.objects i) ∧
      ∀ i, (o i).colour = (b.objects i).colour ∧ (o i).pattern = (b.objects i).pattern := by
  have hne2 : ¬ c = a := fun e => hne e.symm
  obtain ⟨hax, hay⟩ := hinv _ _ _ ha
  obtain ⟨hcx, hcy⟩ := hinv _ _ _ hc
  have hina := inRange_of_cellOf ha
  have hinc := inRange_of_cellOf hc
  have hcell : ¬ (yc = ya ∧ xc = xa) := by
    rintro ⟨e1, e2⟩
    rw [e1, e2, ha] at hc
    exact hne (Option.some.inj hc)
  cases order with
  | true =>
    obtain ⟨t1, h1, hs1, hc1⟩ := swapTilesAsyncEnd_spec b a c xa ya xc yc hina hinc hcx hcy hne
    obtain ⟨t2, h2, hs2, hc2⟩ := swapTilesAsyncEnd_spec
      { b with tiles := t1, objects := swappedObjects b.objects a c xa ya xc yc } c a xc yc xc yc
      (inRange_of_shape hs1 hinc) (inRange_of_shape hs1 hinc)
      (by simp [swappedObjects, hne]) (by simp [swappedObjects, hne]) hne2
    refine ⟨t2, swappedObjects (swappedObjects b.objects a c xa ya xc yc) c a xc yc xc yc,
      ?_, hs2.trans hs1, ?_, ?_, ?_⟩
    · simp only [overlappingSwaps, swapTilesAsyncBegin, hax, hay, hcx, hcy, if_true, h1, h2]
    · intro r col
      simp only at hc2
      rw [hc2, hc1]
      by_cases e1 : r = ya ∧ col = xa
      · obtain ⟨rfl, rfl⟩ := e1
        have e2 : ¬ (r = yc ∧ col = xc) := fun e => hcell ⟨e.1.symm, e.2.symm⟩
        simp only [e2, and_self, if_true, if_false]
      · by_cases e2 : r = yc ∧ col = xc
        · simp only [e2, and_self, if_true]
          simp [hcell]
        · simp only [e1, e2, if_false]
    · intro i hia hic
      simp [swappedObjects, hia, hic]
    · intro i
      by_cases hia : i = a
      · subst hia
        simp [swappedObjects, hne]
      · by_cases hic : i = c
        · subst hic
          simp [swappedObjects, hne2]
        · simp [swappedObjects, hia, hic]
  | false =>
    obtain ⟨t1, h1, hs1, hc1⟩ := swapTilesAsyncEnd_spec b c a xc yc xa ya hinc hina hax hay hne2
    obtain ⟨t2, h2, hs2, hc2⟩ := swapTilesAsyncEnd_spec
      { b with tiles := t1, objects := swappedObjects b.objects c a xc yc xa ya } a c xa ya xa ya
      (inRange_of_shape hs1 hina) (inRange_of_shape hs1 hina)
      (by simp [swappedObjects, hne2]) (by simp [swappedObjects, hne2]) hne
    refine ⟨t2, swappedObjects (swappedObjects b.objects c a xc yc xa ya) a c xa ya xa ya,
      ?_, hs2.trans hs1, ?_, ?_, ?_⟩
    · simp only [overlappingSwaps, swapTilesAsyncBegin, hax, hay, hcx, hcy, h1, h2]
      simp
    · intro r col
      simp only at hc2
      rw [hc2, hc1]
      by_cases e1 : r = ya ∧ col = xa
      · simp only [e1, and_self, if_true]
      · by_cases e2 : r = yc ∧ col = xc
        · obtain ⟨rfl, rfl⟩ := e2
          simp only [e1, and_self, if_true, if_false]
        · simp only [e1, e2, if_false]
    · intro i hia hic
      simp [swappedObjects, hia, hic]
    · intro i
      by_cases hia : i = a
      · subst hia
        simp [swappedObjects, hne]
      · by_cases hic : i = c
        · subst hic
          simp [swappedObjects, hne2]
        · simp [swappedObjects, hia, hic]

theorem assignBackups_eq (o objects : Nat → Tile) (a c xa ya xc yc : Nat) (hne : a ≠ c)
    (hother : ∀ i, i ≠ a → i ≠ c → o i = objects i)
    (ha : (o a).colour = (objects a).colour ∧ (o a).pattern = (objects a).pattern)
    (hc : (o c).colour = (objects c).colour ∧ (o c).pattern = (objects c).pattern) :
    assignBackups o a c (xa, ya) (xc, yc) = swappedObjects objects a c xa ya xc yc := by
  funext i
  have hne2 : ¬ c = a := fun e => hne e.symm
  by_cases hic : i = c
  · subst hic
    cases h1 : o i
    cases h2 : objects i
    simp only [h1, h2] at hc
    simp [assignBackups, setBoardX, setBoardY, swappedObjects, hne2, h1, h2, hc.1, hc.2]
  · by_cases hia : i = a
    · subst hia
      cases h1 : o i
      cases h2 : objects i
      simp only [h1, h2] at ha
      simp [assignBackups, setBoardX, setBoardY, swappedObjects, hne, h1, h2, ha.1, ha.2]
    · simp [assignBackups, setBoardX, setBoardY, swappedObjects, hia, hic, hother i hia hic]

theorem showHint_spec (b : Board) (hinv : CoordInv b) (tile1 tile2 x1 y1 x2 y2 : Nat)
    (h1 : cellOf b.tiles y1 x1 = some tile1) (h2 : cellOf b.tiles y2 x2 = some tile2)
    (hne : tile1 ≠ tile2) (order1 order2 : Bool) :
    showHint b tile1 tile2 order1 order2 =
      some { b with objects := swappedObjects b.objects tile1 tile2 x1 y1 x2 y2 } := by
  have hne2 : ¬ tile2 = tile1 := fun e => hne e.symm
  obtain ⟨hax, hay⟩ := hinv _ _ _ h1
  obtain ⟨hcx, hcy⟩ := hinv _ _ _ h2
  have hcell : ¬ (y2 = y1 ∧ x2 = x1) := by
    rintro ⟨e1, e2⟩
    rw [e1, e2, h1] at h2
    exact hne (Option.some.inj h2)
  obtain ⟨t, o, hov, hs, hcells, hother, hcol⟩ :=
    overlappingSwaps_spec b hinv tile1 tile2 x1 y1 x2 y2 h1 h2 hne order1
  have hobj : assignBackups o tile1 tile2 (x1, y1) (x2, y2) =
      swappedObjects b.objects tile1 tile2 x1 y1 x2 y2 :=
    assignBackups_eq o b.objects tile1 tile2 x1 y1 x2 y2 hne hother (hcol tile1) (hcol tile2)
  -- the board shown is the board after `swapTiles(tile1, tile2)`
  obtain ⟨b1, hsw, hinv1, -, hs1⟩ := swapTiles_coordInv b hinv tile1 tile2 x1 y1 x2 y2 h1 h2
  obtain ⟨t1, hsw1, hst1, hct1⟩ := swapTiles_spec b tile1 tile2 x1 y1 x2 y2
    (inRange_of_cellOf h1) (inRange_of_cellOf h2) hax hay hcx hcy hne
  rw [hsw] at hsw1
  obtain rfl := Option.some.inj hsw1
  have et : t = t1 := by
    apply grid_ext (hs.trans hst1.symm)
    intro r c
    rw [hcells, hct1]
  subst et
  have g1 : cellOf t y1 x1 = some tile2 := by
    rw [hcells]; simp
  have g2 : cellOf t y2 x2 = some tile1 := by
    rw [hcells]; simp [hcell]
  obtain ⟨t3, o3, hov3, hs3, hcells3, hother3, hcol3⟩ :=
    overlappingSwaps_spec
      { b with tiles := t, objects := swappedObjects b.objects tile1 tile2 x1 y1 x2 y2 }
      hinv1 tile2 tile1 x1 y1 x2 y2 g1 g2 hne2 order2
  simp only at hov3 hs3 hcells3 hother3 hcol3
  have et3 : t3 = b.tiles := by
    apply grid_ext (hs3.trans hs)
    intro r c
    rw [hcells3, hcells]
    by_cases e1 : r = y1 ∧ c = x1
    · obtain ⟨rfl, rfl⟩ := e1
      simp [h1]
    · by_cases e2 : r = y2 ∧ c = x2
      · obtain ⟨rfl, rfl⟩ := e2
        simp [h2, hcell]
      · simp [e1, e2]
  subst et3
  have hobj3 : assignBackups o3 tile1 tile2 (x1, y1) (x2, y2) =
      swappedObjects b.objects tile1 tile2 x1 y1 x2 y2 := by
    apply assignBackups_eq o3 b.objects tile1 tile2 x1 y1 x2 y2 hne
    · intro i hi1 hi2
      rw [hother3 i hi2 hi1]
      simp [swappedObjects, hi1, hi2]
    · rw [(hcol3 tile1).1, (hcol3 tile1).2]
      simp [swappedObjects, hne]
    · rw [(hcol3 tile2).1, (hcol3 tile2).2]
      simp [swappedObjects]
  simp only [showHint, hax, hay, hcx, hcy, hov, hobj, hov3, hobj3]
/-- C12 (the hint search and the live board): what the code does.  On a full 8 x 8
board whose tiles record their own coordinates, `lookForHints` completes whenever its
trial loop exits, for either completion order of each pair of overlapping
`swapTilesAsync` calls.  Afterwards every cell holds the same tile as before the call,
but `tile1` and `tile2`, two different tiles in two different cells, have exchanged
their `boardX`/`boardY`: each records the coordinates of the cell that holds the
other (the last four assignments give `tile1` the coordinates saved in `backupTile2`
and `tile2` those saved in `backupTile1`, after the tiles are back in their cells).
All other tile objects are unchanged, and the coordinate invariant no longer
holds. -/
theorem hint_exchanges_coordinates (K : Consts) (draws : Nat → Nat) (fuel k : Nat)
    (st : PlayState) (order1 order2 : Bool) (h : IsFull st.board.tiles)
    (hinv : CoordInv st.board) (hw : st.board.width = SIZE) (hh : st.board.height = SIZE) :
    (∀ r, hintLoop K draws fuel k st.board = some r →
      ∃ q, lookForHints K draws fuel k st order1 order2 = some q) ∧
    ∀ (st1 : PlayState) (k1 : Nat),
      lookForHints K draws fuel k st order1 order2 = some (st1, k1) →
      st1.board.tiles = st.board.tiles ∧
      ∃ tile1 tile2 x1 y1 x2 y2, tile1 ≠ tile2 ∧ ¬ (y1 = y2 ∧ x1 = x2) ∧
        cellOf st1.board.tiles y1 x1 = some tile1 ∧
        cellOf st1.board.tiles y2 x2 = some tile2 ∧
        (st1.board.objects tile1).boardX = x2 ∧ (st1.board.objects tile1).boardY = y2 ∧
        (st1.board.objects tile2).boardX = x1 ∧ (st1.board.objects tile2).boardY = y1 ∧
        (∀ i, i ≠ tile1 → i ≠ tile2 → st1.board.objects i = st.board.objects i) ∧
        ¬ CoordInv st1.board := by
  have key : ∀ (b3 : Board) (k1 tile1 tile2 : Nat),
      hintLoop K draws fuel k st.board = some (b3, k1, tile1, tile2) →
      ∃ x1 y1 x2 y2, tile1 ≠ tile2 ∧ ¬ (y1 = y2 ∧ x1 = x2) ∧
        cellOf st.board.tiles y1 x1 = some tile1 ∧ cellOf st.board.tiles y2 x2 = some tile2 ∧
        b3.tiles = st.board.tiles ∧ b3.objects = st.board.objects ∧
        showHint b3 tile1 tile2 order1 order2 =
          some { b3 with objects := swappedObjects b3.objects tile1 tile2 x1 y1 x2 y2 } := by
    intro b3 k1 tile1 tile2 hl
    obtain ⟨g1, g2, -, -, -, hne, ⟨r1, c1, r2, c2, e1, e2, -, -, -, -, hadj⟩, -⟩ :=
      hintLoop_spec K draws fuel k st.board h hinv hw hh b3 k1 tile1 tile2 hl
    have hinv3 : CoordInv b3 := by
      intro r c id hid
      rw [g1] at hid
      rw [g2]
      exact hinv r c id hid
    refine ⟨c1, r1, c2, r2, hne, by omega, e1, e2, g1, g2, ?_⟩
    exact showHint_spec b3 hinv3 tile1 tile2 c1 r1 c2 r2 (by rw [g1]; exact e1)
      (by rw [g1]; exact e2) hne order1 order2
  constructor
  · rintro ⟨b3, k1, tile1, tile2⟩ hl
    obtain ⟨x1, y1, x2, y2, -, -, -, -, -, -, hshow⟩ := key b3 k1 tile1 tile2 hl
    exact ⟨({ st with board :=
        { b3 with objects := swappedObjects b3.objects tile1 tile2 x1 y1 x2 y2 } }, k1),
      by simp only [lookForHints, hl, hshow]⟩
  · intro st1 k1 hlook
    simp only [lookForHints] at hlook
    cases hl : hintLoop K draws fuel k st.board with
    | none => simp [hl] at hlook
    | some r =>
      obtain ⟨b3, k3, tile1, tile2⟩ := r
      obtain ⟨x1, y1, x2, y2, hne, hpos, e1, e2, g1, g2, hshow⟩ := key b3 k3 tile1 tile2 hl
      simp only [hl, hshow, Option.some.injEq, Prod.mk.injEq] at hlook
      obtain ⟨rfl, -⟩ := hlook
      have hne2 : ¬ tile2 = tile1 := fun e => hne e.symm
      have c1 : cellOf b3.tiles y1 x1 = some tile1 := by rw [g1]; exact e1
      have hx : (swappedObjects b3.objects tile1 tile2 x1 y1 x2 y2 tile1).boardX = x2 := by
        simp [swappedObjects, hne]
      have hy : (swappedObjects b3.objects tile1 tile2 x1 y1 x2 y2 tile1).boardY = y2 := by
        simp [swappedObjects, hne]
      refine ⟨g1, tile1, tile2, x1, y1, x2, y2, hne, hpos, c1, by rw [g1]; exact e2, hx, hy,
        by simp [swappedObjects], by simp [swappedObjects], ?_, ?_⟩
      · intro i hi1 hi2
        simp only [swappedObjects, hi1, hi2, if_false, g2]
      · intro hbad
        obtain ⟨f1, f2⟩ := hbad y1 x1 tile1 c1
        simp only at f1 f2
        rw [hx] at f1
        rw [hy] at f2
        exact hpos ⟨f2.symm, f1.symm⟩

/-- Witness for C12: on `hintBoard` the second pass of the trial loop finds the hint,
tile 10 of cell `(row 1, column 2)` and tile 2 of cell `(row 0, column 2)`. -/
theorem hint_exchanges_coordinates_witness :
    ∃ st1 k1, lookForHints sampleConsts hintDraws 2 0 hintPlayState true false =
        some (st1, k1) ∧
      st1.board.tiles = hintBoard.tiles ∧ CoordInv hintBoard ∧ ¬ CoordInv st1.board := by
  obtain ⟨r, hr⟩ := Option.isSome_iff_exists.1
    (by decide : (lookForHints sampleConsts hintDraws 2 0 hintPlayState true false).isSome = true)
  obtain ⟨st1, k1⟩ := r
  obtain ⟨g1, -, -, -, -, -, -, -, -, -, -, -, -, -, -, -, g2⟩ :=
    (hint_exchanges_coordinates sampleConsts hintDraws 2 0 hintPlayState true false (by decide)
      ((coordInv_iff_check _).2 (by decide)) rfl rfl).2 st1 k1 hr
  exact ⟨st1, k1, hr, g1, (coordInv_iff_check _).2 (by decide), g2⟩

/-- Witness for C18: on `hintBoard` the first pass of the trial loop finds no match
and the second pass finds the hint. -/
theorem hint_is_real_move_witness :
    ∃ b3 k1 tile1 tile2, hintLoop sampleConsts hintDraws 2 0 hintBoard =
        some (b3, k1, tile1, tile2) ∧
      b3.tiles = hintBoard.tiles ∧ b3.objects = hintBoard.objects ∧ tile1 ≠ tile2 ∧
      ∃ b1 b2 n, swapTiles b3 tile1 tile2 = some b1 ∧
        calculateMatches sampleConsts b1 = some (b2, n) ∧ 1 ≤ n := by
  obtain ⟨r, hr⟩ := Option.isSome_iff_exists.1
    (by decide : (hintLoop sampleConsts hintDraws 2 0 hintBoard).isSome = true)
  obtain ⟨b3, k1, tile1, tile2⟩ := r
  obtain ⟨g1, g2, g3, -, g5⟩ :=
    (hint_is_real_move sampleConsts hintDraws 2 0 hintBoard (by decide)
      ((coordInv_iff_check _).2 (by decide)) rfl rfl).2 b3 k1 tile1 tile2 hr
  exact ⟨b3, k1, tile1, tile2, hr, g1, g2, g3, g5⟩

/-! ## The relocations of gravity on one column -/

theorem moveLoop_zero (fuel : Nat) (col : List Cell) (space : Bool) (spaceRow : Nat) :
    moveLoop fuel col 0 space spaceRow = some [] := by
  cases fuel <;> rfl

theorem movesUp_replicate (j : Nat) (R : List Cell) (d : Nat) (hs : Bool) :
    movesUp (List.replicate (j + 1) none ++ R) d hs = movesUp R d true := by
  induction j generalizing hs with
  | zero => simp [movesUp]
  | succ j ih =>
    rw [List.replicate_succ, List.cons_append, movesUp]
    exact ih true

theorem moveLoop_blocks :
    ∀ (fuel : Nat) (A : List Cell) (k : Nat) (S : List Cell),
      (∀ c ∈ S, c.isSome = true) → A.length + k + S.length = 8 →
      9 * (A.filter (fun c => c.isSome)).length +
        (A.filter (fun c => c.isNone)).length ≤ fuel →
      moveLoop fuel (A ++ (List.replicate k none ++ S)) A.length (decide (0 < k))
          (if k = 0 then 0 else A.length + k - 1) =
        some (movesUp A.reverse (A.length + k - 1) (decide (0 < k))) := by
  intro fuel
  induction fuel with
  | zero =>
    intro A k S _ _ hm
    rcases List.eq_nil_or_concat A with rfl | ⟨A1, x, rfl⟩
    · simp [moveLoop_zero, movesUp]
    · rw [List.concat_eq_append] at hm
      cases x with
      | none => rw [(filter_isSome_concat_none A1).2] at hm; omega
      | some t =>
        rw [(filter_isSome_concat_some A1 t).1, List.length_append] at hm
        simp at hm
  | succ fuel ih =>
    intro A k S hS hlen hm
    rcases List.eq_nil_or_concat A with rfl | ⟨A1, x, rfl⟩
    · simp [moveLoop_zero, movesUp]
    · rw [List.concat_eq_append] at hm hlen ⊢
      have hget : ((A1 ++ [x]) ++ (List.replicate k none ++ S))[A1.length]? = some x := by
        rw [List.append_assoc, List.getElem?_append_right (le_refl _)]
        simp
      rw [List.length_append, List.length_singleton, moveLoop, hget, List.reverse_append,
        List.reverse_singleton, List.singleton_append]
      simp only [List.length_append, List.length_singleton] at hlen
      cases x with
      | none =>
        rw [(filter_isSome_concat_none A1).1, (filter_isSome_concat_none A1).2] at hm
        have hcol : (A1 ++ [none]) ++ (List.replicate k none ++ S) =
            A1 ++ (List.replicate (k + 1) none ++ S) := by
          simp [List.replicate_succ]
        have hnew := ih A1 (k + 1) S hS (by omega) (by omega)
        simp only [Nat.add_one_ne_zero, if_false, Nat.zero_lt_succ, decide_True] at hnew
        have hsr : (if (if k = 0 then 0 else A1.length + 1 + k - 1) = 0 then A1.length
            else (if k = 0 then 0 else A1.length + 1 + k - 1)) = A1.length + (k + 1) - 1 := by
          split_ifs <;> omega
        show moveLoop fuel _ A1.length true _ = _
        rw [hsr, hcol, hnew, movesUp]
        have e1 : A1.length + (k + 1) - 1 = A1.length + 1 + k - 1 := by omega
        rw [e1]
      | some t =>
        rw [(filter_isSome_concat_some A1 t).1, (filter_isSome_concat_some A1 t).2] at hm
        rw [List.length_append, List.length_singleton] at hm
        have hS2 : ∀ c ∈ some t :: S, c.isSome = true := by
          intro c hc
          rcases List.mem_cons.1 hc with rfl | h
          · rfl
          · exact hS c h
        by_cases hk : k = 0
        · subst hk
          have hnew := ih A1 0 (some t :: S) hS2 (by simp; omega) (by omega)
          simp only [if_true, Nat.lt_irrefl, decide_False] at hnew
          have hcol : (A1 ++ [some t]) ++ (List.replicate 0 none ++ S) =
              A1 ++ (List.replicate 0 none ++ some t :: S) := by simp
          show (if (decide (0 < 0)) = true then _ else moveLoop fuel _ A1.length
            (decide (0 < 0)) _) = _
          simp only [Nat.lt_irrefl, decide_False, Bool.false_eq_true, if_false, if_true]
          rw [hcol, hnew, movesUp]
          have e1 : A1.length + 0 - 1 = A1.length + 1 + 0 - 1 - 1 := by omega
          rw [e1]
        · obtain ⟨j, rfl⟩ : ∃ j, k = j + 1 := ⟨k - 1, by omega⟩
          have hsr : (if j + 1 = 0 then 0 else A1.length + 1 + (j + 1) - 1) =
              A1.length + (j + 1) := by
            rw [if_neg hk]; omega
          have hlt : A1.length + (j + 1) <
              ((A1 ++ [some t]) ++ (List.replicate (j + 1) none ++ S)).length := by
            simp only [List.length_append, List.length_singleton, List.length_replicate]
            omega
          have hnew := ih (A1 ++ List.replicate (j + 1) none) 0 (some t :: S) hS2
            (by simp; omega) (by
              rw [(filter_isSome_append_replicate A1 (j + 1)).1,
                (filter_isSome_append_replicate A1 (j + 1)).2]
              omega)
          simp only [if_true, Nat.lt_irrefl, decide_False, List.length_append,
            List.length_replicate] at hnew
          show (if (decide (0 < j + 1)) = true then _ else _) = _
          simp only [Nat.zero_lt_succ, decide_True, if_true, hsr, hlt]
          rw [column_move, hnew, List.reverse_append, List.reverse_replicate,
            movesUp_replicate, movesUp, Option.map_some']
          have e1 : A1.length + 1 + (j + 1) - 1 = A1.length + (j + 1) := by omega
          have e2 : A1.length + (j + 1) - 1 = A1.length + (j + 1) + 0 - 1 := by omega
          rw [e1, e2]

theorem moveLoop_column (col : List Cell) (h : col.length = SIZE) :
    moveLoop fallFuel col SIZE false 0 = some (movesUp col.reverse (SIZE - 1) false) := by
  have h1 := filter_lengths col
  have hS : SIZE = 8 := rfl
  have hF : fallFuel = 72 := rfl
  have := moveLoop_blocks fallFuel col 0 [] (by simp) (by simp; omega) (by omega)
  simpa [h] using this
/-! ## The relocations of gravity on the board -/

theorem fallLoop_moves (K : Consts) (c : Nat) (hc : c < SIZE) :
    ∀ (fuel : Nat) (b : Board) (rowP : Nat) (space : Bool) (spaceRow : Nat)
      (tw : List Tween) (mv : List (Nat × Nat)), IsGrid b.tiles → rowP ≤ SIZE →
      moveLoop fuel (columnOf b.tiles c) rowP space spaceRow = some mv →
      ∃ b1, fallLoop K c fuel b rowP space spaceRow tw =
          some (b1, tw ++ mv.map (fallTween K)) ∧
        b1.objects = applyMoves b.objects mv := by
  intro fuel
  induction fuel with
  | zero =>
    intro b rowP space spaceRow tw mv hg hle hmv
    cases rowP with
    | zero =>
      rw [moveLoop_zero] at hmv
      obtain rfl := Option.some.inj hmv
      exact ⟨b, by simp [fallLoop_zero], rfl⟩
    | succ row => simp [moveLoop] at hmv
  | succ fuel ih =>
    intro b rowP space spaceRow tw mv hg hle hmv
    cases rowP with
    | zero =>
      rw [moveLoop_zero] at hmv
      obtain rfl := Option.some.inj hmv
      exact ⟨b, by simp [fallLoop_zero], rfl⟩
    | succ row =>
      have hrow : row < SIZE := by omega
      obtain ⟨r, hr1, hr2⟩ := isGrid_cell hg hrow hc
      rw [moveLoop, getElem?_columnOf _ _ _ hrow] at hmv
      rw [fallLoop, hr1]
      simp only [hr2]
      cases hcell : cellOf b.tiles row c with
      | none =>
        simp only [hcell] at hmv ⊢
        exact ih b row true _ tw mv hg (by omega) hmv
      | some tile =>
        simp only [hcell] at hmv ⊢
        cases space with
        | false =>
          simp only [Bool.false_eq_true, if_false] at hmv ⊢
          exact ih b row false spaceRow tw mv hg (by omega) hmv
        | true =>
          simp only [if_true] at hmv ⊢
          rw [length_columnOf] at hmv
          by_cases hsr : spaceRow < SIZE
          · simp only [hsr, if_true] at hmv
            obtain ⟨t1, ht1⟩ := setCell_of_inRange (some tile) (inRange_of_isGrid hg hsr hc)
            obtain ⟨hs1, hc1⟩ := setCell_spec ht1
            have hg1 := isGrid_of_shape hs1 hg
            obtain ⟨t2, ht2⟩ := setCell_of_inRange none (inRange_of_isGrid hg1 hrow hc)
            obtain ⟨hs2, hc2⟩ := setCell_spec ht2
            have hg2 := isGrid_of_shape hs2 hg1
            rw [← columnOf_setCell ht1, ← columnOf_setCell ht2] at hmv
            cases hrest : moveLoop fuel (columnOf t2 c) spaceRow false 0 with
            | none => simp [hrest] at hmv
            | some rest =>
              simp only [hrest, Option.map_some', Option.some.injEq] at hmv
              subst hmv
              obtain ⟨b1, hf, ho⟩ := ih
                { b with tiles := t2, objects := setBoardY b.objects tile spaceRow }
                spaceRow false 0
                (tw ++ [{ tile := tile, parameters := ["y"],
                          endValues := [spaceRow * K.tileSize] }])
                rest hg2 (by omega) hrest
              refine ⟨b1, ?_, ?_⟩
              · simp only [ht1, ht2]
                rw [hf]
                simp [fallTween]
              · rw [ho]
                rfl
          · simp [hsr] at hmv

theorem fallMoves_congr {t1 t2 : List (List Cell)} :
    ∀ (n c : Nat), (∀ c1, c ≤ c1 → columnOf t1 c1 = columnOf t2 c1) →
      fallMoves t1 n c = fallMoves t2 n c := by
  intro n
  induction n with
  | zero => intro c _; rfl
  | succ n ih =>
    intro c h
    rw [fallMoves, fallMoves, h c (le_refl _), ih (c + 1) (fun c1 h1 => h c1 (by omega))]

theorem applyMoves_append (mv1 : List (Nat × Nat)) :
    ∀ (objects : Nat → Tile) (mv2 : List (Nat × Nat)),
      applyMoves objects (mv1 ++ mv2) = applyMoves (applyMoves objects mv1) mv2 := by
  induction mv1 with
  | nil => intro objects mv2; rfl
  | cons m rest ih =>
    intro objects mv2
    rw [List.cons_append, applyMoves, applyMoves, ih]

theorem fallColumns_moves (K : Consts) :
    ∀ (n c : Nat) (b : Board) (tw : List Tween), IsGrid b.tiles → c + n = SIZE →
      ∃ b1, fallColumns K n c b tw =
          some (b1, tw ++ (fallMoves b.tiles n c).map (fallTween K)) ∧
        b1.objects = applyMoves b.objects (fallMoves b.tiles n c) := by
  intro n
  induction n with
  | zero =>
    intro c b tw _ _
    exact ⟨b, by simp [fallColumns, fallMoves], rfl⟩
  | succ n ih =>
    intro c b tw hg hc
    have hc8 : c < SIZE := by omega
    obtain ⟨b1, tw1, hf, h1, h2, h3, -⟩ := fallLoop_sim K c hc8 fallFuel b SIZE
      false 0 tw _ hg (le_refl _) (columnLoop_compact _ (length_columnOf _ _))
    obtain ⟨b1m, hfm, hom⟩ := fallLoop_moves K c hc8 fallFuel b SIZE false 0 tw _ hg
      (le_refl _) (moveLoop_column _ (length_columnOf _ _))
    rw [hf] at hfm
    simp only [Option.some.injEq, Prod.mk.injEq] at hfm
    obtain ⟨rfl, rfl⟩ := hfm
    obtain ⟨b2, hf2, ho2⟩ := ih (c + 1) b1
      (tw ++ (movesUp (columnOf b.tiles c).reverse (SIZE - 1) false).map (fallTween K))
      (isGrid_of_shape h2 hg) (by omega)
    have hcongr : fallMoves b1.tiles n (c + 1) = fallMoves b.tiles n (c + 1) :=
      fallMoves_congr n (c + 1)
        (fun c1 hc1 => columnOf_congr (fun r => h3 r c1 (by omega)))
    rw [hcongr] at hf2 ho2
    refine ⟨b2, ?_, ?_⟩
    · simp only [fallColumns, hf, hf2, fallMoves, List.map_append, List.append_assoc]
    · rw [ho2, hom, fallMoves, applyMoves_append]
theorem mem_movesUp (id : Nat) :
    ∀ (R : List Cell) (d : Nat) (hs : Bool),
      id ∈ (movesUp R d hs).map Prod.fst ↔
        ∃ j : Nat, R[j]? = some (some id) ∧
          (hs = true ∨ ∃ i : Nat, i < j ∧ R[i]? = some (none : Cell)) := by
  intro R
  induction R with
  | nil => intro d hs; simp [movesUp]
  | cons x rest ih =>
    intro d hs
    cases x with
    | none =>
      rw [movesUp, ih]
      constructor
      · rintro ⟨j, hj, -⟩
        exact ⟨j + 1, by simpa using hj, Or.inr ⟨0, Nat.succ_pos _, by simp⟩⟩
      · rintro ⟨j, hj, -⟩
        cases j with
        | zero => simp at hj
        | succ j => exact ⟨j, by simpa using hj, Or.inl rfl⟩
    | some t =>
      cases hs with
      | false =>
        rw [movesUp, ih]
        constructor
        · rintro ⟨j, hj, hor⟩
          rcases hor with hor | ⟨i, hi, hnone⟩
          · exact absurd hor (by simp)
          · exact ⟨j + 1, by simpa using hj, Or.inr ⟨i + 1, by omega, by simpa using hnone⟩⟩
        · rintro ⟨j, hj, hor⟩
          rcases hor with hor | ⟨i, hi, hnone⟩
          · exact absurd hor (by simp)
          · cases i with
            | zero => simp at hnone
            | succ i =>
              cases j with
              | zero => omega
              | succ j =>
                exact ⟨j, by simpa using hj, Or.inr ⟨i, by omega, by simpa using hnone⟩⟩
      | true =>
        rw [movesUp, List.map_cons, List.mem_cons, ih]
        constructor
        · rintro (rfl | ⟨j, hj, -⟩)
          · exact ⟨0, by simp, Or.inl rfl⟩
          · exact ⟨j + 1, by simpa using hj, Or.inl rfl⟩
        · rintro ⟨j, hj, -⟩
          cases j with
          | zero =>
            left
            simpa using hj.symm
          | succ j => exact Or.inr ⟨j, by simpa using hj, Or.inl rfl⟩

theorem movesUp_sublist :
    ∀ (R : List Cell) (d : Nat) (hs : Bool),
      List.Sublist ((movesUp R d hs).map Prod.fst) (R.filterMap id) := by
  intro R
  induction R with
  | nil => intro d hs; simp [movesUp]
  | cons x rest ih =>
    intro d hs
    cases x with
    | none =>
      rw [movesUp]
      simpa using ih d true
    | some t =>
      cases hs with
      | false =>
        rw [movesUp]
        simpa using List.Sublist.cons t (ih (d - 1) false)
      | true =>
        rw [movesUp]
        simpa using List.Sublist.cons₂ t (ih (d - 1) true)

theorem getElem?_reverse_columnOf (tiles : List (List Cell)) (c j : Nat) (x : Cell) :
    (columnOf tiles c).reverse[j]? = some x ↔ j < SIZE ∧ cellOf tiles (SIZE - 1 - j) c = x := by
  have hS : SIZE = 8 := rfl
  by_cases hj : j < SIZE
  · rw [List.getElem?_reverse (by rw [length_columnOf]; exact hj), length_columnOf,
      getElem?_columnOf _ _ _ (by omega)]
    simp [hj]
  · rw [List.getElem?_eq_none (by rw [List.length_reverse, length_columnOf]; omega)]
    simp [hj]

theorem mem_columnMoves (tiles : List (List Cell)) (c id : Nat) :
    id ∈ (movesUp (columnOf tiles c).reverse (SIZE - 1) false).map Prod.fst ↔
      ∃ r r1, r < r1 ∧ r1 < SIZE ∧ cellOf tiles r c = some id ∧ cellOf tiles r1 c = none := by
  have hS : SIZE = 8 := rfl
  rw [mem_movesUp]
  constructor
  · rintro ⟨j, hj, hor⟩
    rcases hor with hor | ⟨i, hi, hnone⟩
    · exact absurd hor (by simp)
    · obtain ⟨h1, h2⟩ := (getElem?_reverse_columnOf tiles c j _).1 hj
      obtain ⟨h3, h4⟩ := (getElem?_reverse_columnOf tiles c i _).1 hnone
      exact ⟨SIZE - 1 - j, SIZE - 1 - i, by omega, by omega, h2, h4⟩
  · rintro ⟨r, r1, h1, h2, h3, h4⟩
    refine ⟨SIZE - 1 - r, (getElem?_reverse_columnOf tiles c _ _).2 ⟨by omega, ?_⟩,
      Or.inr ⟨SIZE - 1 - r1, by omega, (getElem?_reverse_columnOf tiles c _ _).2
        ⟨by omega, ?_⟩⟩⟩
    · rw [← h3]; congr 1; omega
    · rw [← h4]; congr 1; omega

theorem mem_fallMoves (tiles : List (List Cell)) (id : Nat) :
    ∀ (n c : Nat), id ∈ (fallMoves tiles n c).map Prod.fst ↔
      ∃ c1, c ≤ c1 ∧ c1 < c + n ∧
        ∃ r r1, r < r1 ∧ r1 < SIZE ∧ cellOf tiles r c1 = some id ∧ cellOf tiles r1 c1 = none := by
  intro n
  induction n with
  | zero =>
    intro c
    simp only [fallMoves, List.map_nil, List.not_mem_nil, false_iff]
    rintro ⟨c1, h1, h2, -⟩
    omega
  | succ n ih =>
    intro c
    rw [fallMoves, List.map_append, List.mem_append, mem_columnMoves, ih]
    constructor
    · rintro (h | ⟨c1, h1, h2, h⟩)
      · exact ⟨c, le_refl _, by omega, h⟩
      · exact ⟨c1, by omega, by omega, h⟩
    · rintro ⟨c1, h1, h2, h⟩
      by_cases hc : c1 = c
      · subst hc
        exact Or.inl h
      · exact Or.inr ⟨c1, by omega, by omega, h⟩

theorem nodup_columnMoves (b : Board) (hinv : CoordInv b) (c : Nat) :
    ((movesUp (columnOf b.tiles c).reverse (SIZE - 1) false).map Prod.fst).Nodup := by
  apply List.Nodup.sublist (movesUp_sublist _ _ _)
  have e : (columnOf b.tiles c).reverse.filterMap id =
      (List.range SIZE).reverse.filterMap (fun r => cellOf b.tiles r c) := by
    rw [columnOf, ← List.map_reverse, List.filterMap_map]
    rfl
  rw [e]
  apply List.Nodup.filterMap
  · intro r r1 id h1 h2
    have e1 := (hinv r c id (by simpa using h1)).2
    have e2 := (hinv r1 c id (by simpa using h2)).2
    omega
  · exact List.nodup_reverse.2 (List.nodup_range _)

theorem nodup_fallMoves (b : Board) (hinv : CoordInv b) :
    ∀ (n c : Nat), ((fallMoves b.tiles n c).map Prod.fst).Nodup := by
  intro n
  induction n with
  | zero => intro c; simp [fallMoves]
  | succ n ih =>
    intro c
    rw [fallMoves, List.map_append, List.nodup_append]
    refine ⟨nodup_columnMoves b hinv c, ih (c + 1), ?_⟩
    intro id h1 h2
    obtain ⟨r, r1, -, -, e1, -⟩ := (mem_columnMoves b.tiles c id).1 h1
    obtain ⟨c1, g1, -, r2, r3, -, -, e2, -⟩ := (mem_fallMoves b.tiles id n (c + 1)).1 h2
    have f1 := (hinv r c id e1).1
    have f2 := (hinv r2 c1 id e2).1
    omega

theorem applyMoves_other (id : Nat) :
    ∀ (mv : List (Nat × Nat)) (objects : Nat → Tile), id ∉ mv.map Prod.fst →
      applyMoves objects mv id = objects id := by
  intro mv
  induction mv with
  | nil => intro objects _; rfl
  | cons m rest ih =>
    intro objects h
    rw [List.map_cons, List.mem_cons, not_or] at h
    rw [applyMoves, ih _ h.2]
    simp [setBoardY, h.1]

theorem applyMoves_get (id d : Nat) :
    ∀ (mv : List (Nat × Nat)) (objects : Nat → Tile), (mv.map Prod.fst).Nodup →
      (id, d) ∈ mv → (applyMoves objects mv id).boardY = d := by
  intro mv
  induction mv with
  | nil => intro objects _ h; simp at h
  | cons m rest ih =>
    intro objects hn h
    rw [List.map_cons, List.nodup_cons] at hn
    rcases List.mem_cons.1 h with rfl | h1
    · rw [applyMoves, applyMoves_other _ _ _ hn.1]
      simp [setBoardY]
    · rw [applyMoves]
      exact ih _ hn.2 h1
theorem movesUp_below :
    ∀ (R : List Cell) (dest : Nat) (hs : Bool), R.length ≤ dest + 1 →
      (hs = true → R.length ≤ dest) → ∀ t d, (t, d) ∈ movesUp R dest hs →
      ∃ j : Nat, j < R.length ∧ R[j]? = some (some t) ∧ R.length - j ≤ d := by
  intro R
  induction R with
  | nil => intro dest hs _ _ t d h; simp [movesUp] at h
  | cons x rest ih =>
    intro dest hs h1 h2 t d h
    rw [List.length_cons] at h1 h2
    cases x with
    | none =>
      rw [movesUp] at h
      obtain ⟨j, g1, g2, g3⟩ := ih dest true (by omega) (fun _ => by omega) t d h
      exact ⟨j + 1, by simp; omega, by simpa using g2, by simp; omega⟩
    | some t0 =>
      cases hs with
      | false =>
        rw [movesUp] at h
        obtain ⟨j, g1, g2, g3⟩ := ih (dest - 1) false (by omega) (fun e => by simp at e) t d h
        exact ⟨j + 1, by simp; omega, by simpa using g2, by simp; omega⟩
      | true =>
        have h3 := h2 rfl
        rw [movesUp, List.mem_cons] at h
        rcases h with h | h
        · rw [Prod.mk.injEq] at h
          obtain ⟨rfl, rfl⟩ := h
          exact ⟨0, by simp, by simp, by simp; omega⟩
        · obtain ⟨j, g1, g2, g3⟩ := ih (dest - 1) true (by omega) (fun _ => by omega) t d h
          exact ⟨j + 1, by simp; omega, by simpa using g2, by simp; omega⟩

theorem mem_fallMoves_row (tiles : List (List Cell)) (t d : Nat) :
    ∀ (n c : Nat), (t, d) ∈ fallMoves tiles n c →
      ∃ r c1, r < d ∧ cellOf tiles r c1 = some t := by
  have hS : SIZE = 8 := rfl
  intro n
  induction n with
  | zero => intro c h; simp [fallMoves] at h
  | succ n ih =>
    intro c h
    rw [fallMoves, List.mem_append] at h
    rcases h with h | h
    · obtain ⟨j, g1, g2, g3⟩ := movesUp_below _ (SIZE - 1) false
        (by rw [List.length_reverse, length_columnOf]; omega) (fun e => by simp at e) t d h
      rw [List.length_reverse, length_columnOf] at g1 g3
      obtain ⟨-, g4⟩ := (getElem?_reverse_columnOf tiles c j _).1 g2
      exact ⟨SIZE - 1 - j, c, by omega, g4⟩
    · exact ih (c + 1) h

theorem mem_compactColumn (col : List Cell) (id : Nat) :
    some id ∈ compactColumn col ↔ some id ∈ col := by
  simp [compactColumn, List.mem_replicate]

theorem mem_columnOf (tiles : List (List Cell)) (c id : Nat) :
    some id ∈ columnOf tiles c ↔ ∃ r, r < SIZE ∧ cellOf tiles r c = some id := by
  simp [columnOf]

/-- C20 (falling descriptors are exact).  On a grid of 8 x 8 cells, each a tile or
`null`, whose tiles record their own coordinates, `getFallingTiles` returns; no two
descriptors share a tile, and a tile has a descriptor exactly when it is on the grid
with an empty cell below it in its column.  For every descriptor, the tile rests in a
cell of the new grid, its `boardX` is that cell's column and its `boardY`, now larger
than before the call, is that cell's row, the parameters are `['y']` and the end value
is `boardY * Tile.SIZE`.  The object of a tile without descriptor is unchanged. -/
theorem falling_descriptors_exact (K : Consts) (b : Board) (hg : IsGrid b.tiles)
    (hinv : CoordInv b) :
    ∃ b1 tw, getFallingTiles K b = some (b1, tw) ∧
      (tw.map (fun t => t.tile)).Nodup ∧
      (∀ id, id ∈ tw.map (fun t => t.tile) ↔
        ∃ r c r1, c < SIZE ∧ r < r1 ∧ r1 < SIZE ∧ cellOf b.tiles r c = some id ∧
          cellOf b.tiles r1 c = none) ∧
      (∀ t ∈ tw, t.parameters = ["y"] ∧
        t.endValues = [(b1.objects t.tile).boardY * K.tileSize] ∧
        (b.objects t.tile).boardY < (b1.objects t.tile).boardY ∧
        ∃ r c, cellOf b1.tiles r c = some t.tile ∧ (b1.objects t.tile).boardY = r ∧
          (b1.objects t.tile).boardX = c) ∧
      (∀ id, id ∉ tw.map (fun t => t.tile) → b1.objects id = b.objects id) := by
  have hS : SIZE = 8 := rfl
  obtain ⟨b1, hfall, hobj⟩ := fallColumns_moves K SIZE 0 b [] hg (by simp)
  obtain ⟨b2, tw2, hfall2, -, -, hcol, -⟩ := fallColumns_spec K SIZE 0 b [] hg (by simp)
  rw [hfall] at hfall2
  simp only [Option.some.injEq, Prod.mk.injEq] at hfall2
  obtain ⟨rfl, -⟩ := hfall2
  obtain ⟨hinv1, -⟩ := fallColumns_coordInv K _ _ _ _ _ _ hinv hfall
  have hnd := nodup_fallMoves b hinv SIZE 0
  have htiles : ([] ++ (fallMoves b.tiles SIZE 0).map (fallTween K)).map
      (fun t : Tween => t.tile) =
      (fallMoves b.tiles SIZE 0).map Prod.fst := by
    rw [List.nil_append, List.map_map]
    rfl
  refine ⟨b1, _, hfall, ?_, ?_, ?_, ?_⟩
  · rw [htiles]
    exact hnd
  · intro id
    rw [htiles, mem_fallMoves]
    constructor
    · rintro ⟨c1, -, h2, r, r1, g1, g2, g3, g4⟩
      exact ⟨r, c1, r1, by omega, g1, g2, g3, g4⟩
    · rintro ⟨r, c1, r1, h1, g1, g2, g3, g4⟩
      exact ⟨c1, Nat.zero_le _, by omega, r, r1, g1, g2, g3, g4⟩
  · intro t ht
    rw [List.nil_append, List.mem_map] at ht
    obtain ⟨⟨id, d⟩, hm, rfl⟩ := ht
    have hy : (b1.objects id).boardY = d := by
      rw [hobj]
      exact applyMoves_get id d _ _ hnd hm
    obtain ⟨r0, c0, hlt, hcell0⟩ := mem_fallMoves_row b.tiles id d SIZE 0 hm
    have hin := inRange_of_cellOf hcell0
    obtain ⟨hr0, hc0⟩ := lt_of_inRange hg hin
    have hmem1 : some id ∈ columnOf b1.tiles c0 := by
      rw [hcol c0 (Nat.zero_le _) hc0, mem_compactColumn, mem_columnOf]
      exact ⟨r0, hr0, hcell0⟩
    obtain ⟨r1, -, hcell1⟩ := (mem_columnOf b1.tiles c0 id).1 hmem1
    obtain ⟨e1, e2⟩ := hinv1 _ _ _ hcell1
    refine ⟨rfl, ?_, ?_, r1, c0, hcell1, e2, e1⟩
    · show [d * K.tileSize] = [(b1.objects id).boardY * K.tileSize]
      rw [hy]
    · show (b.objects id).boardY < (b1.objects id).boardY
      rw [hy, (hinv _ _ _ hcell0).2]
      exact hlt
  · intro id hid
    rw [htiles] at hid
    rw [hobj]
    exact applyMoves_other id _ _ hid

/-- Witness for C20: `holedBoard` is a grid of 8 x 8 cells, half of them empty, whose
tiles record their own coordinates. -/
theorem falling_descriptors_exact_witness :
    ∃ b1 tw, getFallingTiles sampleConsts holedBoard = some (b1, tw) ∧
      (tw.map (fun t => t.tile)).Nodup ∧
      (∀ id, id ∈ tw.map (fun t => t.tile) ↔
        ∃ r c r1, c < SIZE ∧ r < r1 ∧ r1 < SIZE ∧ cellOf holedBoard.tiles r c = some id ∧
          cellOf holedBoard.tiles r1 c = none) :=
  let ⟨b1, tw, h1, h2, h3, _⟩ := falling_descriptors_exact sampleConsts holedBoard (by decide)
    ((coordInv_iff_check holedBoard).2 (by decide))
  ⟨b1, tw, h1, h2, h3⟩

/-! ## Scoring -/

theorem scoreMatch_eq (objects : Nat → Tile) (baseScore : Nat) :
    ∀ (m : List Cell) (score : Nat), (∀ e ∈ m, e ≠ none) →
      scoreMatch objects baseScore score m = some (score + matchPoints objects baseScore m) := by
  intro m
  induction m with
  | nil => intro score _; rfl
  | cons e rest ih =>
    intro score h
    cases e with
    | none => exact absurd rfl (h none (List.mem_cons_self _ _))
    | some id =>
      rw [scoreMatch, ih _ (fun e1 h1 => h e1 (List.mem_cons_of_mem _ h1))]
      simp only [matchPoints, List.map_cons, List.sum_cons, tilePoints, Nat.add_assoc]

theorem calculateScore_eq (objects : Nat → Tile) (baseScore : Nat) :
    ∀ (ms : List (List Cell)) (score : Nat), (∀ m ∈ ms, ∀ e ∈ m, e ≠ none) →
      calculateScore objects baseScore score ms =
        some (score + totalPoints objects baseScore ms) := by
  intro ms
  induction ms with
  | nil => intro score _; rfl
  | cons m rest ih =>
    intro score h
    rw [calculateScore, scoreMatch_eq objects baseScore m score (h m (List.mem_cons_self _ _))]
    simp only []
    rw [ih _ (fun m1 h1 => h m1 (List.mem_cons_of_mem _ h1))]
    simp only [totalPoints, List.map_cons, List.sum_cons, Nat.add_assoc]

/-- C22: with `baseScore = 5` and matches whose entries are all tiles,
`calculateScore` returns, the new score is the old score plus the sum, over every
match of `board.matches` and every entry of that match, of `(pattern + 1) * 5` (a tile
counts once for every match it is an entry of), the score does not decrease, and the
board and every other field of the state are unchanged. -/
theorem scoring_exact (st : PlayState) (hbase : st.baseScore = 5)
    (htiles : ∀ m ∈ st.board.matchList, ∀ e ∈ m, e ≠ none) :
    PlayState.calculateScore st =
        some { st with
          score := st.score +
            ((st.board.matchList.map (fun m =>
              (m.map (tilePoints st.board.objects 5)).sum)).sum) } ∧
      (∀ st1, PlayState.calculateScore st = some st1 →
        st1.score = st.score + totalPoints st.board.objects 5 st.board.matchList ∧
        st.score ≤ st1.score ∧ st1.board = st.board) ∧
      (∀ id, tilePoints st.board.objects 5 (some id) =
        ((st.board.objects id).pattern + 1) * 5) := by
  have h := calculateScore_eq st.board.objects st.baseScore st.board.matchList st.score htiles
  rw [hbase] at h
  have h1 : PlayState.calculateScore st =
      some { st with score := st.score + totalPoints st.board.objects 5 st.board.matchList } := by
    simp only [PlayState.calculateScore, hbase, h]
  refine ⟨h1, ?_, fun _ => rfl⟩
  intro st1 hst1
  rw [h1] at hst1
  cases hst1
  exact ⟨rfl, Nat.le_add_right _ _, rfl⟩

/-- Witness for C22: on `starBoard` the expanded match of row 3 and the expanded match
of column 6 share the tile of cell `(3, 6)`; each match is worth 70 points and the
score goes from 0 to 140. -/
theorem scoring_exact_witness :
    starPlayState.baseScore = 5 ∧
      (∀ m ∈ starPlayState.board.matchList, ∀ e ∈ m, e ≠ none) ∧
      starPlayState.board.matchList.length = 2 ∧
      (∀ m ∈ starPlayState.board.matchList, some 30 ∈ m) ∧
      starPlayState.board.matchList.map (matchPoints starPlayState.board.objects 5) = [70, 70] ∧
      ∃ st1, PlayState.calculateScore starPlayState = some st1 ∧ st1.score = 140 ∧
        st1.board = starPlayState.board :=
  ⟨rfl, by decide, by decide, by decide, by decide,
    _, (scoring_exact starPlayState rfl (by decide)).1, by decide, rfl⟩

theorem calculateMatches_tiles (K : Consts) (b : Board) (hwf : WellFormed b) :
    ∃ b1 n, calculateMatches K b = some (b1, n) ∧
      ∀ m ∈ b1.matchList, ∀ e ∈ m, e ≠ none := by
  obtain ⟨ms, h1, -, h3⟩ := calculateMatches_wf K b hwf
  refine ⟨_, _, h1, ?_⟩
  intro m hm e he
  obtain ⟨id, -, -, rfl, -⟩ := h3 m hm e he
  exact Option.some_ne_none id

/-! ## The positions of a trial swap -/

theorem hintPositions_bounds (draws : Nat → Nat) (k : Nat) (b : Board) (hw : 3 ≤ b.width)
    (hh : 3 ≤ b.height) :
    1 ≤ (hintPositions draws k b).1.1 ∧ (hintPositions draws k b).1.1 ≤ b.height - 2 ∧
    1 ≤ (hintPositions draws k b).1.2 ∧ (hintPositions draws k b).1.2 ≤ b.width - 2 ∧
    (hintPositions draws k b).2.1 < b.height ∧ (hintPositions draws k b).2.2 < b.width ∧
    (((hintPositions draws k b).2.1 = (hintPositions draws k b).1.1 + 1 ∧
        (hintPositions draws k b).2.2 = (hintPositions draws k b).1.2) ∨
      ((hintPositions draws k b).2.1 + 1 = (hintPositions draws k b).1.1 ∧
        (hintPositions draws k b).2.2 = (hintPositions draws k b).1.2) ∨
      ((hintPositions draws k b).2.1 = (hintPositions draws k b).1.1 ∧
        (hintPositions draws k b).2.2 = (hintPositions draws k b).1.2 + 1) ∨
      ((hintPositions draws k b).2.1 = (hintPositions draws k b).1.1 ∧
        (hintPositions draws k b).2.2 + 1 = (hintPositions draws k b).1.2)) := by
  have hx := getRandomPositiveInteger_range (draws k) 1 (b.height - 2) (by omega)
  have hy := getRandomPositiveInteger_range (draws (k + 1)) 1 (b.width - 2) (by omega)
  simp only [hintPositions]
  generalize getRandomPositiveInteger (draws k) 1 (b.height - 2) = x1 at hx ⊢
  generalize getRandomPositiveInteger (draws (k + 1)) 1 (b.width - 2) = y1 at hy ⊢
  generalize getRandomPositiveInteger (draws (k + 2)) 0 4 = d
  by_cases d0 : d = 0
  · rw [if_pos d0]
    dsimp only
    omega
  · rw [if_neg d0]
    by_cases d1 : d = 1
    · rw [if_pos d1]
      dsimp only
      omega
    · rw [if_neg d1]
      by_cases d2 : d = 2
      · rw [if_pos d2]
        dsimp only
        omega
      · rw [if_neg d2]
        dsimp only
        omega

theorem autoSwapPositions_eq (draws : Nat → Nat) (k : Nat) (b : Board) :
    autoSwapPositions draws k b = hintPositions draws k b := rfl

theorem inRange_of_dims (tiles : List (List Cell)) (height width row col : Nat)
    (hrows : tiles.length = height) (hcols : ∀ r ∈ tiles, r.length = width)
    (hr : row < height) (hc : col < width) : InRange tiles row col := by
  rw [inRange_iff]
  have hlt : row < tiles.length := by omega
  refine ⟨tiles[row], List.getElem?_eq_getElem hlt, ?_⟩
  rw [hcols _ (List.getElem_mem hlt)]
  exact hc

/-- C23: on a board of at least 3 rows and 3 columns whose grid `tiles` has `height`
rows of `width` cells, for every draw sequence the two positions chosen by one pass of
`lookForHints` (`hintPositions`) and by `autoSwap` (`autoSwapPositions`) are both
valid indices into `tiles` (the first component indexes the rows), the first position
is an interior cell, and the second differs from the first by exactly 1 in exactly one
coordinate. -/
theorem trial_positions_valid (draws : Nat → Nat) (k : Nat) (b : Board) (hw : 3 ≤ b.width)
    (hh : 3 ≤ b.height) (hrows : b.tiles.length = b.height)
    (hcols : ∀ r ∈ b.tiles, r.length = b.width) :
    ∀ p, (p = hintPositions draws k b ∨ p = autoSwapPositions draws k b) →
      (p.1.1 < b.tiles.length ∧ InRange b.tiles p.1.1 p.1.2) ∧
      (p.2.1 < b.tiles.length ∧ InRange b.tiles p.2.1 p.2.2) ∧
      (1 ≤ p.1.1 ∧ p.1.1 ≤ b.height - 2 ∧ 1 ≤ p.1.2 ∧ p.1.2 ≤ b.width - 2) ∧
      ((p.2.1 = p.1.1 + 1 ∧ p.2.2 = p.1.2) ∨ (p.2.1 + 1 = p.1.1 ∧ p.2.2 = p.1.2) ∨
        (p.2.1 = p.1.1 ∧ p.2.2 = p.1.2 + 1) ∨ (p.2.1 = p.1.1 ∧ p.2.2 + 1 = p.1.2)) ∧
      (p.1.1 - p.2.1) + (p.2.1 - p.1.1) + ((p.1.2 - p.2.2) + (p.2.2 - p.1.2)) = 1 := by
  intro p hp
  have hp1 : p = hintPositions draws k b := by
    rcases hp with h | h
    · exact h
    · exact h.trans (autoSwapPositions_eq draws k b)
  subst hp1
  obtain ⟨h1, h2, h3, h4, h5, h6, h7⟩ := hintPositions_bounds draws k b hw hh
  refine ⟨⟨by omega, inRange_of_dims _ _ _ _ _ hrows hcols (by omega) (by omega)⟩,
    ⟨by omega, inRange_of_dims _ _ _ _ _ hrows hcols h5 h6⟩, ⟨h1, h2, h3, h4⟩, h7, ?_⟩
  omega

/-- Witness for C23: on the board of 3 rows of 5 tiles, with the draws 0, 2 and 2 the
hint search and `autoSwap` both pick the cells `(1, 3)` and `(1, 4)`, and `autoSwap`
exchanges the tiles 8 and 9 that they hold. -/
theorem trial_positions_valid_witness :
    3 ≤ smallBoard.width ∧ 3 ≤ smallBoard.height ∧
      smallBoard.tiles.length = smallBoard.height ∧
      (∀ r ∈ smallBoard.tiles, r.length = smallBoard.width) ∧
      autoSwapPositions (fun i => if i = 0 then 0 else 2) 0 smallBoard = ((1, 3), (1, 4)) ∧
      (autoSwap (fun i => if i = 0 then 0 else 2) 0 smallBoard).map
        (fun r => (r.1.tiles, r.2)) =
        some ([[some 0, some 1, some 2, some 3, some 4],
          [some 5, some 6, some 7, some 9, some 8],
          [some 10, some 11, some 12, some 13, some 14]], 3) ∧
      InRange smallBoard.tiles 1 3 ∧ InRange smallBoard.tiles 1 4 :=
  ⟨by decide, by decide, by decide, by decide, by decide, by decide,
    ((trial_positions_valid (fun i => if i = 0 then 0 else 2) 0 smallBoard (by decide)
      (by decide) (by decide) (by decide) ((1, 3), (1, 4)) (Or.inr (by decide))).1).2,
    ((trial_positions_valid (fun i => if i = 0 then 0 else 2) 0 smallBoard (by decide)
      (by decide) (by decide) (by decide) ((1, 3), (1, 4)) (Or.inl (by decide))).2.1).2⟩

/-! ## The order of the descriptors of the new tiles -/

theorem newTweens_getElem? (K : Consts) :
    ∀ (cells : List (Nat × Nat)) (n i : Nat),
      (newTweens K n cells)[i]? = (cells[i]?).map (fun p =>
        ({ tile := n + i, parameters := ["y"], endValues := [p.1 * K.tileSize] } : Tween)) := by
  intro cells
  induction cells with
  | nil => intro n i; rfl
  | cons p rest ih =>
    intro n i
    cases i with
    | zero => simp [newTweens]
    | succ i =>
      simp only [newTweens, List.getElem?_cons_succ, ih]
      have e : n + 1 + i = n + (i + 1) := by omega
      rw [e]

theorem newTweens_coords (K : Consts) (f : Nat → Nat × Nat) :
    ∀ (cells : List (Nat × Nat)) (n : Nat),
      (∀ (i : Nat) p, cells[i]? = some p → f (n + i) = p) →
      (newTweens K n cells).map (fun t : Tween => f t.tile) = cells := by
  intro cells
  induction cells with
  | nil => intro n _; rfl
  | cons p rest ih =>
    intro n h
    simp only [newTweens, List.map_cons]
    have h0 : f n = p := h 0 p (by simp)
    rw [h0, ih (n + 1) (fun i q hq => by
      have := h (i + 1) q (by simpa using hq)
      have e : n + 1 + i = n + (i + 1) := by omega
      rw [e]
      exact this)]

theorem visitOrder_sorted :
    (visitOrder SIZE 0).Pairwise (fun p q => p.2 < q.2 ∨ (p.2 = q.2 ∧ q.1 < p.1)) := by
  decide

theorem getNewTiles_order (K : Consts) (draws : Nat → Nat) (k : Nat) (b : Board) (level : Nat)
    (hg : IsGrid b.tiles) :
    ∃ b1 k1 tw, getNewTiles K draws k b level = some (b1, k1, tw) ∧
      tw = newTweens K b.next (emptyCells b.tiles (visitOrder SIZE 0)) ∧
      tw.map (fun t : Tween => ((b1.objects t.tile).boardY, (b1.objects t.tile).boardX)) =
        emptyCells b.tiles (visitOrder SIZE 0) ∧
      (∀ t ∈ tw, cellOf b1.tiles (b1.objects t.tile).boardY (b1.objects t.tile).boardX =
          some t.tile ∧
        t.parameters = ["y"] ∧ t.endValues = [(b1.objects t.tile).boardY * K.tileSize]) := by
  obtain ⟨b1, h1, -, -, -, -, -, h7, h8, -⟩ := refillList_spec K draws level
    (visitOrder SIZE 0) b k [] hg visitOrder_inRange visitOrder_nodup
  rw [List.nil_append] at h1
  have hcell : ∀ (i : Nat) p, (emptyCells b.tiles (visitOrder SIZE 0))[i]? = some p →
      cellOf b1.tiles p.1 p.2 = some (b.next + i) ∧
      (b1.objects (b.next + i)).boardY = p.1 ∧ (b1.objects (b.next + i)).boardX = p.2 := by
    intro i p hp
    have hi : i < (emptyCells b.tiles (visitOrder SIZE 0)).length :=
      (List.getElem?_eq_some.1 hp).1
    have e := congrArg (fun l : List Cell => l[i]?) h8
    simp only [List.getElem?_map, hp, List.getElem?_range hi, Option.map_some'] at e
    have e1 : cellOf b1.tiles p.1 p.2 = some (b.next + i) := Option.some.inj e
    have hmem : p ∈ emptyCells b.tiles (visitOrder SIZE 0) := List.mem_iff_getElem?.2 ⟨i, hp⟩
    have hm2 := List.mem_filter.1 hmem
    have hnone : cellOf b.tiles p.1 p.2 = none := by
      have := hm2.2
      simpa using this
    obtain ⟨id, g1, -, -, g2, g3⟩ := h7 p.1 p.2 hm2.1 hnone
    rw [e1] at g1
    have : b.next + i = id := Option.some.inj g1
    subst this
    exact ⟨e1, g3, g2⟩
  have hmap := newTweens_coords K
    (fun id => ((b1.objects id).boardY, (b1.objects id).boardX))
    (emptyCells b.tiles (visitOrder SIZE 0)) b.next
    (fun i p hp => by
      obtain ⟨-, g2, g3⟩ := hcell i p hp
      simp only [g2, g3])
  refine ⟨b1, _, _, by rw [getNewTiles, newTilesColumns_eq]; exact h1, rfl, hmap, ?_⟩
  intro t ht
  obtain ⟨i, hi⟩ := List.mem_iff_getElem?.1 ht
  rw [newTweens_getElem?] at hi
  cases hp : (emptyCells b.tiles (visitOrder SIZE 0))[i]? with
  | none => rw [hp] at hi; cases hi
  | some p =>
    rw [hp] at hi
    simp only [Option.map_some', Option.some.injEq] at hi
    obtain ⟨g1, g2, g3⟩ := hcell i p hp
    subst hi
    simp only [g2, g3, g1, and_self]

/-- C21 as amended: on a grid of 8 x 8 cells `getNewTiles` returns, and the returned
descriptors are those of the empty cells in the order in which the loops visit them:
columns in order of increasing x, and within one column in order of decreasing row
(`boardY`), the bottom cell first.  Every descriptor is the one of the new tile of an
empty cell, with its resting position as end value, and every empty cell has one. -/
theorem refill_order (K : Consts) (draws : Nat → Nat) (k : Nat) (b : Board) (level : Nat)
    (hg : IsGrid b.tiles) :
    ∃ b1 k1 tw, getNewTiles K draws k b level = some (b1, k1, tw) ∧
      tw.Pairwise (fun t u =>
        (b1.objects t.tile).boardX < (b1.objects u.tile).boardX ∨
          ((b1.objects t.tile).boardX = (b1.objects u.tile).boardX ∧
            (b1.objects u.tile).boardY < (b1.objects t.tile).boardY)) ∧
      tw.map (fun t => ((b1.objects t.tile).boardY, (b1.objects t.tile).boardX)) =
        (visitOrder SIZE 0).filter (fun p => (cellOf b.tiles p.1 p.2).isNone) ∧
      (∀ t ∈ tw,
        cellOf b.tiles (b1.objects t.tile).boardY (b1.objects t.tile).boardX = none ∧
        cellOf b1.tiles (b1.objects t.tile).boardY (b1.objects t.tile).boardX = some t.tile ∧
        t.parameters = ["y"] ∧ t.endValues = [(b1.objects t.tile).boardY * K.tileSize]) ∧
      (∀ r c, r < SIZE → c < SIZE → cellOf b.tiles r c = none →
        ∃ t ∈ tw, (b1.objects t.tile).boardX = c ∧ (b1.objects t.tile).boardY = r) := by
  obtain ⟨b1, k1, tw, h1, -, h3, h4⟩ := getNewTiles_order K draws k b level hg
  have hsorted : (emptyCells b.tiles (visitOrder SIZE 0)).Pairwise
      (fun p q => p.2 < q.2 ∨ (p.2 = q.2 ∧ q.1 < p.1)) :=
    List.Pairwise.filter _ visitOrder_sorted
  rw [← h3, List.pairwise_map] at hsorted
  refine ⟨b1, k1, tw, h1, hsorted, h3, ?_, ?_⟩
  · intro t ht
    have hmem : ((b1.objects t.tile).boardY, (b1.objects t.tile).boardX) ∈
        emptyCells b.tiles (visitOrder SIZE 0) := by
      rw [← h3]
      exact List.mem_map.2 ⟨t, ht, rfl⟩
    have hnone : cellOf b.tiles (b1.objects t.tile).boardY (b1.objects t.tile).boardX = none := by
      have := (List.mem_filter.1 hmem).2
      simpa using this
    exact ⟨hnone, h4 t ht⟩
  · intro r c hr hc hn
    have hmem : (r, c) ∈ emptyCells b.tiles (visitOrder SIZE 0) :=
      List.mem_filter.2 ⟨visitOrder_complete r hr c hc, by simp [hn]⟩
    rw [← h3] at hmem
    obtain ⟨t, ht, e⟩ := List.mem_map.1 hmem
    simp only [Prod.mk.injEq] at e
    exact ⟨t, ht, e.2, e.1⟩

/-- Witness for C21 as amended: on `holedBoard`, where rows 1, 2, 5 and 6 of column 0
are empty, the first four descriptors are those of the rows 6, 5, 2 and 1 of column 0,
in this order. -/
theorem refill_order_witness :
    IsGrid holedBoard.tiles ∧
      ∃ b1 k1 tw, getNewTiles sampleConsts sampleDraws 0 holedBoard 1 = some (b1, k1, tw) ∧
        tw.Pairwise (fun t u =>
          (b1.objects t.tile).boardX < (b1.objects u.tile).boardX ∨
            ((b1.objects t.tile).boardX = (b1.objects u.tile).boardX ∧
              (b1.objects u.tile).boardY < (b1.objects t.tile).boardY)) ∧
        (tw.map (fun t => ((b1.objects t.tile).boardY, (b1.objects t.tile).boardX))).take 5 =
          [(6, 0), (5, 0), (2, 0), (1, 0), (7, 1)] :=
  ⟨by decide, by
    obtain ⟨b1, k1, tw, h1, h2, h3, -⟩ :=
      refill_order sampleConsts sampleDraws 0 holedBoard 1 (by decide)
    exact ⟨b1, k1, tw, h1, h2, by rw [h3]; decide⟩⟩

/-- Counterexample to C21: on `gapBoard`, whose empty cells are rows 0 and 1 of
column 0 and row 0 of column 3, `getNewTiles` returns the descriptor of row 1 of
column 0 (tile 64, end value 32) before the one of row 0 of column 0 (tile 65, end
value 0): within column 0 the rows do not increase. -/
theorem refill_order_counterexample :
    ∃ b1 k1 tw, getNewTiles sampleConsts sampleDraws 0 gapBoard 1 = some (b1, k1, tw) ∧
      tw = [{ tile := 64, parameters := ["y"], endValues := [32] },
        { tile := 65, parameters := ["y"], endValues := [0] },
        { tile := 66, parameters := ["y"], endValues := [0] }] ∧
      tw.map (fun t => ((b1.objects t.tile).boardX, (b1.objects t.tile).boardY)) =
        [(0, 1), (0, 0), (3, 0)] ∧
      ¬ tw.Pairwise (fun t u =>
        (b1.objects t.tile).boardX < (b1.objects u.tile).boardX ∨
          ((b1.objects t.tile).boardX = (b1.objects u.tile).boardX ∧
            (b1.objects t.tile).boardY < (b1.objects u.tile).boardY)) := by
  obtain ⟨b1, k1, tw, h1, h2, h3, -⟩ :=
    getNewTiles_order sampleConsts sampleDraws 0 gapBoard 1 (by decide)
  have hE : emptyCells gapBoard.tiles (visitOrder SIZE 0) = [(1, 0), (0, 0), (0, 3)] := by
    decide
  have hn : gapBoard.next = 64 := rfl
  rw [hE, hn] at h2
  rw [hE] at h3
  have h2a : tw = [{ tile := 64, parameters := ["y"], endValues := [32] },
        { tile := 65, parameters := ["y"], endValues := [0] },
        { tile := 66, parameters := ["y"], endValues := [0] }] := h2.trans (by decide)
  subst h2a
  simp only [List.map_cons, List.map_nil, List.cons.injEq, Prod.mk.injEq, and_true] at h3
  obtain ⟨⟨a1, a2⟩, ⟨a3, a4⟩, a5, a6⟩ := h3
  refine ⟨b1, k1, _, h1, rfl, ?_, ?_⟩
  · simp only [List.map_cons, List.map_nil, a1, a2, a3, a4, a5, a6]
  · intro hp
    have h12 := (List.pairwise_cons.1 hp).1 _ (List.mem_cons_self _ _)
    simp only [a1, a2, a3, a4] at h12
    omega

/-- Counterexample to C18: `hintedBoard` is the board that `lookForHints` leaves on
`hintPlayState`; its cells are those of `hintBoard`, but the tile 10 of cell
`(row 1, column 2)` records row 0 and the tile 2 of cell `(row 0, column 2)` records
row 1.  On it the trial loop exits after one pass with `tile1 = 10` and `tile2 = 18`,
and the board at exit is not the board at entry: the cells `(row 0, column 2)` and
`(row 1, column 2)` both hold the tile 10, and the tile 2 is in no cell. -/
theorem hint_counterexample :
    (lookForHints sampleConsts hintDraws 2 0 hintPlayState true true).map
        (fun r => r.1.board.tiles) = some hintedBoard.tiles ∧
      IsFull hintedBoard.tiles ∧ hintedBoard.tiles = hintBoard.tiles ∧
      (hintedBoard.objects 10).boardY = 0 ∧ (hintedBoard.objects 2).boardY = 1 ∧
      cellOf hintedBoard.tiles 0 2 = some 2 ∧ cellOf hintedBoard.tiles 1 2 = some 10 ∧
      ∃ b3 k1 tile1 tile2,
        hintLoop sampleConsts secondHintDraws 1 0 hintedBoard = some (b3, k1, tile1, tile2) ∧
        tile1 = 10 ∧ tile2 = 18 ∧ b3.tiles ≠ hintedBoard.tiles ∧
        cellOf b3.tiles 0 2 = some 10 ∧ cellOf b3.tiles 1 2 = some 10 ∧
        ∀ row ∈ b3.tiles, (some 2 : Cell) ∉ row := by
  have h : (hintLoop sampleConsts secondHintDraws 1 0 hintedBoard).map
      (fun r => (r.2.2.1, r.2.2.2, decide (r.1.tiles = hintedBoard.tiles),
        cellOf r.1.tiles 0 2, cellOf r.1.tiles 1 2,
        decide (∀ row ∈ r.1.tiles, (some 2 : Cell) ∉ row))) =
      some (10, 18, false, some 10, some 10, true) := by decide
  refine ⟨by decide, by decide, by decide, by decide, by decide, by decide, by decide, ?_⟩
  cases hr : hintLoop sampleConsts secondHintDraws 1 0 hintedBoard with
  | none =>
    rw [hr] at h
    cases h
  | some r =>
    obtain ⟨b3, k1, tile1, tile2⟩ := r
    rw [hr] at h
    simp only [Option.map_some', Option.some.injEq, Prod.mk.injEq, decide_eq_false_iff_not,
      decide_eq_true_eq] at h
    obtain ⟨e1, e2, e3, e4, e5, e6⟩ := h
    exact ⟨b3, k1, tile1, tile2, rfl, e1, e2, e3, e4, e5, e6⟩

end Match3
